import Mathlib

/-! # Overpass API: temporal object collection and block index

A shallow embedding of `src/overpass_api/data/collect_items.h` and
`src/template_db/file_blocks_index.h`, followed by the properties proved of it.

Conventions of the embedding:
* an iterator range `[it, end)` is the list of the `(index, object)` pairs it still has to
  yield; `it == end` is the empty list, `++it` drops the head;
* a `std::vector` is a `List`, `push_back` appends at the end;
* a `std::map< Index, std::vector< Object > >` is a key-sorted association list
  (`Result_Map`), `result[index]` reads with `map_get` and is written back with `map_set`;
* indexes, ids and timestamps are natural numbers; `uint32` counters wrap with `% 2^32`.
-/

namespace Overpass

/-! ## Data model -/

/-- Modelled from the spec: the sentinel timestamp `NOW`, the maximum 64-bit value
(its declaration is not part of the files at hand). -/
def NOW : Nat := 2 ^ 64 - 1

/-- An object skeleton (`Node_Skeleton`, `Way_Skeleton`, `Relation_Skeleton`): its id and the
rest of its content, which the collectors never inspect. -/
structure Skeleton where
  id : Nat
  data : Nat
deriving DecidableEq, Repr

/-- The wrapper `Attic< T >`: a `T` together with a timestamp. -/
structure Attic (α : Type) where
  obj : α
  timestamp : Nat
deriving DecidableEq, Repr

/-- A delta (`Object::Delta`): the id it belongs to and its payload. -/
structure Delta where
  id : Nat
  data : Nat
deriving DecidableEq, Repr

/-- What the collectors use of an element type: `it.object().id` and `timestamp_of`. -/
class Element (α : Type) where
  id_of : α → Nat
  timestamp_of : α → Nat

/-- The overloads `timestamp_of(const X_Skeleton&)` return `NOW`. -/
instance instElementSkeleton : Element Skeleton where
  id_of := fun s => s.id
  timestamp_of := fun _ => NOW

/-- The overloads `timestamp_of(const Attic< X_Skeleton >&)` return the stored timestamp. -/
instance instElementAttic : Element (Attic Skeleton) where
  id_of := fun a => a.obj.id
  timestamp_of := fun a => a.timestamp

/-- A cheap view on a stored object, as `it.handle()` yields it. -/
structure Handle where
  view : Skeleton
deriving DecidableEq, Repr

/-- The template parameter `Predicate`: its overloads of `match` for a skeleton, for an attic
skeleton and for a handle. -/
structure Predicate where
  match_skel : Skeleton → Bool
  match_attic : Attic Skeleton → Bool
  match_handle : Handle → Bool

/-- What a call of `log_and_display_error` reports. -/
inductive Log_Entry where
  | cannot_be_expanded (id timestamp : Nat)
  | expansion_failed (id timestamp : Nat) (what : String)
  | appears_multiple_times (id timestamp : Nat)
deriving DecidableEq, Repr

/-- Modelled from the spec: the resource manager, as far as the collectors see it. `pending`
holds the answers the coming calls of `health_check` will give, `health_checks` counts the
calls made, `errors` is the log written by `log_and_display_error`. -/
structure Resource_Manager where
  pending : List Bool
  health_checks : Nat
  errors : List Log_Entry
deriving DecidableEq, Repr

/-- Modelled from the spec: `rman.health_check(...)` answers whether the caller shall stop
early. -/
def Resource_Manager.health_check (rman : Resource_Manager) : Bool × Resource_Manager :=
  match rman.pending with
  | [] => (false, { rman with health_checks := rman.health_checks + 1 })
  | b :: rest => (b, { rman with pending := rest, health_checks := rman.health_checks + 1 })

/-- The call `rman.log_and_display_error(...)`. -/
def Resource_Manager.log_and_display_error (rman : Resource_Manager) (e : Log_Entry) :
    Resource_Manager :=
  { rman with errors := rman.errors ++ [e] }

/-- A result container `std::map< Index, std::vector< Object > >`. -/
abbrev Result_Map (α : Type) := List (Nat × List α)

/-- Reading `result[index]`: the vector stored under `index`, empty when there is none. -/
def map_get {α : Type} : Result_Map α → Nat → List α
  | [], _ => []
  | (k, w) :: m, i => if i = k then w else if i < k then [] else map_get m i

/-- Writing `result[index]`: replaces the vector under `index`, or inserts the entry at its
place in key order. -/
def map_set {α : Type} : Result_Map α → Nat → List α → Result_Map α
  | [], i, v => [(i, v)]
  | (k, w) :: m, i, v =>
    if i = k then (k, v) :: m
    else if i < k then (i, v) :: (k, w) :: m
    else (k, w) :: map_set m i v

/-- All objects of a result container, bucket after bucket. -/
def map_objects {α : Type} (m : Result_Map α) : List α :=
  (m.map Prod.snd).flatten

/-! ## Timestamp bookkeeping -/

/-- The order `operator<` of `std::pair< Id_Type, uint64 >`. -/
def pair_lt (a b : Nat × Nat) : Bool :=
  decide (a.1 < b.1) || (decide (a.1 = b.1) && decide (a.2 < b.2))

/-- The order `!(b < a)` that `std::sort` establishes between neighbours. -/
def pair_le (a b : Nat × Nat) : Prop :=
  a.1 < b.1 ∨ (a.1 = b.1 ∧ a.2 ≤ b.2)

instance pair_le_decidable : DecidableRel pair_le := fun a b =>
  inferInstanceAs (Decidable (a.1 < b.1 ∨ (a.1 = b.1 ∧ a.2 ≤ b.2)))

/-- The call `std::sort(timestamp_by_id.begin(), timestamp_by_id.end())`. Equal pairs are
indistinguishable, so the sorted vector is determined by the input. -/
def sort_pairs (l : List (Nat × Nat)) : List (Nat × Nat) :=
  l.insertionSort pair_le

/-- The call `std::lower_bound(v.begin(), v.end(), x)`: the range from the first element
that is not less than `x` to the end. -/
def lower_bound (v : List (Nat × Nat)) (x : Nat × Nat) : List (Nat × Nat) :=
  v.dropWhile (fun p => pair_lt p x)

/-- The test of `filter_items_by_timestamp` on one object: the first recorded pair at or
after `(id, 0)` exists, has the id of the object and has its timestamp. -/
def timestamp_matches {α : Type} [Element α] (timestamp_by_id : List (Nat × Nat)) (o : α) :
    Bool :=
  match lower_bound timestamp_by_id (Element.id_of o, 0) with
  | [] => false
  | tit :: _ =>
    decide (tit.1 = Element.id_of o) && decide (tit.2 = Element.timestamp_of o)

/-- The function `filter_items_by_timestamp` on one vector: the objects that pass the test
are moved to the front in order and the rest is erased. -/
def filter_items_by_timestamp {α : Type} [Element α] (timestamp_by_id : List (Nat × Nat))
    (result : List α) : List α :=
  result.filter (timestamp_matches timestamp_by_id)

/-- The loop of `check_for_duplicated_objects`: one log entry for every neighbour pair
`i`, `i+1` of equal id and timestamp. -/
def duplicated_objects : List (Nat × Nat) → List Log_Entry
  | [] => []
  | [_] => []
  | a :: b :: rest =>
    if a.2 = b.2 ∧ a.1 = b.1 then
      Log_Entry.appears_multiple_times a.1 a.2 :: duplicated_objects (b :: rest)
    else duplicated_objects (b :: rest)

/-- The function `check_for_duplicated_objects`. -/
def check_for_duplicated_objects (timestamp_by_id : List (Nat × Nat))
    (rman : Resource_Manager) : Resource_Manager :=
  { rman with errors := rman.errors ++ duplicated_objects timestamp_by_id }

/-! ## Reconstruction of one index bucket -/

/-- What reconstructing one bucket leaves behind: both iterators, both result vectors of the
bucket, the recorded `(id, timestamp)` pairs, the counter and the resource manager. The type
`γ` is the element type of the attic stream. -/
structure Bucket (γ : Type) where
  current : List (Nat × Skeleton)
  attic : List (Nat × γ)
  result : List Skeleton
  attic_result : List (Attic Skeleton)
  timestamp_by_id : List (Nat × Nat)
  count : Nat
  rman : Resource_Manager

/-- The simple overload of `reconstruct_items` (lines 37-56): while the iterator stands on
`index`, count the item, and if its timestamp is later than the query timestamp record
`(id, timestamp)` and append the object when the predicate matches. Returns the iterator,
the result vector, the recorded pairs and the counter. -/
def reconstruct_items {α : Type} [Element α] (pmatch : α → Bool) (index timestamp : Nat) :
    List (Nat × α) → List α → List (Nat × Nat) → Nat →
      List (Nat × α) × List α × List (Nat × Nat) × Nat
  | [], result, timestamp_by_id, count => ([], result, timestamp_by_id, count)
  | (i, o) :: rest, result, timestamp_by_id, count =>
    if i = index then
      if timestamp < Element.timestamp_of o then
        reconstruct_items pmatch index timestamp rest
          (if pmatch o then result ++ [o] else result)
          (timestamp_by_id ++ [(Element.id_of o, Element.timestamp_of o)])
          ((count + 1) % 2 ^ 32)
      else
        reconstruct_items pmatch index timestamp rest result timestamp_by_id
          ((count + 1) % 2 ^ 32)
    else ((i, o) :: rest, result, timestamp_by_id, count)

/-- The two calls of the simple overload made by the generic driver (lines 249-252): first
on the current stream into `result[index]`, then on the attic stream into
`attic_result[index]`, both recording into the same `timestamp_by_id`. -/
def reconstruct_simple (pred : Predicate) (index timestamp : Nat)
    (b : Bucket (Attic Skeleton)) : Bucket (Attic Skeleton) :=
  let r1 := reconstruct_items pred.match_skel index timestamp b.current b.result
    b.timestamp_by_id b.count
  let r2 := reconstruct_items pred.match_attic index timestamp b.attic b.attic_result
    r1.2.2.1 r1.2.2.2
  { current := r1.1, attic := r2.1, result := r1.2.1, attic_result := r2.2.1,
    timestamp_by_id := r2.2.2.1, count := r2.2.2.2, rman := b.rman }

/-- What the first loops of the delta overload collect. -/
structure Collected where
  skels : List Skeleton
  deltas : List (Attic Delta)
  timestamp_by_id : List (Nat × Nat)
  local_timestamp_by_id : List (Nat × Nat)

/-- The first loop of the delta overload (lines 75-81): every current object of the bucket
is recorded with `NOW`, globally and locally, and kept as a skeleton. -/
def collect_current (idx : Nat) : List (Nat × Skeleton) → Collected →
    List (Nat × Skeleton) × Collected
  | [], c => ([], c)
  | (i, o) :: rest, c =>
    if i = idx then
      collect_current idx rest
        { c with
          timestamp_by_id := c.timestamp_by_id ++ [(o.id, NOW)]
          local_timestamp_by_id := c.local_timestamp_by_id ++ [(o.id, NOW)]
          skels := c.skels ++ [o] }
    else ((i, o) :: rest, c)

/-- The second loop of the delta overload (lines 83-92): an attic delta of the bucket is
recorded and kept only if its timestamp is later than the query timestamp. -/
def collect_attic (idx timestamp : Nat) : List (Nat × Attic Delta) → Collected →
    List (Nat × Attic Delta) × Collected
  | [], c => ([], c)
  | (i, d) :: rest, c =>
    if i = idx then
      if timestamp < d.timestamp then
        collect_attic idx timestamp rest
          { c with
            timestamp_by_id := c.timestamp_by_id ++ [(d.obj.id, d.timestamp)]
            local_timestamp_by_id := c.local_timestamp_by_id ++ [(d.obj.id, d.timestamp)]
            deltas := c.deltas ++ [d] }
      else collect_attic idx timestamp rest c
    else ((i, d) :: rest, c)

/-- The call `std::sort(skels.begin(), skels.end())`; skeletons compare by id. The
embedding sorts stably. -/
def sort_skels (l : List Skeleton) : List Skeleton :=
  l.insertionSort (fun a b => a.id ≤ b.id)

/-- Modelled from the spec: `Delta_Ref_Comparator` (declared outside the files at hand)
orders the delta pointers by `(id, timestamp)`. -/
def delta_le (a b : Attic Delta) : Prop :=
  pair_le (a.obj.id, a.timestamp) (b.obj.id, b.timestamp)

instance delta_le_decidable : DecidableRel delta_le := fun a b =>
  inferInstanceAs (Decidable (pair_le (a.obj.id, a.timestamp) (b.obj.id, b.timestamp)))

/-- The call `std::sort(delta_refs.begin(), delta_refs.end(), Delta_Ref_Comparator())`. -/
def sort_deltas (l : List (Attic Delta)) : List (Attic Delta) :=
  l.insertionSort delta_le

/-- The default-constructed `Object()`, whose id is 0. -/
def default_skeleton : Skeleton := { id := 0, data := 0 }

/-- The lookup of lines 125-128: the first local pair at or after `(id, 0)` is the pair of
this delta. -/
def is_first_of_id (local_timestamp_by_id : List (Nat × Nat)) (d : Attic Delta) : Bool :=
  match lower_bound local_timestamp_by_id (d.obj.id, 0) with
  | [] => false
  | tit :: _ => decide (tit.1 = d.obj.id) && decide (tit.2 = d.timestamp)

/-- The choice of the reference skeleton (lines 110-118): kept when it has the id of the
delta; otherwise the skeleton cursor advances to the first skeleton whose id is not less,
and the reference becomes that skeleton if it has the id, else the default object. -/
def choose_reference (skels_it : List Skeleton) (reference : Skeleton) (id : Nat) :
    List Skeleton × Skeleton :=
  if reference.id = id then (skels_it, reference)
  else
    let skels_it := skels_it.dropWhile (fun s => decide (s.id < id))
    match skels_it with
    | [] => (skels_it, default_skeleton)
    | s :: _ => if s.id = id then (skels_it, s) else (skels_it, default_skeleton)

/-- The expansion loop of the delta overload (lines 107-147) over the sorted deltas.
`expand d reference` stands for `(*it)->expand(reference)`; `Except.error` is an exception
thrown by it. Returns the attic objects built and the resource manager with its log. -/
def expand_deltas (expand : Delta → Skeleton → Except String Skeleton)
    (local_timestamp_by_id : List (Nat × Nat)) :
    List (Attic Delta) → List Skeleton → Skeleton → List (Attic Skeleton) →
      Resource_Manager → List (Attic Skeleton) × Resource_Manager
  | [], _, _, attics, rman => (attics, rman)
  | d :: rest, skels_it, reference, attics, rman =>
    let chosen := choose_reference skels_it reference d.obj.id
    match expand d.obj chosen.2 with
    | Except.ok obj =>
      if obj.id ≠ 0 then
        expand_deltas expand local_timestamp_by_id rest chosen.1 obj
          (if is_first_of_id local_timestamp_by_id d then
            attics ++ [{ obj := obj, timestamp := d.timestamp }]
           else attics)
          rman
      else
        expand_deltas expand local_timestamp_by_id rest chosen.1 chosen.2 attics
          (rman.log_and_display_error (Log_Entry.cannot_be_expanded d.obj.id d.timestamp))
    | Except.error what =>
      expand_deltas expand local_timestamp_by_id rest chosen.1 chosen.2 attics
        (rman.log_and_display_error (Log_Entry.expansion_failed d.obj.id d.timestamp what))

/-- The value of `reference` after the body of the expansion loop for one delta (lines
119-146): the expanded object when `expand` returns an object with a nonzero id, else the
reference the delta was applied to. -/
def next_reference (expand : Delta → Skeleton → Except String Skeleton) (d : Attic Delta)
    (chosen : Skeleton) : Skeleton :=
  match expand d.obj chosen with
  | Except.ok obj => if obj.id ≠ 0 then obj else chosen
  | Except.error _ => chosen

/-- The calls `(*it)->expand(reference)` that the expansion loop makes, in the order of the
iterations: every delta with the reference it is applied to. The recursion is that of
`expand_deltas`. -/
def expand_calls (expand : Delta → Skeleton → Except String Skeleton) :
    List (Attic Delta) → List Skeleton → Skeleton → List (Attic Delta × Skeleton)
  | [], _, _ => []
  | d :: rest, skels_it, reference =>
    let chosen := choose_reference skels_it reference d.obj.id
    (d, chosen.2) :: expand_calls expand rest chosen.1 (next_reference expand d chosen.2)

/-- The delta overload of `reconstruct_items` (lines 62-160), used for ways and relations. -/
def reconstruct_delta (expand : Delta → Skeleton → Except String Skeleton)
    (pred : Predicate) (idx timestamp : Nat) (b : Bucket (Attic Delta)) :
    Bucket (Attic Delta) :=
  let c1 := collect_current idx b.current
    { skels := [], deltas := [], timestamp_by_id := b.timestamp_by_id,
      local_timestamp_by_id := [] }
  let c2 := collect_attic idx timestamp b.attic c1.2
  let skels := sort_skels c2.2.skels
  let delta_refs := sort_deltas c2.2.deltas
  let local_timestamp_by_id := sort_pairs c2.2.local_timestamp_by_id
  let e := expand_deltas expand local_timestamp_by_id delta_refs skels default_skeleton []
    b.rman
  { current := c1.1, attic := c2.1,
    result := b.result ++ skels.filter pred.match_skel,
    attic_result := b.attic_result ++ e.1.filter pred.match_attic,
    timestamp_by_id := c2.2.timestamp_by_id, count := b.count, rman := e.2 }

/-! ## The temporal driver `collect_items_by_timestamp` -/

/-- The state of the driver loop: both iterators, both result containers, the counter, the
resource manager and the variable behind the pointer `cur_idx` (`none` for a null
pointer). -/
structure Walk (γ : Type) where
  current : List (Nat × Skeleton)
  attic : List (Nat × γ)
  result : Result_Map Skeleton
  attic_result : Result_Map (Attic Skeleton)
  count : Nat
  rman : Resource_Manager
  cur_idx : Option Nat

/-- The bucket index of an iteration (lines 239-242): the index under the current iterator
if the attic iterator is at its end or the current one is not and stands on a smaller
index, else the index under the attic iterator. `none` when both are at their end, which is
the exit condition of the loop. -/
def next_index {α β : Type} : List (Nat × α) → List (Nat × β) → Option Nat
  | [], [] => none
  | (ci, _) :: _, [] => some ci
  | [], (ai, _) :: _ => some ai
  | (ci, _) :: _, (ai, _) :: _ => some (if ci < ai then ci else ai)

/-- The checkpoint of lines 230-238: the counter is incremented; from `128*1024` on it is
reset and, with a statement at hand, `health_check` is called for both containers. The
answers are discarded. -/
def checkpoint (stmt : Bool) (count : Nat) (rman : Resource_Manager) :
    Nat × Resource_Manager :=
  if 128 * 1024 ≤ (count + 1) % 2 ^ 32 then
    (0, if stmt then rman.health_check.2.health_check.2 else rman)
  else ((count + 1) % 2 ^ 32, rman)

/-- One pass through the loop body after the bucket index is chosen (lines 249-259):
reconstruct the bucket into `result[index]` and `attic_result[index]`, sort the recorded
pairs, filter both vectors by them and audit the pairs for duplicates. -/
def walk_bucket {γ : Type} (recon : Nat → Bucket γ → Bucket γ) (index : Nat)
    (count : Nat) (rman : Resource_Manager) (w : Walk γ) : Walk γ :=
  let b := recon index
    { current := w.current, attic := w.attic, result := map_get w.result index,
      attic_result := map_get w.attic_result index, timestamp_by_id := [],
      count := count, rman := rman }
  let timestamp_by_id := sort_pairs b.timestamp_by_id
  { current := b.current, attic := b.attic,
    result := map_set w.result index (filter_items_by_timestamp timestamp_by_id b.result),
    attic_result :=
      map_set w.attic_result index (filter_items_by_timestamp timestamp_by_id b.attic_result),
    count := b.count,
    rman := check_for_duplicated_objects timestamp_by_id b.rman,
    cur_idx := w.cur_idx }

/-- The loop of `collect_items_by_timestamp`. The three overloads have the same text but
for the call that reconstructs the bucket, which is the parameter `recon`. The first
argument bounds the number of iterations (`none`: the bound was too small); the result is
the returned flag and the final state. -/
def timestamp_walk {γ : Type} (recon : Nat → Bucket γ → Bucket γ) (stmt : Bool) :
    Nat → Walk γ → Option (Bool × Walk γ)
  | 0, w =>
    match next_index w.current w.attic with
    | none => some (false, w)
    | some _ => none
  | fuel + 1, w =>
    match next_index w.current w.attic with
    | none => some (false, w)
    | some index =>
      let too_much_data := false
      let cp := checkpoint stmt w.count w.rman
      if too_much_data && w.cur_idx.isSome then
        some (true, { w with count := cp.1, rman := cp.2, cur_idx := some index })
      else
        timestamp_walk recon stmt fuel (walk_bucket recon index cp.1 cp.2 w)

/-- One iteration of the loop of `collect_items_by_timestamp` for the bucket index chosen
(lines 230-259): the checkpoint, then the pass through the body. It is the state that
`timestamp_walk` continues with. -/
def walk_step {γ : Type} (recon : Nat → Bucket γ → Bucket γ) (stmt : Bool) (w : Walk γ)
    (index : Nat) : Walk γ :=
  walk_bucket recon index (checkpoint stmt w.count w.rman).1 (checkpoint stmt w.count w.rman).2
    w

/-- The bucket indexes that the iterations of the loop of `collect_items_by_timestamp`
choose, in the order of the iterations; the loop is that of `timestamp_walk`. -/
def walk_indexes {γ : Type} (recon : Nat → Bucket γ → Bucket γ) (stmt : Bool) :
    Nat → Walk γ → List Nat
  | 0, _ => []
  | fuel + 1, w =>
    match next_index w.current w.attic with
    | none => []
    | some index =>
      let cp := checkpoint stmt w.count w.rman
      index :: walk_indexes recon stmt fuel (walk_bucket recon index cp.1 cp.2 w)

/-- The generic overload of `collect_items_by_timestamp` (lines 216-262), which calls the
simple overload of `reconstruct_items` on either stream. `stmt` tells whether the statement
pointer is non-null. -/
def collect_items_by_timestamp (stmt : Bool) (rman : Resource_Manager)
    (current : List (Nat × Skeleton)) (attic : List (Nat × Attic Skeleton))
    (pred : Predicate) (cur_idx : Option Nat) (timestamp : Nat)
    (result : Result_Map Skeleton) (attic_result : Result_Map (Attic Skeleton)) :
    Option (Bool × Walk (Attic Skeleton)) :=
  timestamp_walk (fun index => reconstruct_simple pred index timestamp) stmt
    (current.length + attic.length)
    { current := current, attic := attic, result := result, attic_result := attic_result,
      count := 0, rman := rman, cur_idx := cur_idx }

/-- The overload of `collect_items_by_timestamp` for `Relation_Skeleton` (lines 265-309),
which calls the delta overload of `reconstruct_items`. -/
def collect_items_by_timestamp_relation
    (expand : Delta → Skeleton → Except String Skeleton) (stmt : Bool)
    (rman : Resource_Manager)
    (current : List (Nat × Skeleton)) (attic : List (Nat × Attic Delta))
    (pred : Predicate) (cur_idx : Option Nat) (timestamp : Nat)
    (result : Result_Map Skeleton) (attic_result : Result_Map (Attic Skeleton)) :
    Option (Bool × Walk (Attic Delta)) :=
  timestamp_walk (fun index => reconstruct_delta expand pred index timestamp) stmt
    (current.length + attic.length)
    { current := current, attic := attic, result := result, attic_result := attic_result,
      count := 0, rman := rman, cur_idx := cur_idx }

/-- The overload of `collect_items_by_timestamp` for `Way_Skeleton` (lines 312-356); its text
is that of the relation overload. -/
def collect_items_by_timestamp_way
    (expand : Delta → Skeleton → Except String Skeleton) (stmt : Bool)
    (rman : Resource_Manager)
    (current : List (Nat × Skeleton)) (attic : List (Nat × Attic Delta))
    (pred : Predicate) (cur_idx : Option Nat) (timestamp : Nat)
    (result : Result_Map Skeleton) (attic_result : Result_Map (Attic Skeleton)) :
    Option (Bool × Walk (Attic Delta)) :=
  timestamp_walk (fun index => reconstruct_delta expand pred index timestamp) stmt
    (current.length + attic.length)
    { current := current, attic := attic, result := result, attic_result := attic_result,
      count := 0, rman := rman, cur_idx := cur_idx }

/-! ## The plain collectors -/

/-- Modelled from the spec: the discrete iterator of the block store yields the pairs whose
index is among the requested ones, in store order. -/
def discrete_range {α : Type} (db : List (Nat × α)) (req : List Nat) : List (Nat × α) :=
  db.filter (fun p => decide (p.1 ∈ req))

/-- Modelled from the spec: the range iterator of the block store yields the pairs whose
index lies in one of the half-open intervals, in store order. -/
def range_range {α : Type} (db : List (Nat × α)) (req : List (Nat × Nat)) : List (Nat × α) :=
  db.filter (fun p => req.any (fun r => decide (r.1 ≤ p.1) && decide (p.1 < r.2)))

/-- The statement `result[it.index()].push_back(it.object())`. -/
def push_object {α : Type} (result : Result_Map α) (index : Nat) (o : α) : Result_Map α :=
  map_set result index (map_get result index ++ [o])

/-- The loop of `collect_items_discrete` with statement and resource manager
(lines 359-381), over the items the discrete iterator yields. -/
def collect_items_discrete_loop (stmt : Bool) (pred : Predicate) :
    List (Nat × Skeleton) → Nat → Resource_Manager → Result_Map Skeleton →
      Resource_Manager × Result_Map Skeleton
  | [], _, rman, result => (rman, result)
  | (i, o) :: rest, count, rman, result =>
    let cp : Nat × Resource_Manager :=
      if 256 * 1024 ≤ (count + 1) % 2 ^ 32 then
        (0, if stmt then rman.health_check.2 else rman)
      else ((count + 1) % 2 ^ 32, rman)
    collect_items_discrete_loop stmt pred rest cp.1 cp.2
      (if pred.match_handle { view := o } then push_object result i o else result)

/-- The function `collect_items_discrete` with statement and resource manager. -/
def collect_items_discrete (stmt : Bool) (rman : Resource_Manager)
    (db : List (Nat × Skeleton)) (req : List Nat) (pred : Predicate)
    (result : Result_Map Skeleton) : Resource_Manager × Result_Map Skeleton :=
  collect_items_discrete_loop stmt pred (discrete_range db req) 0 rman result

/-- The loop of `collect_items_discrete` on a transaction (lines 384-399). -/
def collect_items_discrete_transaction_loop (pred : Predicate) :
    List (Nat × Skeleton) → Result_Map Skeleton → Result_Map Skeleton
  | [], result => result
  | (i, o) :: rest, result =>
    collect_items_discrete_transaction_loop pred rest
      (if pred.match_handle { view := o } then push_object result i o else result)

/-- The function `collect_items_discrete` on a transaction. -/
def collect_items_discrete_transaction (db : List (Nat × Skeleton)) (req : List Nat)
    (pred : Predicate) (result : Result_Map Skeleton) : Result_Map Skeleton :=
  collect_items_discrete_transaction_loop pred (discrete_range db req) result

/-- The loop of `collect_items_flat` (lines 518-537); the statement is a reference, so the
health check is always made. -/
def collect_items_flat_loop (pred : Predicate) :
    List (Nat × Skeleton) → Nat → Resource_Manager → Result_Map Skeleton →
      Resource_Manager × Result_Map Skeleton
  | [], _, rman, result => (rman, result)
  | (i, o) :: rest, count, rman, result =>
    let cp : Nat × Resource_Manager :=
      if 256 * 1024 ≤ (count + 1) % 2 ^ 32 then (0, rman.health_check.2)
      else ((count + 1) % 2 ^ 32, rman)
    collect_items_flat_loop pred rest cp.1 cp.2
      (if pred.match_handle { view := o } then push_object result i o else result)

/-- The function `collect_items_flat`; the flat iterator yields the whole store. -/
def collect_items_flat (rman : Resource_Manager) (db : List (Nat × Skeleton))
    (pred : Predicate) (result : Result_Map Skeleton) :
    Resource_Manager × Result_Map Skeleton :=
  collect_items_flat_loop pred db 0 rman result

/-- Insertion into the `std::set< std::pair< Index, Index > >` named `shortened`: the set
is kept ascending and an element already present is not inserted again. -/
def set_insert (x : Nat × Nat) : List (Nat × Nat) → List (Nat × Nat)
  | [] => [x]
  | y :: rest =>
    if x = y then y :: rest
    else if pair_lt x y then x :: y :: rest
    else y :: set_insert x rest

/-- The constructor of `Shortened_Idx` (lines 439-455), returning the ranges from `begin()`
to `end()`. The request is left as it is when it is empty or its first range starts at
`cur_idx`; otherwise the ranges that end at or before `cur_idx` are skipped, and if the
first remaining one does not start at `cur_idx` either, a set is built from
`(cur_idx, upper bound of that range)` and the ranges after it. -/
def Shortened_Idx (req : List (Nat × Nat)) (cur_idx : Nat) : List (Nat × Nat) :=
  match req with
  | [] => []
  | first :: _ =>
    if first.1 = cur_idx then req
    else
      match req.dropWhile (fun r => !decide (cur_idx < r.2)) with
      | [] => []
      | s :: rest =>
        if s.1 = cur_idx then s :: rest
        else rest.foldl (fun acc r => set_insert r acc) [(cur_idx, s.2)]

/-- The state of the loop of `collect_items_range`. -/
structure Range_State where
  count : Nat
  too_much_data : Bool
  cur_idx : Nat
  rman : Resource_Manager
  result : Result_Map Skeleton

/-- The checkpoint of `collect_items_range` (lines 486-491) at an item of index `i`: the
counter is incremented; from `256*1024` on, with a statement at hand, it is reset,
`too_much_data` takes the answer of `health_check` and `cur_idx` the index. -/
def range_checkpoint (stmt : Bool) (i : Nat) (s : Range_State) : Range_State :=
  if decide (256 * 1024 ≤ (s.count + 1) % 2 ^ 32) && stmt then
    { s with count := 0, too_much_data := s.rman.health_check.1, cur_idx := i,
             rman := s.rman.health_check.2 }
  else { s with count := (s.count + 1) % 2 ^ 32 }

/-- The loop of `collect_items_range` (lines 478-496) over the items the range iterator
yields. Returns the flag and the final state. -/
def collect_items_range_loop (stmt : Bool) (pred : Predicate) :
    List (Nat × Skeleton) → Range_State → Bool × Range_State
  | [], s => (false, s)
  | (i, o) :: rest, s =>
    if s.too_much_data && !decide (s.cur_idx = i) then (true, { s with cur_idx := i })
    else
      collect_items_range_loop stmt pred rest
        { range_checkpoint stmt i s with result :=
            (if pred.match_handle (Handle.mk o) then
              push_object (range_checkpoint stmt i s).result i o
            else (range_checkpoint stmt i s).result) }

/-- The function `collect_items_range` (lines 467-497). -/
def collect_items_range (stmt : Bool) (rman : Resource_Manager)
    (db : List (Nat × Skeleton)) (req : List (Nat × Nat)) (pred : Predicate)
    (cur_idx : Nat) (result : Result_Map Skeleton) : Bool × Range_State :=
  collect_items_range_loop stmt pred (range_range db (Shortened_Idx req cur_idx))
    { count := 0, too_much_data := false, cur_idx := cur_idx, rman := rman,
      result := result }

/-! ## The function `get_indexes_` -/

/-- The call `std::sort(result.begin(), result.end())` on a vector of indexes. -/
def sort_indexes (l : List Nat) : List Nat :=
  l.insertionSort (fun a b => a ≤ b)

/-- The statement `result.erase(std::unique(result.begin(), result.end()), result.end())`:
of every run of equal neighbours the first element is kept. -/
def unique : List Nat → List Nat
  | [] => []
  | [a] => [a]
  | a :: b :: rest => if a = b then unique (b :: rest) else a :: unique (b :: rest)

/-- Insertion into the `std::set` named `idx_list_ids`. -/
def id_set_insert (id : Nat) (s : List Nat) : List Nat :=
  if id ∈ s then s else s.orderedInsert (fun a b => a ≤ b) id

/-- The loop over the ids in the historical branch of `get_indexes_` (lines 580-589):
an id whose attic index is 0 is passed over, one whose attic index is `0xff` is put into
`idx_list_ids`, and the attic index of any other id is appended to `result`. Returns
`result` and `idx_list_ids`. -/
def attic_pass (attic_random : Nat → Nat) :
    List Nat → List Nat → List Nat → List Nat × List Nat
  | [], result, idx_list_ids => (result, idx_list_ids)
  | id :: rest, result, idx_list_ids =>
    if attic_random id = 0 then attic_pass attic_random rest result idx_list_ids
    else if attic_random id = 255 then
      attic_pass attic_random rest result (id_set_insert id idx_list_ids)
    else attic_pass attic_random rest (result ++ [attic_random id]) idx_list_ids

/-- The function `get_indexes_` (lines 560-603). `current` and `attic_random` stand for
`Random_File::get` on the current and on the attic random index, `idx_list_db` for the
content of the attic index-list store (pairs of id and index), `desired_timestamp` for
`rman.get_desired_timestamp()`. -/
def get_indexes_ (current attic_random : Nat → Nat) (idx_list_db : List (Nat × Nat))
    (desired_timestamp : Nat) (ids : List Nat) (get_attic_idxs : Bool) : List Nat :=
  let result := unique (sort_indexes (ids.map current))
  if desired_timestamp ≠ NOW ∨ get_attic_idxs = true then
    let pass := attic_pass attic_random ids result []
    let result := pass.1 ++ (discrete_range idx_list_db pass.2).map Prod.snd
    unique (sort_indexes result)
  else result

/-! ## The block index `File_Blocks_Index`

The index buffer is a list of bytes. A pointer into it is the list from that offset on.
Multi-byte fields are read and written in little-endian byte order, the order of the
machines the store runs on. A read outside the buffer and a write outside the vector
`is_referred` have no defined behaviour in the source; the embedding reports them as the
error `out_of_bounds`. -/

/-- The structure `File_Block_Index_Entry< TIndex >`. -/
structure File_Block_Index_Entry (I : Type) where
  index : I
  pos : Nat
  size : Nat
  max_keysize : Nat
deriving DecidableEq, Repr

/-- What `File_Blocks_Index` uses of its template parameter `TIndex`: the constructor from
a pointer, the static `size_of(void*)`, the member `size_of()` and `to_data(void*)`, given
by the bytes it writes. -/
structure Index_Type (I : Type) where
  from_data : List Nat → I
  size_of_data : List Nat → Nat
  size_of : I → Nat
  to_data : I → List Nat

/-- The ways a load can fail: the `File_Error`s thrown by `init_structure_params` and
`init_blocks`, an error of the operating system with its `errno`, an access outside a buffer
or vector, and the exhaustion of the iteration bound of the embedding. -/
inductive File_Error where
  | unsupported_version
  | illegal_block_size
  | illegal_compression_factor
  | size_mismatch
  | bad_pos
  | bad_size
  | os_error (errno : Nat)
  | out_of_bounds
  | iteration_bound
deriving DecidableEq, Repr

/-- The read `*(uint8*)(buf + pos)`. -/
def read_uint8 (buf : List Nat) (pos : Nat) : Option Nat :=
  match buf.drop pos with
  | b0 :: _ => some b0
  | _ => none

/-- The read `*(uint16*)(buf + pos)`. -/
def read_uint16 (buf : List Nat) (pos : Nat) : Option Nat :=
  match buf.drop pos with
  | b0 :: b1 :: _ => some (b0 + 256 * b1)
  | _ => none

/-- The read `*(uint32*)(buf + pos)`. -/
def read_uint32 (buf : List Nat) (pos : Nat) : Option Nat :=
  match buf.drop pos with
  | b0 :: b1 :: b2 :: b3 :: _ => some (b0 + 256 * b1 + 65536 * b2 + 16777216 * b3)
  | _ => none

/-- The bytes stored by `*(uint16*)ptr = n`. -/
def uint16_bytes (n : Nat) : List Nat := [n % 256, n / 256 % 256]

/-- The bytes stored by `*(uint32*)ptr = n`. -/
def uint32_bytes (n : Nat) : List Nat :=
  [n % 256, n / 256 % 256, n / 65536 % 256, n / 16777216 % 256]

/-- The loop of `shift_log`: halve while the value exceeds 1 and count the steps. -/
def shift_log_loop : Nat → Nat → Nat → Nat
  | 0, _, count => count
  | fuel + 1, val, count =>
    if 1 < val then shift_log_loop fuel (val / 2) (count + 1) else count

/-- Modelled from the spec: `shift_log`, declared outside the files at hand, is the binary
logarithm that the header stores for `block_size` and `compression_factor`. A 64-bit value
is halved at most 64 times. -/
def shift_log (val : Nat) : Nat := shift_log_loop 64 val 0

/-- The data members of `File_Blocks_Index` that the load and the teardown use. The field
`writeable` stands for `empty_index_file_name != ""`; `index_buf` is `none` when
`index_buf.ptr` is null. -/
structure File_Blocks_Index (I : Type) where
  writeable : Bool
  file_name_extension_ : String
  index_buf : Option (List Nat)
  file_size : Nat
  index_size : Nat
  block_array : List (File_Block_Index_Entry I)
  block_list : List (File_Block_Index_Entry I)
  void_blocks : List (Nat × Nat)
  void_blocks_initialized : Bool
  block_size_ : Nat
  compression_factor : Nat
  compression_method : Int
  block_count : Nat

/-- The format version written to and accepted in the header. -/
def FILE_FORMAT_VERSION : Nat := 7560

/-- The header part of `init_structure_params` (lines 203-211): the version is read and
checked first, then the block size, then the compression factor, then the compression
method is read. The source reads and shifts unchecked. For a buffer of at least 8 bytes
with byte 4 below 64 and byte 5 below 32 the embedding is exact. Outside of that the
source has undefined behaviour (a read beyond the buffer, a shift count at or beyond the
width), of which the embedding fixes one outcome: a read beyond the buffer is
`out_of_bounds`, and the shifts `1ull<<n` and `1u<<n` lose the bit shifted out of 64 and 32
bits, so that the tests of the source for a zero value fire. A compiled program may load
such a file; the properties that bear on such files say so in their hypotheses. -/
def read_header {I : Type} (s : File_Blocks_Index I) (buf : List Nat) :
    Except File_Error (File_Blocks_Index I) :=
  match read_uint32 buf 0 with
  | none => Except.error File_Error.out_of_bounds
  | some version =>
    if version ≠ FILE_FORMAT_VERSION ∧ version ≠ 7512 then
      Except.error File_Error.unsupported_version
    else
      match read_uint8 buf 4 with
      | none => Except.error File_Error.out_of_bounds
      | some log_block_size =>
        if 2 ^ log_block_size % 2 ^ 64 = 0 then
          Except.error File_Error.illegal_block_size
        else
          match read_uint8 buf 5 with
          | none => Except.error File_Error.out_of_bounds
          | some log_compression_factor =>
            if 2 ^ log_compression_factor % 2 ^ 32 = 0
                ∨ 2 ^ log_block_size % 2 ^ 64 < 2 ^ log_compression_factor % 2 ^ 32 then
              Except.error File_Error.illegal_compression_factor
            else
              match read_uint16 buf 6 with
              | none => Except.error File_Error.out_of_bounds
              | some method =>
                Except.ok { s with
                  block_size_ := 2 ^ log_block_size % 2 ^ 64
                  compression_factor := 2 ^ log_compression_factor % 2 ^ 32
                  compression_method := (method : Int) }

/-- The method `init_structure_params` (lines 196-217). -/
def init_structure_params {I : Type} (s : File_Blocks_Index I) :
    Except File_Error (File_Blocks_Index I) :=
  match s.index_buf with
  | none => Except.ok s
  | some buf =>
    match (if s.file_name_extension_ ≠ ".legacy" then read_header s buf else Except.ok s) with
    | Except.error e => Except.error e
    | Except.ok s1 =>
      if s1.file_size % s1.block_size_ ≠ 0 then Except.error File_Error.size_mismatch
      else Except.ok { s1 with block_count := s1.file_size / s1.block_size_ % 2 ^ 32 }

/-- The statement `if (writeable()) block_list.push_back(entry); else
block_array.push_back(entry);`. -/
def push_entry {I : Type} (s : File_Blocks_Index I) (entry : File_Block_Index_Entry I) :
    File_Blocks_Index I :=
  if s.writeable then { s with block_list := s.block_list ++ [entry] }
  else { s with block_array := s.block_array ++ [entry] }

/-- The loop of `init_blocks` for the legacy format (lines 228-244), from offset `pos`:
records of index bytes, `uint32 pos`, `uint32 max_keysize`; the size of every entry is 1. -/
def init_blocks_legacy {I : Type} (T : Index_Type I) (buf : List Nat) :
    Nat → Nat → File_Blocks_Index I → Except File_Error (File_Blocks_Index I)
  | 0, pos, s =>
    if pos < s.index_size then Except.error File_Error.iteration_bound else Except.ok s
  | fuel + 1, pos, s =>
    if pos < s.index_size then
      let data := buf.drop pos
      if data.length < T.size_of_data data then Except.error File_Error.out_of_bounds
      else
        match read_uint32 buf (pos + T.size_of_data data),
            read_uint32 buf (pos + T.size_of_data data + 4) with
        | some entry_pos, some max_keysize =>
          let entry : File_Block_Index_Entry I :=
            { index := T.from_data data, pos := entry_pos, size := 1,
              max_keysize := max_keysize }
          if s.block_count ≤ entry.pos then Except.error File_Error.bad_pos
          else
            init_blocks_legacy T buf fuel ((pos + (T.size_of_data data + 8)) % 2 ^ 32)
              (push_entry s entry)
        | _, _ => Except.error File_Error.out_of_bounds
    else Except.ok s

/-- The loop of `init_blocks` for the present format (lines 249-267), from offset `pos`:
records of `uint32 pos`, `uint32 size`, `uint32 max_keysize` and the index bytes. The sum
`entry.pos + entry.size` is a 32-bit sum. The source reads the record unchecked: for a
record that ends beyond the buffer it has undefined behaviour, for which the embedding
gives `out_of_bounds`, while a compiled program may go on with the bytes it finds; on
buffers whose records are complete the embedding is exact. -/
def init_blocks_modern {I : Type} (T : Index_Type I) (buf : List Nat) :
    Nat → Nat → File_Blocks_Index I → Except File_Error (File_Blocks_Index I)
  | 0, pos, s =>
    if pos < s.index_size then Except.error File_Error.iteration_bound else Except.ok s
  | fuel + 1, pos, s =>
    if pos < s.index_size then
      let data := buf.drop (pos + 12)
      if data.length < T.size_of_data data then Except.error File_Error.out_of_bounds
      else
        match read_uint32 buf pos, read_uint32 buf (pos + 4), read_uint32 buf (pos + 8) with
        | some entry_pos, some entry_size, some max_keysize =>
          let entry : File_Block_Index_Entry I :=
            { index := T.from_data data, pos := entry_pos, size := entry_size,
              max_keysize := max_keysize }
          if s.block_count ≤ entry.pos then Except.error File_Error.bad_pos
          else if s.block_count < (entry.pos + entry.size) % 2 ^ 32 then
            Except.error File_Error.bad_size
          else
            init_blocks_modern T buf fuel ((pos + 12 + T.size_of_data data) % 2 ^ 32)
              (push_entry s entry)
        | _, _, _ => Except.error File_Error.out_of_bounds
    else Except.ok s

/-- The method `init_blocks` (lines 220-272): parse the buffer, if there is one, in the
format the extension selects, then release it. Every iteration of either loop advances by
at least 8 bytes, so `index_size` iterations are enough. -/
def init_blocks {I : Type} (T : Index_Type I) (s : File_Blocks_Index I) :
    Except File_Error (File_Blocks_Index I) :=
  match s.index_buf with
  | none => Except.ok s
  | some buf =>
    match (if s.file_name_extension_ = ".legacy" then
        init_blocks_legacy T buf s.index_size 0 s
      else if 0 < s.index_size then init_blocks_modern T buf s.index_size 8 s
      else Except.ok s) with
    | Except.error e => Except.error e
    | Except.ok s1 => Except.ok { s1 with index_buf := none }

/-- The inner loop `for (uint32 i = 0; i < it->size; ++i) is_referred[it->pos + i] = true`
(lines 304-305): the first argument is the number of iterations left, the second is `i`.
`none` when an element outside the vector is addressed. -/
def mark_entry (pos : Nat) : Nat → Nat → List Bool → Option (List Bool)
  | 0, _, is_referred => some is_referred
  | left + 1, i, is_referred =>
    if (pos + i) % 2 ^ 32 < is_referred.length then
      mark_entry pos left (i + 1) (is_referred.set ((pos + i) % 2 ^ 32) true)
    else none

/-- The outer loops of lines 301-312 over a sequence of entries. -/
def mark_entries {I : Type} : List (File_Block_Index_Entry I) → List Bool →
    Option (List Bool)
  | [], is_referred => some is_referred
  | e :: rest, is_referred =>
    match mark_entry e.pos e.size 0 is_referred with
    | none => none
    | some is_referred => mark_entries rest is_referred

/-- The scan of lines 315-324: the first argument is the number of iterations left, then
`i`, `last_start` and the void list. Returns `last_start` and the void list. -/
def scan_blocks (is_referred : List Bool) :
    Nat → Nat → Nat → List (Nat × Nat) → Nat × List (Nat × Nat)
  | 0, _, last_start, void_blocks => (last_start, void_blocks)
  | left + 1, i, last_start, void_blocks =>
    if is_referred.getD i false then
      scan_blocks is_referred left (i + 1) (i + 1)
        (if last_start < i then void_blocks ++ [(i - last_start, last_start)]
         else void_blocks)
    else scan_blocks is_referred left (i + 1) last_start void_blocks

/-- The derivation of the void list from the entries (lines 298-327): mark the blocks of
all entries of the list and of the array, scan for the runs of unmarked blocks and append
them to `void_blocks`. -/
def derive_void_blocks {I : Type} (s : File_Blocks_Index I) : Option (List (Nat × Nat)) :=
  match mark_entries s.block_list (List.replicate s.block_count false) with
  | none => none
  | some r1 =>
    match mark_entries s.block_array r1 with
    | none => none
    | some is_referred =>
      let scanned := scan_blocks is_referred s.block_count 0 0 s.void_blocks
      some (if scanned.1 < s.block_count then
          scanned.2 ++ [(s.block_count - scanned.1, scanned.1)]
        else scanned.2)

/-- The loop of lines 291-292 over the content of the empty-index file: the pairs at the
offsets `8*i` for `i < void_index_size/8`. -/
def read_void_pairs (buf : List Nat) : Nat → Nat → List (Nat × Nat) →
    Option (List (Nat × Nat))
  | 0, _, void_blocks => some void_blocks
  | left + 1, i, void_blocks =>
    match read_uint32 buf (8 * i), read_uint32 buf (8 * i + 4) with
    | some first, some second => read_void_pairs buf left (i + 1) (void_blocks ++ [(first, second)])
    | _, _ => none

/-- The call `std::stable_sort(void_blocks.begin(), void_blocks.end())`. -/
def sort_void_blocks (l : List (Nat × Nat)) : List (Nat × Nat) :=
  l.insertionSort pair_le

/-- The attempt of lines 281-296 to take the void list from the empty-index file: made only
by a writeable index, and without result (`none`) when opening or reading the file fails.
`empty_index_file` is the content of the file, `none` when it cannot be read. On success
the pairs read are appended to the void list. -/
def read_empty_index_file {I : Type} (empty_index_file : Option (List Nat))
    (s : File_Blocks_Index I) : Option (List (Nat × Nat)) :=
  if s.writeable then
    match empty_index_file with
    | none => none
    | some buf => read_void_pairs buf (buf.length % 2 ^ 32 / 8) 0 s.void_blocks
  else none

/-- The method `init_void_blocks` (lines 275-331). -/
def init_void_blocks {I : Type} (T : Index_Type I) (empty_index_file : Option (List Nat))
    (s : File_Blocks_Index I) : Except File_Error (File_Blocks_Index I) :=
  match init_blocks T s with
  | Except.error e => Except.error e
  | Except.ok s1 =>
    match read_empty_index_file empty_index_file s1 with
    | some void_blocks =>
      Except.ok { s1 with
        void_blocks := sort_void_blocks void_blocks, void_blocks_initialized := true }
    | none =>
      match derive_void_blocks s1 with
      | none => Except.error File_Error.out_of_bounds
      | some void_blocks =>
        Except.ok { s1 with
          void_blocks := sort_void_blocks void_blocks, void_blocks_initialized := true }

/-- The method `get_void_blocks` (lines 88-93): the state after the call; the list returned
is its field `void_blocks`. -/
def get_void_blocks {I : Type} (T : Index_Type I) (empty_index_file : Option (List Nat))
    (s : File_Blocks_Index I) : Except File_Error (File_Blocks_Index I) :=
  if s.void_blocks_initialized then Except.ok s
  else init_void_blocks T empty_index_file s

/-- The method `get_block_list` (lines 72-79): parse the buffer if there is one, fill the
list from the vector if the list is empty and the vector is not. The list returned is the
field `block_list` of the state. -/
def get_block_list {I : Type} (T : Index_Type I) (s : File_Blocks_Index I) :
    Except File_Error (File_Blocks_Index I) :=
  match (if s.index_buf.isSome then init_blocks T s else Except.ok s) with
  | Except.error e => Except.error e
  | Except.ok s1 =>
    if s1.block_list.isEmpty && !s1.block_array.isEmpty then
      Except.ok { s1 with block_list := s1.block_array }
    else Except.ok s1

/-- The method `get_blocks` (lines 80-87): parse the buffer if there is one, fill the vector
from the list if the vector is empty and the list is not. The vector returned is the field
`block_array` of the state. -/
def get_blocks {I : Type} (T : Index_Type I) (s : File_Blocks_Index I) :
    Except File_Error (File_Blocks_Index I) :=
  match (if s.index_buf.isSome then init_blocks T s else Except.ok s) with
  | Except.error e => Except.error e
  | Except.ok s1 =>
    if s1.block_array.isEmpty && !s1.block_list.isEmpty then
      Except.ok { s1 with block_array := s1.block_list }
    else Except.ok s1

/-- The method `drop_block_array` (lines 94-99): fill the list from the vector if the list
is empty and the vector is not, then clear the vector. -/
def drop_block_array {I : Type} (s : File_Blocks_Index I) : File_Blocks_Index I :=
  let s1 := if s.block_list.isEmpty && !s.block_array.isEmpty then
      { s with block_list := s.block_array }
    else s
  { s1 with block_array := [] }

/-- A call of one of the three methods that give access to the views. -/
inductive View_Call where
  | get_block_list
  | get_blocks
  | drop_block_array
deriving DecidableEq, Repr

/-- What a call leaves behind: the call, the state after it, the view it returned (`none`
for `drop_block_array`) and whether it has run `init_blocks` on a buffer. -/
structure View_Step (I : Type) where
  call : View_Call
  state : File_Blocks_Index I
  view : Option (List (File_Block_Index_Entry I))
  parsed : Bool

/-- One call on a state. -/
def run_call {I : Type} (T : Index_Type I) (c : View_Call) (s : File_Blocks_Index I) :
    Except File_Error (View_Step I) :=
  match c with
  | View_Call.get_block_list =>
    match get_block_list T s with
    | Except.error e => Except.error e
    | Except.ok s1 =>
      Except.ok { call := c, state := s1, view := some s1.block_list,
                  parsed := s.index_buf.isSome }
  | View_Call.get_blocks =>
    match get_blocks T s with
    | Except.error e => Except.error e
    | Except.ok s1 =>
      Except.ok { call := c, state := s1, view := some s1.block_array,
                  parsed := s.index_buf.isSome }
  | View_Call.drop_block_array =>
    Except.ok { call := c, state := drop_block_array s, view := none, parsed := false }

/-- A sequence of calls with no mutation in between. -/
def run_calls {I : Type} (T : Index_Type I) :
    List View_Call → File_Blocks_Index I → Except File_Error (List (View_Step I))
  | [], _ => Except.ok []
  | c :: rest, s =>
    match run_call T c s with
    | Except.error e => Except.error e
    | Except.ok step =>
      match run_calls T rest step.state with
      | Except.error e => Except.error e
      | Except.ok steps => Except.ok (step :: steps)

/-- What a file of the database directory gives on opening and reading: its content, or the
`errno` of the failure. -/
abbrev File_Result (α : Type) := Except Nat α

/-- The constructor of `File_Blocks_Index` (lines 138-193). `data_file` is the size of the
data file, `index_file` the content of the index file; a missing file is `errno` 2.
`use_default` is the constant `USE_DEFAULT`; the three `prop_` arguments are what
`file_prop` returns. -/
def File_Blocks_Index.construct {I : Type} (T : Index_Type I)
    (prop_block_size prop_compression_factor : Nat) (prop_compression_method : Int)
    (writeable : Bool) (file_name_extension : String)
    (use_default compression_method_ : Int)
    (data_file : File_Result Nat) (index_file : File_Result (List Nat))
    (empty_index_file : Option (List Nat)) : Except File_Error (File_Blocks_Index I) :=
  let s0 : File_Blocks_Index I :=
    { writeable := writeable, file_name_extension_ := file_name_extension,
      index_buf := none, file_size := 0, index_size := 0, block_array := [],
      block_list := [], void_blocks := [], void_blocks_initialized := false,
      block_size_ := prop_block_size, compression_factor := prop_compression_factor,
      compression_method :=
        if compression_method_ = use_default then prop_compression_method
        else compression_method_,
      block_count := 0 }
  match (match data_file with
      | Except.ok size => Except.ok { s0 with file_size := size % 2 ^ 64 }
      | Except.error errno =>
        if errno ≠ 2 then Except.error (File_Error.os_error errno) else Except.ok s0) with
  | Except.error e => Except.error e
  | Except.ok s1 =>
    match (match index_file with
        | Except.ok content =>
          Except.ok { s1 with
            index_size := content.length % 2 ^ 32
            index_buf :=
              if content.length % 2 ^ 32 = 0 then none
              else some (content.take (content.length % 2 ^ 32)) }
        | Except.error errno =>
          if errno ≠ 2 then Except.error (File_Error.os_error errno)
          else Except.ok { s1 with index_buf := none }) with
    | Except.error e => Except.error e
    | Except.ok s2 =>
      match init_structure_params s2 with
      | Except.error e => Except.error e
      | Except.ok s3 =>
        if s3.writeable then init_void_blocks T empty_index_file s3 else Except.ok s3

/-- The bytes of one entry as the teardown writes them (lines 358-365). -/
def entry_bytes {I : Type} (T : Index_Type I) (e : File_Block_Index_Entry I) : List Nat :=
  uint32_bytes e.pos ++ uint32_bytes e.size ++ uint32_bytes e.max_keysize ++ T.to_data e.index

/-- The 32-bit size computed by the first loop of the teardown (lines 341-346). -/
def teardown_index_size {I : Type} (T : Index_Type I) :
    List (File_Block_Index_Entry I) → Nat → Nat
  | [], index_size => index_size
  | e :: rest, index_size => teardown_index_size T rest ((index_size + (12 + T.size_of e.index)) % 2 ^ 32)

/-- The header written by the teardown (lines 350-353). -/
def header_bytes {I : Type} (s : File_Blocks_Index I) : List Nat :=
  uint32_bytes FILE_FORMAT_VERSION ++ [shift_log s.block_size_ % 256]
    ++ [shift_log s.compression_factor % 256]
    ++ uint16_bytes (s.compression_method % 65536).toNat

/-- What the teardown leaves on disk: the content of the primary index file and, when the
empty-index file could be opened, the bytes written to it. -/
structure Written where
  index_file : List Nat
  empty_index_file : Option (List Nat)
deriving DecidableEq, Repr

/-- The bytes of the void list as laid out in `void_index_buf` (lines 376-380). -/
def void_bytes (void_blocks : List (Nat × Nat)) : List Nat :=
  (void_blocks.map (fun p => uint32_bytes p.1 ++ uint32_bytes p.2)).flatten

/-- The destructor of `File_Blocks_Index` (lines 334-390). `none` when nothing is written
because the index is not writeable; an error when the bytes written exceed the buffer
allocated for the 32-bit `index_size`. The index file ends up holding exactly the buffer;
the empty-index file receives the first `void_blocks.size()*sizeof(uint32)` bytes of its
buffer, if it exists. -/
def File_Blocks_Index.teardown {I : Type} (T : Index_Type I) (s : File_Blocks_Index I)
    (empty_index_file_exists : Bool) : Except File_Error (Option Written) :=
  if !s.writeable then Except.ok none
  else
    let index_buf := header_bytes s ++ (s.block_list.map (entry_bytes T)).flatten
    if index_buf.length ≠ teardown_index_size T s.block_list 8 then
      Except.error File_Error.out_of_bounds
    else
      Except.ok (some
        { index_file := index_buf,
          empty_index_file :=
            if empty_index_file_exists then
              some ((void_bytes s.void_blocks).take (s.void_blocks.length * 4))
            else none })

/-- The inner loop `for (uint32 i = 0; i < it->first; ++i) result[it->second + i] = false`
of `get_data_index_footprint` (lines 403-404): the first argument is the number of
iterations left, the second is `i`. `none` when an element outside the vector is
addressed. -/
def clear_run (second : Nat) : Nat → Nat → List Bool → Option (List Bool)
  | 0, _, result => some result
  | left + 1, i, result =>
    if (second + i) % 2 ^ 32 < result.length then
      clear_run second left (i + 1) (result.set ((second + i) % 2 ^ 32) false)
    else none

/-- The outer loop of lines 400-405 over the void list. -/
def clear_runs : List (Nat × Nat) → List Bool → Option (List Bool)
  | [], result => some result
  | r :: rest, result =>
    match clear_run r.2 r.1 0 result with
    | none => none
    | some result => clear_runs rest result

/-- The function `get_data_index_footprint` (lines 394-408): construct a read-only index
with the empty file name extension and the default compression method, make a vector of
`block_count` elements `true`, and clear the elements of every run of `get_void_blocks()`.
The arguments are those of `File_Blocks_Index.construct`. -/
def get_data_index_footprint {I : Type} (T : Index_Type I)
    (prop_block_size prop_compression_factor : Nat) (prop_compression_method : Int)
    (use_default : Int) (data_file : File_Result Nat) (index_file : File_Result (List Nat))
    (empty_index_file : Option (List Nat)) : Except File_Error (List Bool) :=
  match File_Blocks_Index.construct T prop_block_size prop_compression_factor
      prop_compression_method false "" use_default use_default data_file index_file
      empty_index_file with
  | Except.error e => Except.error e
  | Except.ok index =>
    let result := List.replicate index.block_count true
    match get_void_blocks T empty_index_file index with
    | Except.error e => Except.error e
    | Except.ok index1 =>
      match clear_runs index1.void_blocks result with
      | none => Except.error File_Error.out_of_bounds
      | some result => Except.ok result

/-! ## The dispatcher stub (`dispatcher_stub.cc`) -/

/-- The backslash character. -/
def backslash : Char := Char.ofNat 92

/-- The newline character. -/
def newline : Char := Char.ofNat 10

/-- The tab character. -/
def tab : Char := Char.ofNat 9

/-- The loop of `de_escape` (lines 46-63) on the characters of `input`: the first argument
bounds the number of iterations, `pos` is the position and `result` the string built so
far. -/
def de_escape_loop (input : List Char) : Nat → Nat → List Char → List Char
  | 0, _, result => result
  | fuel + 1, pos, result =>
    if pos < input.length then
      if input.getD pos ' ' ≠ backslash then
        de_escape_loop input fuel (pos + 1) (result ++ [input.getD pos ' '])
      else if input.length ≤ pos + 1 then result
      else if input.getD (pos + 1) ' ' = 'n' then
        de_escape_loop input fuel (pos + 1 + 1) (result ++ [newline])
      else if input.getD (pos + 1) ' ' = 't' then
        de_escape_loop input fuel (pos + 1 + 1) (result ++ [tab])
      else
        de_escape_loop input fuel (pos + 1 + 1) (result ++ [input.getD (pos + 1) ' '])
    else result

/-- The function `de_escape` (lines 42-65). Every iteration advances `pos`, so
`input.length` iterations are enough. -/
def de_escape (input : List Char) : List Char :=
  de_escape_loop input input.length 0 []

/-- A resource limit `rlimit` with its soft and its hard value. -/
structure Rlimit where
  rlim_cur : Nat
  rlim_max : Nat
deriving DecidableEq, Repr

/-- One half of `set_limits` (lines 72-78 and 80-86): `limit` is what `getrlimit` has
returned, `none` when it failed; the result is the limit passed to `setrlimit`, `none` when
`setrlimit` is not called. -/
def set_limit (value : Nat) (limit : Option Rlimit) : Option Rlimit :=
  match limit with
  | none => none
  | some l =>
    if value < l.rlim_cur ∧ value < l.rlim_max then
      some { rlim_cur := value, rlim_max := value }
    else none

/-- The function `set_limits` (lines 68-87) for the CPU time and the address space: the
limits passed to `setrlimit`. -/
def set_limits (time space : Nat) (cpu address_space : Option Rlimit) :
    Option Rlimit × Option Rlimit :=
  (set_limit time cpu, set_limit space address_space)

/-- The arguments of the call of `set_limits` in the constructor of `Dispatcher_Stub`
(line 98): `2*max_allowed_time + 60` is a `uint32` expression and
`2*max_allowed_space + 1024*1024*1024` a `uint64` expression. -/
def requested_limits (max_allowed_time max_allowed_space : Nat) : Nat × Nat :=
  ((2 * max_allowed_time + 60) % 2 ^ 32,
   (2 * max_allowed_space + 1024 * 1024 * 1024) % 2 ^ 64)

/-- The first statement of the constructor of `Dispatcher_Stub` (lines 97-98): the limits
passed to `setrlimit`, none when `max_allowed_time` is 0. -/
def stub_limits (max_allowed_time max_allowed_space : Nat)
    (cpu address_space : Option Rlimit) : Option Rlimit × Option Rlimit :=
  if 0 < max_allowed_time then
    set_limits (requested_limits max_allowed_time max_allowed_space).1
      (requested_limits max_allowed_time max_allowed_space).2 cpu address_space
  else (none, none)

/-- The two timestamps of the stub. -/
structure Stub_Timestamps where
  timestamp : List Char
  area_timestamp : List Char
deriving DecidableEq, Repr

/-- The timestamps set by the constructor of `Dispatcher_Stub` for an explicit `db_dir`
(lines 273-289). `osm_base_line` and `area_line` are what `getline` reads from
`<db_dir>osm_base_version` and `<db_dir>area_version`. -/
def stub_timestamps_db_dir (area_level : Int) (osm_base_line area_line : List Char) :
    Stub_Timestamps :=
  let timestamp := de_escape osm_base_line
  if area_level = 1 then
    let _area_timestamp := area_line
    { timestamp := timestamp, area_timestamp := de_escape timestamp }
  else if area_level = 2 then
    { timestamp := timestamp, area_timestamp := de_escape timestamp }
  else { timestamp := timestamp, area_timestamp := [] }

/-- The timestamps set by the constructor of `Dispatcher_Stub` when it goes through the
dispatcher (lines 154-158 and 177-230). -/
def stub_timestamps_dispatcher (area_level : Int) (osm_base_line area_line : List Char) :
    Stub_Timestamps :=
  let timestamp := de_escape osm_base_line
  if 0 < area_level then
    if area_level = 1 then
      { timestamp := timestamp, area_timestamp := de_escape area_line }
    else if area_level = 2 then
      { timestamp := timestamp, area_timestamp := de_escape timestamp }
    else { timestamp := timestamp, area_timestamp := [] }
  else { timestamp := timestamp, area_timestamp := [] }

/-! ## Vocabulary of the properties -/

/-- The objects of the bucket an iteration consumes from a stream: those of the leading
items that carry the bucket index. -/
def bucket_of {α : Type} (index : Nat) (l : List (Nat × α)) : List α :=
  (l.takeWhile (fun p => decide (p.1 = index))).map Prod.snd

/-- The stream behind the bucket. -/
def rest_of {α : Type} (index : Nat) (l : List (Nat × α)) : List (Nat × α) :=
  l.dropWhile (fun p => decide (p.1 = index))

/-- All objects a stream holds under an index. -/
def at_index {α : Type} (index : Nat) (l : List (Nat × α)) : List α :=
  (l.filter (fun p => decide (p.1 = index))).map Prod.snd

/-- A stream in ascending index order, as the iterators of the block store yield it. -/
def Ascending {α : Type} (l : List (Nat × α)) : Prop :=
  l.Pairwise (fun a b => a.1 ≤ b.1)

instance ascending_decidable {α : Type} (l : List (Nat × α)) : Decidable (Ascending l) :=
  inferInstanceAs (Decidable (l.Pairwise (fun (a b : Nat × α) => a.1 ≤ b.1)))

/-- The `(id, timestamp)` pair of an attic skeleton. -/
def attic_pair (a : Attic Skeleton) : Nat × Nat := (a.obj.id, a.timestamp)

/-- The `(id, timestamp)` pair of an attic delta. -/
def delta_pair (d : Attic Delta) : Nat × Nat := (d.obj.id, d.timestamp)

/-- The `(id, NOW)` pair of a live skeleton. -/
def live_pair (o : Skeleton) : Nat × Nat := (o.id, NOW)

/-- The chosen timestamp in the words of the spec: the minimum of `NOW` and of the
timestamps later than the query timestamp that the attic records of a bucket, given by
their `(id, timestamp)` pairs, hold for the id. -/
def chosen_timestamp (timestamp : Nat) (attic_pairs : List (Nat × Nat)) (id : Nat) : Nat :=
  ((attic_pairs.filter (fun p => decide (p.1 = id) && decide (timestamp < p.2))).map
    Prod.snd).foldr min NOW

/-- The predicate that every object satisfies. -/
def always_true : Predicate :=
  { match_skel := fun _ => true, match_attic := fun _ => true, match_handle := fun _ => true }

/-- A resource manager that has logged nothing and never asks to stop. -/
def quiet : Resource_Manager := { pending := [], health_checks := 0, errors := [] }

/-- What the reconstruction of one bucket contributes, as functions of the current objects
and the attic records of the bucket: the objects appended to the live vector, those
appended to the attic vector, and the pairs recorded. -/
structure Contribution (γ : Type) where
  live : List Skeleton → List γ → List Skeleton
  attic : List Skeleton → List γ → List (Attic Skeleton)
  recorded : List Skeleton → List γ → List (Nat × Nat)

/-- A reconstruction consumes exactly the bucket from both streams and appends and records
what the contribution says. -/
def Reconstructs {γ : Type} (recon : Nat → Bucket γ → Bucket γ) (c : Contribution γ) : Prop :=
  ∀ index b,
    (recon index b).current = rest_of index b.current ∧
    (recon index b).attic = rest_of index b.attic ∧
    (recon index b).result =
      b.result ++ c.live (bucket_of index b.current) (bucket_of index b.attic) ∧
    (recon index b).attic_result =
      b.attic_result ++ c.attic (bucket_of index b.current) (bucket_of index b.attic) ∧
    (recon index b).timestamp_by_id =
      b.timestamp_by_id ++ c.recorded (bucket_of index b.current) (bucket_of index b.attic)

/-- The contribution of the two calls of the simple overload. -/
def simple_contribution (pred : Predicate) (timestamp : Nat) : Contribution (Attic Skeleton) where
  live := fun cur _ => cur.filter (fun o => decide (timestamp < NOW) && pred.match_skel o)
  attic := fun _ att =>
    att.filter (fun a => decide (timestamp < a.timestamp) && pred.match_attic a)
  recorded := fun cur att =>
    (cur.filter (fun _ => decide (timestamp < NOW))).map live_pair
      ++ (att.filter (fun a => decide (timestamp < a.timestamp))).map attic_pair

/-- The attic objects the delta overload builds for a bucket, before the predicate. -/
def expanded_attics (expand : Delta → Skeleton → Except String Skeleton) (timestamp : Nat)
    (cur : List Skeleton) (att : List (Attic Delta)) : List (Attic Skeleton) :=
  (expand_deltas expand
    (sort_pairs (cur.map live_pair
      ++ (att.filter (fun d => decide (timestamp < d.timestamp))).map delta_pair))
    (sort_deltas (att.filter (fun d => decide (timestamp < d.timestamp))))
    (sort_skels cur) default_skeleton [] quiet).1

/-- The contribution of the delta overload. -/
def delta_contribution (expand : Delta → Skeleton → Except String Skeleton)
    (pred : Predicate) (timestamp : Nat) : Contribution (Attic Delta) where
  live := fun cur _ => (sort_skels cur).filter pred.match_skel
  attic := fun cur att => (expanded_attics expand timestamp cur att).filter pred.match_attic
  recorded := fun cur att =>
    cur.map live_pair ++ (att.filter (fun d => decide (timestamp < d.timestamp))).map delta_pair

/-- The `(id, timestamp)` pairs of all objects of the live and of the attic result of a
walk, `NOW` standing for the timestamp of a live object. -/
def output_pairs {γ : Type} (w : Walk γ) : List (Nat × Nat) :=
  (map_objects w.result).map live_pair ++ (map_objects w.attic_result).map attic_pair

/-- An expansion keeps the id: a successful `expand` yields an object with the id of the
delta or with id 0. Modelled from the spec: "a patch that, applied to a base skeleton,
yields a skeleton of the same id", id 0 marking the failed expansion. -/
def Keeps_Id (expand : Delta → Skeleton → Except String Skeleton) : Prop :=
  ∀ d reference obj, expand d reference = Except.ok obj → obj.id = d.id ∨ obj.id = 0

/-- A contribution adds to the results only objects of the bucket, each at most once: the
pairs of the live objects added are among those of the current objects of the bucket, and
the pairs of the attic objects added are among those of its attic records that are later
than the query timestamp. -/
def Conservative {γ : Type} (c : Contribution γ) (pair_of : γ → Nat × Nat)
    (fresh : γ → Bool) : Prop :=
  ∀ cur att, ((c.live cur att).map live_pair).Subperm (cur.map live_pair) ∧
    ((c.attic cur att).map attic_pair).Subperm ((att.filter fresh).map pair_of)

instance pair_le_total : IsTotal (Nat × Nat) pair_le :=
  ⟨fun a b => by unfold pair_le; omega⟩

instance pair_le_trans : IsTrans (Nat × Nat) pair_le :=
  ⟨fun a b c => by unfold pair_le; omega⟩

instance delta_le_total : IsTotal (Attic Delta) delta_le :=
  ⟨fun a b => pair_le_total.total (a.obj.id, a.timestamp) (b.obj.id, b.timestamp)⟩

instance delta_le_trans : IsTrans (Attic Delta) delta_le :=
  ⟨fun a b c => pair_le_trans.trans (a.obj.id, a.timestamp) (b.obj.id, b.timestamp)
    (c.obj.id, c.timestamp)⟩

/-- The index occurs in one of the two streams, so that the walk has a bucket for it. -/
def Visited {α β : Type} (i : Nat) (cur : List (Nat × α)) (att : List (Nat × β)) : Prop :=
  i ∈ cur.map Prod.fst ∨ i ∈ att.map Prod.fst

/-- The vector a bucket leaves in a result container: what was there, followed by the
objects added, filtered by the sorted recorded pairs. -/
def bucket_vector {α : Type} [Element α] (recorded : List (Nat × Nat)) (old added : List α) :
    List α :=
  filter_items_by_timestamp (sort_pairs recorded) (old ++ added)

/-- What the call of `expand` for the delta `c.1` on the reference `c.2` adds to `attics`:
the expanded object with the timestamp of the delta, when the expansion succeeds with a
nonzero id and the pair of the delta is the first local pair of its id. -/
def emitted_by (expand : Delta → Skeleton → Except String Skeleton)
    (local_timestamp_by_id : List (Nat × Nat)) (c : Attic Delta × Skeleton) :
    List (Attic Skeleton) :=
  match expand c.1.obj c.2 with
  | Except.ok obj =>
    if obj.id ≠ 0 then
      (if is_first_of_id local_timestamp_by_id c.1 then
        [{ obj := obj, timestamp := c.1.timestamp }] else [])
    else []
  | Except.error _ => []

/-- What the call of `expand` for the delta `c.1` on the reference `c.2` adds to the log. -/
def logged_by (expand : Delta → Skeleton → Except String Skeleton)
    (c : Attic Delta × Skeleton) : List Log_Entry :=
  match expand c.1.obj c.2 with
  | Except.ok obj =>
    if obj.id ≠ 0 then [] else [Log_Entry.cannot_be_expanded c.1.obj.id c.1.timestamp]
  | Except.error what => [Log_Entry.expansion_failed c.1.obj.id c.1.timestamp what]

/-- The expansion of the delta `c.1` on the reference `c.2` fails: it throws or yields an
object with id 0. -/
def Failed (expand : Delta → Skeleton → Except String Skeleton)
    (c : Attic Delta × Skeleton) : Prop :=
  match expand c.1.obj c.2 with
  | Except.ok obj => obj.id = 0
  | Except.error _ => True

instance failed_decidable (expand : Delta → Skeleton → Except String Skeleton)
    (c : Attic Delta × Skeleton) : Decidable (Failed expand c) := by
  unfold Failed
  cases expand c.1.obj c.2 with
  | ok obj => exact inferInstanceAs (Decidable (obj.id = 0))
  | error _ => exact inferInstanceAs (Decidable True)

/-- The deltas of a bucket that the delta overload keeps: those later than the query
timestamp. -/
def fresh_deltas (timestamp : Nat) (att : List (Attic Delta)) : List (Attic Delta) :=
  att.filter (fun d => decide (timestamp < d.timestamp))

/-- The calls of `expand` that the delta overload makes for a bucket with the current
objects `cur` and the attic deltas `att`. -/
def bucket_calls (expand : Delta → Skeleton → Except String Skeleton) (timestamp : Nat)
    (cur : List Skeleton) (att : List (Attic Delta)) : List (Attic Delta × Skeleton) :=
  expand_calls expand (sort_deltas (fresh_deltas timestamp att)) (sort_skels cur)
    default_skeleton

/-- The local pairs of a bucket, sorted. -/
def bucket_local_pairs (timestamp : Nat) (cur : List Skeleton) (att : List (Attic Delta)) :
    List (Nat × Nat) :=
  sort_pairs (cur.map live_pair ++ (fresh_deltas timestamp att).map delta_pair)

/-- The calls of `expand` when the deltas of a sequence are applied one after the other:
the first to `reference`, each later one to the reference that the call before leaves,
which is its expansion result when it succeeds. -/
def reference_chain (expand : Delta → Skeleton → Except String Skeleton)
    (reference : Skeleton) : List (Attic Delta) → List (Attic Delta × Skeleton)
  | [] => []
  | d :: rest =>
    (d, reference) :: reference_chain expand (next_reference expand d reference) rest

/-- The deltas of the id `id` in a bucket that are later than the query timestamp, in the
order in which the expansion loop meets them. -/
def deltas_of (timestamp : Nat) (att : List (Attic Delta)) (id : Nat) : List (Attic Delta) :=
  (sort_deltas (fresh_deltas timestamp att)).filter (fun d => decide (d.obj.id = id))

/-- The current skeleton of the id `id` in a bucket, the default object when there is
none. -/
def base_skeleton (cur : List Skeleton) (id : Nat) : Skeleton :=
  (cur.find? (fun s => decide (s.id = id))).getD default_skeleton

/-- The result container after the objects of a sequence of stream items whose handle
satisfies the predicate have been appended under their indexes, in stream order. -/
def append_matching (pred : Predicate) :
    List (Nat × Skeleton) → Result_Map Skeleton → Result_Map Skeleton
  | [], result => result
  | (i, o) :: rest, result =>
    append_matching pred rest
      (if pred.match_handle (Handle.mk o) then push_object result i o else result)

/-- The resumption of `collect_items_range` in the words of the spec: the call is repeated
with the same request, the result container and the cursor it left and the same resource
manager while it returns `true`; the result container of the call that returns `false` is
the outcome. The first argument bounds the number of calls. -/
def resume_range (stmt : Bool) (db : List (Nat × Skeleton)) (req : List (Nat × Nat))
    (pred : Predicate) :
    Nat → Resource_Manager → Nat → Result_Map Skeleton → Option (Result_Map Skeleton)
  | 0, _, _, _ => none
  | fuel + 1, rman, cur_idx, result =>
    if (collect_items_range stmt rman db req pred cur_idx result).1 then
      resume_range stmt db req pred fuel
        (collect_items_range stmt rman db req pred cur_idx result).2.rman
        (collect_items_range stmt rman db req pred cur_idx result).2.cur_idx
        (collect_items_range stmt rman db req pred cur_idx result).2.result
    else some (collect_items_range stmt rman db req pred cur_idx result).2.result

/-- The list `indexes` holds the bucket indexes of the iterations of the driver loop that
starts in the state `w` and ends with `outcome`: the loop returns `false` in the state that
the iterations for these indexes, one after the other, lead to, and before the iteration
number `k` the index that the loop chooses by `next_index` is the `k`-th of the list, none
being chosen after the last. -/
def Driver_Trace {γ : Type} (recon : Nat → Bucket γ → Bucket γ) (stmt : Bool) (w : Walk γ)
    (outcome : Option (Bool × Walk γ)) (indexes : List Nat) : Prop :=
  outcome = some (false, indexes.foldl (walk_step recon stmt) w) ∧
  ∀ k, next_index ((indexes.take k).foldl (walk_step recon stmt) w).current
      ((indexes.take k).foldl (walk_step recon stmt) w).attic = indexes[k]?

/-- The records of the present format that start at the offset `pos` of an index file lie
wholly inside the file: every record, made of 12 bytes and the bytes of an index whose size
the index type reports, ends at or before the end of the file, so that the walk of
`init_blocks` never reads beyond the buffer. The first argument bounds the number of
records. -/
def complete_records {I : Type} (T : Index_Type I) (buf : List Nat) : Nat → Nat → Bool
  | 0, pos => decide (buf.length ≤ pos)
  | fuel + 1, pos =>
    decide (buf.length ≤ pos) ||
      (decide (pos + 12 + T.size_of_data (buf.drop (pos + 12)) ≤ buf.length) &&
        complete_records T buf fuel (pos + 12 + T.size_of_data (buf.drop (pos + 12))))

/-- The index `i` lies in the half-open range `[lower, upper)`. -/
def In_Range (r : Nat × Nat) (i : Nat) : Prop :=
  r.1 ≤ i ∧ i < r.2

instance in_range_decidable (r : Nat × Nat) (i : Nat) : Decidable (In_Range r i) :=
  inferInstanceAs (Decidable (r.1 ≤ i ∧ i < r.2))

/-- The block `i` lies in the range `[pos, pos+size)` of the entry. -/
def Covers {I : Type} (e : File_Block_Index_Entry I) (i : Nat) : Prop :=
  e.pos ≤ i ∧ i < e.pos + e.size

instance covers_decidable {I : Type} (e : File_Block_Index_Entry I) (i : Nat) :
    Decidable (Covers e i) :=
  inferInstanceAs (Decidable (e.pos ≤ i ∧ i < e.pos + e.size))

/-- The block `i` lies in the void run `(length, start)`. -/
def In_Run (r : Nat × Nat) (i : Nat) : Prop :=
  r.2 ≤ i ∧ i < r.2 + r.1

instance in_run_decidable (r : Nat × Nat) (i : Nat) : Decidable (In_Run r i) :=
  inferInstanceAs (Decidable (r.2 ≤ i ∧ i < r.2 + r.1))

/-- Two void runs with at least one block between them. -/
def Apart (r t : Nat × Nat) : Prop :=
  r.2 + r.1 < t.2 ∨ t.2 + t.1 < r.2

instance apart_decidable : DecidableRel Apart := fun r t =>
  inferInstanceAs (Decidable (r.2 + r.1 < t.2 ∨ t.2 + t.1 < r.2))

/-- Two entries whose block ranges do not overlap. -/
def Disjoint_Entries {I : Type} (e f : File_Block_Index_Entry I) : Prop :=
  e.pos + e.size ≤ f.pos ∨ f.pos + f.size ≤ e.pos

instance disjoint_entries_decidable {I : Type} :
    DecidableRel (Disjoint_Entries : File_Block_Index_Entry I → File_Block_Index_Entry I → Prop) :=
  fun e f => inferInstanceAs (Decidable (e.pos + e.size ≤ f.pos ∨ f.pos + f.size ≤ e.pos))

/-- The entries the index holds, in the list and in the array. -/
def File_Blocks_Index.entries {I : Type} (s : File_Blocks_Index I) :
    List (File_Block_Index_Entry I) :=
  s.block_list ++ s.block_array

/-- An index type whose bytes decode to the index they were written from: `to_data` writes
`size_of()` bytes, and the constructor and the static `size_of` applied to these bytes,
whatever follows them, give back the index and its size. -/
def Index_Type.Decodes {I : Type} (T : Index_Type I) : Prop :=
  ∀ (index : I) (rest : List Nat),
    (T.to_data index).length = T.size_of index ∧
    T.from_data (T.to_data index ++ rest) = index ∧
    T.size_of_data (T.to_data index ++ rest) = T.size_of index

/-- An index type with one encoding per value: `to_data` writes `size_of()` bytes, and the
index read from a pointer into bytes writes back the bytes it was read from and has the
size the static `size_of` reports. -/
def Index_Type.Canonical {I : Type} (T : Index_Type I) : Prop :=
  (∀ (index : I), (T.to_data index).length = T.size_of index) ∧
  ∀ (data : List Nat), (∀ b ∈ data, b < 256) → T.size_of_data data ≤ data.length →
    T.to_data (T.from_data data) = data.take (T.size_of_data data) ∧
    T.size_of (T.from_data data) = T.size_of_data data

/-- A four-byte index type in the manner of `Uint32_Index`, used for the examples: the
index is the 32-bit value stored in the four bytes. -/
def Uint32_Index : Index_Type (Fin 4294967296) where
  from_data := fun data => Fin.ofNat ((read_uint32 data 0).getD 0)
  size_of_data := fun _ => 4
  size_of := fun _ => 4
  to_data := fun index => uint32_bytes index.val

/-- What the scan has established before block `i`: the last start is not beyond `i`; the
runs found are not empty and end before the last start; a block before `i` is unmarked
exactly if it lies in a run found or at or after the last start; the runs found are in
ascending order with at least one block between two of them. -/
def Scanned (is_referred : List Bool) (i last_start : Nat) (void_blocks : List (Nat × Nat)) :
    Prop :=
  last_start ≤ i ∧
  (∀ r ∈ void_blocks, 0 < r.1 ∧ r.2 + r.1 < last_start) ∧
  (∀ j, j < i → (is_referred.getD j false = false ↔
    ((∃ r ∈ void_blocks, In_Run r j) ∨ last_start ≤ j))) ∧
  void_blocks.Pairwise (fun r t => r.2 + r.1 < t.2)

/-- The set of the blocks of a list of ranges `(start, length)`. -/
def range_blocks (l : List (Nat × Nat)) : Finset Nat :=
  l.foldr (fun p acc => Finset.Ico p.1 (p.1 + p.2) ∪ acc) ∅

/-- An index file in the present format for the examples: the header of version 7560 for
block size 1 and compression factor 1, and two entries with a four-byte index, the first
with index 17, `pos` 0, `size` 3, `max_keysize` 9, the second with index 5, `pos` 5,
`size` 2, `max_keysize` 8. The entries are not in the order of their indexes. -/
def example_index_file : List Nat :=
  [136, 29, 0, 0, 0, 0, 0, 0,
   0, 0, 0, 0, 3, 0, 0, 0, 9, 0, 0, 0, 17, 0, 0, 0,
   5, 0, 0, 0, 2, 0, 0, 0, 8, 0, 0, 0, 5, 0, 0, 0]

/-- The writeable index that the constructor builds from `example_index_file` and a data
file of ten blocks of size 1 when there is no empty-index file. -/
def example_index : File_Blocks_Index (Fin 4294967296) :=
  { writeable := true, file_name_extension_ := "", index_buf := none, file_size := 10,
    index_size := 40, block_array := [],
    block_list := [⟨17, 0, 3, 9⟩, ⟨5, 5, 2, 8⟩], void_blocks := [(2, 3), (3, 7)],
    void_blocks_initialized := true, block_size_ := 1, compression_factor := 1,
    compression_method := 0, block_count := 10 }

/-- An index file whose two entries overlap: `pos` 0, `size` 2 and `pos` 1, `size` 2. -/
def overlapping_index_file : List Nat :=
  [136, 29, 0, 0, 0, 0, 0, 0,
   0, 0, 0, 0, 2, 0, 0, 0, 9, 0, 0, 0, 17, 0, 0, 0,
   1, 0, 0, 0, 2, 0, 0, 0, 8, 0, 0, 0, 18, 0, 0, 0]

/-- The writeable index that the constructor builds from `overlapping_index_file` and a
data file of three blocks of size 1 when there is no empty-index file. -/
def overlapping_index : File_Blocks_Index (Fin 4294967296) :=
  { writeable := true, file_name_extension_ := "", index_buf := none, file_size := 3,
    index_size := 40, block_array := [],
    block_list := [⟨17, 0, 2, 9⟩, ⟨18, 1, 2, 8⟩], void_blocks := [],
    void_blocks_initialized := true, block_size_ := 1, compression_factor := 1,
    compression_method := 0, block_count := 3 }

/-- An index file whose single entry has `pos` 1 and `size` 4294967295, so that the 32-bit
sum `pos + size` is 0. -/
def wrapping_index_file : List Nat :=
  [136, 29, 0, 0, 0, 0, 0, 0,
   1, 0, 0, 0, 255, 255, 255, 255, 9, 0, 0, 0, 17, 0, 0, 0]

/-- The read-only index that the constructor builds from `wrapping_index_file` and a data
file of two blocks of size 1; the entries are not parsed yet. -/
def wrapping_index : File_Blocks_Index (Fin 4294967296) :=
  { writeable := false, file_name_extension_ := "", index_buf := some wrapping_index_file,
    file_size := 2, index_size := 24, block_array := [], block_list := [], void_blocks := [],
    void_blocks_initialized := false, block_size_ := 1, compression_factor := 1,
    compression_method := 0, block_count := 2 }

/-- The read-only index that the constructor builds from `example_index_file` and a data
file of ten blocks of size 1; the entries are not parsed yet. -/
def readonly_example_index : File_Blocks_Index (Fin 4294967296) :=
  { writeable := false, file_name_extension_ := "", index_buf := some example_index_file,
    file_size := 10, index_size := 40, block_array := [], block_list := [], void_blocks := [],
    void_blocks_initialized := false, block_size_ := 1, compression_factor := 1,
    compression_method := 0, block_count := 10 }

/-- The index `readonly_example_index` after `init_blocks`: a read-only index keeps its
entries in `block_array`. -/
def parsed_example_index : File_Blocks_Index (Fin 4294967296) :=
  { readonly_example_index with
    index_buf := none, block_array := [⟨17, 0, 3, 9⟩, ⟨5, 5, 2, 8⟩] }

/-- An index without entries as the constructor sets it up before `init_structure_params`:
with the given index buffer, data file size, and the block size and compression factor of
the file properties. Used for the examples. -/
def fresh_index (writeable : Bool) (index_file : List Nat)
    (file_size block_size compression_factor : Nat) : File_Blocks_Index (Fin 4294967296) :=
  { writeable := writeable, file_name_extension_ := "",
    index_buf := if index_file.length = 0 then none else some index_file,
    file_size := file_size, index_size := index_file.length, block_array := [],
    block_list := [], void_blocks := [], void_blocks_initialized := false,
    block_size_ := block_size, compression_factor := compression_factor,
    compression_method := 0, block_count := 0 }

/-- An index file with the header of the older version 7512 that the loader accepts, and
the two entries of `example_index_file` in the order of their indexes, 5 before 17. -/
def old_version_index_file : List Nat :=
  [88, 29, 0, 0, 0, 0, 0, 0,
   5, 0, 0, 0, 2, 0, 0, 0, 8, 0, 0, 0, 5, 0, 0, 0,
   0, 0, 0, 0, 3, 0, 0, 0, 9, 0, 0, 0, 17, 0, 0, 0]

/-- The writeable index that the constructor builds from `old_version_index_file` and a
data file of ten blocks of size 1 when there is no empty-index file. -/
def old_version_index : File_Blocks_Index (Fin 4294967296) :=
  { writeable := true, file_name_extension_ := "", index_buf := none, file_size := 10,
    index_size := 40, block_array := [],
    block_list := [⟨5, 5, 2, 8⟩, ⟨17, 0, 3, 9⟩], void_blocks := [(2, 3), (3, 7)],
    void_blocks_initialized := true, block_size_ := 1, compression_factor := 1,
    compression_method := 0, block_count := 10 }

/-- The entries of a writeable index are sorted by index. -/
def Sorted_By_Index {I : Type} (le : I → I → Prop) (s : File_Blocks_Index I) : Prop :=
  s.block_list.Pairwise (fun a b => le a.index b.index)

instance sorted_by_index_decidable {I : Type} (le : I → I → Prop) [DecidableRel le]
    (s : File_Blocks_Index I) : Decidable (Sorted_By_Index le s) :=
  inferInstanceAs (Decidable (s.block_list.Pairwise
    (fun (a b : File_Block_Index_Entry I) => le a.index b.index)))

/-- The size the constructor takes for the data file: the 64-bit size of the file, and 0
when the file cannot be opened. -/
def file_size_of (data_file : File_Result Nat) : Nat :=
  match data_file with
  | Except.ok size => size % 2 ^ 64
  | Except.error _ => 0

/-- The buffer the constructor fills from the content of the index file: `index_size` is a
`uint32`. -/
def index_buffer (content : List Nat) : List Nat :=
  content.take (content.length % 2 ^ 32)

/-- The effective block size of a load that holds an index buffer: with the extension
".legacy" the block size of the file properties, else `1ull << buf[4]`. -/
def effective_block_size (file_name_extension : String) (prop_block_size : Nat)
    (buf : List Nat) : Option Nat :=
  if file_name_extension = ".legacy" then some prop_block_size
  else (read_uint8 buf 4).map (fun log_block_size => 2 ^ log_block_size % 2 ^ 64)

/-- An index file that holds nothing but the header of version 7560 for block size 1 and
compression factor 1. -/
def header_only_index_file : List Nat := [136, 29, 0, 0, 0, 0, 0, 0]

/-- The legacy record in the words of the spec: the index bytes, then `u32 pos` and
`u32 max_keysize`; the size is implicit. -/
def legacy_entry_bytes {I : Type} (T : Index_Type I) (e : File_Block_Index_Entry I) :
    List Nat :=
  T.to_data e.index ++ uint32_bytes e.pos ++ uint32_bytes e.max_keysize

/-- An index file in the legacy format for the examples, without header: the records of
index 5 at `pos` 5 with `max_keysize` 8 and of index 17 at `pos` 0 with `max_keysize` 9. -/
def legacy_index_file : List Nat :=
  [5, 0, 0, 0, 5, 0, 0, 0, 8, 0, 0, 0,
   17, 0, 0, 0, 0, 0, 0, 0, 9, 0, 0, 0]

/-- The modern layout in the words of the spec: `u32 format_version = 7560`,
`u8 log2(block_size)`, `u8 log2(compression_factor)`, `u16 compression_method`, then one
record `u32 pos, u32 size, u32 max_keysize, index bytes` per entry. -/
def modern_layout {I : Type} (T : Index_Type I) (block_size compression_factor : Nat)
    (compression_method : Int) (entries : List (File_Block_Index_Entry I)) : List Nat :=
  uint32_bytes 7560 ++ [Nat.log 2 block_size % 256] ++ [Nat.log 2 compression_factor % 256]
    ++ uint16_bytes (compression_method % 65536).toNat
    ++ (entries.map (fun e =>
        uint32_bytes e.pos ++ uint32_bytes e.size ++ uint32_bytes e.max_keysize
          ++ T.to_data e.index)).flatten

/-- The writeable index that the constructor builds from `legacy_index_file`, opened with
the extension ".legacy", and a data file of ten blocks of size 1. -/
def legacy_index : File_Blocks_Index (Fin 4294967296) :=
  { writeable := true, file_name_extension_ := ".legacy", index_buf := none, file_size := 10,
    index_size := 24, block_array := [],
    block_list := [⟨5, 5, 1, 8⟩, ⟨17, 0, 1, 9⟩], void_blocks := [(4, 1), (4, 6)],
    void_blocks_initialized := true, block_size_ := 1, compression_factor := 1,
    compression_method := 0, block_count := 10 }

/-- The two views of a parsed index are consistent with the entries `E`: the list holds
them and the vector holds them or is empty, or the list is empty and the vector holds
them. -/
def Views_Of {I : Type} (E : List (File_Block_Index_Entry I)) (s : File_Blocks_Index I) :
    Prop :=
  s.index_buf = none ∧
  ((s.block_list = E ∧ (s.block_array = E ∨ s.block_array = [])) ∨
    (s.block_list = [] ∧ s.block_array = E))

/-- The reference definition of `de_escape`: scanning left to right, a character other than
the backslash is copied; a backslash followed by `n` yields a newline, followed by `t` a
tab, followed by any other character that character; a lone backslash at the end is
dropped. -/
def de_escape_reference : List Char → List Char
  | [] => []
  | c :: rest =>
    if c ≠ backslash then c :: de_escape_reference rest
    else
      match rest with
      | [] => []
      | x :: tail =>
        if x = 'n' then newline :: de_escape_reference tail
        else if x = 't' then tab :: de_escape_reference tail
        else x :: de_escape_reference tail

/-! # Properties -/

/-! ## Result containers -/

theorem map_get_map_set_same {α : Type} (m : Result_Map α) (i : Nat) (v : List α) :
    map_get (map_set m i v) i = v := by
  induction m with
  | nil => simp [map_set, map_get]
  | cons kw m ih =>
    obtain ⟨k, w⟩ := kw
    by_cases h1 : i = k
    · simp [map_set, map_get, h1]
    · by_cases h2 : i < k
      · simp [map_set, map_get, h1, h2]
      · simp [map_set, map_get, h1, h2, ih]

theorem map_get_map_set_other {α : Type} (m : Result_Map α) (i j : Nat) (v : List α)
    (h : j ≠ i) : map_get (map_set m i v) j = map_get m j := by
  induction m with
  | nil =>
    simp only [map_set, map_get]
    split_ifs <;> simp_all
  | cons kw m ih =>
    obtain ⟨k, w⟩ := kw
    by_cases h1 : i = k
    · subst h1
      simp [map_set, map_get, h]
    · by_cases h2 : i < k
      · simp only [map_set, map_get, h1, h2, if_true, if_false, h]
        by_cases h3 : j = k
        · subst h3
          have : ¬ j < i := by omega
          simp [this]
        · by_cases h4 : j < i
          · have : j < k := by omega
            simp [h3, h4, this]
          · simp [h3, h4]
      · simp only [map_set, map_get, h1, h2, if_false]
        by_cases h3 : j = k
        · simp [h3]
        · by_cases h4 : j < k
          · simp [h3, h4]
          · simp [h3, h4, ih]

theorem map_get_map_set {α : Type} (m : Result_Map α) (i j : Nat) (v : List α) :
    map_get (map_set m i v) j = if j = i then v else map_get m j := by
  by_cases h : j = i
  · subst h
    simp [map_get_map_set_same]
  · simp [h, map_get_map_set_other m i j v h]

theorem map_objects_map_set {α : Type} (m : Result_Map α) (i : Nat) (v : List α) :
    ∃ l1 l2, map_objects m = l1 ++ map_get m i ++ l2 ∧
      map_objects (map_set m i v) = l1 ++ v ++ l2 := by
  induction m with
  | nil => exact ⟨[], [], by simp [map_objects, map_get, map_set]⟩
  | cons kw m ih =>
    obtain ⟨k, w⟩ := kw
    by_cases h1 : i = k
    · exact ⟨[], map_objects m, by simp [map_objects, map_get, map_set, h1]⟩
    · by_cases h2 : i < k
      · exact ⟨[], map_objects ((k, w) :: m), by simp [map_objects, map_get, map_set, h1, h2]⟩
      · obtain ⟨l1, l2, e1, e2⟩ := ih
        refine ⟨w ++ l1, l2, ?_, ?_⟩
        · simp only [map_objects] at e1 ⊢
          simp [map_get, h1, h2, e1]
        · simp only [map_objects] at e2 ⊢
          simp [map_set, h1, h2, e2]

theorem mem_map_objects_of_mem_map_get {α : Type} (m : Result_Map α) (i : Nat) (o : α)
    (h : o ∈ map_get m i) : o ∈ map_objects m := by
  obtain ⟨l1, l2, e1, _⟩ := map_objects_map_set m i []
  rw [e1]
  simp [h]

theorem mem_map_objects_iff {α : Type} (m : Result_Map α) (o : α) :
    o ∈ map_objects m ↔ ∃ k w, (k, w) ∈ m ∧ o ∈ w := by
  simp only [map_objects, List.mem_flatten, List.mem_map, Prod.exists]
  constructor
  · rintro ⟨l, ⟨k, w, h1, rfl⟩, h2⟩
    exact ⟨k, w, h1, h2⟩
  · rintro ⟨k, w, h1, h2⟩
    exact ⟨w, ⟨k, w, h1, rfl⟩, h2⟩

/-! ## Sorting and searching the recorded pairs -/

theorem sort_pairs_sorted (l : List (Nat × Nat)) : (sort_pairs l).Sorted pair_le :=
  List.sorted_insertionSort pair_le l

theorem sort_pairs_perm (l : List (Nat × Nat)) : (sort_pairs l).Perm l :=
  List.perm_insertionSort pair_le l

theorem mem_sort_pairs (l : List (Nat × Nat)) (p : Nat × Nat) : p ∈ sort_pairs l ↔ p ∈ l :=
  (sort_pairs_perm l).mem_iff

theorem pair_lt_zero (p : Nat × Nat) (id : Nat) : pair_lt p (id, 0) = decide (p.1 < id) := by
  simp [pair_lt]

/-- On a sorted vector, the element `lower_bound` finds for `(id, 0)` has the id `id` and
the timestamp `t` exactly if `(id, t)` is in the vector and no pair of that id has a
smaller timestamp. -/
theorem lower_bound_zero (l : List (Nat × Nat)) (id : Nat) :
    lower_bound l (id, 0) = l.dropWhile (fun p => decide (p.1 < id)) := by
  unfold lower_bound
  congr 1
  funext p
  exact pair_lt_zero p id

theorem lower_bound_sorted (l : List (Nat × Nat)) (hs : l.Sorted pair_le) (id t : Nat) :
    (∃ tit rest, lower_bound l (id, 0) = tit :: rest ∧ tit.1 = id ∧ tit.2 = t) ↔
      ((id, t) ∈ l ∧ ∀ t2, (id, t2) ∈ l → t ≤ t2) := by
  rw [lower_bound_zero]
  induction l with
  | nil => simp [lower_bound]
  | cons a l ih =>
    have hs2 : l.Sorted pair_le := hs.of_cons
    have ha : ∀ b ∈ l, pair_le a b := fun b hb => List.rel_of_sorted_cons hs b hb
    rw [List.dropWhile_cons]
    by_cases h : a.1 < id
    · simp only [h, decide_True, if_true]
      rw [ih hs2]
      constructor
      · rintro ⟨h1, h2⟩
        refine ⟨List.mem_cons_of_mem _ h1, ?_⟩
        intro t2 ht2
        rcases List.mem_cons.1 ht2 with e | e
        · rw [← e] at h; simp at h
        · exact h2 t2 e
      · rintro ⟨h1, h2⟩
        constructor
        · rcases List.mem_cons.1 h1 with e | e
          · rw [← e] at h; simp at h
          · exact e
        · intro t2 ht2
          exact h2 t2 (List.mem_cons_of_mem _ ht2)
    · simp only [h, decide_False, if_false]
      constructor
      · rintro ⟨tit, rest, e, h1, h2⟩
        have e1 : a = tit := (List.cons.inj e).1
        subst e1
        refine ⟨?_, ?_⟩
        · have : a = (id, t) := by
            obtain ⟨a1, a2⟩ := a
            simp_all
          rw [this]; exact List.mem_cons_self _ _
        · intro t2 ht2
          rcases List.mem_cons.1 ht2 with e2 | e2
          · rw [← e2] at h2; simp at h2; omega
          · have := ha _ e2
            unfold pair_le at this
            simp at this
            omega
      · rintro ⟨h1, h2⟩
        refine ⟨a, l, rfl, ?_⟩
        rcases List.mem_cons.1 h1 with e | e
        · rw [← e]; simp
        · have h3 := ha _ e
          unfold pair_le at h3
          simp at h3
          have h4 : a.1 = id := by omega
          refine ⟨h4, ?_⟩
          have h5 : (id, a.2) ∈ a :: l := by
            rw [← h4]; exact List.mem_cons_self _ _
          have := h2 _ h5
          omega

/-- What the test of `filter_items_by_timestamp` means on the sorted pairs: the pair of the
object was recorded and no pair of its id with a smaller timestamp was. -/
theorem timestamp_matches_sort_pairs {α : Type} [Element α] (l : List (Nat × Nat)) (o : α) :
    timestamp_matches (sort_pairs l) o = true ↔
      ((Element.id_of o, Element.timestamp_of o) ∈ l ∧
        ∀ t, (Element.id_of o, t) ∈ l → Element.timestamp_of o ≤ t) := by
  have key := lower_bound_sorted (sort_pairs l) (sort_pairs_sorted l) (Element.id_of o)
    (Element.timestamp_of o)
  simp only [mem_sort_pairs] at key
  rw [← key]
  unfold timestamp_matches
  cases h : lower_bound (sort_pairs l) (Element.id_of o, 0) with
  | nil => simp
  | cons tit rest => simp

theorem is_first_of_id_sort_pairs (l : List (Nat × Nat)) (d : Attic Delta) :
    is_first_of_id (sort_pairs l) d = true ↔
      ((d.obj.id, d.timestamp) ∈ l ∧ ∀ t, (d.obj.id, t) ∈ l → d.timestamp ≤ t) := by
  have key := lower_bound_sorted (sort_pairs l) (sort_pairs_sorted l) d.obj.id d.timestamp
  simp only [mem_sort_pairs] at key
  rw [← key]
  unfold is_first_of_id
  cases h : lower_bound (sort_pairs l) (d.obj.id, 0) with
  | nil => simp
  | cons tit rest => simp

theorem mem_filter_items_by_timestamp {α : Type} [Element α] (l : List (Nat × Nat))
    (v : List α) (o : α) :
    o ∈ filter_items_by_timestamp (sort_pairs l) v ↔
      (o ∈ v ∧ (Element.id_of o, Element.timestamp_of o) ∈ l ∧
        ∀ t, (Element.id_of o, t) ∈ l → Element.timestamp_of o ≤ t) := by
  unfold filter_items_by_timestamp
  rw [List.mem_filter, timestamp_matches_sort_pairs]

/-! ## The simple overload of `reconstruct_items` -/

theorem reconstruct_items_eq {α : Type} [Element α] (pm : α → Bool) (index q : Nat)
    (l : List (Nat × α)) (result : List α) (tbi : List (Nat × Nat)) (count : Nat) :
    (reconstruct_items pm index q l result tbi count).1 = rest_of index l ∧
    (reconstruct_items pm index q l result tbi count).2.1 = result ++
      (bucket_of index l).filter (fun o => decide (q < Element.timestamp_of o) && pm o) ∧
    (reconstruct_items pm index q l result tbi count).2.2.1 = tbi ++
      ((bucket_of index l).filter (fun o => decide (q < Element.timestamp_of o))).map
        (fun o => (Element.id_of o, Element.timestamp_of o)) := by
  induction l generalizing result tbi count with
  | nil => simp [reconstruct_items, rest_of, bucket_of]
  | cons a l ih =>
    obtain ⟨i, o⟩ := a
    by_cases h : i = index
    · by_cases h2 : q < Element.timestamp_of o
      · simp only [reconstruct_items, h, h2, if_true]
        obtain ⟨e1, e2, e3⟩ := ih (if pm o then result ++ [o] else result)
          (tbi ++ [(Element.id_of o, Element.timestamp_of o)]) ((count + 1) % 2 ^ 32)
        refine ⟨?_, ?_, ?_⟩
        · rw [e1]; simp [rest_of]
        · rw [e2]
          by_cases h3 : pm o <;> simp [bucket_of, h2, h3]
        · rw [e3]; simp [bucket_of, h2]
      · simp only [reconstruct_items, h, h2, if_true, if_false]
        obtain ⟨e1, e2, e3⟩ := ih result tbi ((count + 1) % 2 ^ 32)
        refine ⟨?_, ?_, ?_⟩
        · rw [e1]; simp [rest_of]
        · rw [e2]; simp [bucket_of, h2]
        · rw [e3]; simp [bucket_of, h2]
    · simp [reconstruct_items, h, rest_of, bucket_of]

/-! ## The delta overload of `reconstruct_items` -/

theorem collect_current_eq (idx : Nat) (l : List (Nat × Skeleton)) (c : Collected) :
    (collect_current idx l c).1 = rest_of idx l ∧
    (collect_current idx l c).2.skels = c.skels ++ bucket_of idx l ∧
    (collect_current idx l c).2.deltas = c.deltas ∧
    (collect_current idx l c).2.timestamp_by_id =
      c.timestamp_by_id ++ (bucket_of idx l).map live_pair ∧
    (collect_current idx l c).2.local_timestamp_by_id =
      c.local_timestamp_by_id ++ (bucket_of idx l).map live_pair := by
  induction l generalizing c with
  | nil => simp [collect_current, rest_of, bucket_of]
  | cons a l ih =>
    obtain ⟨i, o⟩ := a
    by_cases h : i = idx
    · simp only [collect_current, h, if_true]
      obtain ⟨e1, e2, e3, e4, e5⟩ := ih
        { c with
          timestamp_by_id := c.timestamp_by_id ++ [(o.id, NOW)]
          local_timestamp_by_id := c.local_timestamp_by_id ++ [(o.id, NOW)]
          skels := c.skels ++ [o] }
      rw [e1, e2, e3, e4, e5]
      simp [rest_of, bucket_of, live_pair]
    · simp [collect_current, h, rest_of, bucket_of]

theorem collect_attic_eq (idx q : Nat) (l : List (Nat × Attic Delta)) (c : Collected) :
    (collect_attic idx q l c).1 = rest_of idx l ∧
    (collect_attic idx q l c).2.skels = c.skels ∧
    (collect_attic idx q l c).2.deltas =
      c.deltas ++ (bucket_of idx l).filter (fun d => decide (q < d.timestamp)) ∧
    (collect_attic idx q l c).2.timestamp_by_id = c.timestamp_by_id ++
      ((bucket_of idx l).filter (fun d => decide (q < d.timestamp))).map delta_pair ∧
    (collect_attic idx q l c).2.local_timestamp_by_id = c.local_timestamp_by_id ++
      ((bucket_of idx l).filter (fun d => decide (q < d.timestamp))).map delta_pair := by
  induction l generalizing c with
  | nil => simp [collect_attic, rest_of, bucket_of]
  | cons a l ih =>
    obtain ⟨i, d⟩ := a
    by_cases h : i = idx
    · by_cases h2 : q < d.timestamp
      · simp only [collect_attic, h, h2, if_true]
        obtain ⟨e1, e2, e3, e4, e5⟩ := ih
          { c with
            timestamp_by_id := c.timestamp_by_id ++ [(d.obj.id, d.timestamp)]
            local_timestamp_by_id := c.local_timestamp_by_id ++ [(d.obj.id, d.timestamp)]
            deltas := c.deltas ++ [d] }
        rw [e1, e2, e3, e4, e5]
        simp [rest_of, bucket_of, delta_pair, h2]
      · simp only [collect_attic, h, h2, if_true, if_false]
        obtain ⟨e1, e2, e3, e4, e5⟩ := ih c
        rw [e1, e2, e3, e4, e5]
        simp [rest_of, bucket_of, h2]
    · simp [collect_attic, h, rest_of, bucket_of]

theorem reconstructs_simple (pred : Predicate) (q : Nat) :
    Reconstructs (fun index => reconstruct_simple pred index q) (simple_contribution pred q) := by
  intro index b
  obtain ⟨c1, c2, c3⟩ := reconstruct_items_eq pred.match_skel index q b.current b.result
    b.timestamp_by_id b.count
  obtain ⟨a1, a2, a3⟩ := reconstruct_items_eq pred.match_attic index q b.attic b.attic_result
    (reconstruct_items pred.match_skel index q b.current b.result b.timestamp_by_id
      b.count).2.2.1
    (reconstruct_items pred.match_skel index q b.current b.result b.timestamp_by_id
      b.count).2.2.2
  refine ⟨c1, a1, ?_, ?_, ?_⟩
  · show (reconstruct_items pred.match_skel index q b.current b.result b.timestamp_by_id
      b.count).2.1 = _
    rw [c2]
    simp [simple_contribution, Element.timestamp_of]
  · show (reconstruct_items pred.match_attic index q b.attic b.attic_result _ _).2.1 = _
    rw [a2]
    simp [simple_contribution, Element.timestamp_of]
  · show (reconstruct_items pred.match_attic index q b.attic b.attic_result _ _).2.2.1 = _
    rw [a3, c3]
    simp only [simple_contribution, Element.timestamp_of, Element.id_of, List.append_assoc]
    rfl

theorem expand_deltas_attics_rman (expand : Delta → Skeleton → Except String Skeleton)
    (loc : List (Nat × Nat)) (ds : List (Attic Delta)) :
    ∀ (skels_it : List Skeleton) (reference : Skeleton) (attics : List (Attic Skeleton))
      (rman : Resource_Manager),
      (expand_deltas expand loc ds skels_it reference attics rman).1 =
        attics ++ (expand_deltas expand loc ds skels_it reference [] quiet).1 := by
  induction ds with
  | nil => intro _ _ _ _; simp [expand_deltas]
  | cons d ds ih =>
    intro skels_it reference attics rman
    simp only [expand_deltas]
    cases h : expand d.obj (choose_reference skels_it reference d.obj.id).2 with
    | error what =>
      simp only []
      rw [ih _ _ attics (rman.log_and_display_error _),
        ih _ _ [] (quiet.log_and_display_error _)]
      simp
    | ok obj =>
      simp only []
      by_cases h0 : obj.id = 0
      · simp only [h0, ne_eq, not_true_eq_false, if_false]
        rw [ih _ _ attics (rman.log_and_display_error _),
          ih _ _ [] (quiet.log_and_display_error _)]
        simp
      · simp only [h0, ne_eq, not_false_eq_true, if_true]
        rw [ih _ _ (if is_first_of_id loc d = true then _ else attics) rman,
          ih _ _ (if is_first_of_id loc d = true then _ else []) quiet]
        by_cases h1 : is_first_of_id loc d = true <;> simp [h1]

theorem reconstructs_delta (expand : Delta → Skeleton → Except String Skeleton)
    (pred : Predicate) (q : Nat) :
    Reconstructs (fun index => reconstruct_delta expand pred index q)
      (delta_contribution expand pred q) := by
  intro index b
  obtain ⟨c1, c2, c3, c4, c5⟩ := collect_current_eq index b.current
    { skels := [], deltas := [], timestamp_by_id := b.timestamp_by_id,
      local_timestamp_by_id := [] }
  obtain ⟨a1, a2, a3, a4, a5⟩ := collect_attic_eq index q b.attic
    (collect_current index b.current
      { skels := [], deltas := [], timestamp_by_id := b.timestamp_by_id,
        local_timestamp_by_id := [] }).2
  simp only [List.nil_append] at c2 c3 c5
  rw [c2] at a2
  rw [c3] at a3
  rw [c4] at a4
  rw [c5] at a5
  simp only [List.nil_append] at a3
  refine ⟨c1, a1, ?_, ?_, ?_⟩
  · show b.result ++ (sort_skels (collect_attic index q b.attic _).2.skels).filter _ = _
    rw [a2]
    rfl
  · show b.attic_result ++ (expand_deltas expand
        (sort_pairs (collect_attic index q b.attic _).2.local_timestamp_by_id)
        (sort_deltas (collect_attic index q b.attic _).2.deltas)
        (sort_skels (collect_attic index q b.attic _).2.skels) default_skeleton []
        b.rman).1.filter _ = _
    rw [a2, a3, a5, expand_deltas_attics_rman]
    rfl
  · show (collect_attic index q b.attic _).2.timestamp_by_id = _
    rw [a4]
    simp [delta_contribution, List.append_assoc]

/-! ## The driver loop -/

theorem rest_of_length_le {α : Type} (index : Nat) (l : List (Nat × α)) :
    (rest_of index l).length ≤ l.length :=
  (List.dropWhile_sublist _).length_le

theorem rest_of_cons_self {α : Type} (index : Nat) (o : α) (l : List (Nat × α)) :
    rest_of index ((index, o) :: l) = rest_of index l := by
  simp [rest_of]

theorem next_index_none {α β : Type} (cur : List (Nat × α)) (att : List (Nat × β)) :
    next_index cur att = none ↔ cur = [] ∧ att = [] := by
  cases cur with
  | nil => cases att with
    | nil => simp [next_index]
    | cons a att => obtain ⟨ai, ao⟩ := a; simp [next_index]
  | cons c cur =>
    obtain ⟨ci, co⟩ := c
    cases att with
    | nil => simp [next_index]
    | cons a att => obtain ⟨ai, ao⟩ := a; simp [next_index]

/-- The bucket index is the index under one of the two iterators and is not greater than
either. -/
theorem next_index_some {α β : Type} (cur : List (Nat × α)) (att : List (Nat × β))
    (index : Nat) (h : next_index cur att = some index) :
    ((∃ o rest, cur = (index, o) :: rest) ∨ (∃ o rest, att = (index, o) :: rest)) ∧
      (∀ p ∈ cur.head?, index ≤ p.1) ∧ (∀ p ∈ att.head?, index ≤ p.1) := by
  cases cur with
  | nil => cases att with
    | nil => simp [next_index] at h
    | cons a att =>
      obtain ⟨ai, ao⟩ := a
      simp only [next_index, Option.some.injEq] at h
      subst h
      simp
  | cons c cur =>
    obtain ⟨ci, co⟩ := c
    cases att with
    | nil =>
      simp only [next_index, Option.some.injEq] at h
      subst h
      simp
    | cons a att =>
      obtain ⟨ai, ao⟩ := a
      simp only [next_index, Option.some.injEq] at h
      by_cases hlt : ci < ai
      · simp only [hlt, if_true] at h
        subst h
        simp
        omega
      · simp only [hlt, if_false] at h
        subst h
        simp
        omega

/-- Every iteration advances at least one of the two iterators. -/
theorem next_index_progress {α β : Type} (cur : List (Nat × α)) (att : List (Nat × β))
    (index : Nat) (h : next_index cur att = some index) :
    (rest_of index cur).length + (rest_of index att).length < cur.length + att.length := by
  obtain ⟨h1, _, _⟩ := next_index_some cur att index h
  have hc := rest_of_length_le index cur
  have ha := rest_of_length_le index att
  rcases h1 with ⟨o, rest, e⟩ | ⟨o, rest, e⟩
  · have : (rest_of index cur).length ≤ rest.length := by
      rw [e, rest_of_cons_self]; exact rest_of_length_le index rest
    rw [e] at hc ⊢
    simp only [List.length_cons] at hc ⊢
    rw [rest_of_cons_self]
    have := rest_of_length_le index rest
    omega
  · rw [e] at ha ⊢
    simp only [List.length_cons] at ha ⊢
    rw [rest_of_cons_self]
    have := rest_of_length_le index rest
    omega

/-- The state after one pass through the loop body, for a reconstruction with a known
contribution. -/
theorem walk_bucket_eq {γ : Type} (recon : Nat → Bucket γ → Bucket γ) (c : Contribution γ)
    (hr : Reconstructs recon c) (index count : Nat) (rman : Resource_Manager) (w : Walk γ) :
    (walk_bucket recon index count rman w).current = rest_of index w.current ∧
    (walk_bucket recon index count rman w).attic = rest_of index w.attic ∧
    (walk_bucket recon index count rman w).result = map_set w.result index
      (filter_items_by_timestamp
        (sort_pairs (c.recorded (bucket_of index w.current) (bucket_of index w.attic)))
        (map_get w.result index
          ++ c.live (bucket_of index w.current) (bucket_of index w.attic))) ∧
    (walk_bucket recon index count rman w).attic_result = map_set w.attic_result index
      (filter_items_by_timestamp
        (sort_pairs (c.recorded (bucket_of index w.current) (bucket_of index w.attic)))
        (map_get w.attic_result index
          ++ c.attic (bucket_of index w.current) (bucket_of index w.attic))) ∧
    (walk_bucket recon index count rman w).cur_idx = w.cur_idx := by
  obtain ⟨h1, h2, h3, h4, h5⟩ := hr index
    { current := w.current, attic := w.attic, result := map_get w.result index,
      attic_result := map_get w.attic_result index, timestamp_by_id := [],
      count := count, rman := rman }
  simp only [List.nil_append] at h5
  refine ⟨h1, h2, ?_, ?_, rfl⟩
  · show map_set w.result index (filter_items_by_timestamp (sort_pairs (recon index _).timestamp_by_id)
      (recon index _).result) = _
    rw [h5, h3]
  · show map_set w.attic_result index
      (filter_items_by_timestamp (sort_pairs (recon index _).timestamp_by_id)
      (recon index _).attic_result) = _
    rw [h5, h4]

theorem timestamp_walk_done {γ : Type} (recon : Nat → Bucket γ → Bucket γ) (stmt : Bool)
    (fuel : Nat) (w : Walk γ) (h : next_index w.current w.attic = none) :
    timestamp_walk recon stmt fuel w = some (false, w) := by
  cases fuel <;> simp [timestamp_walk, h]

theorem timestamp_walk_step {γ : Type} (recon : Nat → Bucket γ → Bucket γ) (stmt : Bool)
    (fuel : Nat) (w : Walk γ) (index : Nat) (h : next_index w.current w.attic = some index) :
    timestamp_walk recon stmt (fuel + 1) w =
      timestamp_walk recon stmt fuel
        (walk_bucket recon index (checkpoint stmt w.count w.rman).1
          (checkpoint stmt w.count w.rman).2 w) := by
  simp [timestamp_walk, h]

/-- Induction over the iterations of the driver: with as many iterations allowed as both
streams have items, the loop ends, returns `false` with both streams exhausted, and a
property that every pass through the body preserves holds of the final state. -/
theorem timestamp_walk_invariant {γ : Type} (recon : Nat → Bucket γ → Bucket γ)
    (c : Contribution γ) (hr : Reconstructs recon c) (stmt : Bool) (Inv : Walk γ → Prop)
    (hstep : ∀ (w : Walk γ) (index count : Nat) (rman : Resource_Manager),
      next_index w.current w.attic = some index → Inv w →
        Inv (walk_bucket recon index count rman w)) :
    ∀ (fuel : Nat) (w : Walk γ), w.current.length + w.attic.length ≤ fuel → Inv w →
      ∃ w2, timestamp_walk recon stmt fuel w = some (false, w2) ∧ Inv w2 ∧
        w2.current = [] ∧ w2.attic = [] := by
  intro fuel
  induction fuel with
  | zero =>
    intro w hlen hinv
    have hc : w.current = [] := List.length_eq_zero.1 (by omega)
    have ha : w.attic = [] := List.length_eq_zero.1 (by omega)
    exact ⟨w, timestamp_walk_done recon stmt 0 w ((next_index_none _ _).2 ⟨hc, ha⟩), hinv,
      hc, ha⟩
  | succ fuel ih =>
    intro w hlen hinv
    cases h : next_index w.current w.attic with
    | none =>
      obtain ⟨hc, ha⟩ := (next_index_none _ _).1 h
      exact ⟨w, timestamp_walk_done recon stmt _ w h, hinv, hc, ha⟩
    | some index =>
      rw [timestamp_walk_step recon stmt fuel w index h]
      obtain ⟨e1, e2, _⟩ := walk_bucket_eq recon c hr index (checkpoint stmt w.count w.rman).1
        (checkpoint stmt w.count w.rman).2 w
      have hp := next_index_progress w.current w.attic index h
      apply ih
      · rw [e1, e2]; omega
      · exact hstep w index _ _ h hinv

/-! ## The chosen timestamp -/

theorem foldr_min_eq (l : List Nat) (d m : Nat) (h1 : m ≤ d) (h2 : ∀ x ∈ l, m ≤ x)
    (h3 : m ∈ l ∨ m = d) : l.foldr min d = m := by
  induction l with
  | nil =>
    rcases h3 with h | h
    · simp at h
    · simp [h]
  | cons a l ih =>
    simp only [List.foldr_cons]
    have ha : m ≤ a := h2 a (List.mem_cons_self _ _)
    have hl : ∀ x ∈ l, m ≤ x := fun x hx => h2 x (List.mem_cons_of_mem _ hx)
    have hge : m ≤ l.foldr min d := by
      clear ih h3
      induction l with
      | nil => simpa using h1
      | cons b l ih2 =>
        simp only [List.foldr_cons]
        have hb : m ≤ b := hl b (List.mem_cons_self _ _)
        have := ih2 (fun x hx => h2 x (by
          rcases List.mem_cons.1 hx with e | e
          · exact e ▸ List.mem_cons_self _ _
          · exact List.mem_cons_of_mem _ (List.mem_cons_of_mem _ e)))
          (fun x hx => hl x (List.mem_cons_of_mem _ hx))
        exact le_min hb this
    rcases h3 with h | h
    · rcases List.mem_cons.1 h with e | e
      · subst e
        exact min_eq_left hge
      · rw [ih hl (Or.inl e)]
        exact min_eq_right ha
    · rw [ih hl (Or.inr h)]
      exact min_eq_right ha

/-- If the recorded pairs are pairs with `NOW` and the attic pairs later than the query
timestamp, a pair whose timestamp is the least recorded one of its id carries the chosen
timestamp. -/
theorem chosen_of_recorded (q : Nat) (recorded pairs : List (Nat × Nat))
    (h1 : ∀ p ∈ recorded, p.2 = NOW ∨ (p ∈ pairs ∧ q < p.2))
    (h2 : ∀ p ∈ pairs, q < p.2 → p ∈ recorded)
    (h3 : ∀ p ∈ pairs, p.2 ≤ NOW)
    (id t : Nat) (hmem : (id, t) ∈ recorded) (hmin : ∀ t2, (id, t2) ∈ recorded → t ≤ t2) :
    t = chosen_timestamp q pairs id := by
  unfold chosen_timestamp
  symm
  apply foldr_min_eq
  · rcases h1 _ hmem with h | ⟨h, _⟩
    · exact le_of_eq h
    · exact h3 _ h
  · intro x hx
    simp only [List.mem_map, List.mem_filter, Bool.and_eq_true, decide_eq_true_eq] at hx
    obtain ⟨p, ⟨hp, hid, hq⟩, rfl⟩ := hx
    apply hmin
    have := h2 p hp hq
    rw [← hid]
    exact this
  · rcases h1 _ hmem with h | ⟨h, hq⟩
    · exact Or.inr h
    · left
      simp only [List.mem_map, List.mem_filter, Bool.and_eq_true, decide_eq_true_eq]
      exact ⟨(id, t), ⟨h, rfl, hq⟩, rfl⟩

theorem recorded_simple_sound (pred : Predicate) (q : Nat) (cur : List Skeleton)
    (att : List (Attic Skeleton)) :
    (∀ p ∈ (simple_contribution pred q).recorded cur att,
      p.2 = NOW ∨ (p ∈ att.map attic_pair ∧ q < p.2)) ∧
    (∀ p ∈ att.map attic_pair, q < p.2 → p ∈ (simple_contribution pred q).recorded cur att) := by
  constructor
  · intro p hp
    simp only [simple_contribution, List.mem_append, List.mem_map, List.mem_filter,
      decide_eq_true_eq] at hp
    rcases hp with ⟨o, _, rfl⟩ | ⟨a, ⟨ha, hq⟩, rfl⟩
    · left; rfl
    · right
      exact ⟨List.mem_map.2 ⟨a, ha, rfl⟩, hq⟩
  · intro p hp hq
    obtain ⟨a, ha, rfl⟩ := List.mem_map.1 hp
    simp only [simple_contribution, List.mem_append, List.mem_map, List.mem_filter,
      decide_eq_true_eq]
    right
    exact ⟨a, ⟨ha, hq⟩, rfl⟩

theorem recorded_delta_sound (expand : Delta → Skeleton → Except String Skeleton)
    (pred : Predicate) (q : Nat) (cur : List Skeleton) (att : List (Attic Delta)) :
    (∀ p ∈ (delta_contribution expand pred q).recorded cur att,
      p.2 = NOW ∨ (p ∈ att.map delta_pair ∧ q < p.2)) ∧
    (∀ p ∈ att.map delta_pair, q < p.2 →
      p ∈ (delta_contribution expand pred q).recorded cur att) := by
  constructor
  · intro p hp
    simp only [delta_contribution, List.mem_append, List.mem_map, List.mem_filter,
      decide_eq_true_eq] at hp
    rcases hp with ⟨o, _, rfl⟩ | ⟨a, ⟨ha, hq⟩, rfl⟩
    · left; rfl
    · right
      exact ⟨List.mem_map.2 ⟨a, ha, rfl⟩, hq⟩
  · intro p hp hq
    obtain ⟨a, ha, rfl⟩ := List.mem_map.1 hp
    simp only [delta_contribution, List.mem_append, List.mem_map, List.mem_filter,
      decide_eq_true_eq]
    right
    exact ⟨a, ⟨ha, hq⟩, rfl⟩

/-- The law of the chosen timestamp for one pass through the loop body, for any
reconstruction whose recorded pairs are pairs with `NOW` and the later attic pairs. -/
theorem walk_bucket_chosen {γ : Type} (recon : Nat → Bucket γ → Bucket γ)
    (c : Contribution γ) (hr : Reconstructs recon c) (pair_of : γ → Nat × Nat) (q : Nat)
    (hrec : ∀ cur att, (∀ p ∈ c.recorded cur att,
        p.2 = NOW ∨ (p ∈ att.map pair_of ∧ q < p.2)) ∧
      (∀ p ∈ att.map pair_of, q < p.2 → p ∈ c.recorded cur att))
    (index count : Nat) (rman : Resource_Manager) (w : Walk γ)
    (hrange : ∀ a ∈ bucket_of index w.attic, (pair_of a).2 ≤ NOW) :
    (∀ o ∈ map_get (walk_bucket recon index count rman w).result index,
      NOW = chosen_timestamp q ((bucket_of index w.attic).map pair_of) o.id) ∧
    (∀ a ∈ map_get (walk_bucket recon index count rman w).attic_result index,
      a.timestamp = chosen_timestamp q ((bucket_of index w.attic).map pair_of) a.obj.id) := by
  obtain ⟨_, _, e3, e4, _⟩ := walk_bucket_eq recon c hr index count rman w
  obtain ⟨r1, r2⟩ := hrec (bucket_of index w.current) (bucket_of index w.attic)
  have r3 : ∀ p ∈ (bucket_of index w.attic).map pair_of, p.2 ≤ NOW := by
    intro p hp
    obtain ⟨a, ha, rfl⟩ := List.mem_map.1 hp
    exact hrange a ha
  constructor
  · intro o ho
    rw [e3, map_get_map_set_same, mem_filter_items_by_timestamp] at ho
    exact chosen_of_recorded q _ _ r1 r2 r3 o.id NOW ho.2.1 ho.2.2
  · intro a ha
    rw [e4, map_get_map_set_same, mem_filter_items_by_timestamp] at ha
    exact chosen_of_recorded q _ _ r1 r2 r3 a.obj.id a.timestamp ha.2.1 ha.2.2

/-- C1 (chosen-timestamp law, per index bucket). After a pass through the loop body of
`collect_items_by_timestamp` for the bucket `index`, from any loop state, every object left
in `result[index]` has `NOW`, and every object left in `attic_result[index]` has its
timestamp, equal to the chosen timestamp of its id: the least timestamp later than the
query timestamp among the attic records of the bucket with that id, or `NOW` if there is
none. This holds for the generic overload and for the way and relation overloads (which
share the delta reconstruction), given that the attic timestamps of the bucket are 64-bit
values. Scenario E2: with a current object of id 2 and an attic record of id 2 and
timestamp 200 under index 100, the query timestamp 100 yields an empty live vector and the
attic object with timestamp 200. -/
theorem C1_chosen_timestamp_law :
    (∀ (pred : Predicate) (q index count : Nat) (rman : Resource_Manager)
        (w : Walk (Attic Skeleton)),
      (∀ a ∈ bucket_of index w.attic, a.timestamp ≤ NOW) →
      (∀ o ∈ map_get
          (walk_bucket (fun i => reconstruct_simple pred i q) index count rman w).result index,
        Element.timestamp_of o
          = chosen_timestamp q ((bucket_of index w.attic).map attic_pair) o.id) ∧
      (∀ a ∈ map_get
          (walk_bucket (fun i => reconstruct_simple pred i q) index count rman w).attic_result
          index,
        a.timestamp
          = chosen_timestamp q ((bucket_of index w.attic).map attic_pair) a.obj.id)) ∧
    (∀ (expand : Delta → Skeleton → Except String Skeleton) (pred : Predicate)
        (q index count : Nat) (rman : Resource_Manager) (w : Walk (Attic Delta)),
      (∀ d ∈ bucket_of index w.attic, d.timestamp ≤ NOW) →
      (∀ o ∈ map_get
          (walk_bucket (fun i => reconstruct_delta expand pred i q) index count rman w).result
          index,
        Element.timestamp_of o
          = chosen_timestamp q ((bucket_of index w.attic).map delta_pair) o.id) ∧
      (∀ a ∈ map_get
          (walk_bucket (fun i => reconstruct_delta expand pred i q) index count rman
            w).attic_result index,
        a.timestamp
          = chosen_timestamp q ((bucket_of index w.attic).map delta_pair) a.obj.id)) ∧
    (∀ (data attic_data : Nat),
      (collect_items_by_timestamp false quiet [(100, ⟨2, data⟩)]
          [(100, ⟨⟨2, attic_data⟩, 200⟩)] always_true none 100 [] []).map
        (fun r => (r.1, r.2.result, r.2.attic_result))
      = some (false, [(100, [])], [(100, [⟨⟨2, attic_data⟩, 200⟩])])) ∧
    (∀ (expand : Delta → Skeleton → Except String Skeleton) (s obj : Skeleton) (d : Delta),
      s.id = 2 → d.id = 2 → obj.id = 2 → expand d s = Except.ok obj →
      (collect_items_by_timestamp_way expand false quiet [(100, s)] [(100, ⟨d, 200⟩)]
          always_true none 100 [] []).map (fun r => (r.1, r.2.result, r.2.attic_result))
        = some (false, [(100, [])], [(100, [⟨obj, 200⟩])]) ∧
      (collect_items_by_timestamp_relation expand false quiet [(100, s)] [(100, ⟨d, 200⟩)]
          always_true none 100 [] []).map (fun r => (r.1, r.2.result, r.2.attic_result))
        = some (false, [(100, [])], [(100, [⟨obj, 200⟩])])) := by
  refine ⟨?_, ?_, ?_, ?_⟩
  · intro pred q index count rman w hrange
    exact walk_bucket_chosen _ _ (reconstructs_simple pred q) attic_pair q
      (recorded_simple_sound pred q) index count rman w hrange
  · intro expand pred q index count rman w hrange
    exact walk_bucket_chosen _ _ (reconstructs_delta expand pred q) delta_pair q
      (recorded_delta_sound expand pred q) index count rman w hrange
  · intro data attic_data
    simp [collect_items_by_timestamp, timestamp_walk, next_index, walk_bucket,
      reconstruct_simple, reconstruct_items, sort_pairs, lower_bound, pair_lt, map_get,
      map_set, filter_items_by_timestamp, timestamp_matches, always_true, Element.id_of,
      Element.timestamp_of, NOW, pair_le, List.orderedInsert]
  · intro expand s obj d hs hd ho he
    constructor
    · simp [collect_items_by_timestamp_way, timestamp_walk, next_index, walk_bucket,
        reconstruct_delta, collect_current, collect_attic, sort_skels, sort_deltas,
        sort_pairs, expand_deltas, choose_reference, default_skeleton, hs, hd, ho, he,
        is_first_of_id, lower_bound, pair_lt, map_get, map_set, filter_items_by_timestamp,
        timestamp_matches, always_true, Element.id_of, Element.timestamp_of, NOW, pair_le,
        List.orderedInsert]
    · simp [collect_items_by_timestamp_relation, timestamp_walk, next_index, walk_bucket,
        reconstruct_delta, collect_current, collect_attic, sort_skels, sort_deltas,
        sort_pairs, expand_deltas, choose_reference, default_skeleton, hs, hd, ho, he,
        is_first_of_id, lower_bound, pair_lt, map_get, map_set, filter_items_by_timestamp,
        timestamp_matches, always_true, Element.id_of, Element.timestamp_of, NOW, pair_le,
        List.orderedInsert]

/-- The law of C1 at a bucket where the attic holds two later records of the id of a
current object: the attic object left carries the earlier of the two timestamps. -/
theorem C1_chosen_timestamp_law_witness :
    (∀ a ∈ bucket_of 100
        ([(100, ⟨⟨2, 0⟩, 300⟩), (100, ⟨⟨2, 1⟩, 200⟩)] : List (Nat × Attic Skeleton)),
      a.timestamp ≤ NOW) ∧
    (∀ a ∈ map_get
        (walk_bucket (fun i => reconstruct_simple always_true i 100) 100 0 quiet
          { current := [(100, ⟨2, 5⟩)],
            attic := [(100, ⟨⟨2, 0⟩, 300⟩), (100, ⟨⟨2, 1⟩, 200⟩)],
            result := [], attic_result := [], count := 0, rman := quiet,
            cur_idx := none }).attic_result 100,
      a.timestamp = chosen_timestamp 100
        ((bucket_of 100
          ([(100, ⟨⟨2, 0⟩, 300⟩), (100, ⟨⟨2, 1⟩, 200⟩)] : List (Nat × Attic Skeleton))).map
          attic_pair) a.obj.id) :=
  ⟨by decide,
    (C1_chosen_timestamp_law.1 always_true 100 100 0 quiet
      { current := [(100, ⟨2, 5⟩)],
        attic := [(100, ⟨⟨2, 0⟩, 300⟩), (100, ⟨⟨2, 1⟩, 200⟩)],
        result := [], attic_result := [], count := 0, rman := quiet,
        cur_idx := none } (by decide)).2⟩

/-! ## Every object of the output stems from one record of the input -/

theorem bucket_of_append_rest_of {α : Type} (index : Nat) (l : List (Nat × α)) :
    l.map Prod.snd = bucket_of index l ++ (rest_of index l).map Prod.snd := by
  unfold bucket_of rest_of
  rw [← List.map_append, List.takeWhile_append_dropWhile]

theorem subperm_map {α β : Type} (f : α → β) {l1 l2 : List α} (h : l1.Subperm l2) :
    (l1.map f).Subperm (l2.map f) := by
  obtain ⟨l, hp, hs⟩ := h
  exact ⟨l.map f, hp.map f, hs.map f⟩

theorem subperm_append {α : Type} {a b c d : List α} (h1 : a.Subperm b) (h2 : c.Subperm d) :
    (a ++ c).Subperm (b ++ d) :=
  ((List.subperm_append_left a).2 h2).trans ((List.subperm_append_right d).2 h1)

theorem nodup_of_subperm {α : Type} {l1 l2 : List α} (h : l1.Subperm l2) (hn : l2.Nodup) :
    l1.Nodup := by
  obtain ⟨l, hp, hs⟩ := h
  exact hp.nodup_iff.1 (hn.sublist hs)

theorem sort_skels_perm (l : List Skeleton) : (sort_skels l).Perm l :=
  List.perm_insertionSort _ l

theorem sort_deltas_perm (l : List (Attic Delta)) : (sort_deltas l).Perm l :=
  List.perm_insertionSort _ l

/-- With an expansion that keeps the id, the pairs of the attic objects built from a
sequence of deltas are a subsequence of the pairs of the deltas. -/
theorem expand_deltas_pairs_sublist (expand : Delta → Skeleton → Except String Skeleton)
    (hk : Keeps_Id expand) (loc : List (Nat × Nat)) (ds : List (Attic Delta)) :
    ∀ (skels_it : List Skeleton) (reference : Skeleton),
      ((expand_deltas expand loc ds skels_it reference [] quiet).1.map attic_pair).Sublist
        (ds.map delta_pair) := by
  induction ds with
  | nil => intro _ _; simp [expand_deltas]
  | cons d ds ih =>
    intro skels_it reference
    simp only [expand_deltas]
    cases h : expand d.obj (choose_reference skels_it reference d.obj.id).2 with
    | error what =>
      simp only []
      rw [expand_deltas_attics_rman]
      simp only [List.nil_append, List.map_cons]
      exact (ih _ _).cons _
    | ok obj =>
      simp only []
      by_cases h0 : obj.id = 0
      · simp only [h0, ne_eq, not_true_eq_false, if_false]
        rw [expand_deltas_attics_rman]
        simp only [List.nil_append, List.map_cons]
        exact (ih _ _).cons _
      · simp only [h0, ne_eq, not_false_eq_true, if_true]
        rw [expand_deltas_attics_rman]
        by_cases h1 : is_first_of_id loc d = true
        · simp only [h1, if_true, List.nil_append, List.map_append, List.map_cons,
            List.map_nil, List.singleton_append]
          have hid : obj.id = d.obj.id := by
            rcases hk _ _ _ h with e | e
            · exact e
            · exact absurd e h0
          have : attic_pair { obj := obj, timestamp := d.timestamp } = delta_pair d := by
            simp [attic_pair, delta_pair, hid]
          rw [this]
          exact (ih _ _).cons₂ _
        · simp only [h1, if_false, List.nil_append, List.map_cons]
          exact (ih _ _).cons _

theorem conservative_simple (pred : Predicate) (q : Nat) :
    Conservative (simple_contribution pred q) attic_pair
      (fun a => decide (q < a.timestamp)) := by
  intro cur att
  constructor
  · exact ((List.filter_sublist _).map _).subperm
  · apply List.Sublist.subperm
    apply List.Sublist.map
    simp only [simple_contribution]
    apply List.monotone_filter_right
    intro a ha
    simp only [Bool.and_eq_true, decide_eq_true_eq] at ha
    simpa using ha.1

theorem conservative_delta (expand : Delta → Skeleton → Except String Skeleton)
    (hk : Keeps_Id expand) (pred : Predicate) (q : Nat) :
    Conservative (delta_contribution expand pred q) delta_pair
      (fun d => decide (q < d.timestamp)) := by
  intro cur att
  constructor
  · simp only [delta_contribution]
    exact subperm_map _ (((List.filter_sublist _).subperm).trans (sort_skels_perm cur).subperm)
  · simp only [delta_contribution]
    have h1 : ((expanded_attics expand q cur att).filter pred.match_attic).map attic_pair
        |>.Subperm ((expanded_attics expand q cur att).map attic_pair) :=
      ((List.filter_sublist _).map _).subperm
    have h2 := (expand_deltas_pairs_sublist expand hk
      (sort_pairs (cur.map live_pair
        ++ (att.filter (fun d => decide (q < d.timestamp))).map delta_pair))
      (sort_deltas (att.filter (fun d => decide (q < d.timestamp))))
      (sort_skels cur) default_skeleton).subperm
    have h3 := ((sort_deltas_perm (att.filter (fun d => decide (q < d.timestamp)))).map
      delta_pair).subperm
    exact h1.trans (h2.trans h3)

theorem map_objects_map_set_subperm {α : Type} (m : Result_Map α) (i : Nat)
    (v new : List α) (h : v.Subperm (map_get m i ++ new)) :
    (map_objects (map_set m i v)).Subperm (map_objects m ++ new) := by
  obtain ⟨l1, l2, e1, e2⟩ := map_objects_map_set m i v
  rw [e1, e2]
  have h1 : (l1 ++ v ++ l2).Subperm (l1 ++ (map_get m i ++ new) ++ l2) :=
    subperm_append (subperm_append (List.Subperm.refl l1) h) (List.Subperm.refl l2)
  have h2 : (l1 ++ (map_get m i ++ new) ++ l2).Perm (l1 ++ map_get m i ++ l2 ++ new) := by
    simp only [List.append_assoc]
    exact (List.Perm.refl l1).append ((List.Perm.refl _).append List.perm_append_comm)
  exact h1.trans h2.subperm

/-- The pairs of the results and of the records still to come stay among the pairs the
walk started with. -/
theorem timestamp_walk_conservative {γ : Type} (recon : Nat → Bucket γ → Bucket γ)
    (c : Contribution γ) (hr : Reconstructs recon c) (pair_of : γ → Nat × Nat)
    (fresh : γ → Bool) (hc : Conservative c pair_of fresh) (stmt : Bool)
    (fuel : Nat) (w : Walk γ) (hfuel : w.current.length + w.attic.length ≤ fuel) :
    ∃ w2, timestamp_walk recon stmt fuel w = some (false, w2) ∧
      ((map_objects w2.result).map live_pair).Subperm
        ((map_objects w.result).map live_pair ++ (w.current.map Prod.snd).map live_pair) ∧
      ((map_objects w2.attic_result).map attic_pair).Subperm
        ((map_objects w.attic_result).map attic_pair
          ++ ((w.attic.map Prod.snd).filter fresh).map pair_of) := by
  have key := timestamp_walk_invariant recon c hr stmt
    (fun v =>
      ((map_objects v.result).map live_pair ++ (v.current.map Prod.snd).map live_pair).Subperm
        ((map_objects w.result).map live_pair ++ (w.current.map Prod.snd).map live_pair) ∧
      ((map_objects v.attic_result).map attic_pair
          ++ ((v.attic.map Prod.snd).filter fresh).map pair_of).Subperm
        ((map_objects w.attic_result).map attic_pair
          ++ ((w.attic.map Prod.snd).filter fresh).map pair_of))
    ?_ fuel w hfuel ⟨List.Subperm.refl _, List.Subperm.refl _⟩
  · obtain ⟨w2, e, ⟨h1, h2⟩, hcur, hatt⟩ := key
    refine ⟨w2, e, ?_, ?_⟩
    · simpa [hcur] using h1
    · simpa [hatt] using h2
  · intro v index count rman _ hinv
    obtain ⟨h1, h2⟩ := hinv
    obtain ⟨e1, e2, e3, e4, _⟩ := walk_bucket_eq recon c hr index count rman v
    obtain ⟨c1, c2⟩ := hc (bucket_of index v.current) (bucket_of index v.attic)
    constructor
    · refine List.Subperm.trans ?_ h1
      rw [e1, e3, bucket_of_append_rest_of index v.current, List.map_append]
      have s1 := subperm_map live_pair (map_objects_map_set_subperm v.result index
        (filter_items_by_timestamp
          (sort_pairs (c.recorded (bucket_of index v.current) (bucket_of index v.attic)))
          (map_get v.result index
            ++ c.live (bucket_of index v.current) (bucket_of index v.attic)))
        (c.live (bucket_of index v.current) (bucket_of index v.attic))
        (List.filter_sublist _).subperm)
      rw [List.map_append] at s1
      have s2 := s1.trans (subperm_append (List.Subperm.refl _) c1)
      have s3 := subperm_append s2
        (List.Subperm.refl ((rest_of index v.current).map Prod.snd |>.map live_pair))
      simpa [List.append_assoc] using s3
    · refine List.Subperm.trans ?_ h2
      rw [e2, e4, bucket_of_append_rest_of index v.attic, List.filter_append, List.map_append]
      have s1 := subperm_map attic_pair (map_objects_map_set_subperm v.attic_result index
        (filter_items_by_timestamp
          (sort_pairs (c.recorded (bucket_of index v.current) (bucket_of index v.attic)))
          (map_get v.attic_result index
            ++ c.attic (bucket_of index v.current) (bucket_of index v.attic)))
        (c.attic (bucket_of index v.current) (bucket_of index v.attic))
        (List.filter_sublist _).subperm)
      rw [List.map_append] at s1
      have s2 := s1.trans (subperm_append (List.Subperm.refl _) c2)
      have s3 := subperm_append s2 (List.Subperm.refl
        (((rest_of index v.attic).map Prod.snd).filter fresh |>.map pair_of))
      simpa [List.append_assoc] using s3

theorem walk_unique_of_distinct_records {γ : Type} (recon : Nat → Bucket γ → Bucket γ)
    (c : Contribution γ) (hr : Reconstructs recon c) (pair_of : γ → Nat × Nat)
    (fresh : γ → Bool) (hc : Conservative c pair_of fresh) (stmt : Bool)
    (rman : Resource_Manager) (cur : List (Nat × Skeleton)) (att : List (Nat × γ))
    (cur_idx : Option Nat)
    (hn : ((cur.map Prod.snd).map live_pair
      ++ ((att.map Prod.snd).filter fresh).map pair_of).Nodup) :
    ∃ w, timestamp_walk recon stmt (cur.length + att.length)
        { current := cur, attic := att, result := [], attic_result := [], count := 0,
          rman := rman, cur_idx := cur_idx } = some (false, w) ∧
      (output_pairs w).Nodup := by
  obtain ⟨w, e, h1, h2⟩ := timestamp_walk_conservative recon c hr pair_of fresh hc stmt
    (cur.length + att.length)
    { current := cur, attic := att, result := [], attic_result := [], count := 0,
      rman := rman, cur_idx := cur_idx } (le_refl _)
  refine ⟨w, e, ?_⟩
  simp only [map_objects, List.map_nil, List.flatten_nil, List.nil_append] at h1 h2
  exact nodup_of_subperm (subperm_append h1 h2) hn

/-- C2, as amended (temporal uniqueness). If the `(id, timestamp)` pairs of the records of
both streams (`NOW` for a current object; attic records at or before the query timestamp
left aside) are pairwise distinct, then `collect_items_by_timestamp`, started on empty
result containers, returns and the `(id, timestamp)` pairs of all objects of the live and
the attic result are pairwise distinct. For the way and relation overloads the expansion
is taken to keep the id of the delta. -/
theorem C2_temporal_uniqueness :
    (∀ (stmt : Bool) (rman : Resource_Manager) (cur : List (Nat × Skeleton))
        (att : List (Nat × Attic Skeleton)) (pred : Predicate) (cur_idx : Option Nat)
        (q : Nat),
      ((cur.map Prod.snd).map live_pair
        ++ ((att.map Prod.snd).filter (fun a => decide (q < a.timestamp))).map
          attic_pair).Nodup →
      ∃ w, collect_items_by_timestamp stmt rman cur att pred cur_idx q [] [] = some (false, w)
        ∧ (output_pairs w).Nodup) ∧
    (∀ (expand : Delta → Skeleton → Except String Skeleton) (stmt : Bool)
        (rman : Resource_Manager) (cur : List (Nat × Skeleton))
        (att : List (Nat × Attic Delta)) (pred : Predicate) (cur_idx : Option Nat) (q : Nat),
      Keeps_Id expand →
      ((cur.map Prod.snd).map live_pair
        ++ ((att.map Prod.snd).filter (fun d => decide (q < d.timestamp))).map
          delta_pair).Nodup →
      (∃ w, collect_items_by_timestamp_way expand stmt rman cur att pred cur_idx q [] []
          = some (false, w) ∧ (output_pairs w).Nodup) ∧
      (∃ w, collect_items_by_timestamp_relation expand stmt rman cur att pred cur_idx q [] []
          = some (false, w) ∧ (output_pairs w).Nodup)) := by
  constructor
  · intro stmt rman cur att pred cur_idx q hn
    exact walk_unique_of_distinct_records _ _ (reconstructs_simple pred q) attic_pair _
      (conservative_simple pred q) stmt rman cur att cur_idx hn
  · intro expand stmt rman cur att pred cur_idx q hk hn
    exact ⟨walk_unique_of_distinct_records _ _ (reconstructs_delta expand pred q) delta_pair _
        (conservative_delta expand hk pred q) stmt rman cur att cur_idx hn,
      walk_unique_of_distinct_records _ _ (reconstructs_delta expand pred q) delta_pair _
        (conservative_delta expand hk pred q) stmt rman cur att cur_idx hn⟩

/-- The amended C2 at the streams of scenario E2 and a second bucket. -/
theorem C2_temporal_uniqueness_witness :
    (((([(100, ⟨2, 0⟩), (101, ⟨3, 0⟩)] : List (Nat × Skeleton)).map Prod.snd).map live_pair
        ++ ((([(100, ⟨⟨2, 7⟩, 200⟩), (101, ⟨⟨3, 1⟩, 50⟩)] :
              List (Nat × Attic Skeleton)).map Prod.snd).filter
            (fun a => decide (100 < a.timestamp))).map attic_pair).Nodup) ∧
    ∃ w, collect_items_by_timestamp false quiet [(100, ⟨2, 0⟩), (101, ⟨3, 0⟩)]
        [(100, ⟨⟨2, 7⟩, 200⟩), (101, ⟨⟨3, 1⟩, 50⟩)] always_true none 100 [] []
          = some (false, w) ∧ (output_pairs w).Nodup :=
  ⟨by decide,
    C2_temporal_uniqueness.1 false quiet [(100, ⟨2, 0⟩), (101, ⟨3, 0⟩)]
      [(100, ⟨⟨2, 7⟩, 200⟩), (101, ⟨⟨3, 1⟩, 50⟩)] always_true none 100 (by decide)⟩

/-- C2 as stated fails: a current stream that yields the object of id 2 twice under index
100, with an empty attic stream, leaves the pair `(2, NOW)` twice in the live result; the
audit `check_for_duplicated_objects` logs the repetition and the walk goes on. -/
theorem C2_counterexample :
    ∃ w, collect_items_by_timestamp false quiet [(100, ⟨2, 0⟩), (100, ⟨2, 0⟩)] []
        always_true none 100 [] [] = some (false, w) ∧
      output_pairs w = [(2, NOW), (2, NOW)] ∧ ¬ (output_pairs w).Nodup ∧
      w.rman.errors = [Log_Entry.appears_multiple_times 2 NOW] :=
  ⟨_, rfl, by decide, by decide, by decide⟩

/-! ## The walk over ascending streams -/

theorem at_index_eq_nil {α : Type} (i : Nat) (l : List (Nat × α)) :
    at_index i l = [] ↔ i ∉ l.map Prod.fst := by
  unfold at_index
  simp only [List.map_eq_nil_iff, List.filter_eq_nil_iff, decide_eq_true_eq, List.mem_map,
    Prod.exists, exists_and_right, exists_eq_right, not_exists]
  constructor
  · intro h x hx
    exact h (i, x) hx rfl
  · intro h p hp e
    obtain ⟨j, x⟩ := p
    simp only at e
    subst e
    exact h x hp

/-- In an ascending stream whose first index is not below `index`, the bucket consumed for
`index` holds all objects of that index, and the rest of the stream is ascending again and
holds the other indexes unchanged. -/
theorem ascending_bucket {α : Type} (index : Nat) (l : List (Nat × α)) (h : Ascending l)
    (hmin : ∀ p ∈ l.head?, index ≤ p.1) :
    bucket_of index l = at_index index l ∧
    index ∉ (rest_of index l).map Prod.fst ∧
    (∀ i, i ≠ index → at_index i (rest_of index l) = at_index i l) ∧
    (∀ i, i ≠ index → (i ∈ (rest_of index l).map Prod.fst ↔ i ∈ l.map Prod.fst)) ∧
    Ascending (rest_of index l) := by
  induction l with
  | nil => simp [bucket_of, at_index, rest_of, Ascending]
  | cons a l ih =>
    obtain ⟨j, o⟩ := a
    have hj : index ≤ j := hmin (j, o) (by simp)
    have hall : ∀ p ∈ l, j ≤ p.1 := fun p hp => List.rel_of_pairwise_cons h hp
    have hl : Ascending l := List.Pairwise.of_cons h
    by_cases e : j = index
    · subst e
      have hmin2 : ∀ p ∈ l.head?, j ≤ p.1 := by
        intro p hp
        exact hall p (List.mem_of_mem_head? hp)
      obtain ⟨i1, i2, i3, i4, i5⟩ := ih hl hmin2
      refine ⟨?_, ?_, ?_, ?_, ?_⟩
      · simp only [bucket_of, at_index] at i1 ⊢
        simp [i1]
      · simpa [rest_of] using i2
      · intro i hi
        have := i3 i hi
        simp only [rest_of, at_index] at this ⊢
        simp [this, Ne.symm hi]
      · intro i hi
        have := i4 i hi
        simp only [rest_of] at this ⊢
        simp [this, hi]
      · simpa [rest_of] using i5
    · have hlt : index < j := by omega
      have hnone : ∀ p ∈ l, p.1 ≠ index := fun p hp => by
        have := hall p hp
        omega
      refine ⟨?_, ?_, ?_, ?_, ?_⟩
      · simp only [bucket_of, at_index]
        simp only [List.takeWhile_cons, e, decide_False, List.map_nil, List.filter_cons,
          Bool.false_eq_true, if_false]
        symm
        simp only [List.map_eq_nil_iff, List.filter_eq_nil_iff, decide_eq_true_eq]
        exact fun p hp => hnone p hp
      · simp only [rest_of, List.dropWhile_cons, e, decide_False, Bool.false_eq_true,
          if_false, List.map_cons, List.mem_cons, List.mem_map, not_or]
        refine ⟨fun h2 => e h2.symm, ?_⟩
        rintro ⟨p, hp, e2⟩
        exact hnone p hp e2
      · intro i _
        simp [rest_of, e]
      · intro i _
        simp [rest_of, e]
      · simpa [rest_of, e] using h

/-- The result of the walk over ascending streams, bucket by bucket: under an index that
occurs in a stream, each container holds what the bucket leaves of its former content and
of the objects added for all records of that index; under any other index it is
untouched. -/
theorem timestamp_walk_ascending {γ : Type} (recon : Nat → Bucket γ → Bucket γ)
    (c : Contribution γ) (hr : Reconstructs recon c) (stmt : Bool) :
    ∀ (fuel : Nat) (w : Walk γ), Ascending w.current → Ascending w.attic →
      w.current.length + w.attic.length ≤ fuel →
      ∃ w2, timestamp_walk recon stmt fuel w = some (false, w2) ∧
        (∀ i, ¬ Visited i w.current w.attic →
          map_get w2.result i = map_get w.result i ∧
          map_get w2.attic_result i = map_get w.attic_result i) ∧
        (∀ i, Visited i w.current w.attic →
          map_get w2.result i =
            bucket_vector (c.recorded (at_index i w.current) (at_index i w.attic))
              (map_get w.result i) (c.live (at_index i w.current) (at_index i w.attic)) ∧
          map_get w2.attic_result i =
            bucket_vector (c.recorded (at_index i w.current) (at_index i w.attic))
              (map_get w.attic_result i)
              (c.attic (at_index i w.current) (at_index i w.attic))) := by
  intro fuel
  induction fuel with
  | zero =>
    intro w _ _ hlen
    have hc : w.current = [] := List.length_eq_zero.1 (by omega)
    have ha : w.attic = [] := List.length_eq_zero.1 (by omega)
    refine ⟨w, timestamp_walk_done recon stmt 0 w ((next_index_none _ _).2 ⟨hc, ha⟩), ?_, ?_⟩
    · intro i _; exact ⟨rfl, rfl⟩
    · intro i hv
      simp [Visited, hc, ha] at hv
  | succ fuel ih =>
    intro w hac haa hlen
    cases h : next_index w.current w.attic with
    | none =>
      obtain ⟨hc, ha⟩ := (next_index_none _ _).1 h
      refine ⟨w, timestamp_walk_done recon stmt _ w h, ?_, ?_⟩
      · intro i _; exact ⟨rfl, rfl⟩
      · intro i hv
        simp [Visited, hc, ha] at hv
    | some index =>
      rw [timestamp_walk_step recon stmt fuel w index h]
      obtain ⟨e1, e2, e3, e4, _⟩ := walk_bucket_eq recon c hr index
        (checkpoint stmt w.count w.rman).1 (checkpoint stmt w.count w.rman).2 w
      obtain ⟨hhead, hminc, hmina⟩ := next_index_some _ _ _ h
      obtain ⟨c1, c2, c3, c4, c5⟩ := ascending_bucket index w.current hac hminc
      obtain ⟨a1, a2, a3, a4, a5⟩ := ascending_bucket index w.attic haa hmina
      have hp := next_index_progress w.current w.attic index h
      obtain ⟨w2, e, hnot, hvis⟩ := ih
        (walk_bucket recon index (checkpoint stmt w.count w.rman).1
          (checkpoint stmt w.count w.rman).2 w)
        (by rw [e1]; exact c5) (by rw [e2]; exact a5) (by rw [e1, e2]; omega)
      rw [e1, e2] at hnot hvis
      have hvindex : Visited index w.current w.attic := by
        rcases hhead with ⟨o, rest, e⟩ | ⟨o, rest, e⟩
        · left; rw [e]; simp
        · right; rw [e]; simp
      refine ⟨w2, e, ?_, ?_⟩
      · intro i hi
        have hne : i ≠ index := fun e => hi (e ▸ hvindex)
        have hi2 : ¬ Visited i (rest_of index w.current) (rest_of index w.attic) := by
          intro hv
          apply hi
          rcases hv with hv | hv
          · exact Or.inl ((c4 i hne).1 hv)
          · exact Or.inr ((a4 i hne).1 hv)
        obtain ⟨r1, r2⟩ := hnot i hi2
        rw [r1, r2, e3, e4, map_get_map_set_other _ _ _ _ hne,
          map_get_map_set_other _ _ _ _ hne]
        exact ⟨rfl, rfl⟩
      · intro i hi
        by_cases hne : i = index
        · subst hne
          have hi2 : ¬ Visited i (rest_of i w.current) (rest_of i w.attic) := by
            intro hv
            rcases hv with hv | hv
            · exact c2 hv
            · exact a2 hv
          obtain ⟨r1, r2⟩ := hnot i hi2
          rw [r1, r2, e3, e4, map_get_map_set_same, map_get_map_set_same, c1, a1]
          exact ⟨rfl, rfl⟩
        · have hi2 : Visited i (rest_of index w.current) (rest_of index w.attic) := by
            rcases hi with hv | hv
            · exact Or.inl ((c4 i hne).2 hv)
            · exact Or.inr ((a4 i hne).2 hv)
          obtain ⟨r1, r2⟩ := hvis i hi2
          rw [r1, r2, e3, e4, map_get_map_set_other _ _ _ _ hne,
            map_get_map_set_other _ _ _ _ hne, c3 i hne, a3 i hne]
          exact ⟨rfl, rfl⟩

theorem mem_at_index {α : Type} (i : Nat) (l : List (Nat × α)) (o : α) :
    o ∈ at_index i l ↔ (i, o) ∈ l := by
  unfold at_index
  simp only [List.mem_map, List.mem_filter, decide_eq_true_eq]
  constructor
  · rintro ⟨p, ⟨hp, e⟩, rfl⟩
    obtain ⟨j, x⟩ := p
    simp only at e
    subst e
    exact hp
  · intro h
    exact ⟨(i, o), ⟨h, rfl⟩, rfl⟩

theorem visited_of_mem_current {α β : Type} (i : Nat) (o : α) (cur : List (Nat × α))
    (att : List (Nat × β)) (h : (i, o) ∈ cur) : Visited i cur att :=
  Or.inl (List.mem_map.2 ⟨(i, o), h, rfl⟩)

theorem mem_sort_skels (l : List Skeleton) (o : Skeleton) : o ∈ sort_skels l ↔ o ∈ l :=
  (List.perm_insertionSort _ l).mem_iff

/-- A pair with a timestamp below `NOW` is among the pairs recorded for a bucket exactly if
it is the pair of an attic record of the bucket later than the query timestamp. -/
theorem mem_recorded_simple (pred : Predicate) (q : Nat) (cur : List Skeleton)
    (att : List (Attic Skeleton)) (id t : Nat) :
    (id, t) ∈ (simple_contribution pred q).recorded cur att ↔
      ((q < NOW ∧ t = NOW ∧ ∃ o ∈ cur, o.id = id) ∨
        (∃ a ∈ att, a.obj.id = id ∧ a.timestamp = t ∧ q < t)) := by
  simp only [simple_contribution, List.mem_append, List.mem_map, List.mem_filter,
    decide_eq_true_eq, live_pair, attic_pair, Prod.mk.injEq]
  constructor
  · rintro (⟨o, ⟨ho, hq⟩, e1, e2⟩ | ⟨a, ⟨ha, hq⟩, e1, e2⟩)
    · exact Or.inl ⟨hq, e2.symm, o, ho, e1⟩
    · exact Or.inr ⟨a, ha, e1, e2, e2 ▸ hq⟩
  · rintro (⟨hq, e2, o, ho, e1⟩ | ⟨a, ha, e1, e2, hq⟩)
    · exact Or.inl ⟨o, ⟨ho, hq⟩, e1, e2.symm⟩
    · exact Or.inr ⟨a, ⟨ha, e2 ▸ hq⟩, e1, e2⟩

theorem mem_recorded_delta (expand : Delta → Skeleton → Except String Skeleton)
    (pred : Predicate) (q : Nat) (cur : List Skeleton) (att : List (Attic Delta))
    (id t : Nat) :
    (id, t) ∈ (delta_contribution expand pred q).recorded cur att ↔
      ((t = NOW ∧ ∃ o ∈ cur, o.id = id) ∨
        (∃ d ∈ att, d.obj.id = id ∧ d.timestamp = t ∧ q < t)) := by
  simp only [delta_contribution, List.mem_append, List.mem_map, List.mem_filter,
    decide_eq_true_eq, live_pair, delta_pair, Prod.mk.injEq]
  constructor
  · rintro (⟨o, ho, e1, e2⟩ | ⟨a, ⟨ha, hq⟩, e1, e2⟩)
    · exact Or.inl ⟨e2.symm, o, ho, e1⟩
    · exact Or.inr ⟨a, ha, e1, e2, e2 ▸ hq⟩
  · rintro (⟨e2, o, ho, e1⟩ | ⟨a, ha, e1, e2, hq⟩)
    · exact Or.inl ⟨o, ho, e1, e2.symm⟩
    · exact Or.inr ⟨a, ⟨ha, e2 ▸ hq⟩, e1, e2⟩

/-- C3, as amended. Over ascending streams, and whatever the result containers hold at
the start, `collect_items_by_timestamp` returns, and a current object under index `i`
that satisfies the predicate is in the live result under `i` if and only if the attic
stream holds under the same index `i` no record of the same id whose timestamp is later
than the query timestamp and earlier than `NOW`. For the generic overload this needs a
query timestamp earlier than `NOW`; the way and relation overloads need no such
condition. -/
theorem C3_live_iff_no_later_attic_record :
    (∀ (stmt : Bool) (rman : Resource_Manager) (cur : List (Nat × Skeleton))
        (att : List (Nat × Attic Skeleton)) (pred : Predicate) (cur_idx : Option Nat)
        (q : Nat) (res : Result_Map Skeleton) (ares : Result_Map (Attic Skeleton)),
      Ascending cur → Ascending att → q < NOW →
      ∃ w, collect_items_by_timestamp stmt rman cur att pred cur_idx q res ares
          = some (false, w) ∧
        ∀ i o, (i, o) ∈ cur → pred.match_skel o = true →
          (o ∈ map_get w.result i ↔
            ¬ ∃ a, (i, a) ∈ att ∧ a.obj.id = o.id ∧ q < a.timestamp ∧ a.timestamp < NOW)) ∧
    (∀ (expand : Delta → Skeleton → Except String Skeleton) (stmt : Bool)
        (rman : Resource_Manager) (cur : List (Nat × Skeleton))
        (att : List (Nat × Attic Delta)) (pred : Predicate) (cur_idx : Option Nat)
        (q : Nat) (res : Result_Map Skeleton) (ares : Result_Map (Attic Skeleton)),
      Ascending cur → Ascending att →
      (∃ w, collect_items_by_timestamp_way expand stmt rman cur att pred cur_idx q res ares
          = some (false, w) ∧
        ∀ i o, (i, o) ∈ cur → pred.match_skel o = true →
          (o ∈ map_get w.result i ↔
            ¬ ∃ d, (i, d) ∈ att ∧ d.obj.id = o.id ∧ q < d.timestamp ∧ d.timestamp < NOW)) ∧
      (∃ w, collect_items_by_timestamp_relation expand stmt rman cur att pred cur_idx q res
          ares = some (false, w) ∧
        ∀ i o, (i, o) ∈ cur → pred.match_skel o = true →
          (o ∈ map_get w.result i ↔
            ¬ ∃ d, (i, d) ∈ att ∧ d.obj.id = o.id ∧ q < d.timestamp ∧ d.timestamp < NOW))) := by
  constructor
  · intro stmt rman cur att pred cur_idx q res ares hc ha hq
    obtain ⟨w, e, _, hvis⟩ := timestamp_walk_ascending _ _ (reconstructs_simple pred q) stmt
      (cur.length + att.length)
      { current := cur, attic := att, result := res, attic_result := ares, count := 0,
        rman := rman, cur_idx := cur_idx } hc ha (le_refl _)
    refine ⟨w, e, ?_⟩
    intro i o ho hp
    rw [(hvis i (visited_of_mem_current i o cur att ho)).1]
    unfold bucket_vector
    rw [mem_filter_items_by_timestamp]
    have hlive : o ∈ (simple_contribution pred q).live (at_index i cur) (at_index i att) := by
      simp only [simple_contribution, List.mem_filter, Bool.and_eq_true, decide_eq_true_eq]
      exact ⟨(mem_at_index i cur o).2 ho, hq, hp⟩
    simp only [mem_recorded_simple, List.mem_append, hlive, or_true, true_and,
      Element.id_of, Element.timestamp_of, mem_at_index]
    constructor
    · rintro ⟨_, hmin⟩ ⟨a, ha1, ha2, ha3, ha4⟩
      have := hmin a.timestamp (Or.inr ⟨a, ha1, ha2, rfl, ha3⟩)
      omega
    · intro hno
      refine ⟨Or.inl ⟨hq, o, ho, rfl⟩, ?_⟩
      rintro t (⟨_, e, _⟩ | ⟨a, ha1, ha2, ha3, ha4⟩)
      · exact le_of_eq e.symm
      · by_contra hlt
        exact hno ⟨a, ha1, ha2, ha3 ▸ ha4, by omega⟩
  · intro expand stmt rman cur att pred cur_idx q res ares hc ha
    have key : ∃ w, timestamp_walk (fun index => reconstruct_delta expand pred index q) stmt
        (cur.length + att.length)
        { current := cur, attic := att, result := res, attic_result := ares, count := 0,
          rman := rman, cur_idx := cur_idx } = some (false, w) ∧
        ∀ i o, (i, o) ∈ cur → pred.match_skel o = true →
          (o ∈ map_get w.result i ↔
            ¬ ∃ d, (i, d) ∈ att ∧ d.obj.id = o.id ∧ q < d.timestamp ∧ d.timestamp < NOW) := by
      obtain ⟨w, e, _, hvis⟩ := timestamp_walk_ascending _ _
        (reconstructs_delta expand pred q) stmt (cur.length + att.length)
        { current := cur, attic := att, result := res, attic_result := ares, count := 0,
          rman := rman, cur_idx := cur_idx } hc ha (le_refl _)
      refine ⟨w, e, ?_⟩
      intro i o ho hp
      rw [(hvis i (visited_of_mem_current i o cur att ho)).1]
      unfold bucket_vector
      rw [mem_filter_items_by_timestamp]
      have hlive : o ∈ (delta_contribution expand pred q).live (at_index i cur)
          (at_index i att) := by
        simp only [delta_contribution, List.mem_filter, mem_sort_skels]
        exact ⟨(mem_at_index i cur o).2 ho, hp⟩
      simp only [mem_recorded_delta, List.mem_append, hlive, or_true, true_and,
        Element.id_of, Element.timestamp_of, mem_at_index]
      constructor
      · rintro ⟨_, hmin⟩ ⟨a, ha1, ha2, ha3, ha4⟩
        have := hmin a.timestamp (Or.inr ⟨a, ha1, ha2, rfl, ha3⟩)
        omega
      · intro hno
        refine ⟨Or.inl ⟨o, ho, rfl⟩, ?_⟩
        rintro t (⟨e, _⟩ | ⟨a, ha1, ha2, ha3, ha4⟩)
        · exact le_of_eq e.symm
        · by_contra hlt
          exact hno ⟨a, ha1, ha2, ha3 ▸ ha4, by omega⟩
    exact ⟨key, key⟩

/-- The amended C3 at the streams of scenario E2. -/
theorem C3_live_iff_no_later_attic_record_witness :
    Ascending ([(100, ⟨2, 0⟩)] : List (Nat × Skeleton)) ∧
    Ascending ([(100, ⟨⟨2, 7⟩, 200⟩)] : List (Nat × Attic Skeleton)) ∧ 100 < NOW ∧
    ∃ w, collect_items_by_timestamp false quiet [(100, ⟨2, 0⟩)] [(100, ⟨⟨2, 7⟩, 200⟩)]
        always_true none 100 [] [] = some (false, w) ∧
      ∀ i o, (i, o) ∈ ([(100, ⟨2, 0⟩)] : List (Nat × Skeleton)) →
        always_true.match_skel o = true →
        (o ∈ map_get w.result i ↔
          ¬ ∃ a, (i, a) ∈ ([(100, ⟨⟨2, 7⟩, 200⟩)] : List (Nat × Attic Skeleton)) ∧
            a.obj.id = o.id ∧ 100 < a.timestamp ∧ a.timestamp < NOW) :=
  ⟨by decide, by decide, by decide,
    C3_live_iff_no_later_attic_record.1 false quiet [(100, ⟨2, 0⟩)]
      [(100, ⟨⟨2, 7⟩, 200⟩)] always_true none 100 [] [] (by decide) (by decide) (by decide)⟩

/-- C3 as stated fails in three ways. (1) The filter works per bucket: an attic record of
id 2 later than the query timestamp under index 200 does not keep the current object of id
2 under index 100 out of the live result. (2) With the query timestamp `NOW`, the generic
overload puts no current object into the live result although the attic stream is empty.
(3) An attic record with timestamp `NOW`, later than the query timestamp, does not keep
the current object of its id and bucket out of the live result. -/
theorem C3_counterexample :
    (∃ w, collect_items_by_timestamp false quiet [(100, ⟨2, 0⟩)] [(200, ⟨⟨2, 7⟩, 200⟩)]
        always_true none 100 [] [] = some (false, w) ∧
      (⟨2, 0⟩ : Skeleton) ∈ map_get w.result 100 ∧
      ∃ p ∈ ([(200, ⟨⟨2, 7⟩, 200⟩)] : List (Nat × Attic Skeleton)),
        p.2.obj.id = 2 ∧ 100 < p.2.timestamp) ∧
    (∃ w, collect_items_by_timestamp false quiet [(100, ⟨2, 0⟩)] []
        always_true none NOW [] [] = some (false, w) ∧
      (⟨2, 0⟩ : Skeleton) ∉ map_get w.result 100 ∧
      ¬ ∃ p ∈ ([] : List (Nat × Attic Skeleton)), p.2.obj.id = 2 ∧ NOW < p.2.timestamp) ∧
    (∃ w, collect_items_by_timestamp false quiet [(100, ⟨2, 0⟩)] [(100, ⟨⟨2, 7⟩, NOW⟩)]
        always_true none 100 [] [] = some (false, w) ∧
      (⟨2, 0⟩ : Skeleton) ∈ map_get w.result 100 ∧
      ∃ p ∈ ([(100, ⟨⟨2, 7⟩, NOW⟩)] : List (Nat × Attic Skeleton)),
        p.2.obj.id = 2 ∧ 100 < p.2.timestamp) :=
  ⟨⟨_, rfl, by decide, by decide⟩, ⟨_, rfl, by decide, by decide⟩,
    ⟨_, rfl, by decide, by decide⟩⟩

/-! ## Attic records at or before the query timestamp -/

theorem expand_deltas_timestamps (expand : Delta → Skeleton → Except String Skeleton)
    (loc : List (Nat × Nat)) (ds : List (Attic Delta)) :
    ∀ (skels_it : List Skeleton) (reference : Skeleton),
      ∀ a ∈ (expand_deltas expand loc ds skels_it reference [] quiet).1,
        ∃ d ∈ ds, a.timestamp = d.timestamp := by
  induction ds with
  | nil => intro _ _ a ha; simp [expand_deltas] at ha
  | cons d ds ih =>
    intro skels_it reference a ha
    simp only [expand_deltas] at ha
    cases h : expand d.obj (choose_reference skels_it reference d.obj.id).2 with
    | error what =>
      simp only [h] at ha
      rw [expand_deltas_attics_rman] at ha
      simp only [List.nil_append] at ha
      obtain ⟨d2, hd2, e⟩ := ih _ _ a ha
      exact ⟨d2, List.mem_cons_of_mem _ hd2, e⟩
    | ok obj =>
      simp only [h] at ha
      by_cases h0 : obj.id = 0
      · simp only [h0, ne_eq, not_true_eq_false, if_false] at ha
        rw [expand_deltas_attics_rman] at ha
        simp only [List.nil_append] at ha
        obtain ⟨d2, hd2, e⟩ := ih _ _ a ha
        exact ⟨d2, List.mem_cons_of_mem _ hd2, e⟩
      · simp only [h0, ne_eq, not_false_eq_true, if_true] at ha
        rw [expand_deltas_attics_rman] at ha
        rcases List.mem_append.1 ha with h1 | h1
        · by_cases hf : is_first_of_id loc d = true
          · simp only [hf, if_true, List.nil_append, List.mem_singleton] at h1
            exact ⟨d, List.mem_cons_self _ _, by rw [h1]⟩
          · simp [hf] at h1
        · obtain ⟨d2, hd2, e⟩ := ih _ _ a h1
          exact ⟨d2, List.mem_cons_of_mem _ hd2, e⟩

theorem attic_simple_later (pred : Predicate) (q : Nat) (cur : List Skeleton)
    (att : List (Attic Skeleton)) :
    ∀ a ∈ (simple_contribution pred q).attic cur att, q < a.timestamp := by
  intro a ha
  simp only [simple_contribution, List.mem_filter, Bool.and_eq_true, decide_eq_true_eq] at ha
  exact ha.2.1

theorem attic_delta_later (expand : Delta → Skeleton → Except String Skeleton)
    (pred : Predicate) (q : Nat) (cur : List Skeleton) (att : List (Attic Delta)) :
    ∀ a ∈ (delta_contribution expand pred q).attic cur att, q < a.timestamp := by
  intro a ha
  simp only [delta_contribution, List.mem_filter] at ha
  obtain ⟨d, hd, e⟩ := expand_deltas_timestamps expand _ _ _ _ a ha.1
  have hd2 : d ∈ att.filter (fun d => decide (q < d.timestamp)) :=
    (sort_deltas_perm _).mem_iff.1 hd
  simp only [List.mem_filter, decide_eq_true_eq] at hd2
  rw [e]
  exact hd2.2

/-- A property of the attic objects that holds of those a bucket adds holds of all attic
objects of the final containers that were not there at the start. -/
theorem timestamp_walk_attic_property {γ : Type} (recon : Nat → Bucket γ → Bucket γ)
    (c : Contribution γ) (hr : Reconstructs recon c) (P : Attic Skeleton → Prop)
    (hP : ∀ cur att, ∀ a ∈ c.attic cur att, P a) (stmt : Bool) (fuel : Nat) (w : Walk γ)
    (hfuel : w.current.length + w.attic.length ≤ fuel) :
    ∃ w2, timestamp_walk recon stmt fuel w = some (false, w2) ∧
      ∀ i, ∀ a ∈ map_get w2.attic_result i, a ∈ map_get w.attic_result i ∨ P a := by
  have key := timestamp_walk_invariant recon c hr stmt
    (fun v => ∀ i, ∀ a ∈ map_get v.attic_result i, a ∈ map_get w.attic_result i ∨ P a)
    ?_ fuel w hfuel (fun i a ha => Or.inl ha)
  · obtain ⟨w2, e, h, _, _⟩ := key
    exact ⟨w2, e, h⟩
  · intro v index count rman _ hinv i a ha
    obtain ⟨_, _, _, e4, _⟩ := walk_bucket_eq recon c hr index count rman v
    rw [e4, map_get_map_set] at ha
    by_cases hi : i = index
    · simp only [hi, if_true] at ha
      have := (List.mem_filter.1 ha).1
      rcases List.mem_append.1 this with h1 | h1
      · exact hi ▸ hinv index a h1
      · exact Or.inr (hP _ _ a h1)
    · simp only [hi, if_false] at ha
      exact hinv i a ha

/-- The same for the live objects. -/
theorem timestamp_walk_live_property {γ : Type} (recon : Nat → Bucket γ → Bucket γ)
    (c : Contribution γ) (hr : Reconstructs recon c) (P : Skeleton → Prop)
    (hP : ∀ cur att, ∀ o ∈ c.live cur att, P o) (stmt : Bool) (fuel : Nat) (w : Walk γ)
    (hfuel : w.current.length + w.attic.length ≤ fuel) :
    ∃ w2, timestamp_walk recon stmt fuel w = some (false, w2) ∧
      ∀ i, ∀ o ∈ map_get w2.result i, o ∈ map_get w.result i ∨ P o := by
  have key := timestamp_walk_invariant recon c hr stmt
    (fun v => ∀ i, ∀ o ∈ map_get v.result i, o ∈ map_get w.result i ∨ P o)
    ?_ fuel w hfuel (fun i a ha => Or.inl ha)
  · obtain ⟨w2, e, h, _, _⟩ := key
    exact ⟨w2, e, h⟩
  · intro v index count rman _ hinv i a ha
    obtain ⟨_, _, e3, _, _⟩ := walk_bucket_eq recon c hr index count rman v
    rw [e3, map_get_map_set] at ha
    by_cases hi : i = index
    · simp only [hi, if_true] at ha
      have := (List.mem_filter.1 ha).1
      rcases List.mem_append.1 this with h1 | h1
      · exact hi ▸ hinv index a h1
      · exact Or.inr (hP _ _ a h1)
    · simp only [hi, if_false] at ha
      exact hinv i a ha

theorem at_index_filter {α : Type} (i : Nat) (l : List (Nat × α)) (f : α → Bool) :
    at_index i (l.filter (fun p => f p.2)) = (at_index i l).filter f := by
  unfold at_index
  rw [List.filter_map, List.filter_filter, List.filter_filter]
  congr 2
  funext p
  simp [Bool.and_comm]

theorem ascending_filter {α : Type} (l : List (Nat × α)) (f : Nat × α → Bool)
    (h : Ascending l) : Ascending (l.filter f) :=
  List.Pairwise.sublist (List.filter_sublist _) h

/-- Over ascending streams and from empty containers, dropping from the attic stream the
records that the contribution ignores changes no vector of the result. -/
theorem timestamp_walk_ignores {γ : Type} (recon : Nat → Bucket γ → Bucket γ)
    (c : Contribution γ) (hr : Reconstructs recon c) (fresh : γ → Bool)
    (hlive : ∀ cur att, c.live cur (att.filter fresh) = c.live cur att)
    (hattic : ∀ cur att, c.attic cur (att.filter fresh) = c.attic cur att)
    (hrec : ∀ cur att, c.recorded cur (att.filter fresh) = c.recorded cur att)
    (hnil : c.live [] [] = [] ∧ c.attic [] [] = [])
    (stmt : Bool) (rman : Resource_Manager) (cur : List (Nat × Skeleton))
    (att : List (Nat × γ)) (cur_idx : Option Nat) (hc : Ascending cur) (ha : Ascending att) :
    ∃ w w2,
      timestamp_walk recon stmt (cur.length + att.length)
        { current := cur, attic := att, result := [], attic_result := [], count := 0,
          rman := rman, cur_idx := cur_idx } = some (false, w) ∧
      timestamp_walk recon stmt (cur.length + (att.filter (fun p => fresh p.2)).length)
        { current := cur, attic := att.filter (fun p => fresh p.2), result := [],
          attic_result := [], count := 0, rman := rman, cur_idx := cur_idx }
          = some (false, w2) ∧
      ∀ i, map_get w.result i = map_get w2.result i ∧
        map_get w.attic_result i = map_get w2.attic_result i := by
  obtain ⟨w, e, hnot, hvis⟩ := timestamp_walk_ascending recon c hr stmt
    (cur.length + att.length)
    { current := cur, attic := att, result := [], attic_result := [], count := 0,
      rman := rman, cur_idx := cur_idx } hc ha (le_refl _)
  obtain ⟨w2, e2, hnot2, hvis2⟩ := timestamp_walk_ascending recon c hr stmt
    (cur.length + (att.filter (fun p => fresh p.2)).length)
    { current := cur, attic := att.filter (fun p => fresh p.2), result := [],
      attic_result := [], count := 0, rman := rman, cur_idx := cur_idx } hc
    (ascending_filter att _ ha) (le_refl _)
  refine ⟨w, w2, e, e2, ?_⟩
  intro i
  simp only at hnot hvis hnot2 hvis2
  by_cases hv2 : Visited i cur (att.filter (fun p => fresh p.2))
  · have hv : Visited i cur att := by
      rcases hv2 with h | h
      · exact Or.inl h
      · right
        obtain ⟨p, hp, e⟩ := List.mem_map.1 h
        exact List.mem_map.2 ⟨p, (List.mem_filter.1 hp).1, e⟩
    obtain ⟨r1, r2⟩ := hvis i hv
    obtain ⟨s1, s2⟩ := hvis2 i hv2
    rw [r1, r2, s1, s2, at_index_filter, hlive, hattic, hrec]
    exact ⟨rfl, rfl⟩
  · obtain ⟨s1, s2⟩ := hnot2 i hv2
    rw [s1, s2]
    by_cases hv : Visited i cur att
    · obtain ⟨r1, r2⟩ := hvis i hv
      have hcur : at_index i cur = [] :=
        (at_index_eq_nil i cur).2 (fun h => hv2 (Or.inl h))
      have hatt : (at_index i att).filter fresh = [] := by
        rw [← at_index_filter]
        exact (at_index_eq_nil i _).2 (fun h => hv2 (Or.inr h))
      rw [r1, r2, hcur, ← hlive, ← hattic, hatt, hnil.1, hnil.2]
      simp [bucket_vector, map_get, filter_items_by_timestamp]
    · obtain ⟨r1, r2⟩ := hnot i hv
      rw [r1, r2]
      exact ⟨rfl, rfl⟩

theorem ignores_simple (pred : Predicate) (q : Nat) :
    (∀ cur att, (simple_contribution pred q).live cur
        (att.filter (fun a => decide (q < a.timestamp)))
      = (simple_contribution pred q).live cur att) ∧
    (∀ cur att, (simple_contribution pred q).attic cur
        (att.filter (fun a => decide (q < a.timestamp)))
      = (simple_contribution pred q).attic cur att) ∧
    (∀ cur att, (simple_contribution pred q).recorded cur
        (att.filter (fun a => decide (q < a.timestamp)))
      = (simple_contribution pred q).recorded cur att) ∧
    ((simple_contribution pred q).live [] [] = [] ∧
      (simple_contribution pred q).attic [] [] = []) := by
  refine ⟨fun _ _ => rfl, ?_, ?_, rfl, rfl⟩
  · intro cur att
    simp only [simple_contribution, List.filter_filter]
    congr 1
    funext a
    by_cases h : q < a.timestamp <;> simp [h]
  · intro cur att
    simp only [simple_contribution, List.filter_filter]
    congr 3
    funext a
    by_cases h : q < a.timestamp <;> simp [h]

theorem ignores_delta (expand : Delta → Skeleton → Except String Skeleton)
    (pred : Predicate) (q : Nat) :
    (∀ cur att, (delta_contribution expand pred q).live cur
        (att.filter (fun a => decide (q < a.timestamp)))
      = (delta_contribution expand pred q).live cur att) ∧
    (∀ cur att, (delta_contribution expand pred q).attic cur
        (att.filter (fun a => decide (q < a.timestamp)))
      = (delta_contribution expand pred q).attic cur att) ∧
    (∀ cur att, (delta_contribution expand pred q).recorded cur
        (att.filter (fun a => decide (q < a.timestamp)))
      = (delta_contribution expand pred q).recorded cur att) ∧
    ((delta_contribution expand pred q).live [] [] = [] ∧
      (delta_contribution expand pred q).attic [] [] = []) := by
  have hff : ∀ att : List (Attic Delta),
      (att.filter (fun a => decide (q < a.timestamp))).filter
        (fun a => decide (q < a.timestamp))
      = att.filter (fun a => decide (q < a.timestamp)) := by
    intro att
    rw [List.filter_filter]
    congr 1
    funext a
    simp
  refine ⟨fun _ _ => rfl, ?_, ?_, ?_, ?_⟩
  · intro cur att
    simp only [delta_contribution, expanded_attics, hff]
  · intro cur att
    simp only [delta_contribution, hff]
  · simp [delta_contribution, sort_skels]
  · simp [delta_contribution, expanded_attics, sort_deltas, expand_deltas]

/-- C4. An attic record at or before the query timestamp (equality included) has no effect
on the objects returned by `collect_items_by_timestamp`, in each overload. (1) From empty
result containers the call returns and every object of the attic result has a timestamp
later than the query timestamp. (2) Over ascending streams, the call on the attic stream
and the call on the attic stream without the records at or before the query timestamp
leave the same live and attic vector under every index; so such a record suppresses no
live object. (3) Scenario E3: a current object of id 2 and an attic record of id 2 with
timestamp 50 under index 100, queried at 100, give the live object and no attic object. -/
theorem C4_stale_attic_records_have_no_effect :
    (∀ (stmt : Bool) (rman : Resource_Manager) (cur : List (Nat × Skeleton))
        (att : List (Nat × Attic Skeleton)) (pred : Predicate) (cur_idx : Option Nat)
        (q : Nat),
      (∃ w, collect_items_by_timestamp stmt rman cur att pred cur_idx q [] []
          = some (false, w) ∧ ∀ i, ∀ a ∈ map_get w.attic_result i, q < a.timestamp) ∧
      (Ascending cur → Ascending att →
        ∃ w w2, collect_items_by_timestamp stmt rman cur att pred cur_idx q [] []
            = some (false, w) ∧
          collect_items_by_timestamp stmt rman cur
            (att.filter (fun p => decide (q < p.2.timestamp))) pred cur_idx q [] []
            = some (false, w2) ∧
          ∀ i, map_get w.result i = map_get w2.result i ∧
            map_get w.attic_result i = map_get w2.attic_result i)) ∧
    (∀ (expand : Delta → Skeleton → Except String Skeleton) (stmt : Bool)
        (rman : Resource_Manager) (cur : List (Nat × Skeleton))
        (att : List (Nat × Attic Delta)) (pred : Predicate) (cur_idx : Option Nat)
        (q : Nat),
      (∃ w, collect_items_by_timestamp_way expand stmt rman cur att pred cur_idx q [] []
          = some (false, w) ∧ ∀ i, ∀ a ∈ map_get w.attic_result i, q < a.timestamp) ∧
      (∃ w, collect_items_by_timestamp_relation expand stmt rman cur att pred cur_idx q [] []
          = some (false, w) ∧ ∀ i, ∀ a ∈ map_get w.attic_result i, q < a.timestamp) ∧
      (Ascending cur → Ascending att →
        (∃ w w2, collect_items_by_timestamp_way expand stmt rman cur att pred cur_idx q [] []
            = some (false, w) ∧
          collect_items_by_timestamp_way expand stmt rman cur
            (att.filter (fun p => decide (q < p.2.timestamp))) pred cur_idx q [] []
            = some (false, w2) ∧
          ∀ i, map_get w.result i = map_get w2.result i ∧
            map_get w.attic_result i = map_get w2.attic_result i) ∧
        (∃ w w2, collect_items_by_timestamp_relation expand stmt rman cur att pred cur_idx q
            [] [] = some (false, w) ∧
          collect_items_by_timestamp_relation expand stmt rman cur
            (att.filter (fun p => decide (q < p.2.timestamp))) pred cur_idx q [] []
            = some (false, w2) ∧
          ∀ i, map_get w.result i = map_get w2.result i ∧
            map_get w.attic_result i = map_get w2.attic_result i))) ∧
    (∀ (data attic_data : Nat),
      (collect_items_by_timestamp false quiet [(100, ⟨2, data⟩)]
          [(100, ⟨⟨2, attic_data⟩, 50⟩)] always_true none 100 [] []).map
        (fun r => (r.1, r.2.result, r.2.attic_result))
      = some (false, [(100, [⟨2, data⟩])], [(100, [])])) ∧
    (∀ (expand : Delta → Skeleton → Except String Skeleton) (s : Skeleton) (d : Delta),
      s.id = 2 → d.id = 2 →
      (collect_items_by_timestamp_way expand false quiet [(100, s)] [(100, ⟨d, 50⟩)]
          always_true none 100 [] []).map (fun r => (r.1, r.2.result, r.2.attic_result))
        = some (false, [(100, [s])], [(100, [])]) ∧
      (collect_items_by_timestamp_relation expand false quiet [(100, s)] [(100, ⟨d, 50⟩)]
          always_true none 100 [] []).map (fun r => (r.1, r.2.result, r.2.attic_result))
        = some (false, [(100, [s])], [(100, [])])) := by
  refine ⟨?_, ?_, ?_, ?_⟩
  · intro stmt rman cur att pred cur_idx q
    constructor
    · obtain ⟨w, e, h⟩ := timestamp_walk_attic_property _ _ (reconstructs_simple pred q)
        (fun a => q < a.timestamp) (attic_simple_later pred q) stmt
        (cur.length + att.length)
        { current := cur, attic := att, result := [], attic_result := [], count := 0,
          rman := rman, cur_idx := cur_idx } (le_refl _)
      refine ⟨w, e, ?_⟩
      intro i a ha
      rcases h i a ha with h1 | h1
      · simp [map_get] at h1
      · exact h1
    · intro hc ha
      obtain ⟨i1, i2, i3, i4⟩ := ignores_simple pred q
      exact timestamp_walk_ignores _ _ (reconstructs_simple pred q)
        (fun a => decide (q < a.timestamp)) i1 i2 i3 i4 stmt rman cur att cur_idx hc ha
  · intro expand stmt rman cur att pred cur_idx q
    have h1 : ∃ w, timestamp_walk (fun index => reconstruct_delta expand pred index q) stmt
        (cur.length + att.length)
        { current := cur, attic := att, result := [], attic_result := [], count := 0,
          rman := rman, cur_idx := cur_idx } = some (false, w) ∧
        ∀ i, ∀ a ∈ map_get w.attic_result i, q < a.timestamp := by
      obtain ⟨w, e, h⟩ := timestamp_walk_attic_property _ _
        (reconstructs_delta expand pred q) (fun a => q < a.timestamp)
        (attic_delta_later expand pred q) stmt (cur.length + att.length)
        { current := cur, attic := att, result := [], attic_result := [], count := 0,
          rman := rman, cur_idx := cur_idx } (le_refl _)
      refine ⟨w, e, ?_⟩
      intro i a ha
      rcases h i a ha with h1 | h1
      · simp [map_get] at h1
      · exact h1
    refine ⟨h1, h1, ?_⟩
    intro hc ha
    obtain ⟨i1, i2, i3, i4⟩ := ignores_delta expand pred q
    have h2 := timestamp_walk_ignores _ _ (reconstructs_delta expand pred q)
      (fun a => decide (q < a.timestamp)) i1 i2 i3 i4 stmt rman cur att cur_idx hc ha
    exact ⟨h2, h2⟩
  · intro data attic_data
    simp [collect_items_by_timestamp, timestamp_walk, next_index, walk_bucket,
      reconstruct_simple, reconstruct_items, sort_pairs, lower_bound, pair_lt, map_get,
      map_set, filter_items_by_timestamp, timestamp_matches, always_true, Element.id_of,
      Element.timestamp_of, NOW, pair_le, List.orderedInsert]
  · intro expand s d hs hd
    constructor
    · simp [collect_items_by_timestamp_way, timestamp_walk, next_index, walk_bucket,
        reconstruct_delta, collect_current, collect_attic, sort_skels, sort_deltas,
        sort_pairs, expand_deltas, hs, lower_bound, pair_lt, map_get, map_set,
        filter_items_by_timestamp, timestamp_matches, always_true, Element.id_of,
        Element.timestamp_of, NOW, pair_le, List.orderedInsert]
    · simp [collect_items_by_timestamp_relation, timestamp_walk, next_index, walk_bucket,
        reconstruct_delta, collect_current, collect_attic, sort_skels, sort_deltas,
        sort_pairs, expand_deltas, hs, lower_bound, pair_lt, map_get, map_set,
        filter_items_by_timestamp, timestamp_matches, always_true, Element.id_of,
        Element.timestamp_of, NOW, pair_le, List.orderedInsert]

/-- C4 at two buckets, the second of which holds only an attic record before the query
timestamp. -/
theorem C4_stale_attic_records_have_no_effect_witness :
    Ascending ([(100, ⟨2, 0⟩)] : List (Nat × Skeleton)) ∧
    Ascending ([(100, ⟨⟨2, 7⟩, 50⟩), (101, ⟨⟨3, 1⟩, 100⟩)] : List (Nat × Attic Skeleton)) ∧
    ∃ w w2, collect_items_by_timestamp false quiet [(100, ⟨2, 0⟩)]
        [(100, ⟨⟨2, 7⟩, 50⟩), (101, ⟨⟨3, 1⟩, 100⟩)] always_true none 100 [] []
          = some (false, w) ∧
      collect_items_by_timestamp false quiet [(100, ⟨2, 0⟩)]
        (([(100, ⟨⟨2, 7⟩, 50⟩), (101, ⟨⟨3, 1⟩, 100⟩)] : List (Nat × Attic Skeleton)).filter
          (fun p => decide (100 < p.2.timestamp))) always_true none 100 [] []
          = some (false, w2) ∧
      ∀ i, map_get w.result i = map_get w2.result i ∧
        map_get w.attic_result i = map_get w2.attic_result i :=
  ⟨by decide, by decide,
    (C4_stale_attic_records_have_no_effect.1 false quiet [(100, ⟨2, 0⟩)]
      [(100, ⟨⟨2, 7⟩, 50⟩), (101, ⟨⟨3, 1⟩, 100⟩)] always_true none 100).2
      (by decide) (by decide)⟩

/-! ## The plain collectors -/

theorem map_get_push_object {α : Type} (result : Result_Map α) (i j : Nat) (o : α) :
    map_get (push_object result i o) j =
      if j = i then map_get result i ++ [o] else map_get result j := by
  unfold push_object
  rw [map_get_map_set]

/-- What the statement of the loop body that tests the handle and appends the object
does to the vector under an index. -/
theorem map_get_push_if {α : Type} (result : Result_Map α) (b : Bool) (i j : Nat) (o : α) :
    map_get (if b = true then push_object result i o else result) j =
      map_get result j ++ (if j = i ∧ b = true then [o] else []) := by
  by_cases hb : b = true
  · by_cases hj : j = i
    · simp [hb, hj, map_get_push_object]
    · simp [hb, hj, map_get_push_object]
  · simp [hb]

theorem at_index_cons {α : Type} (i j : Nat) (o : α) (l : List (Nat × α)) :
    at_index i ((j, o) :: l) = (if i = j then [o] else []) ++ at_index i l := by
  unfold at_index
  by_cases h : j = i
  · simp [h]
  · have : ¬ i = j := fun e => h e.symm
    simp [h, this]

/-- The vectors `collect_items_discrete` leaves: under every index the former content,
followed by the objects of that index whose handle matches, in stream order. -/
theorem collect_items_discrete_loop_get (stmt : Bool) (pred : Predicate)
    (l : List (Nat × Skeleton)) :
    ∀ (count : Nat) (rman : Resource_Manager) (result : Result_Map Skeleton) (i : Nat),
      map_get (collect_items_discrete_loop stmt pred l count rman result).2 i =
        map_get result i
          ++ (at_index i l).filter (fun o => pred.match_handle { view := o }) := by
  induction l with
  | nil => intro _ _ _ _; simp [collect_items_discrete_loop, at_index]
  | cons a l ih =>
    obtain ⟨j, o⟩ := a
    intro count rman result i
    simp only [collect_items_discrete_loop]
    rw [ih, map_get_push_if, at_index_cons]
    by_cases h1 : i = j <;> by_cases h2 : pred.match_handle { view := o } = true <;>
      simp [h1, h2, List.filter_cons]

theorem collect_items_discrete_transaction_loop_get (pred : Predicate)
    (l : List (Nat × Skeleton)) :
    ∀ (result : Result_Map Skeleton) (i : Nat),
      map_get (collect_items_discrete_transaction_loop pred l result) i =
        map_get result i
          ++ (at_index i l).filter (fun o => pred.match_handle { view := o }) := by
  induction l with
  | nil => intro _ _; simp [collect_items_discrete_transaction_loop, at_index]
  | cons a l ih =>
    obtain ⟨j, o⟩ := a
    intro result i
    simp only [collect_items_discrete_transaction_loop]
    rw [ih, map_get_push_if, at_index_cons]
    by_cases h1 : i = j <;> by_cases h2 : pred.match_handle { view := o } = true <;>
      simp [h1, h2, List.filter_cons]

theorem collect_items_flat_loop_get (pred : Predicate) (l : List (Nat × Skeleton)) :
    ∀ (count : Nat) (rman : Resource_Manager) (result : Result_Map Skeleton) (i : Nat),
      map_get (collect_items_flat_loop pred l count rman result).2 i =
        map_get result i
          ++ (at_index i l).filter (fun o => pred.match_handle { view := o }) := by
  induction l with
  | nil => intro _ _ _ _; simp [collect_items_flat_loop, at_index]
  | cons a l ih =>
    obtain ⟨j, o⟩ := a
    intro count rman result i
    simp only [collect_items_flat_loop]
    rw [ih, map_get_push_if, at_index_cons]
    by_cases h1 : i = j <;> by_cases h2 : pred.match_handle { view := o } = true <;>
      simp [h1, h2, List.filter_cons]

theorem range_checkpoint_result (stmt : Bool) (i : Nat) (s : Range_State) :
    (range_checkpoint stmt i s).result = s.result := by
  unfold range_checkpoint
  split <;> rfl

/-- Every object `collect_items_range` leaves under an index was there before or has a
matching handle. -/
theorem collect_items_range_loop_sound (stmt : Bool) (pred : Predicate)
    (l : List (Nat × Skeleton)) :
    ∀ (s : Range_State) (i : Nat),
      ∀ o ∈ map_get (collect_items_range_loop stmt pred l s).2.result i,
        o ∈ map_get s.result i ∨ pred.match_handle { view := o } = true := by
  induction l with
  | nil => intro s i o ho; exact Or.inl (by simpa [collect_items_range_loop] using ho)
  | cons a l ih =>
    obtain ⟨j, x⟩ := a
    intro s i o ho
    simp only [collect_items_range_loop] at ho
    by_cases h1 : (s.too_much_data && !decide (s.cur_idx = j)) = true
    · simp only [h1, if_true] at ho
      exact Or.inl ho
    · simp only [h1, if_false] at ho
      rcases ih _ i o ho with h2 | h2
      · simp only [range_checkpoint_result] at h2
        rw [map_get_push_if] at h2
        rcases List.mem_append.1 h2 with h3 | h3
        · exact Or.inl h3
        · right
          by_cases h5 : i = j ∧ pred.match_handle { view := x } = true
          · simp only [h5, and_self, if_true, List.mem_singleton] at h3
            rw [h3]; exact h5.2
          · simp [h5] at h3
      · exact Or.inr h2

theorem mem_filter_append_sound {α : Type} (old l : List α) (p : α → Bool) (o : α)
    (h : o ∈ old ++ l.filter p) : o ∈ old ∨ p o = true := by
  rcases List.mem_append.1 h with h1 | h1
  · exact Or.inl h1
  · exact Or.inr (List.mem_filter.1 h1).2

/-- C5 (predicate soundness). Whatever the input, every object that a collector leaves in
a result vector was in that vector before the call or satisfies `predicate.match`: for
the three overloads of `collect_items_by_timestamp` (which return, and whose live objects
match as skeletons and attic objects as attic skeletons), and for `collect_items_discrete`
in both overloads, `collect_items_range` and `collect_items_flat` (whose objects match
through their handle, as the loops test `predicate.match(it.handle())`). -/
theorem C5_predicate_soundness :
    (∀ (stmt : Bool) (rman : Resource_Manager) (cur : List (Nat × Skeleton))
        (att : List (Nat × Attic Skeleton)) (pred : Predicate) (cur_idx : Option Nat)
        (q : Nat) (res : Result_Map Skeleton) (ares : Result_Map (Attic Skeleton)),
      ∃ w, collect_items_by_timestamp stmt rman cur att pred cur_idx q res ares
          = some (false, w) ∧
        (∀ i, ∀ o ∈ map_get w.result i, o ∈ map_get res i ∨ pred.match_skel o = true) ∧
        (∀ i, ∀ a ∈ map_get w.attic_result i,
          a ∈ map_get ares i ∨ pred.match_attic a = true)) ∧
    (∀ (expand : Delta → Skeleton → Except String Skeleton) (stmt : Bool)
        (rman : Resource_Manager) (cur : List (Nat × Skeleton))
        (att : List (Nat × Attic Delta)) (pred : Predicate) (cur_idx : Option Nat)
        (q : Nat) (res : Result_Map Skeleton) (ares : Result_Map (Attic Skeleton)),
      (∃ w, collect_items_by_timestamp_way expand stmt rman cur att pred cur_idx q res ares
          = some (false, w) ∧
        (∀ i, ∀ o ∈ map_get w.result i, o ∈ map_get res i ∨ pred.match_skel o = true) ∧
        (∀ i, ∀ a ∈ map_get w.attic_result i,
          a ∈ map_get ares i ∨ pred.match_attic a = true)) ∧
      (∃ w, collect_items_by_timestamp_relation expand stmt rman cur att pred cur_idx q res
          ares = some (false, w) ∧
        (∀ i, ∀ o ∈ map_get w.result i, o ∈ map_get res i ∨ pred.match_skel o = true) ∧
        (∀ i, ∀ a ∈ map_get w.attic_result i,
          a ∈ map_get ares i ∨ pred.match_attic a = true))) ∧
    (∀ (stmt : Bool) (rman : Resource_Manager) (db : List (Nat × Skeleton)) (req : List Nat)
        (pred : Predicate) (result : Result_Map Skeleton) (i : Nat),
      ∀ o ∈ map_get (collect_items_discrete stmt rman db req pred result).2 i,
        o ∈ map_get result i ∨ pred.match_handle { view := o } = true) ∧
    (∀ (db : List (Nat × Skeleton)) (req : List Nat) (pred : Predicate)
        (result : Result_Map Skeleton) (i : Nat),
      ∀ o ∈ map_get (collect_items_discrete_transaction db req pred result) i,
        o ∈ map_get result i ∨ pred.match_handle { view := o } = true) ∧
    (∀ (stmt : Bool) (rman : Resource_Manager) (db : List (Nat × Skeleton))
        (req : List (Nat × Nat)) (pred : Predicate) (cur_idx : Nat)
        (result : Result_Map Skeleton) (i : Nat),
      ∀ o ∈ map_get (collect_items_range stmt rman db req pred cur_idx result).2.result i,
        o ∈ map_get result i ∨ pred.match_handle { view := o } = true) ∧
    (∀ (rman : Resource_Manager) (db : List (Nat × Skeleton)) (pred : Predicate)
        (result : Result_Map Skeleton) (i : Nat),
      ∀ o ∈ map_get (collect_items_flat rman db pred result).2 i,
        o ∈ map_get result i ∨ pred.match_handle { view := o } = true) := by
  refine ⟨?_, ?_, ?_, ?_, ?_, ?_⟩
  · intro stmt rman cur att pred cur_idx q res ares
    obtain ⟨w, e, h1, h2⟩ := timestamp_walk_invariant _ _ (reconstructs_simple pred q) stmt
      (fun v => (∀ i, ∀ o ∈ map_get v.result i,
          o ∈ map_get res i ∨ pred.match_skel o = true) ∧
        (∀ i, ∀ a ∈ map_get v.attic_result i,
          a ∈ map_get ares i ∨ pred.match_attic a = true))
      (by
        intro v index count rman2 _ hinv
        obtain ⟨_, _, e3, e4, _⟩ := walk_bucket_eq _ _ (reconstructs_simple pred q) index
          count rman2 v
        constructor
        · intro i o ho
          rw [e3, map_get_map_set] at ho
          by_cases hi : i = index
          · simp only [hi, if_true] at ho
            rcases List.mem_append.1 (List.mem_filter.1 ho).1 with h | h
            · exact hi ▸ hinv.1 index o h
            · simp only [simple_contribution, List.mem_filter, Bool.and_eq_true] at h
              exact Or.inr h.2.2
          · simp only [hi, if_false] at ho
            exact hinv.1 i o ho
        · intro i a ha
          rw [e4, map_get_map_set] at ha
          by_cases hi : i = index
          · simp only [hi, if_true] at ha
            rcases List.mem_append.1 (List.mem_filter.1 ha).1 with h | h
            · exact hi ▸ hinv.2 index a h
            · simp only [simple_contribution, List.mem_filter, Bool.and_eq_true] at h
              exact Or.inr h.2.2
          · simp only [hi, if_false] at ha
            exact hinv.2 i a ha)
      (cur.length + att.length)
      { current := cur, attic := att, result := res, attic_result := ares, count := 0,
        rman := rman, cur_idx := cur_idx } (le_refl _)
      ⟨fun i o ho => Or.inl ho, fun i a ha => Or.inl ha⟩
    exact ⟨w, e, h1.1, h1.2⟩
  · intro expand stmt rman cur att pred cur_idx q res ares
    have key : ∃ w, timestamp_walk (fun index => reconstruct_delta expand pred index q) stmt
        (cur.length + att.length)
        { current := cur, attic := att, result := res, attic_result := ares, count := 0,
          rman := rman, cur_idx := cur_idx } = some (false, w) ∧
        (∀ i, ∀ o ∈ map_get w.result i, o ∈ map_get res i ∨ pred.match_skel o = true) ∧
        (∀ i, ∀ a ∈ map_get w.attic_result i,
          a ∈ map_get ares i ∨ pred.match_attic a = true) := by
      obtain ⟨w, e, h1, h2⟩ := timestamp_walk_invariant _ _
        (reconstructs_delta expand pred q) stmt
        (fun v => (∀ i, ∀ o ∈ map_get v.result i,
            o ∈ map_get res i ∨ pred.match_skel o = true) ∧
          (∀ i, ∀ a ∈ map_get v.attic_result i,
            a ∈ map_get ares i ∨ pred.match_attic a = true))
        (by
          intro v index count rman2 _ hinv
          obtain ⟨_, _, e3, e4, _⟩ := walk_bucket_eq _ _ (reconstructs_delta expand pred q)
            index count rman2 v
          constructor
          · intro i o ho
            rw [e3, map_get_map_set] at ho
            by_cases hi : i = index
            · simp only [hi, if_true] at ho
              rcases List.mem_append.1 (List.mem_filter.1 ho).1 with h | h
              · exact hi ▸ hinv.1 index o h
              · simp only [delta_contribution, List.mem_filter] at h
                exact Or.inr h.2
            · simp only [hi, if_false] at ho
              exact hinv.1 i o ho
          · intro i a ha
            rw [e4, map_get_map_set] at ha
            by_cases hi : i = index
            · simp only [hi, if_true] at ha
              rcases List.mem_append.1 (List.mem_filter.1 ha).1 with h | h
              · exact hi ▸ hinv.2 index a h
              · simp only [delta_contribution, List.mem_filter] at h
                exact Or.inr h.2
            · simp only [hi, if_false] at ha
              exact hinv.2 i a ha)
        (cur.length + att.length)
        { current := cur, attic := att, result := res, attic_result := ares, count := 0,
          rman := rman, cur_idx := cur_idx } (le_refl _)
        ⟨fun i o ho => Or.inl ho, fun i a ha => Or.inl ha⟩
      exact ⟨w, e, h1.1, h1.2⟩
    exact ⟨key, key⟩
  · intro stmt rman db req pred result i o ho
    unfold collect_items_discrete at ho
    rw [collect_items_discrete_loop_get] at ho
    exact mem_filter_append_sound _ _ _ o ho
  · intro db req pred result i o ho
    unfold collect_items_discrete_transaction at ho
    rw [collect_items_discrete_transaction_loop_get] at ho
    exact mem_filter_append_sound _ _ _ o ho
  · intro stmt rman db req pred cur_idx result i o ho
    exact collect_items_range_loop_sound stmt pred _ _ i o ho
  · intro rman db pred result i o ho
    unfold collect_items_flat at ho
    rw [collect_items_flat_loop_get] at ho
    exact mem_filter_append_sound _ _ _ o ho

/-- C5 at a store of three objects and the predicate that matches the even ids: the
object that `collect_items_flat` leaves under index 7 in an empty container matches. -/
theorem C5_predicate_soundness_witness :
    (⟨4, 0⟩ : Skeleton) ∈ map_get (collect_items_flat quiet
        [(7, ⟨3, 0⟩), (7, ⟨4, 0⟩), (9, ⟨6, 0⟩)]
        { match_skel := fun o => decide (o.id % 2 = 0),
          match_attic := fun a => decide (a.obj.id % 2 = 0),
          match_handle := fun h => decide (h.view.id % 2 = 0) } []).2 7 ∧
    ((⟨4, 0⟩ : Skeleton) ∈ map_get ([] : Result_Map Skeleton) 7 ∨
      decide ((⟨4, 0⟩ : Skeleton).id % 2 = 0) = true) :=
  ⟨by decide,
    C5_predicate_soundness.2.2.2.2.2 quiet [(7, ⟨3, 0⟩), (7, ⟨4, 0⟩), (9, ⟨6, 0⟩)]
      { match_skel := fun o => decide (o.id % 2 = 0),
        match_attic := fun a => decide (a.obj.id % 2 = 0),
        match_handle := fun h => decide (h.view.id % 2 = 0) } [] 7 ⟨4, 0⟩ (by decide)⟩

/-! ## The derivation of the void list -/

theorem getD_set_bool (v : List Bool) (k j : Nat) (hk : k < v.length) :
    (v.set k true).getD j false = (v.getD j false || decide (j = k)) := by
  simp only [List.getD_eq_getElem?_getD, List.getElem?_set]
  by_cases h : k = j
  · subst h
    simp [hk]
  · have : ¬ j = k := fun e => h e.symm
    simp [h, this]

/-- The marking loop of one entry, when the blocks it still has to mark lie inside the
vector: it marks exactly them. -/
theorem mark_entry_spec (pos : Nat) :
    ∀ (left i : Nat) (v : List Bool), pos + i + left ≤ v.length → v.length < 2 ^ 32 →
      ∃ v2, mark_entry pos left i v = some v2 ∧ v2.length = v.length ∧
        ∀ j, v2.getD j false = (v.getD j false || decide (pos + i ≤ j ∧ j < pos + i + left)) := by
  intro left
  induction left with
  | zero =>
    intro i v _ _
    refine ⟨v, rfl, rfl, ?_⟩
    intro j
    have : ¬ (pos + i ≤ j ∧ j < pos + i + 0) := by omega
    simp [this]
  | succ left ih =>
    intro i v hle hlt
    have hmod : (pos + i) % 2 ^ 32 = pos + i := Nat.mod_eq_of_lt (by omega)
    have hin : pos + i < v.length := by omega
    simp only [mark_entry, hmod, hin, if_true]
    obtain ⟨v2, e, hlen, hget⟩ := ih (i + 1) (v.set (pos + i) true)
      (by rw [List.length_set]; omega) (by rw [List.length_set]; exact hlt)
    refine ⟨v2, e, by rw [hlen, List.length_set], ?_⟩
    intro j
    rw [hget j, getD_set_bool v (pos + i) j hin]
    generalize v.getD j false = b
    cases b
    · simp only [Bool.false_or]
      rw [Bool.eq_iff_iff]
      simp only [Bool.or_eq_true, decide_eq_true_eq]
      omega
    · simp only [Bool.true_or]

/-- The marking of a sequence of entries that lie inside the vector: a block is marked
exactly if it was marked before or an entry covers it. -/
theorem mark_entries_spec {I : Type} (l : List (File_Block_Index_Entry I)) :
    ∀ (v : List Bool), (∀ e ∈ l, e.pos + e.size ≤ v.length) → v.length < 2 ^ 32 →
      ∃ v2, mark_entries l v = some v2 ∧ v2.length = v.length ∧
        ∀ j, (v2.getD j false = true ↔ (v.getD j false = true ∨ ∃ e ∈ l, Covers e j)) := by
  induction l with
  | nil =>
    intro v _ _
    exact ⟨v, rfl, rfl, fun j => by simp⟩
  | cons e l ih =>
    intro v hin hlt
    obtain ⟨v1, e1, hlen1, hget1⟩ := mark_entry_spec e.pos e.size 0 v
      (by have := hin e (List.mem_cons_self _ _); omega) hlt
    obtain ⟨v2, e2, hlen2, hget2⟩ := ih v1
      (fun f hf => by rw [hlen1]; exact hin f (List.mem_cons_of_mem _ hf))
      (by rw [hlen1]; exact hlt)
    refine ⟨v2, ?_, by rw [hlen2, hlen1], ?_⟩
    · simp only [mark_entries, e1, e2]
    · intro j
      rw [hget2 j, hget1 j]
      simp only [Nat.add_zero, Bool.or_eq_true, decide_eq_true_eq, List.mem_cons,
        exists_eq_or_imp, Covers]
      tauto

theorem scan_blocks_spec (is_referred : List Bool) :
    ∀ (left i last_start : Nat) (void_blocks : List (Nat × Nat)),
      Scanned is_referred i last_start void_blocks →
      Scanned is_referred (i + left)
        (scan_blocks is_referred left i last_start void_blocks).1
        (scan_blocks is_referred left i last_start void_blocks).2 := by
  intro left
  induction left with
  | zero => intro i ls vb h; simpa [scan_blocks] using h
  | succ left ih =>
    intro i ls vb h
    obtain ⟨h0, h1, h2, h3⟩ := h
    have hidx : i + (left + 1) = (i + 1) + left := by omega
    rw [hidx]
    by_cases href : is_referred.getD i false = true
    · simp only [scan_blocks, href, if_true]
      apply ih
      refine ⟨le_refl _, ?_, ?_, ?_⟩
      · intro r hr
        by_cases hlt : ls < i
        · simp only [hlt, if_true, List.mem_append, List.mem_singleton] at hr
          rcases hr with hr | hr
          · have := h1 r hr; omega
          · subst hr; simp; omega
        · simp only [hlt, if_false] at hr
          have := h1 r hr; omega
      · intro j hj
        by_cases hji : j = i
        · subst hji
          simp only [href, Bool.true_eq_false, false_iff, not_or, not_exists, not_and, not_le]
          refine ⟨?_, by omega⟩
          intro r hr hin
          unfold In_Run at hin
          by_cases hlt : ls < j
          · simp only [hlt, if_true, List.mem_append, List.mem_singleton] at hr
            rcases hr with hr | hr
            · have := h1 r hr; omega
            · subst hr; simp at hin; omega
          · simp only [hlt, if_false] at hr
            have := h1 r hr; omega
        · have hj2 : j < i := by omega
          rw [h2 j hj2]
          by_cases hlt : ls < i
          · simp only [hlt, if_true, List.mem_append, List.mem_singleton]
            constructor
            · rintro (⟨r, hr, hin⟩ | hle)
              · exact Or.inl ⟨r, Or.inl hr, hin⟩
              · exact Or.inl ⟨(i - ls, ls), Or.inr rfl, by unfold In_Run; simp; omega⟩
            · rintro (⟨r, hr | hr, hin⟩ | hle)
              · exact Or.inl ⟨r, hr, hin⟩
              · subst hr
                unfold In_Run at hin
                simp at hin
                exact Or.inr hin.1
              · omega
          · simp only [hlt, if_false]
            constructor
            · rintro (h | h)
              · exact Or.inl h
              · omega
            · rintro (h | h)
              · exact Or.inl h
              · omega
      · by_cases hlt : ls < i
        · simp only [hlt, if_true]
          rw [List.pairwise_append]
          refine ⟨h3, List.pairwise_singleton _ _, ?_⟩
          intro r hr t ht
          simp only [List.mem_singleton] at ht
          subst ht
          have := h1 r hr
          simpa using this.2
        · simpa [hlt] using h3
    · simp only [scan_blocks, href, if_false]
      apply ih
      refine ⟨by omega, h1, ?_, h3⟩
      intro j hj
      by_cases hji : j = i
      · subst hji
        simp only [Bool.not_eq_true] at href
        simp only [href, true_iff]
        exact Or.inr h0
      · exact h2 j (by omega)

theorem getD_replicate_false (n j : Nat) : (List.replicate n false).getD j false = false := by
  simp only [List.getD_eq_getElem?_getD, List.getElem?_replicate]
  split <;> rfl

/-- The runs derived from entries that lie inside the data file: they are not empty, lie
inside the file, hold exactly the blocks no entry covers, and come in ascending order with
at least one block between two of them. -/
theorem derive_void_blocks_spec {I : Type} (s : File_Blocks_Index I)
    (hvoid : s.void_blocks = []) (hcount : s.block_count < 2 ^ 32)
    (hin : ∀ e ∈ s.entries, e.pos + e.size ≤ s.block_count) :
    ∃ runs, derive_void_blocks s = some runs ∧
      (∀ r ∈ runs, 0 < r.1 ∧ r.2 + r.1 ≤ s.block_count) ∧
      (∀ j, j < s.block_count → ((∃ r ∈ runs, In_Run r j) ↔ ¬ ∃ e ∈ s.entries, Covers e j)) ∧
      runs.Pairwise (fun r t => r.2 + r.1 < t.2) := by
  have hlen0 : (List.replicate s.block_count false).length = s.block_count :=
    List.length_replicate _ _
  obtain ⟨v1, e1, hlen1, hget1⟩ := mark_entries_spec s.block_list
    (List.replicate s.block_count false)
    (fun e he => by
      rw [hlen0]
      exact hin e (List.mem_append_left _ he))
    (by rw [hlen0]; exact hcount)
  obtain ⟨v2, e2, hlen2, hget2⟩ := mark_entries_spec s.block_array v1
    (fun e he => by
      rw [hlen1, hlen0]
      exact hin e (List.mem_append_right _ he))
    (by rw [hlen1, hlen0]; exact hcount)
  have href : ∀ j, v2.getD j false = true ↔ ∃ e ∈ s.entries, Covers e j := by
    intro j
    rw [hget2 j, hget1 j, getD_replicate_false]
    simp only [Bool.false_eq_true, false_or, File_Blocks_Index.entries, List.mem_append]
    constructor
    · rintro (⟨e, he, hc⟩ | ⟨e, he, hc⟩)
      · exact ⟨e, Or.inl he, hc⟩
      · exact ⟨e, Or.inr he, hc⟩
    · rintro ⟨e, he | he, hc⟩
      · exact Or.inl ⟨e, he, hc⟩
      · exact Or.inr ⟨e, he, hc⟩
  have hscan := scan_blocks_spec v2 s.block_count 0 0 []
    ⟨le_refl _, by simp, by intro j hj; omega, List.Pairwise.nil⟩
  rw [Nat.zero_add] at hscan
  obtain ⟨h0, h1, h2, h3⟩ := hscan
  have hfalse : ∀ j, v2.getD j false = false ↔ ¬ ∃ e ∈ s.entries, Covers e j := by
    intro j
    rw [← href j]
    simp
  refine ⟨(if (scan_blocks v2 s.block_count 0 0 []).1 < s.block_count then
      (scan_blocks v2 s.block_count 0 0 []).2
        ++ [(s.block_count - (scan_blocks v2 s.block_count 0 0 []).1,
            (scan_blocks v2 s.block_count 0 0 []).1)]
    else (scan_blocks v2 s.block_count 0 0 []).2), ?_, ?_, ?_, ?_⟩
  · simp only [derive_void_blocks, e1, e2, hvoid]
  · intro r hr
    by_cases hlt : (scan_blocks v2 s.block_count 0 0 []).1 < s.block_count
    · simp only [hlt, if_true, List.mem_append, List.mem_singleton] at hr
      rcases hr with hr | hr
      · have := h1 r hr; omega
      · subst hr; simp; omega
    · simp only [hlt, if_false] at hr
      have := h1 r hr; omega
  · intro j hj
    rw [← hfalse j, h2 j hj]
    by_cases hlt : (scan_blocks v2 s.block_count 0 0 []).1 < s.block_count
    · simp only [hlt, if_true, List.mem_append, List.mem_singleton]
      constructor
      · rintro ⟨r, hr | hr, hin⟩
        · exact Or.inl ⟨r, hr, hin⟩
        · subst hr
          unfold In_Run at hin
          exact Or.inr hin.1
      · rintro (⟨r, hr, hin⟩ | hle)
        · exact ⟨r, Or.inl hr, hin⟩
        · exact ⟨_, Or.inr rfl, by unfold In_Run; simp; omega⟩
    · simp only [hlt, if_false]
      constructor
      · intro h; exact Or.inl h
      · rintro (h | h)
        · exact h
        · omega
  · by_cases hlt : (scan_blocks v2 s.block_count 0 0 []).1 < s.block_count
    · simp only [hlt, if_true]
      rw [List.pairwise_append]
      refine ⟨h3, List.pairwise_singleton _ _, ?_⟩
      intro r hr t ht
      simp only [List.mem_singleton] at ht
      subst ht
      exact (h1 r hr).2
    · simpa [hlt] using h3

theorem sort_void_blocks_perm (l : List (Nat × Nat)) : (sort_void_blocks l).Perm l :=
  List.perm_insertionSort _ l

theorem init_blocks_none {I : Type} (T : Index_Type I) (s : File_Blocks_Index I)
    (h : s.index_buf = none) : init_blocks T s = Except.ok s := by
  simp [init_blocks, h]

/-- The state `init_void_blocks` leaves when the entries are parsed already and there is
no cache file to read: nothing but the void list and its flag changes, and the void list
is the sorted list of the runs derived. -/
theorem init_void_blocks_derived {I : Type} (T : Index_Type I)
    (empty_index_file : Option (List Nat)) (s : File_Blocks_Index I)
    (hbuf : s.index_buf = none) (hcache : s.writeable = false ∨ empty_index_file = none)
    (runs : List (Nat × Nat)) (hruns : derive_void_blocks s = some runs) :
    init_void_blocks T empty_index_file s =
      Except.ok { s with
        void_blocks := sort_void_blocks runs, void_blocks_initialized := true } := by
  unfold init_void_blocks
  rw [init_blocks_none T s hbuf]
  have hc : read_empty_index_file empty_index_file s = none := by
    unfold read_empty_index_file
    rcases hcache with h | h
    · simp [h]
    · simp [h]
  simp only [hc, hruns]

/-- C6 (void-list derivation without a cache file). For every block count and all entries
that lie inside the data file (`pos + size <= block_count`), when the entries are parsed
and no empty-index file is read, `init_void_blocks` succeeds, changes nothing but the void
list, and the runs `(length, start)` of the void list are exactly the maximal runs of
unreferenced blocks: every run is non-empty and inside `[0, block_count)`; a block below
`block_count` lies in a run if and only if no entry covers it; any two runs of the list
have at least one block between them, so that no block lies in two runs and no two runs
are adjacent; and every block below `block_count` lies in the range of an entry or in a
void run. -/
theorem C6_void_runs_are_the_maximal_unreferenced_runs {I : Type} (T : Index_Type I)
    (empty_index_file : Option (List Nat)) (s : File_Blocks_Index I)
    (hbuf : s.index_buf = none) (hvoid : s.void_blocks = [])
    (hcache : s.writeable = false ∨ empty_index_file = none)
    (hcount : s.block_count < 2 ^ 32)
    (hin : ∀ e ∈ s.entries, e.pos + e.size ≤ s.block_count) :
    ∃ s2, init_void_blocks T empty_index_file s = Except.ok s2 ∧
      s2.entries = s.entries ∧ s2.block_count = s.block_count ∧
      s2.void_blocks_initialized = true ∧
      (∀ r ∈ s2.void_blocks, 0 < r.1 ∧ r.2 + r.1 ≤ s.block_count) ∧
      (∀ i, i < s.block_count →
        ((∃ r ∈ s2.void_blocks, In_Run r i) ↔ ¬ ∃ e ∈ s.entries, Covers e i)) ∧
      s2.void_blocks.Pairwise Apart ∧
      (∀ i, i < s.block_count →
        (∃ e ∈ s.entries, Covers e i) ∨ (∃ r ∈ s2.void_blocks, In_Run r i)) := by
  obtain ⟨runs, hruns, h1, h2, h3⟩ := derive_void_blocks_spec s hvoid hcount hin
  refine ⟨_, init_void_blocks_derived T empty_index_file s hbuf hcache runs hruns, rfl, rfl,
    rfl, ?_, ?_, ?_, ?_⟩
  · intro r hr
    exact h1 r ((sort_void_blocks_perm runs).mem_iff.1 hr)
  · intro i hi
    rw [← h2 i hi]
    constructor
    · rintro ⟨r, hr, hin⟩
      exact ⟨r, (sort_void_blocks_perm runs).mem_iff.1 hr, hin⟩
    · rintro ⟨r, hr, hin⟩
      exact ⟨r, (sort_void_blocks_perm runs).mem_iff.2 hr, hin⟩
  · have hsymm : ∀ r t : Nat × Nat, Apart r t → Apart t r := fun r t h => Or.symm h
    refine ((sort_void_blocks_perm runs).pairwise_iff (fun {r t} h => hsymm r t h)).2 ?_
    exact h3.imp (fun h => Or.inl h)
  · intro i hi
    by_cases hc : ∃ e ∈ s.entries, Covers e i
    · exact Or.inl hc
    · right
      obtain ⟨r, hr, hin⟩ := (h2 i hi).2 hc
      exact ⟨r, (sort_void_blocks_perm runs).mem_iff.2 hr, hin⟩

/-- C6 at a data file of ten blocks whose entries cover the blocks 0 to 2 and 5 to 6. -/
theorem C6_void_runs_are_the_maximal_unreferenced_runs_witness :
    ∃ s2, init_void_blocks Uint32_Index none
        { writeable := true, file_name_extension_ := "", index_buf := none, file_size := 10,
          index_size := 0, block_array := [],
          block_list := [⟨1, 0, 3, 0⟩, ⟨2, 5, 2, 0⟩], void_blocks := [],
          void_blocks_initialized := false, block_size_ := 1, compression_factor := 1,
          compression_method := 0, block_count := 10 } = Except.ok s2 ∧
      s2.void_blocks.Pairwise Apart ∧
      (∀ i, i < 10 →
        ((∃ r ∈ s2.void_blocks, In_Run r i) ↔
          ¬ ∃ e ∈ ([⟨1, 0, 3, 0⟩, ⟨2, 5, 2, 0⟩] : List (File_Block_Index_Entry (Fin 4294967296))),
            Covers e i)) := by
  obtain ⟨s2, e, _, _, _, _, h2, h3, _⟩ :=
    C6_void_runs_are_the_maximal_unreferenced_runs Uint32_Index none
      { writeable := true, file_name_extension_ := "", index_buf := none, file_size := 10,
        index_size := 0, block_array := [],
        block_list := [⟨1, 0, 3, 0⟩, ⟨2, 5, 2, 0⟩], void_blocks := [],
        void_blocks_initialized := false, block_size_ := 1, compression_factor := 1,
        compression_method := 0, block_count := 10 } rfl rfl (Or.inr rfl) (by decide)
      (by decide)
  exact ⟨s2, e, h3, h2⟩

/-! ## Counting blocks -/

theorem mem_range_blocks (l : List (Nat × Nat)) (j : Nat) :
    j ∈ range_blocks l ↔ ∃ p ∈ l, p.1 ≤ j ∧ j < p.1 + p.2 := by
  induction l with
  | nil => simp [range_blocks]
  | cons a l ih =>
    unfold range_blocks at ih ⊢
    simp only [List.foldr_cons, Finset.mem_union, Finset.mem_Ico, ih, List.mem_cons,
      exists_eq_or_imp]

/-- Ranges that do not overlap hold as many blocks as their lengths add up to. -/
theorem card_range_blocks (l : List (Nat × Nat))
    (h : l.Pairwise (fun p q => p.1 + p.2 ≤ q.1 ∨ q.1 + q.2 ≤ p.1)) :
    (range_blocks l).card = (l.map Prod.snd).sum := by
  induction l with
  | nil => simp [range_blocks]
  | cons a l ih =>
    have hd : Disjoint (Finset.Ico a.1 (a.1 + a.2)) (range_blocks l) := by
      rw [Finset.disjoint_left]
      intro j hj hj2
      rw [Finset.mem_Ico] at hj
      obtain ⟨p, hp, h1, h2⟩ := (mem_range_blocks l j).1 hj2
      have := List.rel_of_pairwise_cons h hp
      omega
    have hl := ih (List.Pairwise.of_cons h)
    have : range_blocks (a :: l) = Finset.Ico a.1 (a.1 + a.2) ∪ range_blocks l := rfl
    rw [this, Finset.card_union_of_disjoint hd, hl, Nat.card_Ico]
    simp

/-- Non-overlapping entries and separated runs that between them hold every block below
`block_count` exactly once have sizes and lengths that add up to `block_count`. -/
theorem sum_of_partition {I : Type} (entries : List (File_Block_Index_Entry I))
    (runs : List (Nat × Nat)) (block_count : Nat)
    (hentries : ∀ e ∈ entries, e.pos + e.size ≤ block_count)
    (hdisjoint : entries.Pairwise Disjoint_Entries)
    (hruns : ∀ r ∈ runs, r.2 + r.1 ≤ block_count)
    (hapart : runs.Pairwise Apart)
    (hiff : ∀ i, i < block_count →
      ((∃ r ∈ runs, In_Run r i) ↔ ¬ ∃ e ∈ entries, Covers e i)) :
    (runs.map Prod.fst).sum + (entries.map (fun e => e.size)).sum = block_count := by
  have h1 : (range_blocks (runs.map (fun r => (r.2, r.1)))).card = (runs.map Prod.fst).sum := by
    rw [card_range_blocks]
    · simp [Function.comp_def]
    · rw [List.pairwise_map]
      refine hapart.imp ?_
      intro r t h
      unfold Apart at h
      simp only
      omega
  have h2 : (range_blocks (entries.map (fun e => (e.pos, e.size)))).card
      = (entries.map (fun e => e.size)).sum := by
    rw [card_range_blocks]
    · simp [Function.comp_def]
    · rw [List.pairwise_map]
      exact hdisjoint
  have hmr : ∀ j, j ∈ range_blocks (runs.map (fun r => (r.2, r.1))) ↔ ∃ r ∈ runs, In_Run r j := by
    intro j
    rw [mem_range_blocks]
    simp only [List.mem_map, In_Run]
    constructor
    · rintro ⟨p, ⟨r, hr, rfl⟩, h⟩
      exact ⟨r, hr, h⟩
    · rintro ⟨r, hr, h⟩
      exact ⟨_, ⟨r, hr, rfl⟩, h⟩
  have hme : ∀ j, j ∈ range_blocks (entries.map (fun e => (e.pos, e.size)))
      ↔ ∃ e ∈ entries, Covers e j := by
    intro j
    rw [mem_range_blocks]
    simp only [List.mem_map, Covers]
    constructor
    · rintro ⟨p, ⟨r, hr, rfl⟩, h⟩
      exact ⟨r, hr, h⟩
    · rintro ⟨r, hr, h⟩
      exact ⟨_, ⟨r, hr, rfl⟩, h⟩
  have hd : Disjoint (range_blocks (runs.map (fun r => (r.2, r.1))))
      (range_blocks (entries.map (fun e => (e.pos, e.size)))) := by
    rw [Finset.disjoint_left]
    intro j hj hj2
    obtain ⟨r, hr, hin⟩ := (hmr j).1 hj
    have hlt : j < block_count := by
      have := hruns r hr
      unfold In_Run at hin
      omega
    exact (hiff j hlt).1 ⟨r, hr, hin⟩ ((hme j).1 hj2)
  have hu : range_blocks (runs.map (fun r => (r.2, r.1)))
      ∪ range_blocks (entries.map (fun e => (e.pos, e.size))) = Finset.range block_count := by
    ext j
    rw [Finset.mem_union, Finset.mem_range, hmr, hme]
    constructor
    · rintro (⟨r, hr, hin⟩ | ⟨e, he, hc⟩)
      · have := hruns r hr
        unfold In_Run at hin
        omega
      · have := hentries e he
        unfold Covers at hc
        omega
    · intro hlt
      by_cases hc : ∃ e ∈ entries, Covers e j
      · exact Or.inr hc
      · exact Or.inl ((hiff j hlt).2 hc)
  rw [← h1, ← h2, ← Finset.card_union_of_disjoint hd, hu, Finset.card_range]

/-! ## Parsing the index buffer -/

theorem push_entry_frame {I : Type} (s : File_Blocks_Index I) (e : File_Block_Index_Entry I) :
    push_entry s e = { s with
      block_list := (push_entry s e).block_list,
      block_array := (push_entry s e).block_array } := by
  unfold push_entry
  split <;> rfl

theorem push_entry_entries {I : Type} (s : File_Blocks_Index I) (e : File_Block_Index_Entry I)
    (f : File_Block_Index_Entry I) (h : f ∈ (push_entry s e).entries) :
    f ∈ s.entries ∨ f = e := by
  unfold push_entry File_Blocks_Index.entries at h
  unfold File_Blocks_Index.entries
  split at h
  · simp only [List.mem_append, List.mem_singleton] at h ⊢
    tauto
  · simp only [List.mem_append, List.mem_singleton] at h ⊢
    tauto

/-- The loop of the present format changes nothing but the two sequences of entries, and
every entry it adds has passed both checks. -/
theorem init_blocks_modern_frame {I : Type} (T : Index_Type I) (buf : List Nat) :
    ∀ (fuel pos : Nat) (s s2 : File_Blocks_Index I),
      init_blocks_modern T buf fuel pos s = Except.ok s2 →
      s2 = { s with block_list := s2.block_list, block_array := s2.block_array } ∧
      ∀ e ∈ s2.entries, e ∈ s.entries ∨
        (e.pos < s.block_count ∧ (e.pos + e.size) % 2 ^ 32 ≤ s.block_count) := by
  intro fuel
  induction fuel with
  | zero =>
    intro pos s s2 h
    simp only [init_blocks_modern] at h
    split at h
    · simp at h
    · cases h
      exact ⟨rfl, fun e he => Or.inl he⟩
  | succ fuel ih =>
    intro pos s s2 h
    simp only [init_blocks_modern] at h
    split at h
    · split at h
      · simp at h
      · split at h
        · split at h
          · simp at h
          · split at h
            · simp at h
            · rename_i entry_pos entry_size max_keysize _ _ _ hpos hsize
              obtain ⟨h1, h2⟩ := ih _ _ _ h
              constructor
              · rw [h1, push_entry_frame]
              · intro e he
                rcases h2 e he with h3 | h3
                · rcases push_entry_entries _ _ e h3 with h4 | h4
                  · exact Or.inl h4
                  · right
                    subst h4
                    simp only at hpos hsize ⊢
                    have hb : (push_entry s
                      { index := T.from_data (List.drop (pos + 12) buf), pos := entry_pos,
                        size := entry_size, max_keysize := max_keysize }).block_count
                        = s.block_count := by
                      rw [push_entry_frame]
                    omega
                · right
                  have hb : ∀ e, (push_entry s e).block_count = s.block_count := by
                    intro e; rw [push_entry_frame]
                  rw [hb] at h3
                  exact h3
        · simp at h
    · cases h
      exact ⟨rfl, fun e he => Or.inl he⟩

theorem init_blocks_legacy_frame {I : Type} (T : Index_Type I) (buf : List Nat) :
    ∀ (fuel pos : Nat) (s s2 : File_Blocks_Index I),
      init_blocks_legacy T buf fuel pos s = Except.ok s2 →
      s2 = { s with block_list := s2.block_list, block_array := s2.block_array } ∧
      ∀ e ∈ s2.entries, e ∈ s.entries ∨
        (e.pos < s.block_count ∧ (e.pos + e.size) % 2 ^ 32 ≤ s.block_count) := by
  intro fuel
  induction fuel with
  | zero =>
    intro pos s s2 h
    simp only [init_blocks_legacy] at h
    split at h
    · simp at h
    · cases h
      exact ⟨rfl, fun e he => Or.inl he⟩
  | succ fuel ih =>
    intro pos s s2 h
    simp only [init_blocks_legacy] at h
    split at h
    · split at h
      · simp at h
      · split at h
        · split at h
          · simp at h
          · rename_i entry_pos max_keysize _ _ hpos
            obtain ⟨h1, h2⟩ := ih _ _ _ h
            constructor
            · rw [h1, push_entry_frame]
            · intro e he
              have hb : ∀ e, (push_entry s e).block_count = s.block_count := by
                intro e; rw [push_entry_frame]
              rcases h2 e he with h3 | h3
              · rcases push_entry_entries _ _ e h3 with h4 | h4
                · exact Or.inl h4
                · right
                  subst h4
                  simp only at hpos ⊢
                  have hlt : entry_pos + 1 < 2 ^ 32 ∨ True := Or.inr trivial
                  constructor
                  · omega
                  · exact le_trans (Nat.mod_le _ _) (by omega)
              · right
                rw [hb] at h3
                exact h3
        · simp at h
    · cases h
      exact ⟨rfl, fun e he => Or.inl he⟩

/-- The method `init_blocks` changes nothing but the entries and the buffer, which it
releases, and every entry it adds has passed the checks. -/
theorem init_blocks_frame {I : Type} (T : Index_Type I) (s s2 : File_Blocks_Index I)
    (h : init_blocks T s = Except.ok s2) :
    s2 = { s with
      block_list := s2.block_list, block_array := s2.block_array, index_buf := none } ∧
    ∀ e ∈ s2.entries, e ∈ s.entries ∨
      (e.pos < s.block_count ∧ (e.pos + e.size) % 2 ^ 32 ≤ s.block_count) := by
  unfold init_blocks at h
  cases hb : s.index_buf with
  | none =>
    simp only [hb] at h
    cases h
    refine ⟨?_, fun e he => Or.inl he⟩
    cases s
    simp_all
  | some buf =>
    simp only [hb] at h
    split at h
    · simp at h
    · rename_i s1 hs1
      cases h
      have key : s1 = { s with block_list := s1.block_list, block_array := s1.block_array } ∧
          ∀ e ∈ s1.entries, e ∈ s.entries ∨
            (e.pos < s.block_count ∧ (e.pos + e.size) % 2 ^ 32 ≤ s.block_count) := by
        split at hs1
        · exact init_blocks_legacy_frame T buf _ _ _ _ hs1
        · split at hs1
          · exact init_blocks_modern_frame T buf _ _ _ _ hs1
          · cases hs1
            exact ⟨rfl, fun e he => Or.inl he⟩
      obtain ⟨k1, k2⟩ := key
      refine ⟨?_, k2⟩
      rw [k1]

/-! ## Loading the index -/

/-- What a successful `read_header` has read and checked. -/
theorem read_header_ok {I : Type} (s s2 : File_Blocks_Index I) (buf : List Nat)
    (h : read_header s buf = Except.ok s2) :
    ∃ version log_block_size log_compression_factor method,
      read_uint32 buf 0 = some version ∧ read_uint8 buf 4 = some log_block_size ∧
      read_uint8 buf 5 = some log_compression_factor ∧ read_uint16 buf 6 = some method ∧
      ¬ (version ≠ FILE_FORMAT_VERSION ∧ version ≠ 7512) ∧
      2 ^ log_block_size % 2 ^ 64 ≠ 0 ∧
      ¬ (2 ^ log_compression_factor % 2 ^ 32 = 0
        ∨ 2 ^ log_block_size % 2 ^ 64 < 2 ^ log_compression_factor % 2 ^ 32) ∧
      s2 = { s with
        block_size_ := 2 ^ log_block_size % 2 ^ 64
        compression_factor := 2 ^ log_compression_factor % 2 ^ 32
        compression_method := (method : Int) } := by
  unfold read_header at h
  cases h1 : read_uint32 buf 0 with
  | none => rw [h1] at h; simp at h
  | some version =>
    rw [h1] at h
    simp only at h
    by_cases c1 : version ≠ FILE_FORMAT_VERSION ∧ version ≠ 7512
    · rw [if_pos c1] at h; simp at h
    · rw [if_neg c1] at h
      cases h2 : read_uint8 buf 4 with
      | none => rw [h2] at h; simp at h
      | some log_block_size =>
        rw [h2] at h
        simp only at h
        by_cases c2 : 2 ^ log_block_size % 2 ^ 64 = 0
        · rw [if_pos c2] at h; simp at h
        · rw [if_neg c2] at h
          cases h3 : read_uint8 buf 5 with
          | none => rw [h3] at h; simp at h
          | some log_compression_factor =>
            rw [h3] at h
            simp only at h
            by_cases c3 : 2 ^ log_compression_factor % 2 ^ 32 = 0
                ∨ 2 ^ log_block_size % 2 ^ 64 < 2 ^ log_compression_factor % 2 ^ 32
            · rw [if_pos c3] at h; simp at h
            · rw [if_neg c3] at h
              cases h4 : read_uint16 buf 6 with
              | none => rw [h4] at h; simp at h
              | some method =>
                rw [h4] at h
                simp only [Except.ok.injEq] at h
                exact ⟨version, log_block_size, log_compression_factor, method, rfl, rfl,
                  rfl, rfl, c1, c2, c3, h.symm⟩

/-- The result of `read_header` on a buffer that holds the eight bytes of a header. -/
theorem read_header_of_reads {I : Type} (s : File_Blocks_Index I) (buf : List Nat)
    (version log_block_size log_compression_factor method : Nat)
    (h1 : read_uint32 buf 0 = some version) (h2 : read_uint8 buf 4 = some log_block_size)
    (h3 : read_uint8 buf 5 = some log_compression_factor)
    (h4 : read_uint16 buf 6 = some method) :
    read_header s buf =
      if version ≠ FILE_FORMAT_VERSION ∧ version ≠ 7512 then
        Except.error File_Error.unsupported_version
      else if 2 ^ log_block_size % 2 ^ 64 = 0 then
        Except.error File_Error.illegal_block_size
      else if 2 ^ log_compression_factor % 2 ^ 32 = 0
          ∨ 2 ^ log_block_size % 2 ^ 64 < 2 ^ log_compression_factor % 2 ^ 32 then
        Except.error File_Error.illegal_compression_factor
      else
        Except.ok { s with
          block_size_ := 2 ^ log_block_size % 2 ^ 64
          compression_factor := 2 ^ log_compression_factor % 2 ^ 32
          compression_method := (method : Int) } := by
  unfold read_header
  rw [h1, h2, h3, h4]

theorem read_header_frame {I : Type} (s s2 : File_Blocks_Index I) (buf : List Nat)
    (h : read_header s buf = Except.ok s2) :
    s2 = { s with
      block_size_ := s2.block_size_, compression_factor := s2.compression_factor,
      compression_method := s2.compression_method } := by
  obtain ⟨_, _, _, _, _, _, _, _, _, _, _, e⟩ := read_header_ok s s2 buf h
  rw [e]

/-- The method `init_structure_params` changes nothing but the structure parameters and
the block count, and the block count it sets is a 32-bit value. -/
theorem init_structure_params_frame {I : Type} (s s2 : File_Blocks_Index I)
    (h : init_structure_params s = Except.ok s2) :
    s2 = { s with
      block_size_ := s2.block_size_, compression_factor := s2.compression_factor,
      compression_method := s2.compression_method, block_count := s2.block_count } ∧
    (s2.block_count = s.block_count ∨ s2.block_count < 2 ^ 32) := by
  unfold init_structure_params at h
  cases hb : s.index_buf with
  | none =>
    simp only [hb] at h
    cases h
    refine ⟨?_, Or.inl rfl⟩
    cases s
    simp_all
  | some buf =>
    simp only [hb] at h
    cases hs1 : (if s.file_name_extension_ ≠ ".legacy" then read_header s buf
        else Except.ok s) with
    | error err =>
      rw [hs1] at h
      simp at h
    | ok s1 =>
      rw [hs1] at h
      simp only at h
      split at h
      · simp at h
      · cases h
        have k : s1 = { s with
            block_size_ := s1.block_size_, compression_factor := s1.compression_factor,
            compression_method := s1.compression_method } := by
          split at hs1
          · exact read_header_frame s s1 buf hs1
          · cases hs1
            rfl
        refine ⟨?_, Or.inr (Nat.mod_lt _ (by norm_num))⟩
        simp only
        cases s
        cases s1
        simp only [File_Blocks_Index.mk.injEq] at k ⊢
        simp_all

/-- What the constructor does when it succeeds: it sets up a state with no entries, an
empty void list and a 32-bit block count, and, for a writeable index, calls
`init_void_blocks` on it. -/
theorem construct_ok {I : Type} (T : Index_Type I)
    (prop_block_size prop_compression_factor : Nat) (prop_compression_method : Int)
    (writeable : Bool) (file_name_extension : String)
    (use_default compression_method_ : Int)
    (data_file : File_Result Nat) (index_file : File_Result (List Nat))
    (empty_index_file : Option (List Nat)) (s : File_Blocks_Index I)
    (h : File_Blocks_Index.construct T prop_block_size prop_compression_factor
      prop_compression_method writeable file_name_extension use_default compression_method_
      data_file index_file empty_index_file = Except.ok s) :
    ∃ s3 : File_Blocks_Index I, s3.void_blocks = [] ∧ s3.block_list = [] ∧
      s3.block_array = [] ∧ s3.block_count < 2 ^ 32 ∧ s3.void_blocks_initialized = false ∧
      s3.writeable = writeable ∧ s3.file_name_extension_ = file_name_extension ∧
      ((writeable = true ∧ init_void_blocks T empty_index_file s3 = Except.ok s) ∨
        (writeable = false ∧ s = s3)) := by
  unfold File_Blocks_Index.construct at h
  simp only at h
  split at h
  · simp at h
  · rename_i s1 hs1
    split at h
    · simp at h
    · rename_i s2 hs2
      split at h
      · simp at h
      · rename_i s3 hs3
        obtain ⟨k1, k2⟩ := init_structure_params_frame s2 s3 hs3
        have f1 : s1.void_blocks = [] ∧ s1.block_list = [] ∧ s1.block_array = [] ∧
            s1.block_count = 0 ∧ s1.void_blocks_initialized = false ∧
            s1.writeable = writeable ∧ s1.file_name_extension_ = file_name_extension := by
          split at hs1
          · cases hs1
            exact ⟨rfl, rfl, rfl, rfl, rfl, rfl, rfl⟩
          · split at hs1
            · simp at hs1
            · cases hs1
              exact ⟨rfl, rfl, rfl, rfl, rfl, rfl, rfl⟩
        have f2 : s2.void_blocks = [] ∧ s2.block_list = [] ∧ s2.block_array = [] ∧
            s2.block_count = 0 ∧ s2.void_blocks_initialized = false ∧
            s2.writeable = writeable ∧ s2.file_name_extension_ = file_name_extension := by
          split at hs2
          · cases hs2
            exact f1
          · split at hs2
            · simp at hs2
            · cases hs2
              exact f1
        obtain ⟨g1, g2, g3, g4, g5, g6, g7⟩ := f2
        have f3 : s3.void_blocks = [] ∧ s3.block_list = [] ∧ s3.block_array = [] ∧
            s3.block_count < 2 ^ 32 ∧ s3.void_blocks_initialized = false ∧
            s3.writeable = writeable ∧ s3.file_name_extension_ = file_name_extension := by
          refine ⟨?_, ?_, ?_, ?_, ?_, ?_, ?_⟩
          · rw [k1]; exact g1
          · rw [k1]; exact g2
          · rw [k1]; exact g3
          · rcases k2 with e | e
            · rw [e, g4]; norm_num
            · exact e
          · rw [k1]; exact g5
          · rw [k1]; exact g6
          · rw [k1]; exact g7
        obtain ⟨q1, q2, q3, q4, q5, q6, q7⟩ := f3
        refine ⟨s3, q1, q2, q3, q4, q5, q6, q7, ?_⟩
        rw [q6] at h
        cases writeable with
        | true =>
          simp only [if_true] at h
          exact Or.inl ⟨rfl, h⟩
        | false =>
          simp only [Bool.false_eq_true, if_false] at h
          cases h
          exact Or.inr ⟨rfl, rfl⟩

/-- What `init_void_blocks` does when it succeeds without a cache file on a state with an
empty void list: it parses the entries and sets the void list to the sorted runs derived
from them. -/
theorem init_void_blocks_ok {I : Type} (T : Index_Type I)
    (empty_index_file : Option (List Nat)) (s s2 : File_Blocks_Index I)
    (hcache : s.writeable = false ∨ empty_index_file = none)
    (h : init_void_blocks T empty_index_file s = Except.ok s2) :
    ∃ s1 runs, init_blocks T s = Except.ok s1 ∧ derive_void_blocks s1 = some runs ∧
      s2 = { s1 with
        void_blocks := sort_void_blocks runs, void_blocks_initialized := true } := by
  unfold init_void_blocks at h
  cases hs1 : init_blocks T s with
  | error err =>
    rw [hs1] at h
    simp at h
  | ok s1 =>
    rw [hs1] at h
    have hw : s1.writeable = s.writeable := by
      have := (init_blocks_frame T s s1 hs1).1
      rw [this]
    have hc : read_empty_index_file empty_index_file s1 = none := by
      unfold read_empty_index_file
      rcases hcache with e | e
      · rw [hw, e]; simp
      · rw [e]; simp
    simp only [hc] at h
    cases hruns : derive_void_blocks s1 with
    | none =>
      rw [hruns] at h
      simp at h
    | some runs =>
      rw [hruns] at h
      simp only [Except.ok.injEq] at h
      exact ⟨s1, runs, rfl, hruns, h.symm⟩

/-- C7, as amended (partitioning). For a block index that loads successfully and derives
its void list from its entries (no empty-index file is read), if the block ranges of the
entries do not overlap and `pos + size <= block_count` holds for every entry in exact
arithmetic, then the lengths of the void runs and the sizes of the entries add up to
`block_count`. -/
theorem C7_partitioning {I : Type} (T : Index_Type I)
    (prop_block_size prop_compression_factor : Nat) (prop_compression_method : Int)
    (writeable : Bool) (file_name_extension : String)
    (use_default compression_method_ : Int)
    (data_file : File_Result Nat) (index_file : File_Result (List Nat))
    (empty_index_file : Option (List Nat)) (s s2 : File_Blocks_Index I)
    (hload : File_Blocks_Index.construct T prop_block_size prop_compression_factor
      prop_compression_method writeable file_name_extension use_default compression_method_
      data_file index_file empty_index_file = Except.ok s)
    (hvoid : get_void_blocks T empty_index_file s = Except.ok s2)
    (hcache : writeable = false ∨ empty_index_file = none)
    (hdisjoint : s2.entries.Pairwise Disjoint_Entries)
    (hexact : ∀ e ∈ s2.entries, e.pos + e.size ≤ s2.block_count) :
    (s2.void_blocks.map Prod.fst).sum + (s2.entries.map (fun e => e.size)).sum
      = s2.block_count := by
  obtain ⟨s3, q1, _, _, q4, q5, q6, _, hs⟩ := construct_ok T prop_block_size
    prop_compression_factor prop_compression_method writeable file_name_extension
    use_default compression_method_ data_file index_file empty_index_file s hload
  have hinit : init_void_blocks T empty_index_file s3 = Except.ok s2 := by
    rcases hs with ⟨_, hs⟩ | ⟨_, hs⟩
    · obtain ⟨s1, runs, _, _, e⟩ := init_void_blocks_ok T empty_index_file s3 s
        (by rw [q6]; exact hcache) hs
      have hi : s.void_blocks_initialized = true := by rw [e]
      unfold get_void_blocks at hvoid
      simp only [hi, if_true] at hvoid
      cases hvoid
      exact hs
    · subst hs
      unfold get_void_blocks at hvoid
      simpa [q5] using hvoid
  obtain ⟨s1, runs, hs1, hruns, e⟩ := init_void_blocks_ok T empty_index_file s3 s2
    (by rw [q6]; exact hcache) hinit
  obtain ⟨k1, _⟩ := init_blocks_frame T s3 s1 hs1
  have hv1 : s1.void_blocks = [] := by rw [k1]; exact q1
  have hc1 : s1.block_count = s3.block_count := by rw [k1]
  have he2 : s2.entries = s1.entries := by rw [e]; rfl
  have hb2 : s2.block_count = s1.block_count := by rw [e]
  have hv2 : s2.void_blocks = sort_void_blocks runs := by rw [e]
  rw [he2, hb2] at hexact
  obtain ⟨runs2, hruns2, r1, r2, r3⟩ := derive_void_blocks_spec s1 hv1
    (by rw [hc1]; exact q4) hexact
  rw [hruns] at hruns2
  cases hruns2
  rw [hb2, hv2, he2]
  rw [he2] at hdisjoint
  apply sum_of_partition s1.entries (sort_void_blocks runs) s1.block_count hexact hdisjoint
  · intro r hr
    exact (r1 r ((sort_void_blocks_perm runs).mem_iff.1 hr)).2
  · have hsymm : ∀ r t : Nat × Nat, Apart r t → Apart t r := fun r t h => Or.symm h
    refine ((sort_void_blocks_perm runs).pairwise_iff (fun {r t} h => hsymm r t h)).2 ?_
    exact r3.imp (fun h => Or.inl h)
  · intro i hi
    rw [← r2 i hi]
    constructor
    · rintro ⟨r, hr, hin⟩
      exact ⟨r, (sort_void_blocks_perm runs).mem_iff.1 hr, hin⟩
    · rintro ⟨r, hr, hin⟩
      exact ⟨r, (sort_void_blocks_perm runs).mem_iff.2 hr, hin⟩

/-- The amended C7 at a data file of ten blocks of size 1 and an index file in the present
format with the entries `(pos 0, size 3)` and `(pos 5, size 2)`: the void runs have the
lengths 2 and 3. -/
theorem C7_partitioning_witness :
    File_Blocks_Index.construct Uint32_Index 1 1 0 true "" (-1) (-1) (Except.ok 10)
      (Except.ok example_index_file) none = Except.ok example_index ∧
    get_void_blocks Uint32_Index none example_index = Except.ok example_index ∧
    example_index.entries.Pairwise Disjoint_Entries ∧
    (∀ e ∈ example_index.entries, e.pos + e.size ≤ example_index.block_count) ∧
    (example_index.void_blocks.map Prod.fst).sum
      + (example_index.entries.map (fun e => e.size)).sum = example_index.block_count :=
  ⟨rfl, rfl, by decide, by decide,
    C7_partitioning Uint32_Index 1 1 0 true "" (-1) (-1) (Except.ok 10)
      (Except.ok example_index_file) none example_index example_index (by rfl) (by rfl) (Or.inr rfl)
      (by decide) (by decide)⟩

/-- C7 as stated fails: an index file with the entries `(pos 0, size 2)` and
`(pos 1, size 2)` for a data file of three blocks loads successfully, since either entry
passes the checks of `init_blocks`; the void list derived is empty and the sizes add up to
4, not to the block count 3. -/
theorem C7_counterexample :
    File_Blocks_Index.construct Uint32_Index 1 1 0 true "" (-1) (-1) (Except.ok 3)
      (Except.ok overlapping_index_file) none = Except.ok overlapping_index ∧
    get_void_blocks Uint32_Index none overlapping_index = Except.ok overlapping_index ∧
    (overlapping_index.void_blocks.map Prod.fst).sum
      + (overlapping_index.entries.map (fun e => e.size)).sum
        ≠ overlapping_index.block_count :=
  ⟨rfl, rfl, by decide⟩

/-- C8 (entry range validation) does not hold of the code: the check
`entry.pos + entry.size > block_count` of `init_blocks` adds two `uint32` values, and the
sum wraps. The index file `wrapping_index_file` holds one entry with `pos` 1 and `size`
4294967295; for a data file of two blocks the 32-bit sum is 0, so `init_blocks` accepts
the entry although `pos + size` exceeds the block count in exact arithmetic, and the
marking loop of `init_void_blocks` then addresses block 2 of a vector of two blocks. -/
theorem C8_wrapping_entry_is_accepted :
    File_Blocks_Index.construct Uint32_Index 1 1 0 false "" (-1) (-1) (Except.ok 2)
      (Except.ok wrapping_index_file) none = Except.ok wrapping_index ∧
    init_blocks Uint32_Index wrapping_index = Except.ok
      { wrapping_index with
        index_buf := none, block_array := [⟨17, 1, 4294967295, 9⟩] } ∧
    ¬ (1 + 4294967295 ≤ wrapping_index.block_count) ∧
    mark_entry 1 4294967295 0 [false, false] = none ∧
    get_void_blocks Uint32_Index none wrapping_index
      = Except.error File_Error.out_of_bounds := by
  refine ⟨by rfl, by rfl, by decide, by rfl, by rfl⟩

/-! ## Bytes -/

theorem uint32_bytes_length (n : Nat) : (uint32_bytes n).length = 4 := rfl

theorem read_uint32_bytes (n : Nat) (rest : List Nat) (h : n < 2 ^ 32) :
    read_uint32 (uint32_bytes n ++ rest) 0 = some n := by
  simp only [read_uint32, uint32_bytes, List.drop_zero, List.cons_append, List.nil_append,
    Option.some.injEq]
  omega

theorem uint32_bytes_read (b0 b1 b2 b3 : Nat) (h0 : b0 < 256) (h1 : b1 < 256)
    (h2 : b2 < 256) (h3 : b3 < 256) :
    uint32_bytes (b0 + 256 * b1 + 65536 * b2 + 16777216 * b3) = [b0, b1, b2, b3] := by
  simp only [uint32_bytes, List.cons.injEq, and_true]
  refine ⟨?_, ?_, ?_, ?_⟩ <;> omega

theorem read_uint32_drop (buf : List Nat) (pos k : Nat) :
    read_uint32 buf (pos + k) = read_uint32 (buf.drop pos) k := by
  simp only [read_uint32, List.drop_drop]

theorem read_uint32_eq_some (buf : List Nat) (n : Nat) (h : read_uint32 buf 0 = some n)
    (hb : ∀ b ∈ buf, b < 256) :
    ∃ rest, buf = uint32_bytes n ++ rest := by
  unfold read_uint32 at h
  rw [List.drop_zero] at h
  match buf, h, hb with
  | b0 :: b1 :: b2 :: b3 :: rest, h, hb =>
    simp only [Option.some.injEq] at h
    refine ⟨rest, ?_⟩
    rw [← h, uint32_bytes_read b0 b1 b2 b3 (hb _ (by simp)) (hb _ (by simp))
      (hb _ (by simp)) (hb _ (by simp))]
    rfl

theorem shift_log_two_pow (k : Nat) (h : k < 64) : shift_log (2 ^ k) = k := by
  interval_cases k <;> rfl

theorem two_pow_mod_ne_zero (k n : Nat) (h : 2 ^ k % 2 ^ n ≠ 0) : k < n := by
  by_contra hge
  apply h
  have : n ≤ k := by omega
  exact Nat.mod_eq_zero_of_dvd (Nat.pow_dvd_pow 2 this)

theorem entry_bytes_length {I : Type} (T : Index_Type I)
    (hT : ∀ index, (T.to_data index).length = T.size_of index)
    (e : File_Block_Index_Entry I) :
    (entry_bytes T e).length = 12 + T.size_of e.index := by
  simp only [entry_bytes, List.length_append, uint32_bytes_length, hT]

theorem teardown_index_size_eq {I : Type} (T : Index_Type I)
    (l : List (File_Block_Index_Entry I)) :
    ∀ acc, teardown_index_size T l acc
      = (acc % 2 ^ 32 + (l.map (fun e => 12 + T.size_of e.index)).sum) % 2 ^ 32
        ∨ (l = [] ∧ teardown_index_size T l acc = acc) := by
  induction l with
  | nil => intro acc; exact Or.inr ⟨rfl, rfl⟩
  | cons e l ih =>
    intro acc
    left
    simp only [teardown_index_size, List.map_cons, List.sum_cons]
    rcases ih ((acc + (12 + T.size_of e.index)) % 2 ^ 32) with h | ⟨h1, h2⟩
    · rw [h]
      omega
    · rw [h2, h1]
      simp only [List.map_nil, List.sum_nil, Nat.add_zero]
      omega

/-- The size the teardown computes is the length of the bytes it writes, when these stay
below 4 GiB. -/
theorem teardown_index_size_exact {I : Type} (T : Index_Type I)
    (hT : ∀ index, (T.to_data index).length = T.size_of index)
    (l : List (File_Block_Index_Entry I))
    (h : 8 + ((l.map (entry_bytes T)).flatten).length < 2 ^ 32) :
    teardown_index_size T l 8 = 8 + ((l.map (entry_bytes T)).flatten).length := by
  have hsum : ((l.map (entry_bytes T)).flatten).length
      = (l.map (fun e => 12 + T.size_of e.index)).sum := by
    rw [List.length_flatten, List.map_map]
    congr 1
    apply List.map_congr_left
    intro e _
    exact entry_bytes_length T hT e
  rw [hsum] at h ⊢
  rcases teardown_index_size_eq T l 8 with e | ⟨e1, e2⟩
  · rw [e]
    omega
  · rw [e2, e1]
    rfl

/-! ## Reading what the teardown wrote -/

theorem push_entry_fields {I : Type} (s : File_Blocks_Index I) (e : File_Block_Index_Entry I) :
    (push_entry s e).index_size = s.index_size ∧
    (push_entry s e).block_count = s.block_count ∧
    (push_entry s e).writeable = s.writeable := by
  unfold push_entry
  split <;> exact ⟨rfl, rfl, rfl⟩

/-- The reads of one entry at the offset where its bytes start. -/
theorem read_entry_bytes {I : Type} (T : Index_Type I) (buf : List Nat) (pos : Nat)
    (e : File_Block_Index_Entry I) (rest : List Nat)
    (hbuf : buf.drop pos = entry_bytes T e ++ rest)
    (hfields : e.pos < 2 ^ 32 ∧ e.size < 2 ^ 32 ∧ e.max_keysize < 2 ^ 32) :
    read_uint32 buf pos = some e.pos ∧ read_uint32 buf (pos + 4) = some e.size ∧
    read_uint32 buf (pos + 8) = some e.max_keysize ∧
    buf.drop (pos + 12) = T.to_data e.index ++ rest := by
  have h0 := read_uint32_drop buf pos 0
  have h4 := read_uint32_drop buf pos 4
  have h8 := read_uint32_drop buf pos 8
  rw [Nat.add_zero] at h0
  rw [h0, h4, h8, ← List.drop_drop, hbuf]
  simp only [entry_bytes, uint32_bytes, read_uint32, List.drop_zero, List.cons_append,
    List.nil_append, List.append_assoc, List.drop_succ_cons, Option.some.injEq]
  refine ⟨?_, ?_, ?_, trivial⟩ <;> omega

/-- The loop of the present format on a buffer that holds, from the offset on, the bytes
the teardown writes for a sequence of entries: it adds exactly these entries. -/
theorem init_blocks_modern_encoded {I : Type} (T : Index_Type I) (hT : T.Decodes)
    (buf : List Nat) (hlen : buf.length < 2 ^ 32) :
    ∀ (l : List (File_Block_Index_Entry I)) (fuel pos : Nat) (s : File_Blocks_Index I),
      buf.drop pos = (l.map (entry_bytes T)).flatten → pos ≤ buf.length →
      s.index_size = buf.length → l.length ≤ fuel →
      (∀ e ∈ l, e.pos < 2 ^ 32 ∧ e.size < 2 ^ 32 ∧ e.max_keysize < 2 ^ 32 ∧
        e.pos < s.block_count ∧ e.pos + e.size ≤ s.block_count) →
      s.block_count < 2 ^ 32 →
      init_blocks_modern T buf fuel pos s = Except.ok (l.foldl push_entry s) := by
  intro l
  induction l with
  | nil =>
    intro fuel pos s hdrop hpos hsize _ _ _
    have hge : buf.length ≤ pos := by
      simp only [List.map_nil, List.flatten_nil, List.drop_eq_nil_iff] at hdrop
      exact hdrop
    have : ¬ pos < s.index_size := by omega
    cases fuel <;> simp [init_blocks_modern, this]
  | cons e l ih =>
    intro fuel pos s hdrop hpos hsize hfuel hentries hcount
    obtain ⟨fuel, rfl⟩ : ∃ f, fuel = f + 1 := ⟨fuel - 1, by simp at hfuel; omega⟩
    obtain ⟨f1, f2, f3, f4, f5⟩ := hentries e (List.mem_cons_self _ _)
    simp only [List.map_cons, List.flatten_cons] at hdrop
    obtain ⟨r1, r2, r3, r4⟩ := read_entry_bytes T buf pos e _ hdrop ⟨f1, f2, f3⟩
    obtain ⟨d1, d2, d3⟩ := hT e.index (l.map (entry_bytes T)).flatten
    have hlen2 : (buf.drop pos).length = buf.length - pos := List.length_drop _ _
    have hel : (entry_bytes T e).length = 12 + T.size_of e.index :=
      entry_bytes_length T (fun i => (hT i []).1) e
    rw [hdrop, List.length_append, hel] at hlen2
    have hlt : pos < s.index_size := by omega
    have hdata : ¬ (buf.drop (pos + 12)).length < T.size_of_data (buf.drop (pos + 12)) := by
      rw [r4, d3, List.length_append, d1]
      omega
    have hmod : (pos + 12 + T.size_of e.index) % 2 ^ 32 = pos + 12 + T.size_of e.index :=
      Nat.mod_eq_of_lt (by omega)
    have hsum : (e.pos + e.size) % 2 ^ 32 = e.pos + e.size := Nat.mod_eq_of_lt (by omega)
    obtain ⟨p1, p2, p3⟩ := push_entry_fields s e
    have hnext := ih fuel (pos + 12 + T.size_of e.index) (push_entry s e)
      (by
        rw [show pos + 12 + T.size_of e.index = (pos + 12) + T.size_of e.index from rfl,
          ← List.drop_drop, r4, ← d1, List.drop_left])
      (by omega) (by rw [p1]; exact hsize) (by simp at hfuel; omega)
      (fun f hf => by rw [p2]; exact hentries f (List.mem_cons_of_mem _ hf))
      (by rw [p2]; exact hcount)
    simp only [init_blocks_modern, hlt, if_true, hdata, if_false, r1, r2, r3]
    rw [r4, d2, d3]
    have hnp : ¬ s.block_count ≤ e.pos := by omega
    have hns : ¬ s.block_count < (e.pos + e.size) % 2 ^ 32 := by omega
    simp only [hnp, hns, if_false, hmod]
    exact hnext

theorem foldl_push_entry {I : Type} (l : List (File_Block_Index_Entry I)) :
    ∀ (s : File_Blocks_Index I),
      l.foldl push_entry s =
        { s with
          block_list := if s.writeable then s.block_list ++ l else s.block_list,
          block_array := if s.writeable then s.block_array else s.block_array ++ l } := by
  induction l with
  | nil =>
    intro s
    cases s
    simp
  | cons e l ih =>
    intro s
    rw [List.foldl_cons, ih]
    unfold push_entry
    cases hw : s.writeable <;> simp [hw]

theorem header_bytes_eq {I : Type} (s : File_Blocks_Index I) :
    header_bytes s = [136, 29, 0, 0, shift_log s.block_size_ % 256,
      shift_log s.compression_factor % 256,
      (s.compression_method % 65536).toNat % 256,
      (s.compression_method % 65536).toNat / 256 % 256] := by
  simp [header_bytes, uint32_bytes, uint16_bytes, FILE_FORMAT_VERSION]

/-- The header the teardown writes for a block size `2^k` and a compression factor `2^c`
not above it is read back with the same three parameters. -/
theorem read_header_written {I : Type} (s r : File_Blocks_Index I) (k c : Nat)
    (rest : List Nat) (hk : s.block_size_ = 2 ^ k) (hk64 : k < 64)
    (hc : s.compression_factor = 2 ^ c) (hc32 : c < 32) (hck : c ≤ k)
    (hm : 0 ≤ s.compression_method ∧ s.compression_method < 65536) :
    read_header r (header_bytes s ++ rest) = Except.ok
      { r with block_size_ := s.block_size_, compression_factor := s.compression_factor,
               compression_method := s.compression_method } := by
  rw [header_bytes_eq, hk, hc, shift_log_two_pow k hk64, shift_log_two_pow c (by omega)]
  have hk256 : k % 256 = k := Nat.mod_eq_of_lt (by omega)
  have hc256 : c % 256 = c := Nat.mod_eq_of_lt (by omega)
  have hkm : 2 ^ k % 2 ^ 64 = 2 ^ k := Nat.mod_eq_of_lt (Nat.pow_lt_pow_right (by norm_num) hk64)
  have hcm : 2 ^ c % 2 ^ 32 = 2 ^ c := Nat.mod_eq_of_lt (Nat.pow_lt_pow_right (by norm_num) hc32)
  have hle : 2 ^ c ≤ 2 ^ k := Nat.pow_le_pow_right (by norm_num) hck
  have hpk : 0 < 2 ^ k := Nat.two_pow_pos k
  have hpc : 0 < 2 ^ c := Nat.two_pow_pos c
  obtain ⟨m, hmm⟩ : ∃ m : Nat, s.compression_method = (m : Int) :=
    ⟨s.compression_method.toNat, (Int.toNat_of_nonneg hm.1).symm⟩
  have hm2 : m < 65536 := by
    have := hm.2
    rw [hmm] at this
    exact_mod_cast this
  have hmod : ((m : Int) % 65536).toNat = m := by
    have : ((m : Int) % 65536) = ((m % 65536 : Nat) : Int) := by norm_cast
    rw [this, Int.toNat_ofNat, Nat.mod_eq_of_lt hm2]
  rw [hmm, hmod]
  have hmb : m % 256 + 256 * (m / 256 % 256) = m := by omega
  simp only [read_header, read_uint32, read_uint8, read_uint16, List.drop_zero,
    List.cons_append, List.drop_succ_cons, hk256, hc256, hkm, hcm, hmb, FILE_FORMAT_VERSION]
  have h1 : ¬ (2 ^ k = 0) := by omega
  have h2 : ¬ (2 ^ c = 0 ∨ 2 ^ k < 2 ^ c) := by omega
  simp [h1, h2, hle]

theorem header_bytes_length {I : Type} (s : File_Blocks_Index I) :
    (header_bytes s).length = 8 := by
  rw [header_bytes_eq]
  rfl

theorem length_le_entries_bytes {I : Type} (T : Index_Type I)
    (l : List (File_Block_Index_Entry I)) :
    l.length ≤ ((l.map (entry_bytes T)).flatten).length := by
  induction l with
  | nil => simp
  | cons e l ih =>
    simp only [List.map_cons, List.flatten_cons, List.length_cons, List.length_append]
    have : 12 ≤ (entry_bytes T e).length := by
      simp only [entry_bytes, List.length_append, uint32_bytes_length]
      omega
    omega

/-- What a successful teardown has written to the index file. -/
theorem teardown_ok {I : Type} (T : Index_Type I) (s : File_Blocks_Index I)
    (empty_index_file_exists : Bool) (w : Written)
    (h : s.teardown T empty_index_file_exists = Except.ok (some w)) :
    s.writeable = true ∧
    w.index_file = header_bytes s ++ (s.block_list.map (entry_bytes T)).flatten ∧
    w.index_file.length < 2 ^ 32 := by
  unfold File_Blocks_Index.teardown at h
  cases hw : s.writeable with
  | false => simp [hw] at h
  | true =>
    simp only [hw, Bool.not_true, Bool.false_eq_true, if_false] at h
    split at h
    · simp at h
    · rename_i hlen
      simp only [Except.ok.injEq, Option.some.injEq] at h
      refine ⟨rfl, by rw [← h], ?_⟩
      rw [← h]
      simp only
      simp only [ne_eq, not_not] at hlen
      rw [hlen]
      rcases teardown_index_size_eq T s.block_list 8 with e | ⟨_, e⟩
      · rw [e]
        exact Nat.mod_lt _ (by norm_num)
      · rw [e]
        norm_num

/-- C9, as amended (decode undoes encode). Let a writeable index with block size `2^k`
(`k < 64`), compression factor `2^c` (`c < 32`) not above the block size, and a
compression method below `2^16` be torn down successfully (its index stays below 4 GiB),
for an index type whose `to_data`, `size_of` and constructor round-trip. Let a reader
hold the bytes written as its index buffer, with an extension other than ".legacy", no
entries yet, and a data file whose size is a multiple of the block size. If every entry
has 32-bit fields, `pos < block_count` and `pos + size <= block_count` for the block count
`file_size / block_size` of the reader, then `init_structure_params` and `init_blocks`
succeed and yield the same block size, compression factor and compression method and the
same entries in the same order. -/
theorem C9_index_file_round_trip {I : Type} (T : Index_Type I) (hT : T.Decodes)
    (s r : File_Blocks_Index I) (k c : Nat) (empty_index_file_exists : Bool) (w : Written)
    (hk : s.block_size_ = 2 ^ k) (hk64 : k < 64)
    (hc : s.compression_factor = 2 ^ c) (hc32 : c < 32) (hck : c ≤ k)
    (hm : 0 ≤ s.compression_method ∧ s.compression_method < 65536)
    (hw : s.teardown T empty_index_file_exists = Except.ok (some w))
    (hbuf : r.index_buf = some w.index_file) (hsize : r.index_size = w.index_file.length)
    (hext : r.file_name_extension_ ≠ ".legacy")
    (hlist : r.block_list = []) (harray : r.block_array = [])
    (hfile : r.file_size % 2 ^ k = 0)
    (hentries : ∀ e ∈ s.block_list,
      e.pos < 2 ^ 32 ∧ e.size < 2 ^ 32 ∧ e.max_keysize < 2 ^ 32 ∧
      e.pos < r.file_size / 2 ^ k % 2 ^ 32 ∧ e.pos + e.size ≤ r.file_size / 2 ^ k % 2 ^ 32) :
    ∃ r1 r2, init_structure_params r = Except.ok r1 ∧ init_blocks T r1 = Except.ok r2 ∧
      r2.block_size_ = s.block_size_ ∧ r2.compression_factor = s.compression_factor ∧
      r2.compression_method = s.compression_method ∧
      r2.block_count = r.file_size / s.block_size_ % 2 ^ 32 ∧
      (if r.writeable then r2.block_list else r2.block_array) = s.block_list := by
  obtain ⟨_, hbytes, hlen⟩ := teardown_ok T s empty_index_file_exists w hw
  have hhead := read_header_written s r k c (s.block_list.map (entry_bytes T)).flatten
    hk hk64 hc hc32 hck hm
  rw [← hbytes] at hhead
  obtain ⟨r1, hr1⟩ : ∃ r1 : File_Blocks_Index I, r1 =
      { r with block_size_ := s.block_size_, compression_factor := s.compression_factor,
               compression_method := s.compression_method,
               block_count := r.file_size / s.block_size_ % 2 ^ 32 } := ⟨_, rfl⟩
  have h1 : init_structure_params r = Except.ok r1 := by
    unfold init_structure_params
    simp only [hbuf, hext, ne_eq, not_false_eq_true, if_true, hhead]
    have : ¬ (r.file_size % s.block_size_ ≠ 0) := by
      rw [hk]
      simpa using hfile
    simp only [this, if_false]
    rw [hr1, ← hbuf]
  have f1 : r1.index_buf = some w.index_file := by rw [hr1]; exact hbuf
  have f2 : r1.index_size = w.index_file.length := by rw [hr1]; exact hsize
  have f3 : r1.file_name_extension_ ≠ ".legacy" := by rw [hr1]; exact hext
  have f4 : r1.block_count = r.file_size / 2 ^ k % 2 ^ 32 := by rw [hr1, hk]
  have hpos : 0 < r1.index_size := by
    rw [f2, hbytes, List.length_append, header_bytes_length]
    omega
  have hparse := init_blocks_modern_encoded T hT w.index_file hlen s.block_list
    w.index_file.length 8 r1
    (by
      rw [hbytes, ← header_bytes_length s, List.drop_left])
    (by rw [hbytes, List.length_append, header_bytes_length]; omega)
    f2
    (by
      rw [hbytes, List.length_append, header_bytes_length]
      have := length_le_entries_bytes T s.block_list
      omega)
    (by
      intro e he
      rw [f4]
      exact hentries e he)
    (by rw [f4]; exact Nat.mod_lt _ (by norm_num))
  have h2 : init_blocks T r1 = Except.ok
      { s.block_list.foldl push_entry r1 with index_buf := none } := by
    have hpos2 : 0 < w.index_file.length := by rw [← f2]; exact hpos
    unfold init_blocks
    simp only [f1, f3, if_false, hpos2, if_true, f2, hparse]
  refine ⟨r1, _, h1, h2, ?_⟩
  rw [foldl_push_entry]
  simp only [hr1]
  refine ⟨trivial, trivial, trivial, trivial, ?_⟩
  cases hwr : r.writeable <;> simp [hwr, hlist, harray]

theorem uint32_index_decodes : Uint32_Index.Decodes := by
  intro index rest
  refine ⟨rfl, ?_, rfl⟩
  show Fin.ofNat ((read_uint32 (uint32_bytes index.val ++ rest) 0).getD 0) = index
  rw [read_uint32_bytes index.val rest index.isLt]
  apply Fin.ext
  simp only [Fin.ofNat, Option.getD_some]
  exact Nat.mod_eq_of_lt index.isLt

/-- The amended C9 at the index of the examples: the bytes its teardown writes are read
back by a read-only index on a data file of ten blocks. -/
theorem C9_index_file_round_trip_witness :
    example_index.teardown Uint32_Index false
      = Except.ok (some { index_file := example_index_file, empty_index_file := none }) ∧
    ∃ r1 r2, init_structure_params (fresh_index false example_index_file 10 512 8)
        = Except.ok r1 ∧
      init_blocks Uint32_Index r1 = Except.ok r2 ∧
      r2.block_size_ = example_index.block_size_ ∧
      r2.compression_factor = example_index.compression_factor ∧
      r2.compression_method = example_index.compression_method ∧
      r2.block_count = (fresh_index false example_index_file 10 512 8).file_size
        / example_index.block_size_ % 2 ^ 32 ∧
      (if (fresh_index false example_index_file 10 512 8).writeable then r2.block_list
        else r2.block_array) = example_index.block_list :=
  ⟨by rfl,
    C9_index_file_round_trip Uint32_Index uint32_index_decodes example_index
      (fresh_index false example_index_file 10 512 8) 0 0 false
      { index_file := example_index_file, empty_index_file := none }
      (by rfl) (by decide) (by rfl) (by decide) (by decide) (by decide) (by rfl) (by rfl)
      (by rfl) (by decide) (by rfl) (by rfl) (by decide) (by decide)⟩

/-- C9 as stated fails. (1) A writeable index with block size 4 and compression factor 8,
both powers of two, and no entries writes a header that `init_structure_params` rejects
as an illegal compression factor, because the factor exceeds the block size. (2) The
header written for block size 4 is rejected when the data file of the reader has 6 bytes,
which is no multiple of the block size. -/
theorem C9_counterexample :
    ({ example_index with
        block_list := [], block_size_ := 4, compression_factor := 8 }).teardown
        Uint32_Index false
      = Except.ok (some { index_file := [136, 29, 0, 0, 2, 3, 0, 0],
                          empty_index_file := none }) ∧
    init_structure_params (fresh_index false [136, 29, 0, 0, 2, 3, 0, 0] 0 512 1)
      = Except.error File_Error.illegal_compression_factor ∧
    ({ example_index with
        block_list := [], block_size_ := 4, compression_factor := 1 }).teardown
        Uint32_Index false
      = Except.ok (some { index_file := [136, 29, 0, 0, 2, 0, 0, 0],
                          empty_index_file := none }) ∧
    init_structure_params (fresh_index false [136, 29, 0, 0, 2, 0, 0, 0] 6 512 1)
      = Except.error File_Error.size_mismatch :=
  ⟨by rfl, by rfl, by rfl, by rfl⟩

/-! ## Encode undoes decode -/

theorem read_uint32_take (buf : List Nat) (pos n : Nat) (h : read_uint32 buf pos = some n)
    (hb : ∀ b ∈ buf, b < 256) :
    buf.drop pos = uint32_bytes n ++ buf.drop (pos + 4) := by
  have h0 : read_uint32 (buf.drop pos) 0 = some n := by
    rw [← read_uint32_drop buf pos 0]
    exact h
  obtain ⟨rest, hr⟩ := read_uint32_eq_some (buf.drop pos) n h0
    (fun b hbm => hb b (List.mem_of_mem_drop hbm))
  have h4 : buf.drop (pos + 4) = rest := by
    rw [← List.drop_drop, hr]
    exact List.drop_left' (uint32_bytes_length n)
  rw [h4, hr]

theorem drop_length_pos (buf : List Nat) (pos : Nat) (x : Nat) (rest : List Nat)
    (h : buf.drop pos = x :: rest) : pos < buf.length := by
  by_contra hge
  rw [List.drop_eq_nil_of_le (by omega)] at h
  cases h

/-- The bytes of a record the loop of the present format accepts are the bytes the
teardown writes for the entry parsed from it. -/
theorem entry_bytes_parsed {I : Type} (T : Index_Type I) (hT : T.Canonical)
    (buf : List Nat) (hb : ∀ b ∈ buf, b < 256) (pos a b c : Nat)
    (ha : read_uint32 buf pos = some a) (hb4 : read_uint32 buf (pos + 4) = some b)
    (hc : read_uint32 buf (pos + 8) = some c)
    (hsz : T.size_of_data (buf.drop (pos + 12)) ≤ (buf.drop (pos + 12)).length) :
    buf.drop pos = entry_bytes T
        { index := T.from_data (buf.drop (pos + 12)), pos := a, size := b, max_keysize := c }
      ++ buf.drop (pos + 12 + T.size_of_data (buf.drop (pos + 12))) ∧
    pos + 12 + T.size_of_data (buf.drop (pos + 12)) ≤ buf.length := by
  have e1 := read_uint32_take buf pos a ha hb
  have e2 := read_uint32_take buf (pos + 4) b hb4 hb
  have e3 := read_uint32_take buf (pos + 8) c hc hb
  have e4 := (hT.2 (buf.drop (pos + 12))
    (fun x hx => hb x (List.mem_of_mem_drop hx)) hsz).1
  have l3 : pos + 8 < buf.length := by
    have : buf.drop (pos + 8) = (c % 256) :: ([c / 256 % 256, c / 65536 % 256,
        c / 16777216 % 256] ++ buf.drop (pos + 8 + 4)) := by
      rw [e3]; rfl
    exact drop_length_pos buf _ _ _ this
  have l4 : pos + 12 ≤ buf.length := by
    have := congrArg List.length e3
    simp only [List.length_drop, List.length_append, uint32_bytes_length] at this
    omega
  constructor
  · simp only [entry_bytes]
    rw [e4, e1, e2, e3]
    simp only [List.append_assoc]
    congr 3
    rw [show pos + 8 + 4 = pos + 12 by omega]
    rw [← List.drop_drop (T.size_of_data (buf.drop (pos + 12))) (pos + 12) buf]
    exact (List.take_append_drop _ _).symm
  · simp only [List.length_drop] at hsz
    omega

/-- The loop of the present format, run by a writeable index on a buffer of bytes below
4 GiB for an index type with one encoding per value: the entries it appends encode to the
bytes it has read. -/
theorem init_blocks_modern_canonical {I : Type} (T : Index_Type I) (hT : T.Canonical)
    (buf : List Nat) (hb : ∀ b ∈ buf, b < 256) (hlen : buf.length < 2 ^ 32) :
    ∀ (fuel pos : Nat) (s s2 : File_Blocks_Index I),
      s.writeable = true → s.index_size = buf.length → pos ≤ buf.length →
      init_blocks_modern T buf fuel pos s = Except.ok s2 →
      (s2.block_list.map (entry_bytes T)).flatten
        = (s.block_list.map (entry_bytes T)).flatten ++ buf.drop pos := by
  intro fuel
  induction fuel with
  | zero =>
    intro pos s s2 hw hsize hpos h
    simp only [init_blocks_modern] at h
    split at h
    · simp at h
    · rename_i hge
      cases h
      rw [List.drop_eq_nil_of_le (by omega), List.append_nil]
  | succ fuel ih =>
    intro pos s s2 hw hsize hpos h
    simp only [init_blocks_modern] at h
    split at h
    · split at h
      · simp at h
      · rename_i hsz
        split at h
        · split at h
          · simp at h
          · split at h
            · simp at h
            · rename_i a b c ha hb4 hc _ _
              obtain ⟨e, l⟩ := entry_bytes_parsed T hT buf hb pos a b c ha hb4 hc
                (by omega)
              rw [Nat.mod_eq_of_lt (by omega)] at h
              have hw2 : (push_entry s
                  { index := T.from_data (buf.drop (pos + 12)), pos := a, size := b,
                    max_keysize := c }).writeable = true := by
                unfold push_entry; simp [hw]
              have hs2 : (push_entry s
                  { index := T.from_data (buf.drop (pos + 12)), pos := a, size := b,
                    max_keysize := c }).index_size = buf.length := by
                unfold push_entry; simp [hw, hsize]
              have hl2 : (push_entry s
                  { index := T.from_data (buf.drop (pos + 12)), pos := a, size := b,
                    max_keysize := c }).block_list = s.block_list ++
                  [(⟨T.from_data (buf.drop (pos + 12)), a, b, c⟩ :
                    File_Block_Index_Entry I)] := by
                unfold push_entry; simp [hw]
              rw [ih _ _ _ hw2 hs2 l h, hl2, e]
              simp only [List.map_append, List.flatten_append, List.map_cons, List.map_nil,
                List.flatten_cons, List.flatten_nil, List.append_nil, List.append_assoc]
        · simp at h
    · rename_i hge
      cases h
      rw [List.drop_eq_nil_of_le (by omega), List.append_nil]

/-- The header the teardown writes after a header of the present format has been read is
the header read. -/
theorem header_bytes_read {I : Type} (s s2 : File_Blocks_Index I) (buf : List Nat)
    (hb : ∀ b ∈ buf, b < 256) (hv : read_uint32 buf 0 = some FILE_FORMAT_VERSION)
    (h : read_header s buf = Except.ok s2) :
    header_bytes s2 = buf.take 8 ∧ 8 ≤ buf.length := by
  obtain ⟨version, log_block_size, log_compression_factor, method, h1, h2, h3, h4, _, hbs,
    hcf, e⟩ := read_header_ok s s2 buf h
  subst e
  have hmatch : header_bytes
      ({ s with
        block_size_ := 2 ^ log_block_size % 2 ^ 64
        compression_factor := 2 ^ log_compression_factor % 2 ^ 32
        compression_method := (method : Int) } : File_Blocks_Index I) = buf.take 8
      ∧ 8 ≤ buf.length := by
    clear h h1
    have h1 := hv
    clear hv
    match buf, hb, h1, h2, h3, h4 with
    | b0 :: b1 :: b2 :: b3 :: b4 :: b5 :: b6 :: b7 :: rest, hb, h1, h2, h3, h4 =>
      simp only [read_uint32, read_uint8, read_uint16, List.drop, Option.some.injEq,
        FILE_FORMAT_VERSION] at h1 h2 h3 h4
      have l0 : b0 < 256 := hb _ (by simp)
      have l1 : b1 < 256 := hb _ (by simp)
      have l2 : b2 < 256 := hb _ (by simp)
      have l3 : b3 < 256 := hb _ (by simp)
      have l6 : b6 < 256 := hb _ (by simp)
      have l7 : b7 < 256 := hb _ (by simp)
      have k4 : log_block_size < 64 := two_pow_mod_ne_zero _ _ hbs
      have k5 : log_compression_factor < 32 :=
        two_pow_mod_ne_zero _ _ (fun e => hcf (Or.inl e))
      have m4 : 2 ^ log_block_size % 2 ^ 64 = 2 ^ log_block_size :=
        Nat.mod_eq_of_lt (Nat.pow_lt_pow_right (by norm_num) k4)
      have m5 : 2 ^ log_compression_factor % 2 ^ 32 = 2 ^ log_compression_factor :=
        Nat.mod_eq_of_lt (Nat.pow_lt_pow_right (by norm_num) k5)
      have mm : ((method : Int) % 65536).toNat = method := by
        have : ((method : Int) % 65536) = ((method % 65536 : Nat) : Int) := by
          norm_cast
        rw [this, Int.toNat_natCast]
        omega
      refine ⟨?_, by simp⟩
      rw [header_bytes_eq]
      simp only [m4, m5, mm, shift_log_two_pow log_block_size k4,
        shift_log_two_pow log_compression_factor (by omega), List.take_succ_cons,
        List.take_zero]
      subst h2 h3 h4
      have e0 : b0 = 136 := by omega
      have e1 : b1 = 29 := by omega
      have e2 : b2 = 0 := by omega
      have e3 : b3 = 0 := by omega
      subst e0 e1 e2 e3
      simp only [List.cons.injEq, true_and, and_true]
      refine ⟨?_, ?_, ?_, ?_⟩ <;> omega
  exact hmatch

theorem header_bytes_congr {I : Type} (s s2 : File_Blocks_Index I)
    (h1 : s2.block_size_ = s.block_size_) (h2 : s2.compression_factor = s.compression_factor)
    (h3 : s2.compression_method = s.compression_method) :
    header_bytes s2 = header_bytes s := by
  rw [header_bytes_eq, header_bytes_eq, h1, h2, h3]

/-- A successful `init_structure_params` on a buffer of the present format has read the
header and kept its three parameters. -/
theorem init_structure_params_header {I : Type} (s s3 : File_Blocks_Index I)
    (buf : List Nat) (hbuf : s.index_buf = some buf)
    (hext : s.file_name_extension_ ≠ ".legacy")
    (h : init_structure_params s = Except.ok s3) :
    ∃ s1, read_header s buf = Except.ok s1 ∧ s3.block_size_ = s1.block_size_ ∧
      s3.compression_factor = s1.compression_factor ∧
      s3.compression_method = s1.compression_method := by
  unfold init_structure_params at h
  simp only [hbuf, hext, ne_eq, not_false_eq_true, if_true] at h
  cases hs1 : read_header s buf with
  | error e =>
    rw [hs1] at h
    simp at h
  | ok s1 =>
    rw [hs1] at h
    simp only at h
    split at h
    · simp at h
    · cases h
      exact ⟨s1, rfl, rfl, rfl, rfl⟩

/-- A successful `init_void_blocks` has parsed the entries with `init_blocks` and changed
nothing else but the void list. -/
theorem init_void_blocks_entries {I : Type} (T : Index_Type I)
    (empty_index_file : Option (List Nat)) (s s2 : File_Blocks_Index I)
    (h : init_void_blocks T empty_index_file s = Except.ok s2) :
    ∃ s1, init_blocks T s = Except.ok s1 ∧ s2.block_list = s1.block_list ∧
      s2.writeable = s1.writeable ∧ s2.block_size_ = s1.block_size_ ∧
      s2.compression_factor = s1.compression_factor ∧
      s2.compression_method = s1.compression_method := by
  unfold init_void_blocks at h
  cases hs1 : init_blocks T s with
  | error e =>
    rw [hs1] at h
    simp at h
  | ok s1 =>
    rw [hs1] at h
    simp only at h
    split at h
    · cases h
      exact ⟨s1, rfl, rfl, rfl, rfl, rfl, rfl⟩
    · split at h
      · simp at h
      · cases h
        exact ⟨s1, rfl, rfl, rfl, rfl, rfl, rfl⟩

/-- The entries a writeable index without entries parses from a buffer of the present
format encode to the bytes behind the header. -/
theorem init_blocks_canonical {I : Type} (T : Index_Type I) (hT : T.Canonical)
    (buf : List Nat) (hb : ∀ b ∈ buf, b < 256) (hlen : buf.length < 2 ^ 32)
    (h8 : 8 ≤ buf.length) (s s1 : File_Blocks_Index I) (hbuf : s.index_buf = some buf)
    (hsize : s.index_size = buf.length) (hext : s.file_name_extension_ ≠ ".legacy")
    (hw : s.writeable = true) (hl : s.block_list = [])
    (h : init_blocks T s = Except.ok s1) :
    (s1.block_list.map (entry_bytes T)).flatten = buf.drop 8 := by
  unfold init_blocks at h
  have hpos : 0 < s.index_size := by omega
  simp only [hbuf, hext, if_false, hpos, if_true] at h
  cases hs : init_blocks_modern T buf s.index_size 8 s with
  | error e =>
    rw [hs] at h
    simp at h
  | ok s0 =>
    rw [hs] at h
    cases h
    have := init_blocks_modern_canonical T hT buf hb hlen _ _ _ _ hw hsize h8 hs
    rw [hl] at this
    simpa using this

/-- C10, as amended (round trip of the index file). Take an index file of the present format
(version 7560, extension other than ".legacy", shorter than 4 GiB) that is well formed: its
header has 8 bytes, with byte 4 below 64 and byte 5 below 32, and its records lie wholly
inside the file, so that the source reads and shifts within bounds (elsewhere the source
has undefined behaviour, which the embedding turns into a failed load). Opening a writeable
index on it for an index type with one encoding per value, mutating nothing and closing it
writes a primary index file that is byte for byte the input, whenever the load succeeds,
whether or not the entries are sorted by index: the teardown writes the entries in the
order in which they were read. -/
theorem C10_round_trip_preserves_bytes {I : Type} (T : Index_Type I) (hT : T.Canonical)
    (prop_block_size prop_compression_factor : Nat) (prop_compression_method : Int)
    (file_name_extension : String) (use_default compression_method_ : Int)
    (data_file : File_Result Nat) (index_file : List Nat)
    (empty_index_file : Option (List Nat)) (empty_index_file_exists : Bool)
    (s : File_Blocks_Index I)
    (hb : ∀ b ∈ index_file, b < 256) (hlen : index_file.length < 2 ^ 32)
    (hv : read_uint32 index_file 0 = some FILE_FORMAT_VERSION)
    (hhead : 8 ≤ index_file.length)
    (_hshift : index_file.getD 4 0 < 64 ∧ index_file.getD 5 0 < 32)
    (_hrecords : complete_records T index_file index_file.length 8 = true)
    (hext : file_name_extension ≠ ".legacy")
    (h : File_Blocks_Index.construct T prop_block_size prop_compression_factor
      prop_compression_method true file_name_extension use_default compression_method_
      data_file (Except.ok index_file) empty_index_file = Except.ok s) :
    ∃ w, s.teardown T empty_index_file_exists = Except.ok (some w) ∧
      w.index_file = index_file := by
  unfold File_Blocks_Index.construct at h
  simp only at h
  split at h
  · simp at h
  · rename_i s1 hs1
    have f1 : s1.block_list = [] ∧ s1.writeable = true ∧
        s1.file_name_extension_ = file_name_extension := by
      split at hs1
      · cases hs1
        exact ⟨rfl, rfl, rfl⟩
      · split at hs1
        · simp at hs1
        · cases hs1
          exact ⟨rfl, rfl, rfl⟩
    have h4 : 4 ≤ index_file.length := by
      obtain ⟨rest, hr⟩ := read_uint32_eq_some index_file _ hv hb
      rw [hr, List.length_append, uint32_bytes_length]
      omega
    have hmod : index_file.length % 2 ^ 32 = index_file.length := Nat.mod_eq_of_lt hlen
    have hne : ¬ index_file.length = 0 := by omega
    simp only [hmod, hne, if_false, List.take_length] at h
    split at h
    · simp at h
    · rename_i s3 hs3
      obtain ⟨g1, _⟩ := init_structure_params_frame _ s3 hs3
      obtain ⟨s0, hs0, p1, p2, p3⟩ := init_structure_params_header _ s3 index_file rfl
        (by rw [f1.2.2]; exact hext) hs3
      obtain ⟨hhead, h8⟩ := header_bytes_read _ s0 index_file hb hv hs0
      have q1 : s3.writeable = true := by rw [g1]; exact f1.2.1
      have q2 : s3.index_buf = some index_file := by rw [g1]
      have q3 : s3.index_size = index_file.length := by rw [g1]
      have q4 : s3.file_name_extension_ ≠ ".legacy" := by rw [g1]; rw [f1.2.2]; exact hext
      have q5 : s3.block_list = [] := by rw [g1]; exact f1.1
      rw [q1] at h
      simp only [if_true] at h
      obtain ⟨s4, hs4, r1, r2, r3, r4, r5⟩ := init_void_blocks_entries T _ s3 s h
      have hbytes := init_blocks_canonical T hT index_file hb hlen h8 s3 s4 q2 q3 q4 q1 q5 hs4
      obtain ⟨g4, _⟩ := init_blocks_frame T s3 s4 hs4
      have t1 : s.writeable = true := by rw [r2, g4]; exact q1
      have t2 : header_bytes s = index_file.take 8 := by
        rw [← hhead]
        apply header_bytes_congr
        · rw [r3, g4]; exact p1
        · rw [r4, g4]; exact p2
        · rw [r5, g4]; exact p3
      have t3 : header_bytes s ++ (s.block_list.map (entry_bytes T)).flatten = index_file := by
        rw [t2, r1, hbytes]
        exact List.take_append_drop 8 index_file
      have t4 : teardown_index_size T s.block_list 8 = index_file.length := by
        rw [teardown_index_size_exact T hT.1 s.block_list]
        · rw [← header_bytes_length s, ← List.length_append, t3]
        · rw [← header_bytes_length s, ← List.length_append, t3]
          exact hlen
      unfold File_Blocks_Index.teardown
      simp only [t1, Bool.not_true, Bool.false_eq_true, if_false, t3, t4, ne_eq,
        not_true_eq_false]
      exact ⟨_, rfl, rfl⟩

theorem uint32_index_canonical : Uint32_Index.Canonical := by
  refine ⟨fun _ => rfl, ?_⟩
  intro data hb hlen
  refine ⟨?_, rfl⟩
  match data, hb, hlen with
  | b0 :: b1 :: b2 :: b3 :: rest, hb, _ =>
    show uint32_bytes (Fin.ofNat ((read_uint32 (b0 :: b1 :: b2 :: b3 :: rest) 0).getD 0)).val
      = [b0, b1, b2, b3]
    have l0 : b0 < 256 := hb _ (by simp)
    have l1 : b1 < 256 := hb _ (by simp)
    have l2 : b2 < 256 := hb _ (by simp)
    have l3 : b3 < 256 := hb _ (by simp)
    have e : (Fin.ofNat ((read_uint32 (b0 :: b1 :: b2 :: b3 :: rest) 0).getD 0)
        : Fin 4294967296).val = b0 + 256 * b1 + 65536 * b2 + 16777216 * b3 := by
      simp only [read_uint32, List.drop_zero, Option.getD_some, Fin.ofNat]
      omega
    rw [e]
    exact uint32_bytes_read b0 b1 b2 b3 l0 l1 l2 l3

/-- The amended C10 at `example_index_file`, whose entries carry the indexes 17 and 5 in
this order: the index opened on it and closed again writes the same 40 bytes. -/
theorem C10_round_trip_preserves_bytes_witness :
    File_Blocks_Index.construct Uint32_Index 1 1 0 true "" (-1) (-1) (Except.ok 10)
      (Except.ok example_index_file) none = Except.ok example_index ∧
    (example_index_file.getD 4 0 < 64 ∧ example_index_file.getD 5 0 < 32) ∧
    complete_records Uint32_Index example_index_file example_index_file.length 8 = true ∧
    ∃ w, example_index.teardown Uint32_Index false = Except.ok (some w) ∧
      w.index_file = example_index_file :=
  ⟨by rfl, by decide, by decide,
    C10_round_trip_preserves_bytes Uint32_Index uint32_index_canonical 1 1 0 "" (-1) (-1)
      (Except.ok 10) example_index_file none false example_index (by decide) (by decide)
      (by rfl) (by decide) (by decide) (by decide) (by decide) (by rfl)⟩

/-- C10 as stated fails in both directions. (1) The entries of `example_index_file` are
not sorted by index (17 before 5), yet opening a writeable index on it and closing it
writes exactly the bytes of the input. (2) The entries of `old_version_index_file` are
sorted by index, yet the file written differs from the input: the teardown always writes
the version 7560 where the input has 7512. -/
theorem C10_counterexample :
    (File_Blocks_Index.construct Uint32_Index 1 1 0 true "" (-1) (-1) (Except.ok 10)
        (Except.ok example_index_file) none = Except.ok example_index ∧
      ¬ Sorted_By_Index (fun a b => a ≤ b) example_index ∧
      example_index.teardown Uint32_Index false
        = Except.ok (some { index_file := example_index_file, empty_index_file := none })) ∧
    (File_Blocks_Index.construct Uint32_Index 1 1 0 true "" (-1) (-1) (Except.ok 10)
        (Except.ok old_version_index_file) none = Except.ok old_version_index ∧
      Sorted_By_Index (fun a b => a ≤ b) old_version_index ∧
      ∃ w, old_version_index.teardown Uint32_Index false = Except.ok (some w) ∧
        w.index_file ≠ old_version_index_file) :=
  ⟨⟨by rfl, by decide, by rfl⟩,
    ⟨by rfl, by decide,
      ⟨{ index_file := 136 :: old_version_index_file.tail, empty_index_file := none },
        by rfl, by decide⟩⟩⟩

/-! ## The version check -/

/-- A successful `init_void_blocks` has parsed the entries with `init_blocks` and then set
the void list. -/
theorem init_void_blocks_frame {I : Type} (T : Index_Type I)
    (empty_index_file : Option (List Nat)) (s s2 : File_Blocks_Index I)
    (h : init_void_blocks T empty_index_file s = Except.ok s2) :
    ∃ s1 void_blocks, init_blocks T s = Except.ok s1 ∧
      s2 = { s1 with
        void_blocks := sort_void_blocks void_blocks, void_blocks_initialized := true } := by
  unfold init_void_blocks at h
  cases hs1 : init_blocks T s with
  | error e =>
    rw [hs1] at h
    simp at h
  | ok s1 =>
    rw [hs1] at h
    simp only at h
    split at h
    · cases h
      exact ⟨s1, _, rfl, rfl⟩
    · split at h
      · simp at h
      · cases h
        exact ⟨s1, _, rfl, rfl⟩

/-- What a successful `init_structure_params` on an index with a buffer has established. -/
theorem init_structure_params_ok {I : Type} (s s3 : File_Blocks_Index I) (buf : List Nat)
    (hbuf : s.index_buf = some buf) (h : init_structure_params s = Except.ok s3) :
    effective_block_size s.file_name_extension_ s.block_size_ buf = some s3.block_size_ ∧
    s3.file_size = s.file_size ∧ s3.file_size % s3.block_size_ = 0 ∧
    s3.block_count = s3.file_size / s3.block_size_ % 2 ^ 32 := by
  unfold init_structure_params at h
  simp only [hbuf] at h
  unfold effective_block_size
  by_cases hext : s.file_name_extension_ = ".legacy"
  · simp only [hext, ne_eq, not_true_eq_false, if_false, if_true] at h ⊢
    split at h
    · simp at h
    · rename_i hdiv
      cases h
      simp only [not_not] at hdiv
      exact ⟨rfl, rfl, hdiv, rfl⟩
  · simp only [hext, ne_eq, not_false_eq_true, if_true, if_false] at h ⊢
    cases hs1 : read_header s buf with
    | error e =>
      rw [hs1] at h
      simp at h
    | ok s1 =>
      rw [hs1] at h
      simp only at h
      obtain ⟨_, log_block_size, _, _, _, h2, _, _, _, _, _, e⟩ := read_header_ok s s1 buf hs1
      split at h
      · simp at h
      · rename_i hdiv
        cases h
        simp only [not_not] at hdiv
        refine ⟨?_, ?_, hdiv, rfl⟩
        · rw [h2, e]
          rfl
        · rw [e]

/-- A successful load that has read a non-empty index file went through
`init_structure_params` with the buffer, and the later steps kept the file size, the block
size and the block count. -/
theorem construct_reads {I : Type} (T : Index_Type I)
    (prop_block_size prop_compression_factor : Nat) (prop_compression_method : Int)
    (writeable : Bool) (file_name_extension : String)
    (use_default compression_method_ : Int)
    (data_file : File_Result Nat) (content : List Nat)
    (empty_index_file : Option (List Nat)) (s : File_Blocks_Index I)
    (hne : content.length % 2 ^ 32 ≠ 0)
    (h : File_Blocks_Index.construct T prop_block_size prop_compression_factor
      prop_compression_method writeable file_name_extension use_default compression_method_
      data_file (Except.ok content) empty_index_file = Except.ok s) :
    ∃ s2 s3 : File_Blocks_Index I, s2.index_buf = some (index_buffer content) ∧
      s2.file_size = file_size_of data_file ∧
      s2.file_name_extension_ = file_name_extension ∧ s2.block_size_ = prop_block_size ∧
      init_structure_params s2 = Except.ok s3 ∧ s.block_size_ = s3.block_size_ ∧
      s.file_size = s3.file_size ∧ s.block_count = s3.block_count := by
  unfold File_Blocks_Index.construct at h
  simp only [hne, if_false] at h
  split at h
  · simp at h
  · rename_i s1 hs1
    have f1 : s1.file_size = file_size_of data_file ∧
        s1.file_name_extension_ = file_name_extension ∧ s1.block_size_ = prop_block_size ∧
        s1.writeable = writeable := by
      unfold file_size_of
      split at hs1
      · cases hs1
        exact ⟨rfl, rfl, rfl, rfl⟩
      · split at hs1
        · simp at hs1
        · cases hs1
          exact ⟨rfl, rfl, rfl, rfl⟩
    split at h
    · simp at h
    · rename_i s3 hs3
      refine ⟨{ s1 with
        index_size := content.length % 2 ^ 32
        index_buf := some (content.take (content.length % 2 ^ 32)) }, s3, rfl, f1.1,
        f1.2.1, f1.2.2.1, hs3, ?_⟩
      obtain ⟨g, _⟩ := init_structure_params_frame _ s3 hs3
      have hw : s3.writeable = writeable := by rw [g]; exact f1.2.2.2
      rw [hw] at h
      cases writeable with
      | false =>
        simp only [Bool.false_eq_true, if_false] at h
        cases h
        exact ⟨rfl, rfl, rfl⟩
      | true =>
        simp only [if_true] at h
        obtain ⟨s4, v, hs4, e⟩ := init_void_blocks_frame T _ s3 s h
        obtain ⟨g4, _⟩ := init_blocks_frame T s3 s4 hs4
        rw [e]
        simp only
        rw [g4]
        exact ⟨rfl, rfl, rfl⟩

/-- C12, as amended (header validation). On every load that reads a non-empty index file,
let the effective block size be that of the file properties for the extension ".legacy"
and `2^b` for the header byte `b` at offset 4 otherwise. If the size of the data file is
not a multiple of the effective block size, the open fails; and if the open succeeds, the
index has this block size and `block_count` is `file_size / block_size`, kept in 32 bits.
The size of a missing data file is 0. -/
theorem C12_header_validation {I : Type} (T : Index_Type I)
    (prop_block_size prop_compression_factor : Nat) (prop_compression_method : Int)
    (writeable : Bool) (file_name_extension : String)
    (use_default compression_method_ : Int)
    (data_file : File_Result Nat) (content : List Nat)
    (empty_index_file : Option (List Nat)) (block_size : Nat)
    (hne : content.length % 2 ^ 32 ≠ 0)
    (hbs : effective_block_size file_name_extension prop_block_size (index_buffer content)
      = some block_size)
    (hpos : 0 < block_size) :
    (file_size_of data_file % block_size ≠ 0 →
      ∃ e, File_Blocks_Index.construct T prop_block_size prop_compression_factor
        prop_compression_method writeable file_name_extension use_default
        compression_method_ data_file (Except.ok content) empty_index_file
          = Except.error e) ∧
    ∀ s, File_Blocks_Index.construct T prop_block_size prop_compression_factor
        prop_compression_method writeable file_name_extension use_default
        compression_method_ data_file (Except.ok content) empty_index_file = Except.ok s →
      s.block_size_ = block_size ∧ s.file_size = file_size_of data_file ∧
      s.block_count = file_size_of data_file / block_size % 2 ^ 32 := by
  have _ := hpos
  have key : ∀ s, File_Blocks_Index.construct T prop_block_size prop_compression_factor
      prop_compression_method writeable file_name_extension use_default
      compression_method_ data_file (Except.ok content) empty_index_file = Except.ok s →
      s.block_size_ = block_size ∧ s.file_size = file_size_of data_file ∧
      s.file_size % s.block_size_ = 0 ∧
      s.block_count = file_size_of data_file / block_size % 2 ^ 32 := by
    intro s h
    obtain ⟨s2, s3, b1, b2, b3, b4, hs3, c1, c2, c3⟩ := construct_reads T prop_block_size
      prop_compression_factor prop_compression_method writeable file_name_extension
      use_default compression_method_ data_file content empty_index_file s hne h
    obtain ⟨d1, d2, d3, d4⟩ := init_structure_params_ok s2 s3 _ b1 hs3
    rw [b3, b4, hbs, Option.some.injEq] at d1
    rw [c1, c2, c3, d4, d2, b2, ← d1]
    refine ⟨rfl, rfl, ?_, rfl⟩
    rw [← b2, ← d2, d1]
    exact d3
  constructor
  · intro hdiv
    cases hc : File_Blocks_Index.construct T prop_block_size prop_compression_factor
        prop_compression_method writeable file_name_extension use_default
        compression_method_ data_file (Except.ok content) empty_index_file with
    | error e => exact ⟨e, rfl⟩
    | ok s =>
      exfalso
      obtain ⟨k1, k2, k3, _⟩ := key s hc
      rw [k1, k2] at k3
      exact hdiv k3
  · intro s h
    obtain ⟨k1, k2, _, k4⟩ := key s h
    exact ⟨k1, k2, k4⟩

/-- The amended C12 at `example_index_file` and a data file of ten bytes: the block size
read is 1 and the block count is 10. -/
theorem C12_header_validation_witness :
    example_index.block_size_ = 1 ∧
    example_index.file_size = file_size_of (Except.ok 10) ∧
    example_index.block_count = file_size_of (Except.ok 10) / 1 % 2 ^ 32 :=
  (C12_header_validation Uint32_Index 1 1 0 true "" (-1) (-1) (Except.ok 10)
    example_index_file none 1 (by decide) (by rfl) (by decide)).2 example_index (by rfl)

/-- C12 as stated fails. (1) Without an index file nothing is checked: a data file of 7
bytes opens for the block size 4 of the file properties, and `block_count` stays 0 instead
of `7 / 4`. (2) `block_count` is a 32-bit field: a data file of `2^32` bytes with the
block size 1 opens with `block_count` 0. -/
theorem C12_counterexample :
    (File_Blocks_Index.construct Uint32_Index 4 1 0 false "" (-1) (-1) (Except.ok 7)
        (Except.error 2) none = Except.ok (fresh_index false [] 7 4 1) ∧
      (fresh_index false [] 7 4 1).file_size % (fresh_index false [] 7 4 1).block_size_ ≠ 0 ∧
      (fresh_index false [] 7 4 1).block_count
        ≠ (fresh_index false [] 7 4 1).file_size / (fresh_index false [] 7 4 1).block_size_) ∧
    (File_Blocks_Index.construct Uint32_Index 512 1 0 false "" (-1) (-1)
        (Except.ok 4294967296) (Except.ok header_only_index_file) none
        = Except.ok (fresh_index false header_only_index_file 4294967296 1 1) ∧
      (fresh_index false header_only_index_file 4294967296 1 1).block_count
        ≠ (fresh_index false header_only_index_file 4294967296 1 1).file_size
          / (fresh_index false header_only_index_file 4294967296 1 1).block_size_) :=
  ⟨⟨by rfl, by decide, by decide⟩, ⟨by rfl, by decide⟩⟩

/-! ## The order of the void list -/

theorem sort_void_blocks_sorted (l : List (Nat × Nat)) :
    (sort_void_blocks l).Pairwise pair_le :=
  List.sorted_insertionSort pair_le l

/-- C13 (order of the void list). For every index that loads successfully, in reader or in
writer mode, the list that `get_void_blocks` returns is sorted ascending in the
lexicographic order of the pairs `(length, start)`, whether `init_void_blocks` has read it
from the empty-index file or derived it from the entries. -/
theorem C13_void_blocks_sorted {I : Type} (T : Index_Type I)
    (prop_block_size prop_compression_factor : Nat) (prop_compression_method : Int)
    (writeable : Bool) (file_name_extension : String)
    (use_default compression_method_ : Int)
    (data_file : File_Result Nat) (index_file : File_Result (List Nat))
    (empty_index_file later_empty_index_file : Option (List Nat))
    (s s2 : File_Blocks_Index I)
    (hload : File_Blocks_Index.construct T prop_block_size prop_compression_factor
      prop_compression_method writeable file_name_extension use_default compression_method_
      data_file index_file empty_index_file = Except.ok s)
    (hvoid : get_void_blocks T later_empty_index_file s = Except.ok s2) :
    s2.void_blocks.Pairwise (fun a b => a.1 < b.1 ∨ (a.1 = b.1 ∧ a.2 ≤ b.2)) := by
  obtain ⟨s3, _, _, _, _, q5, _, _, hs⟩ := construct_ok T prop_block_size
    prop_compression_factor prop_compression_method writeable file_name_extension
    use_default compression_method_ data_file index_file empty_index_file s hload
  have key : ∃ (s0 s1 : File_Blocks_Index I) (f : Option (List Nat)),
      init_void_blocks T f s0 = Except.ok s2 := by
    rcases hs with ⟨_, hs⟩ | ⟨_, hs⟩
    · obtain ⟨s1, v, _, e⟩ := init_void_blocks_frame T empty_index_file s3 s hs
      have hi : s.void_blocks_initialized = true := by rw [e]
      unfold get_void_blocks at hvoid
      simp only [hi, if_true] at hvoid
      cases hvoid
      exact ⟨s3, s1, empty_index_file, hs⟩
    · subst hs
      unfold get_void_blocks at hvoid
      simp only [q5, Bool.false_eq_true, if_false] at hvoid
      exact ⟨s, s, later_empty_index_file, hvoid⟩
  obtain ⟨s0, _, f, h0⟩ := key
  obtain ⟨s1, v, _, e⟩ := init_void_blocks_frame T f s0 s2 h0
  rw [e]
  exact sort_void_blocks_sorted v

/-- C13 at the writeable index opened on `example_index_file` with an empty-index file that
holds the pairs `(3, 7)` and `(2, 3)` in this order: the list returned is
`[(2, 3), (3, 7)]`. -/
theorem C13_void_blocks_sorted_witness :
    File_Blocks_Index.construct Uint32_Index 1 1 0 true "" (-1) (-1) (Except.ok 10)
      (Except.ok example_index_file) (some [3, 0, 0, 0, 7, 0, 0, 0, 2, 0, 0, 0, 3, 0, 0, 0])
      = Except.ok example_index ∧
    example_index.void_blocks.Pairwise (fun a b => a.1 < b.1 ∨ (a.1 = b.1 ∧ a.2 ≤ b.2)) :=
  ⟨by rfl,
    C13_void_blocks_sorted Uint32_Index 1 1 0 true "" (-1) (-1) (Except.ok 10)
      (Except.ok example_index_file) (some [3, 0, 0, 0, 7, 0, 0, 0, 2, 0, 0, 0, 3, 0, 0, 0])
      none example_index example_index (by rfl) (by rfl)⟩

/-! ## The void list of the example E5 -/

/-- The marks after both marking loops for entries that cover the blocks 0 to 2 and 5 to 6
of ten. -/
theorem marks_of_coverage (v : List Bool) (hlen : v.length = 10)
    (hget : ∀ j, j < 10 → (v.getD j false = true ↔ j ∈ [0, 1, 2, 5, 6])) :
    v = [true, true, true, false, false, true, true, false, false, false] := by
  match v, hlen, hget with
  | [a0, a1, a2, a3, a4, a5, a6, a7, a8, a9], _, hget =>
    have h0 := hget 0 (by norm_num)
    have h1 := hget 1 (by norm_num)
    have h2 := hget 2 (by norm_num)
    have h3 := hget 3 (by norm_num)
    have h4 := hget 4 (by norm_num)
    have h5 := hget 5 (by norm_num)
    have h6 := hget 6 (by norm_num)
    have h7 := hget 7 (by norm_num)
    have h8 := hget 8 (by norm_num)
    have h9 := hget 9 (by norm_num)
    simp at h0 h1 h2 h3 h4 h5 h6 h7 h8 h9
    simp [h0, h1, h2, h3, h4, h5, h6, h7, h8, h9]

/-- C14, as amended (E5, void-list rebuild). For a data file with `block_count = 10` whose
entries, all inside the file, cover exactly the blocks 0 to 2 and 5 to 6, and no
empty-index file to read, the void list that `init_void_blocks` derives, sorted by
`(length, start)`, is `[(2, 3), (3, 7)]`: two blocks from block 3 and three blocks from
block 7. -/
theorem C14_void_list_rebuild {I : Type} (T : Index_Type I)
    (empty_index_file : Option (List Nat)) (s : File_Blocks_Index I)
    (hbuf : s.index_buf = none) (hvoid : s.void_blocks = [])
    (hcache : s.writeable = false ∨ empty_index_file = none)
    (hcount : s.block_count = 10)
    (hin : ∀ e ∈ s.entries, e.pos + e.size ≤ s.block_count)
    (hcover : ∀ j, j < 10 → ((∃ e ∈ s.entries, Covers e j) ↔ j ∈ [0, 1, 2, 5, 6])) :
    init_void_blocks T empty_index_file s = Except.ok
      { s with void_blocks := [(2, 3), (3, 7)], void_blocks_initialized := true } := by
  have hlen0 : (List.replicate s.block_count false).length = s.block_count :=
    List.length_replicate _ _
  obtain ⟨v1, e1, hlen1, hget1⟩ := mark_entries_spec s.block_list
    (List.replicate s.block_count false)
    (fun e he => by
      rw [hlen0]
      exact hin e (List.mem_append_left _ he))
    (by rw [hlen0, hcount]; norm_num)
  obtain ⟨v2, e2, hlen2, hget2⟩ := mark_entries_spec s.block_array v1
    (fun e he => by
      rw [hlen1, hlen0]
      exact hin e (List.mem_append_right _ he))
    (by rw [hlen1, hlen0, hcount]; norm_num)
  have hv2 : v2 = [true, true, true, false, false, true, true, false, false, false] := by
    apply marks_of_coverage v2 (by rw [hlen2, hlen1, hlen0, hcount])
    intro j hj
    rw [hget2 j, hget1 j, ← hcover j hj]
    have hrep : (List.replicate s.block_count false).getD j false = false :=
      getD_replicate_false _ _
    simp only [hrep, Bool.false_eq_true, false_or, File_Blocks_Index.entries,
      List.mem_append]
    constructor
    · rintro (⟨e, he, hc⟩ | ⟨e, he, hc⟩)
      · exact ⟨e, Or.inl he, hc⟩
      · exact ⟨e, Or.inr he, hc⟩
    · rintro ⟨e, he | he, hc⟩
      · exact Or.inl ⟨e, he, hc⟩
      · exact Or.inr ⟨e, he, hc⟩
  have hruns : derive_void_blocks s = some [(2, 3), (3, 7)] := by
    unfold derive_void_blocks
    rw [e1]
    simp only
    rw [e2]
    simp only [hv2, hvoid, hcount]
    rfl
  rw [init_void_blocks_derived T empty_index_file s hbuf hcache _ hruns]
  rfl

/-- The amended C14 at a writeable index with the entries `(pos 0, size 3)` and
`(pos 5, size 2)` on ten blocks. -/
theorem C14_void_list_rebuild_witness :
    init_void_blocks Uint32_Index none
      { example_index with void_blocks := [], void_blocks_initialized := false }
      = Except.ok
        { ({ example_index with void_blocks := [], void_blocks_initialized := false } :
              File_Blocks_Index (Fin 4294967296)) with
          void_blocks := [(2, 3), (3, 7)], void_blocks_initialized := true } :=
  C14_void_list_rebuild Uint32_Index none
    { example_index with void_blocks := [], void_blocks_initialized := false } rfl rfl
    (Or.inr rfl) rfl (by decide) (by decide)

/-- C14 as stated fails: the index opened on a data file of ten blocks whose entries cover
the blocks 0 to 2 and 5 to 6, without an empty-index file, holds the void list
`[(2, 3), (3, 7)]`, which is not the list `[(1, 7), (2, 3), (2, 8)]` of the claim. -/
theorem C14_counterexample :
    File_Blocks_Index.construct Uint32_Index 1 1 0 true "" (-1) (-1) (Except.ok 10)
      (Except.ok example_index_file) none = Except.ok example_index ∧
    get_void_blocks Uint32_Index none example_index = Except.ok example_index ∧
    example_index.block_count = 10 ∧
    (∀ j, j < 10 → ((∃ e ∈ example_index.entries, Covers e j) ↔ j ∈ [0, 1, 2, 5, 6])) ∧
    example_index.void_blocks = [(2, 3), (3, 7)] ∧
    example_index.void_blocks ≠ [(1, 7), (2, 3), (2, 8)] :=
  ⟨by rfl, by rfl, by rfl, by decide, by rfl, by decide⟩

/-! ## The empty-index file -/

/-- C15 (void-list persistence round trip) does not hold of the code: the teardown lays
out all pairs in a buffer of `void_blocks.size() * 8` bytes but writes only
`void_blocks.size() * sizeof(uint32)` bytes of it. The writeable index opened on
`example_index_file` holds the void list `[(2, 3), (3, 7)]`, whose pairs take 16 bytes; its
teardown writes the first 8 of them to the empty-index file, and the next open reads the
void list `[(2, 3)]` from that file. -/
theorem C15_void_file_is_half_written :
    File_Blocks_Index.construct Uint32_Index 1 1 0 true "" (-1) (-1) (Except.ok 10)
      (Except.ok example_index_file) none = Except.ok example_index ∧
    example_index.void_blocks = [(2, 3), (3, 7)] ∧
    void_bytes example_index.void_blocks
      = [2, 0, 0, 0, 3, 0, 0, 0, 3, 0, 0, 0, 7, 0, 0, 0] ∧
    example_index.teardown Uint32_Index true = Except.ok (some
      { index_file := example_index_file,
        empty_index_file := some [2, 0, 0, 0, 3, 0, 0, 0] }) ∧
    File_Blocks_Index.construct Uint32_Index 1 1 0 true "" (-1) (-1) (Except.ok 10)
      (Except.ok example_index_file) (some [2, 0, 0, 0, 3, 0, 0, 0])
      = Except.ok { example_index with void_blocks := [(2, 3)] } :=
  ⟨by rfl, by rfl, by rfl, by rfl, by rfl⟩

/-! ## The legacy format -/

/-- The reads of one legacy record at the offset where its bytes start. -/
theorem read_legacy_entry_bytes {I : Type} (T : Index_Type I) (hT : T.Decodes)
    (buf : List Nat) (pos : Nat) (e : File_Block_Index_Entry I) (rest : List Nat)
    (hbuf : buf.drop pos = legacy_entry_bytes T e ++ rest)
    (hfields : e.pos < 2 ^ 32 ∧ e.max_keysize < 2 ^ 32) :
    T.from_data (buf.drop pos) = e.index ∧ T.size_of_data (buf.drop pos) = T.size_of e.index ∧
    read_uint32 buf (pos + T.size_of e.index) = some e.pos ∧
    read_uint32 buf (pos + T.size_of e.index + 4) = some e.max_keysize ∧
    buf.drop (pos + (T.size_of e.index + 8)) = rest := by
  have hb : buf.drop pos = T.to_data e.index
      ++ (uint32_bytes e.pos ++ (uint32_bytes e.max_keysize ++ rest)) := by
    rw [hbuf]
    simp only [legacy_entry_bytes, List.append_assoc]
  obtain ⟨d1, d2, d3⟩ := hT e.index (uint32_bytes e.pos ++ (uint32_bytes e.max_keysize ++ rest))
  have h1 : buf.drop (pos + T.size_of e.index)
      = uint32_bytes e.pos ++ (uint32_bytes e.max_keysize ++ rest) := by
    rw [← List.drop_drop, hb, ← d1, List.drop_left]
  have h2 : buf.drop (pos + T.size_of e.index + 4) = uint32_bytes e.max_keysize ++ rest := by
    rw [← List.drop_drop, h1]
    exact List.drop_left' (uint32_bytes_length _)
  have h3 : buf.drop (pos + (T.size_of e.index + 8)) = rest := by
    rw [show pos + (T.size_of e.index + 8) = pos + T.size_of e.index + 4 + 4 by omega,
      ← List.drop_drop, h2]
    exact List.drop_left' (uint32_bytes_length _)
  refine ⟨by rw [hb]; exact d2, by rw [hb]; exact d3, ?_, ?_, h3⟩
  · have := read_uint32_drop buf (pos + T.size_of e.index) 0
    rw [Nat.add_zero] at this
    rw [this, h1]
    exact read_uint32_bytes e.pos _ hfields.1
  · have := read_uint32_drop buf (pos + T.size_of e.index + 4) 0
    rw [Nat.add_zero] at this
    rw [this, h2]
    exact read_uint32_bytes e.max_keysize _ hfields.2

theorem legacy_entry_bytes_length {I : Type} (T : Index_Type I) (hT : T.Decodes)
    (e : File_Block_Index_Entry I) :
    (legacy_entry_bytes T e).length = T.size_of e.index + 8 := by
  simp only [legacy_entry_bytes, List.length_append, uint32_bytes_length, (hT e.index []).1]

/-- The loop of the legacy format on a buffer that holds, from the offset on, the legacy
records of a sequence of entries: it adds these entries with the size 1. -/
theorem init_blocks_legacy_encoded {I : Type} (T : Index_Type I) (hT : T.Decodes)
    (buf : List Nat) (hlen : buf.length < 2 ^ 32) :
    ∀ (l : List (File_Block_Index_Entry I)) (fuel pos : Nat) (s : File_Blocks_Index I),
      buf.drop pos = (l.map (legacy_entry_bytes T)).flatten → pos ≤ buf.length →
      s.index_size = buf.length → l.length ≤ fuel →
      (∀ e ∈ l, e.pos < 2 ^ 32 ∧ e.max_keysize < 2 ^ 32 ∧ e.pos < s.block_count) →
      init_blocks_legacy T buf fuel pos s
        = Except.ok ((l.map (fun e => { e with size := 1 })).foldl push_entry s) := by
  intro l
  induction l with
  | nil =>
    intro fuel pos s hdrop hpos hsize _ _
    have hge : buf.length ≤ pos := by
      simp only [List.map_nil, List.flatten_nil, List.drop_eq_nil_iff] at hdrop
      exact hdrop
    have : ¬ pos < s.index_size := by omega
    cases fuel <;> simp [init_blocks_legacy, this]
  | cons e l ih =>
    intro fuel pos s hdrop hpos hsize hfuel hentries
    obtain ⟨fuel, rfl⟩ : ∃ f, fuel = f + 1 := ⟨fuel - 1, by simp at hfuel; omega⟩
    obtain ⟨f1, f2, f3⟩ := hentries e (List.mem_cons_self _ _)
    simp only [List.map_cons, List.flatten_cons] at hdrop
    obtain ⟨r1, r2, r3, r4, r5⟩ := read_legacy_entry_bytes T hT buf pos e _ hdrop ⟨f1, f2⟩
    have hlen2 : (buf.drop pos).length = buf.length - pos := List.length_drop _ _
    rw [hdrop, List.length_append, legacy_entry_bytes_length T hT] at hlen2
    have hlt : pos < s.index_size := by omega
    have hdata : ¬ (buf.drop pos).length < T.size_of e.index := by
      rw [List.length_drop]
      omega
    have hmod : (pos + (T.size_of e.index + 8)) % 2 ^ 32 = pos + (T.size_of e.index + 8) :=
      Nat.mod_eq_of_lt (by omega)
    obtain ⟨p1, p2, _⟩ := push_entry_fields s { e with size := 1 }
    have hnext := ih fuel (pos + (T.size_of e.index + 8)) (push_entry s { e with size := 1 })
      r5 (by omega) (by rw [p1]; exact hsize) (by simp at hfuel; omega)
      (fun f hf => by rw [p2]; exact hentries f (List.mem_cons_of_mem _ hf))
    simp only [init_blocks_legacy, hlt, if_true, r2, hdata, if_false, r3, r4, r1]
    have hnp : ¬ s.block_count ≤ e.pos := by omega
    simp only [hnp, if_false, hmod, List.map_cons, List.foldl_cons]
    exact hnext

/-- Every entry the loop of the legacy format adds has the size 1. -/
theorem init_blocks_legacy_size {I : Type} (T : Index_Type I) (buf : List Nat) :
    ∀ (fuel pos : Nat) (s s2 : File_Blocks_Index I),
      init_blocks_legacy T buf fuel pos s = Except.ok s2 →
      ∀ e ∈ s2.entries, e ∈ s.entries ∨ e.size = 1 := by
  intro fuel
  induction fuel with
  | zero =>
    intro pos s s2 h
    simp only [init_blocks_legacy] at h
    split at h
    · simp at h
    · cases h
      exact fun e he => Or.inl he
  | succ fuel ih =>
    intro pos s s2 h
    simp only [init_blocks_legacy] at h
    split at h
    · split at h
      · simp at h
      · split at h
        · split at h
          · simp at h
          · intro e he
            rcases ih _ _ _ h e he with h1 | h1
            · rcases push_entry_entries s _ e h1 with h2 | h2
              · exact Or.inl h2
              · right
                rw [h2]
            · exact Or.inr h1
        · simp at h
    · cases h
      exact fun e he => Or.inl he

theorem length_le_legacy_bytes {I : Type} (T : Index_Type I)
    (l : List (File_Block_Index_Entry I)) :
    l.length ≤ ((l.map (legacy_entry_bytes T)).flatten).length := by
  induction l with
  | nil => simp
  | cons e l ih =>
    simp only [List.map_cons, List.flatten_cons, List.length_cons, List.length_append]
    have : 8 ≤ (legacy_entry_bytes T e).length := by
      simp only [legacy_entry_bytes, List.length_append, uint32_bytes_length]
      omega
    omega

/-- C16 (legacy read). Let an index with the extension ".legacy" and no entries yet hold
an index buffer. Every entry that a successful `init_blocks` parses from it has the size
1. And if the buffer is, from offset 0 on and without a header, the concatenation of the
records `index bytes, u32 pos, u32 max_keysize` of a list of entries (shorter than 4 GiB,
the index type decoding its own bytes, every `pos` below the block count), then
`init_blocks` succeeds and yields exactly these entries, each with the size 1, in the order
of the file. -/
theorem C16_legacy_read {I : Type} (T : Index_Type I) (hT : T.Decodes)
    (s : File_Blocks_Index I) (hext : s.file_name_extension_ = ".legacy")
    (hlist : s.block_list = []) (harray : s.block_array = []) :
    (∀ buf s2, s.index_buf = some buf → init_blocks T s = Except.ok s2 →
      ∀ e ∈ s2.entries, e.size = 1) ∧
    ∀ (l : List (File_Block_Index_Entry I)),
      s.index_buf = some (l.map (legacy_entry_bytes T)).flatten →
      s.index_size = ((l.map (legacy_entry_bytes T)).flatten).length →
      ((l.map (legacy_entry_bytes T)).flatten).length < 2 ^ 32 →
      (∀ e ∈ l, e.pos < 2 ^ 32 ∧ e.max_keysize < 2 ^ 32 ∧ e.pos < s.block_count) →
      ∃ s2, init_blocks T s = Except.ok s2 ∧
        s2.entries = l.map (fun e => { e with size := 1 }) := by
  constructor
  · intro buf s2 hbuf h e he
    unfold init_blocks at h
    simp only [hbuf, hext, if_true] at h
    cases hs1 : init_blocks_legacy T buf s.index_size 0 s with
    | error err =>
      rw [hs1] at h
      simp at h
    | ok s1 =>
      rw [hs1] at h
      cases h
      rcases init_blocks_legacy_size T buf _ _ _ _ hs1 e he with h1 | h1
      · unfold File_Blocks_Index.entries at h1
        rw [hlist, harray] at h1
        simp at h1
      · exact h1
  · intro l hbuf hsize hlen hentries
    have hparse := init_blocks_legacy_encoded T hT _ hlen l s.index_size 0 s
      (List.drop_zero _) (Nat.zero_le _) hsize
      (by rw [hsize]; exact length_le_legacy_bytes T l) hentries
    refine ⟨{ (l.map (fun e => { e with size := 1 })).foldl push_entry s with
      index_buf := none }, ?_, ?_⟩
    · unfold init_blocks
      simp only [hbuf, hext, if_true, hparse]
    · rw [foldl_push_entry]
      unfold File_Blocks_Index.entries
      cases hw : s.writeable <;> simp [hw, hlist, harray]

/-- C16 at `legacy_index_file`, opened with the extension ".legacy" on a data file of ten
blocks: the entries of the indexes 5 and 17 are read in file order with the size 1. -/
theorem C16_legacy_read_witness :
    File_Blocks_Index.construct Uint32_Index 1 1 0 true ".legacy" (-1) (-1) (Except.ok 10)
      (Except.ok legacy_index_file) none
      = Except.ok legacy_index ∧
    ∃ s2, init_blocks Uint32_Index
        { fresh_index true legacy_index_file 10 1 1 with
          file_name_extension_ := ".legacy", block_count := 10 } = Except.ok s2 ∧
      s2.entries = ([⟨5, 5, 7, 8⟩, ⟨17, 0, 3, 9⟩] :
        List (File_Block_Index_Entry (Fin 4294967296))).map (fun e => { e with size := 1 }) :=
  ⟨by rfl,
    (C16_legacy_read Uint32_Index uint32_index_decodes
      { fresh_index true legacy_index_file 10 1 1 with
        file_name_extension_ := ".legacy", block_count := 10 } rfl rfl rfl).2
      [⟨5, 5, 7, 8⟩, ⟨17, 0, 3, 9⟩] (by rfl) (by rfl) (by decide) (by decide)⟩

/-! ## The layout the teardown writes -/

theorem shift_log_loop_eq_log :
    ∀ (fuel val count : Nat), val < 2 ^ (fuel + 1) →
      shift_log_loop fuel val count = count + Nat.log 2 val := by
  intro fuel
  induction fuel with
  | zero =>
    intro val count h
    have : val < 2 := by simpa using h
    simp only [shift_log_loop]
    rw [Nat.log_of_lt this]
    rfl
  | succ fuel ih =>
    intro val count h
    simp only [shift_log_loop]
    split
    · rename_i h1
      rw [ih (val / 2) (count + 1) (by
        rw [Nat.div_lt_iff_lt_mul (by norm_num)]
        rw [pow_succ] at h
        exact h)]
      rw [Nat.log_of_one_lt_of_le (by norm_num) (by omega : 2 ≤ val)]
      omega
    · rename_i h1
      rw [Nat.log_of_lt (by omega)]
      rfl

/-- The value `shift_log` computes for a 64-bit value is the binary logarithm. -/
theorem shift_log_eq_log (val : Nat) (h : val < 2 ^ 64) : shift_log val = Nat.log 2 val := by
  unfold shift_log
  rw [shift_log_loop_eq_log 64 val 0 (by omega)]
  omega

/-- C17 (writing forces the modern layout). For every writeable index, whatever its
extension and whatever it was loaded from, whose block size and compression factor are
64-bit and 32-bit values and whose index bytes stay below 4 GiB, the teardown writes an
index file, and this file is the `u32` version 7560, `u8 log2(block_size)`,
`u8 log2(compression_factor)`, `u16 compression_method` and then one record
`u32 pos, u32 size, u32 max_keysize, index bytes` per entry of the block list in list
order. -/
theorem C17_teardown_writes_modern_layout {I : Type} (T : Index_Type I)
    (hT : ∀ index, (T.to_data index).length = T.size_of index)
    (s : File_Blocks_Index I) (empty_index_file_exists : Bool)
    (hw : s.writeable = true) (hbs : s.block_size_ < 2 ^ 64)
    (hcf : s.compression_factor < 2 ^ 32)
    (hfit : 8 + ((s.block_list.map (entry_bytes T)).flatten).length < 2 ^ 32) :
    ∃ w, s.teardown T empty_index_file_exists = Except.ok (some w) ∧
      w.index_file = modern_layout T s.block_size_ s.compression_factor
        s.compression_method s.block_list ∧
      read_uint32 w.index_file 0 = some 7560 := by
  have hsize : teardown_index_size T s.block_list 8
      = (header_bytes s ++ (s.block_list.map (entry_bytes T)).flatten).length := by
    rw [teardown_index_size_exact T hT s.block_list hfit, List.length_append,
      header_bytes_length]
  have hlayout : header_bytes s ++ (s.block_list.map (entry_bytes T)).flatten
      = modern_layout T s.block_size_ s.compression_factor s.compression_method
          s.block_list := by
    unfold modern_layout header_bytes
    rw [shift_log_eq_log _ hbs, shift_log_eq_log _ (by omega)]
    rfl
  unfold File_Blocks_Index.teardown
  simp only [hw, Bool.not_true, Bool.false_eq_true, if_false, hsize, ne_eq,
    not_true_eq_false]
  refine ⟨_, rfl, hlayout, ?_⟩
  simp only
  rw [header_bytes_eq]
  rfl

/-- C17 at the index loaded from the legacy file `legacy_index_file`: its teardown writes
the header of version 7560 and the two entries with their size 1. -/
theorem C17_teardown_writes_modern_layout_witness :
    File_Blocks_Index.construct Uint32_Index 1 1 0 true ".legacy" (-1) (-1) (Except.ok 10)
      (Except.ok legacy_index_file) none = Except.ok legacy_index ∧
    legacy_index.teardown Uint32_Index false = Except.ok (some
      { index_file :=
          [136, 29, 0, 0, 0, 0, 0, 0,
           5, 0, 0, 0, 1, 0, 0, 0, 8, 0, 0, 0, 5, 0, 0, 0,
           0, 0, 0, 0, 1, 0, 0, 0, 9, 0, 0, 0, 17, 0, 0, 0],
        empty_index_file := none }) ∧
    ∃ w, legacy_index.teardown Uint32_Index false = Except.ok (some w) ∧
      w.index_file = modern_layout Uint32_Index legacy_index.block_size_
        legacy_index.compression_factor legacy_index.compression_method
        legacy_index.block_list ∧
      read_uint32 w.index_file 0 = some 7560 :=
  ⟨by rfl, by rfl,
    C17_teardown_writes_modern_layout Uint32_Index (fun _ => rfl) legacy_index false
      (by rfl) (by decide) (by decide) (by decide)⟩

/-! ## A missing data file -/

theorem init_structure_params_empty {I : Type} (s s3 : File_Blocks_Index I)
    (hsize : s.file_size = 0) (hcount : s.block_count = 0)
    (h : init_structure_params s = Except.ok s3) :
    s3.file_size = 0 ∧ s3.block_count = 0 := by
  cases hb : s.index_buf with
  | none =>
    unfold init_structure_params at h
    simp only [hb] at h
    cases h
    exact ⟨hsize, hcount⟩
  | some buf =>
    obtain ⟨_, d2, _, d4⟩ := init_structure_params_ok s s3 buf hb h
    rw [d4, d2, hsize]
    exact ⟨rfl, by simp⟩

/-- What the constructor does when the data file is missing and it succeeds. -/
theorem construct_missing_data {I : Type} (T : Index_Type I)
    (prop_block_size prop_compression_factor : Nat) (prop_compression_method : Int)
    (writeable : Bool) (file_name_extension : String)
    (use_default compression_method_ : Int)
    (index_file : File_Result (List Nat))
    (empty_index_file : Option (List Nat)) (s : File_Blocks_Index I)
    (h : File_Blocks_Index.construct T prop_block_size prop_compression_factor
      prop_compression_method writeable file_name_extension use_default compression_method_
      (Except.error 2) index_file empty_index_file = Except.ok s) :
    ∃ s3 : File_Blocks_Index I, s3.file_size = 0 ∧ s3.block_count = 0 ∧
      s3.block_list = [] ∧ s3.block_array = [] ∧
      ((writeable = true ∧ init_void_blocks T empty_index_file s3 = Except.ok s) ∨
        (writeable = false ∧ s = s3)) := by
  unfold File_Blocks_Index.construct at h
  simp only [ne_eq, not_true_eq_false, if_false] at h
  split at h
  · simp at h
  · rename_i s2 hs2
    have f2 : s2.file_size = 0 ∧ s2.block_count = 0 ∧ s2.block_list = [] ∧
        s2.block_array = [] ∧ s2.writeable = writeable := by
      split at hs2
      · cases hs2
        exact ⟨rfl, rfl, rfl, rfl, rfl⟩
      · split at hs2
        · simp at hs2
        · cases hs2
          exact ⟨rfl, rfl, rfl, rfl, rfl⟩
    split at h
    · simp at h
    · rename_i s3 hs3
      obtain ⟨g, _⟩ := init_structure_params_frame s2 s3 hs3
      obtain ⟨e1, e2⟩ := init_structure_params_empty s2 s3 f2.1 f2.2.1 hs3
      have hw : s3.writeable = writeable := by rw [g]; exact f2.2.2.2.2
      refine ⟨s3, e1, e2, by rw [g]; exact f2.2.2.1, by rw [g]; exact f2.2.2.2.1, ?_⟩
      rw [hw] at h
      cases writeable with
      | true =>
        simp only [if_true] at h
        exact Or.inl ⟨rfl, h⟩
      | false =>
        simp only [Bool.false_eq_true, if_false] at h
        cases h
        exact Or.inr ⟨rfl, rfl⟩

/-- With a block count of 0 a successful `init_blocks` adds no entry. -/
theorem init_blocks_empty {I : Type} (T : Index_Type I) (s s2 : File_Blocks_Index I)
    (hcount : s.block_count = 0) (hentries : s.entries = [])
    (h : init_blocks T s = Except.ok s2) : s2.entries = [] := by
  obtain ⟨_, g⟩ := init_blocks_frame T s s2 h
  apply List.eq_nil_iff_forall_not_mem.2
  intro e he
  rcases g e he with h1 | ⟨h1, _⟩
  · rw [hentries] at h1
    simp at h1
  · omega

/-- The constructor succeeds when neither file is there to read. -/
theorem construct_without_files {I : Type} (T : Index_Type I)
    (prop_block_size prop_compression_factor : Nat) (prop_compression_method : Int)
    (writeable : Bool) (file_name_extension : String)
    (use_default compression_method_ : Int)
    (index_file : File_Result (List Nat))
    (empty_index_file : Option (List Nat))
    (hindex : index_file = Except.error 2 ∨
      ∃ content, index_file = Except.ok content ∧ content.length % 2 ^ 32 = 0) :
    ∃ s : File_Blocks_Index I,
      File_Blocks_Index.construct T prop_block_size prop_compression_factor
        prop_compression_method writeable file_name_extension use_default
        compression_method_ (Except.error 2) index_file empty_index_file = Except.ok s := by
  have hvoid : ∀ s0 : File_Blocks_Index I, s0.index_buf = none → s0.block_list = [] →
      s0.block_array = [] → s0.block_count = 0 →
      ∃ s, init_void_blocks T empty_index_file s0 = Except.ok s := by
    intro s0 hb hl ha hc
    unfold init_void_blocks
    rw [init_blocks_none T s0 hb]
    simp only
    cases read_empty_index_file empty_index_file s0 with
    | some v => exact ⟨_, rfl⟩
    | none =>
      have : ∃ runs, derive_void_blocks s0 = some runs := by
        unfold derive_void_blocks
        rw [hl, ha, hc]
        exact ⟨_, rfl⟩
      obtain ⟨runs, hr⟩ := this
      simp only [hr]
      exact ⟨_, rfl⟩
  unfold File_Blocks_Index.construct
  rcases hindex with h | ⟨content, h, hlen⟩
  · subst h
    simp only [ne_eq, not_true_eq_false, if_false, init_structure_params]
    cases writeable with
    | true =>
      simp only [if_true]
      exact hvoid _ rfl rfl rfl rfl
    | false => exact ⟨_, rfl⟩
  · subst h
    simp only [ne_eq, not_true_eq_false, if_false, hlen, if_true, init_structure_params]
    cases writeable with
    | true =>
      simp only [if_true]
      exact hvoid _ rfl rfl rfl rfl
    | false => exact ⟨_, rfl⟩

/-- C18, as amended (missing data file). Let opening the data file fail with `errno`. If
`errno` is 2 (`ENOENT`): whenever the construction succeeds, the index is empty, with
`file_size = 0`, `block_count = 0`, no entries, and no entries from a later parse either;
and the construction does succeed when the index file is missing or empty too. If `errno`
is not 2, the construction fails with this error. -/
theorem C18_missing_data_file {I : Type} (T : Index_Type I)
    (prop_block_size prop_compression_factor : Nat) (prop_compression_method : Int)
    (writeable : Bool) (file_name_extension : String)
    (use_default compression_method_ : Int)
    (index_file : File_Result (List Nat))
    (empty_index_file : Option (List Nat)) (errno : Nat) :
    (errno = 2 →
      (∀ s, File_Blocks_Index.construct T prop_block_size prop_compression_factor
          prop_compression_method writeable file_name_extension use_default
          compression_method_ (Except.error errno) index_file empty_index_file
            = Except.ok s →
        s.file_size = 0 ∧ s.block_count = 0 ∧ s.entries = [] ∧
        ∀ s2, init_blocks T s = Except.ok s2 → s2.entries = []) ∧
      ((index_file = Except.error 2 ∨
          ∃ content, index_file = Except.ok content ∧ content.length % 2 ^ 32 = 0) →
        ∃ s, File_Blocks_Index.construct T prop_block_size prop_compression_factor
          prop_compression_method writeable file_name_extension use_default
          compression_method_ (Except.error errno) index_file empty_index_file
            = Except.ok s)) ∧
    (errno ≠ 2 →
      File_Blocks_Index.construct T prop_block_size prop_compression_factor
        prop_compression_method writeable file_name_extension use_default
        compression_method_ (Except.error errno) index_file empty_index_file
          = Except.error (File_Error.os_error errno)) := by
  constructor
  · intro h2
    subst h2
    constructor
    · intro s h
      obtain ⟨s3, e1, e2, e3, e4, hs⟩ := construct_missing_data T prop_block_size
        prop_compression_factor prop_compression_method writeable file_name_extension
        use_default compression_method_ index_file empty_index_file s h
      have hentries3 : s3.entries = [] := by
        unfold File_Blocks_Index.entries
        rw [e3, e4]
        rfl
      rcases hs with ⟨_, hs⟩ | ⟨_, hs⟩
      · obtain ⟨s4, v, hs4, e⟩ := init_void_blocks_frame T empty_index_file s3 s hs
        obtain ⟨g4, _⟩ := init_blocks_frame T s3 s4 hs4
        have hentries4 := init_blocks_empty T s3 s4 e2 hentries3 hs4
        have hentries : s.entries = [] := by
          rw [e]
          exact hentries4
        have hbuf : s.index_buf = none := by
          rw [e]
          simp only
          rw [g4]
        refine ⟨?_, ?_, hentries, ?_⟩
        · rw [e]
          simp only
          rw [g4]
          exact e1
        · rw [e]
          simp only
          rw [g4]
          exact e2
        · intro s2 h2
          rw [init_blocks_none T s hbuf] at h2
          cases h2
          exact hentries
      · subst hs
        exact ⟨e1, e2, hentries3, fun s2 h2 => init_blocks_empty T s s2 e2 hentries3 h2⟩
    · intro hindex
      exact construct_without_files T prop_block_size prop_compression_factor
        prop_compression_method writeable file_name_extension use_default
        compression_method_ index_file empty_index_file hindex
  · intro hne
    unfold File_Blocks_Index.construct
    simp only [ne_eq, hne, not_false_eq_true, if_true]

/-- The amended C18 at a writeable index without a data file and without an index file,
and at a data file that cannot be opened for want of permission (`errno` 13). -/
theorem C18_missing_data_file_witness :
    (∃ s, File_Blocks_Index.construct Uint32_Index 512 8 0 true "" (-1) (-1)
        (Except.error 2) (Except.error 2) none = Except.ok s) ∧
    File_Blocks_Index.construct Uint32_Index 512 8 0 true "" (-1) (-1)
        (Except.error 13) (Except.error 2) none
      = Except.error (File_Error.os_error 13) :=
  ⟨((C18_missing_data_file Uint32_Index 512 8 0 true "" (-1) (-1) (Except.error 2) none
      2).1 rfl).2 (Or.inl rfl),
    (C18_missing_data_file Uint32_Index 512 8 0 true "" (-1) (-1) (Except.error 2) none
      13).2 (by decide)⟩

/-- C18 as stated fails: without a data file, opening a writeable index on
`example_index_file` does not succeed but fails on the first entry, whose `pos` is not
below the block count 0; a read-only index opens, and parsing its entries fails in the
same way. -/
theorem C18_counterexample :
    File_Blocks_Index.construct Uint32_Index 1 1 0 true "" (-1) (-1) (Except.error 2)
      (Except.ok example_index_file) none = Except.error File_Error.bad_pos ∧
    File_Blocks_Index.construct Uint32_Index 1 1 0 false "" (-1) (-1) (Except.error 2)
      (Except.ok example_index_file) none
      = Except.ok (fresh_index false example_index_file 0 1 1) ∧
    init_blocks Uint32_Index (fresh_index false example_index_file 0 1 1)
      = Except.error File_Error.bad_pos :=
  ⟨by rfl, by rfl, by rfl⟩

/-! ## The two views of the entries -/

theorem init_blocks_modern_pushes {I : Type} (T : Index_Type I) (buf : List Nat) :
    ∀ (fuel pos : Nat) (s s2 : File_Blocks_Index I),
      init_blocks_modern T buf fuel pos s = Except.ok s2 →
      ∃ l : List (File_Block_Index_Entry I), s2 = l.foldl push_entry s := by
  intro fuel
  induction fuel with
  | zero =>
    intro pos s s2 h
    simp only [init_blocks_modern] at h
    split at h
    · simp at h
    · cases h
      exact ⟨[], rfl⟩
  | succ fuel ih =>
    intro pos s s2 h
    simp only [init_blocks_modern] at h
    split at h
    · split at h
      · simp at h
      · split at h
        · split at h
          · simp at h
          · split at h
            · simp at h
            · obtain ⟨l, hl⟩ := ih _ _ _ h
              exact ⟨_ :: l, hl⟩
        · simp at h
    · cases h
      exact ⟨[], rfl⟩

theorem init_blocks_legacy_pushes {I : Type} (T : Index_Type I) (buf : List Nat) :
    ∀ (fuel pos : Nat) (s s2 : File_Blocks_Index I),
      init_blocks_legacy T buf fuel pos s = Except.ok s2 →
      ∃ l : List (File_Block_Index_Entry I), s2 = l.foldl push_entry s := by
  intro fuel
  induction fuel with
  | zero =>
    intro pos s s2 h
    simp only [init_blocks_legacy] at h
    split at h
    · simp at h
    · cases h
      exact ⟨[], rfl⟩
  | succ fuel ih =>
    intro pos s s2 h
    simp only [init_blocks_legacy] at h
    split at h
    · split at h
      · simp at h
      · split at h
        · split at h
          · simp at h
          · obtain ⟨l, hl⟩ := ih _ _ _ h
            exact ⟨_ :: l, hl⟩
        · simp at h
    · cases h
      exact ⟨[], rfl⟩

/-- A successful `init_blocks` on an index without entries leaves a consistent pair of
views: all entries are in the list of a writeable index and in the vector of a read-only
one, and the buffer is released. -/
theorem init_blocks_views {I : Type} (T : Index_Type I) (s s1 : File_Blocks_Index I)
    (hlist : s.block_list = []) (harray : s.block_array = [])
    (h : init_blocks T s = Except.ok s1) : Views_Of s1.entries s1 := by
  unfold init_blocks at h
  cases hb : s.index_buf with
  | none =>
    simp only [hb] at h
    cases h
    unfold Views_Of File_Blocks_Index.entries
    rw [hlist, harray]
    exact ⟨hb, Or.inl ⟨rfl, Or.inl rfl⟩⟩
  | some buf =>
    simp only [hb] at h
    split at h
    · simp at h
    · rename_i s0 hs0
      cases h
      have key : ∃ l : List (File_Block_Index_Entry I), s0 = l.foldl push_entry s := by
        split at hs0
        · exact init_blocks_legacy_pushes T buf _ _ _ _ hs0
        · split at hs0
          · exact init_blocks_modern_pushes T buf _ _ _ _ hs0
          · cases hs0
            exact ⟨[], rfl⟩
      obtain ⟨l, hl⟩ := key
      rw [foldl_push_entry] at hl
      subst hl
      unfold Views_Of File_Blocks_Index.entries
      refine ⟨rfl, ?_⟩
      cases hw : s.writeable
      · right
        simp [hw, hlist, harray]
      · left
        simp [hw, hlist, harray]

theorem get_block_list_views {I : Type} (T : Index_Type I)
    (E : List (File_Block_Index_Entry I)) (s : File_Blocks_Index I) (h : Views_Of E s) :
    ∃ s1, get_block_list T s = Except.ok s1 ∧ s1.block_list = E ∧ Views_Of E s1 := by
  obtain ⟨hb, hv⟩ := h
  unfold get_block_list
  simp only [hb, Option.isSome_none, Bool.false_eq_true, if_false]
  rcases hv with ⟨h1, h2 | h2⟩ | ⟨h1, h2⟩
  · cases hE : E with
    | nil =>
      rw [hE] at h1 h2
      refine ⟨s, by simp [h1, h2], h1, hb, Or.inl ⟨h1, Or.inl h2⟩⟩
    | cons e l =>
      rw [hE] at h1 h2
      refine ⟨s, by simp [h1, h2], h1, hb, Or.inl ⟨h1, Or.inl h2⟩⟩
  · cases hE : E with
    | nil =>
      rw [hE] at h1
      refine ⟨s, by simp [h1, h2], h1, hb, Or.inl ⟨h1, Or.inr h2⟩⟩
    | cons e l =>
      rw [hE] at h1
      refine ⟨s, by simp [h1, h2], h1, hb, Or.inl ⟨h1, Or.inr h2⟩⟩
  · cases hE : E with
    | nil =>
      rw [hE] at h2
      refine ⟨s, by simp [h1, h2], h1, hb, Or.inl ⟨h1, Or.inl h2⟩⟩
    | cons e l =>
      rw [hE] at h2
      refine ⟨{ s with block_list := s.block_array }, by simp [h1, h2, hb], h2, hb,
        Or.inl ⟨h2, Or.inl h2⟩⟩

theorem get_blocks_views {I : Type} (T : Index_Type I)
    (E : List (File_Block_Index_Entry I)) (s : File_Blocks_Index I) (h : Views_Of E s) :
    ∃ s1, get_blocks T s = Except.ok s1 ∧ s1.block_array = E ∧ Views_Of E s1 := by
  obtain ⟨hb, hv⟩ := h
  unfold get_blocks
  simp only [hb, Option.isSome_none, Bool.false_eq_true, if_false]
  rcases hv with ⟨h1, h2 | h2⟩ | ⟨h1, h2⟩
  · cases hE : E with
    | nil =>
      rw [hE] at h1 h2
      refine ⟨s, by simp [h1, h2], h2, hb, Or.inl ⟨h1, Or.inl h2⟩⟩
    | cons e l =>
      rw [hE] at h1 h2
      refine ⟨s, by simp [h1, h2], h2, hb, Or.inl ⟨h1, Or.inl h2⟩⟩
  · cases hE : E with
    | nil =>
      rw [hE] at h1
      refine ⟨s, by simp [h1, h2], h2, hb, Or.inl ⟨h1, Or.inl h2⟩⟩
    | cons e l =>
      rw [hE] at h1
      refine ⟨{ s with block_array := s.block_list }, by simp [h1, h2, hb], h1, hb,
        Or.inl ⟨h1, Or.inl h1⟩⟩
  · cases hE : E with
    | nil =>
      rw [hE] at h2
      refine ⟨s, by simp [h1, h2], h2, hb, Or.inl ⟨h1, Or.inl h2⟩⟩
    | cons e l =>
      rw [hE] at h2
      refine ⟨s, by simp [h1, h2], h2, hb, Or.inr ⟨h1, h2⟩⟩

theorem drop_block_array_views {I : Type} (E : List (File_Block_Index_Entry I))
    (s : File_Blocks_Index I) (h : Views_Of E s) :
    (drop_block_array s).block_array = [] ∧ (drop_block_array s).block_list = E ∧
    Views_Of E (drop_block_array s) := by
  obtain ⟨hb, hv⟩ := h
  have key : (drop_block_array s).block_array = [] ∧ (drop_block_array s).block_list = E ∧
      (drop_block_array s).index_buf = none := by
    unfold drop_block_array
    rcases hv with ⟨h1, h2 | h2⟩ | ⟨h1, h2⟩
    · cases hE : E with
      | nil => rw [hE] at h1 h2; simp [h1, h2, hb]
      | cons e l => rw [hE] at h1 h2; simp [h1, h2, hb]
    · cases hE : E with
      | nil => rw [hE] at h1; simp [h1, h2, hb]
      | cons e l => rw [hE] at h1; simp [h1, h2, hb]
    · cases hE : E with
      | nil => rw [hE] at h2; simp [h1, h2, hb]
      | cons e l => rw [hE] at h2; simp [h1, h2, hb]
  exact ⟨key.1, key.2.1, key.2.2, Or.inl ⟨key.2.1, Or.inr key.1⟩⟩

/-- The calls on a parsed index: none parses again, every getter returns the entries, and
every `drop_block_array` leaves the vector empty. -/
theorem run_calls_parsed {I : Type} (T : Index_Type I)
    (E : List (File_Block_Index_Entry I)) :
    ∀ (calls : List View_Call) (s : File_Blocks_Index I), Views_Of E s →
      ∃ steps, run_calls T calls s = Except.ok steps ∧
        steps.map (fun st => st.call) = calls ∧
        ∀ st ∈ steps, st.parsed = false ∧
          ((st.call = View_Call.drop_block_array ∧ st.view = none ∧
              st.state.block_array = []) ∨
            (st.call ≠ View_Call.drop_block_array ∧ st.view = some E)) := by
  intro calls
  induction calls with
  | nil =>
    intro s _
    exact ⟨[], rfl, rfl, fun st hst => by simp at hst⟩
  | cons c rest ih =>
    intro s hs
    have hb : s.index_buf = none := hs.1
    cases c with
    | get_block_list =>
      obtain ⟨s1, e1, e2, e3⟩ := get_block_list_views T E s hs
      obtain ⟨steps, r1, r2, r3⟩ := ih s1 e3
      refine ⟨(⟨View_Call.get_block_list, s1, some s1.block_list, s.index_buf.isSome⟩ : View_Step I) :: steps,
        ?_, ?_, ?_⟩
      · simp only [run_calls, run_call, e1, r1]
      · simp only [List.map_cons, r2]
      · intro st hst
        rcases List.mem_cons.1 hst with h | h
        · subst h
          refine ⟨by simp [hb], Or.inr ⟨by simp, ?_⟩⟩
          simp only [e2]
        · exact r3 st h
    | get_blocks =>
      obtain ⟨s1, e1, e2, e3⟩ := get_blocks_views T E s hs
      obtain ⟨steps, r1, r2, r3⟩ := ih s1 e3
      refine ⟨(⟨View_Call.get_blocks, s1, some s1.block_array, s.index_buf.isSome⟩ : View_Step I) :: steps,
        ?_, ?_, ?_⟩
      · simp only [run_calls, run_call, e1, r1]
      · simp only [List.map_cons, r2]
      · intro st hst
        rcases List.mem_cons.1 hst with h | h
        · subst h
          refine ⟨by simp [hb], Or.inr ⟨by simp, ?_⟩⟩
          simp only [e2]
        · exact r3 st h
    | drop_block_array =>
      obtain ⟨e1, _, e3⟩ := drop_block_array_views E s hs
      obtain ⟨steps, r1, r2, r3⟩ := ih (drop_block_array s) e3
      refine ⟨(⟨View_Call.drop_block_array, drop_block_array s, none, false⟩ : View_Step I) :: steps,
        ?_, ?_, ?_⟩
      · simp only [run_calls, run_call, r1]
      · simp only [List.map_cons, r2]
      · intro st hst
        rcases List.mem_cons.1 hst with h | h
        · subst h
          exact ⟨rfl, Or.inl ⟨rfl, rfl, e1⟩⟩
        · exact r3 st h

theorem drop_block_array_unparsed {I : Type} (s : File_Blocks_Index I)
    (hlist : s.block_list = []) (harray : s.block_array = []) : drop_block_array s = s := by
  unfold drop_block_array
  cases s
  simp_all

/-- The calls on an index that still holds its buffer and whose parse succeeds. -/
theorem run_calls_unparsed {I : Type} (T : Index_Type I) (s s1 : File_Blocks_Index I)
    (hlist : s.block_list = []) (harray : s.block_array = [])
    (hparse : init_blocks T s = Except.ok s1) :
    ∀ (calls : List View_Call),
      ∃ steps, run_calls T calls s = Except.ok steps ∧
        steps.map (fun st => st.call) = calls ∧
        (∀ st ∈ steps,
          (st.call = View_Call.drop_block_array ∧ st.view = none ∧
              st.state.block_array = []) ∨
            (st.call ≠ View_Call.drop_block_array ∧ st.view = some s1.entries)) ∧
        (steps.filter (fun st => st.parsed)).length ≤ 1 := by
  have hv1 : Views_Of s1.entries s1 := init_blocks_views T s s1 hlist harray hparse
  have hfinish : ∀ (calls : List View_Call) (s2 : File_Blocks_Index I),
      Views_Of s1.entries s2 →
      ∃ steps, run_calls T calls s2 = Except.ok steps ∧
        steps.map (fun st => st.call) = calls ∧
        (∀ st ∈ steps,
          (st.call = View_Call.drop_block_array ∧ st.view = none ∧
              st.state.block_array = []) ∨
            (st.call ≠ View_Call.drop_block_array ∧ st.view = some s1.entries)) ∧
        (steps.filter (fun st => st.parsed)).length = 0 := by
    intro calls s2 h2
    obtain ⟨steps, r1, r2, r3⟩ := run_calls_parsed T s1.entries calls s2 h2
    refine ⟨steps, r1, r2, fun st hst => (r3 st hst).2, ?_⟩
    rw [List.length_eq_zero, List.filter_eq_nil_iff]
    intro st hst
    simp [(r3 st hst).1]
  intro calls
  induction calls with
  | nil => exact ⟨[], rfl, rfl, fun st hst => by simp at hst, by simp⟩
  | cons c rest ih =>
    cases c with
    | get_block_list =>
      have hsame : get_block_list T s = get_block_list T s1 := by
        unfold get_block_list
        cases hb : s.index_buf with
        | none =>
          rw [init_blocks_none T s hb] at hparse
          cases hparse
          simp only [hb]
        | some buf => simp only [Option.isSome_some, if_true, hparse, hv1.1,
            Option.isSome_none, Bool.false_eq_true, if_false]
      obtain ⟨s2, e1, e2, e3⟩ := get_block_list_views T s1.entries s1 hv1
      obtain ⟨steps, r1, r2, r3, r4⟩ := hfinish rest s2 e3
      refine ⟨(⟨View_Call.get_block_list, s2, some s2.block_list, s.index_buf.isSome⟩ : View_Step I) :: steps,
        ?_, ?_, ?_, ?_⟩
      · simp only [run_calls, run_call, hsame, e1, r1]
      · simp only [List.map_cons, r2]
      · intro st hst
        rcases List.mem_cons.1 hst with h | h
        · subst h
          refine Or.inr ⟨by simp, ?_⟩
          simp only [e2]
        · exact r3 st h
      · rw [List.filter_cons]
        split
        · rw [List.length_cons, r4]
        · rw [r4]
          norm_num
    | get_blocks =>
      have hsame : get_blocks T s = get_blocks T s1 := by
        unfold get_blocks
        cases hb : s.index_buf with
        | none =>
          rw [init_blocks_none T s hb] at hparse
          cases hparse
          simp only [hb]
        | some buf => simp only [Option.isSome_some, if_true, hparse, hv1.1,
            Option.isSome_none, Bool.false_eq_true, if_false]
      obtain ⟨s2, e1, e2, e3⟩ := get_blocks_views T s1.entries s1 hv1
      obtain ⟨steps, r1, r2, r3, r4⟩ := hfinish rest s2 e3
      refine ⟨(⟨View_Call.get_blocks, s2, some s2.block_array, s.index_buf.isSome⟩ : View_Step I) :: steps,
        ?_, ?_, ?_, ?_⟩
      · simp only [run_calls, run_call, hsame, e1, r1]
      · simp only [List.map_cons, r2]
      · intro st hst
        rcases List.mem_cons.1 hst with h | h
        · subst h
          refine Or.inr ⟨by simp, ?_⟩
          simp only [e2]
        · exact r3 st h
      · rw [List.filter_cons]
        split
        · rw [List.length_cons, r4]
        · rw [r4]
          norm_num
    | drop_block_array =>
      obtain ⟨steps, r1, r2, r3, r4⟩ := ih
      refine ⟨(⟨View_Call.drop_block_array, s, none, false⟩ : View_Step I) :: steps,
        ?_, ?_, ?_, ?_⟩
      · simp only [run_calls, run_call, drop_block_array_unparsed s hlist harray, r1]
      · simp only [List.map_cons, r2]
      · intro st hst
        rcases List.mem_cons.1 hst with h | h
        · subst h
          exact Or.inl ⟨rfl, rfl, harray⟩
        · exact r3 st h
      · rw [List.filter_cons]
        simp only [Bool.false_eq_true, if_false]
        exact r4

/-- C19 (view consistency). Let an index load successfully, in reader or in writer mode,
and let the parse of its buffer succeed, with the entries `E` in file order. Then every
sequence of calls of `get_block_list`, `get_blocks` and `drop_block_array` with no mutation
in between succeeds; every call of a getter returns exactly `E`, also after
`drop_block_array`; after every call of `drop_block_array` the vector is empty; and at
most one call of the sequence parses the buffer. -/
theorem C19_view_consistency {I : Type} (T : Index_Type I)
    (prop_block_size prop_compression_factor : Nat) (prop_compression_method : Int)
    (writeable : Bool) (file_name_extension : String)
    (use_default compression_method_ : Int)
    (data_file : File_Result Nat) (index_file : File_Result (List Nat))
    (empty_index_file : Option (List Nat)) (s s1 : File_Blocks_Index I)
    (calls : List View_Call)
    (hload : File_Blocks_Index.construct T prop_block_size prop_compression_factor
      prop_compression_method writeable file_name_extension use_default compression_method_
      data_file index_file empty_index_file = Except.ok s)
    (hparse : init_blocks T s = Except.ok s1) :
    ∃ steps, run_calls T calls s = Except.ok steps ∧
      steps.map (fun st => st.call) = calls ∧
      (∀ st ∈ steps,
        (st.call = View_Call.drop_block_array ∧ st.view = none ∧
            st.state.block_array = []) ∨
          (st.call ≠ View_Call.drop_block_array ∧ st.view = some s1.entries)) ∧
      (steps.filter (fun st => st.parsed)).length ≤ 1 := by
  obtain ⟨s3, _, q2, q3, _, _, _, _, hs⟩ := construct_ok T prop_block_size
    prop_compression_factor prop_compression_method writeable file_name_extension
    use_default compression_method_ data_file index_file empty_index_file s hload
  rcases hs with ⟨_, hs⟩ | ⟨_, hs⟩
  · obtain ⟨s4, v, hs4, e⟩ := init_void_blocks_frame T empty_index_file s3 s hs
    have hv4 := init_blocks_views T s3 s4 q2 q3 hs4
    have hv : Views_Of s.entries s := by
      rw [e]
      exact hv4
    rw [init_blocks_none T s hv.1] at hparse
    cases hparse
    obtain ⟨steps, r1, r2, r3⟩ := run_calls_parsed T s.entries calls s hv
    refine ⟨steps, r1, r2, fun st hst => (r3 st hst).2, ?_⟩
    have : steps.filter (fun st => st.parsed) = [] := by
      rw [List.filter_eq_nil_iff]
      intro st hst
      simp [(r3 st hst).1]
    rw [this]
    exact Nat.zero_le 1
  · subst hs
    exact run_calls_unparsed T s s1 q2 q3 hparse calls

/-- C19 at the read-only index opened on `example_index_file`: the calls `get_blocks`,
`drop_block_array`, `get_block_list` succeed, and either getter returns the two entries in
file order. -/
theorem C19_view_consistency_witness :
    ∃ steps, run_calls Uint32_Index
        [View_Call.get_blocks, View_Call.drop_block_array, View_Call.get_block_list]
        { fresh_index false example_index_file 10 1 1 with block_count := 10 }
        = Except.ok steps ∧
      steps.map (fun st => st.call)
        = [View_Call.get_blocks, View_Call.drop_block_array, View_Call.get_block_list] ∧
      (∀ st ∈ steps,
        (st.call = View_Call.drop_block_array ∧ st.view = none ∧
            st.state.block_array = []) ∨
          (st.call ≠ View_Call.drop_block_array ∧
            st.view = some [⟨17, 0, 3, 9⟩, ⟨5, 5, 2, 8⟩])) ∧
      (steps.filter (fun st => st.parsed)).length ≤ 1 :=
  C19_view_consistency Uint32_Index 1 1 0 false "" (-1) (-1) (Except.ok 10)
    (Except.ok example_index_file) none
    { fresh_index false example_index_file 10 1 1 with block_count := 10 }
    { fresh_index false example_index_file 10 1 1 with
      block_count := 10, index_buf := none,
      block_array := [⟨17, 0, 3, 9⟩, ⟨5, 5, 2, 8⟩] }
    [View_Call.get_blocks, View_Call.drop_block_array, View_Call.get_block_list]
    (by rfl) (by rfl)

/-! ## Pure live -/

/-- C20, as amended (E1, pure live). The delta overload of `reconstruct_items`, used for
ways and relations, records every current object of a bucket as `(id, NOW)` whatever the
query timestamp; the simple overload, used by the generic driver, does so if the query
timestamp is less than `NOW`, and records no current object otherwise. For an empty attic
stream, a current stream of one bucket `idx = 100` with skeletons of the ids 1, 2, 3 and
the always-true predicate, the way and the relation overload of
`collect_items_by_timestamp` return, for every query timestamp and so for `NOW`, exactly
the objects 1, 2, 3 in the live result and no object in the attic result, and the pairs
recorded are `(1, NOW)`, `(2, NOW)`, `(3, NOW)`; the generic overload does the same for
every query timestamp less than `NOW`. -/
theorem C20_pure_live (expand : Delta → Skeleton → Except String Skeleton)
    (pred : Predicate) (stmt : Bool) (timestamp d1 d2 d3 : Nat) :
    (∀ idx (b : Bucket (Attic Delta)) o, o ∈ bucket_of idx b.current →
      (o.id, NOW) ∈ (reconstruct_delta expand pred idx timestamp b).timestamp_by_id) ∧
    (timestamp < NOW → ∀ idx (b : Bucket (Attic Skeleton)) o, o ∈ bucket_of idx b.current →
      (o.id, NOW) ∈ (reconstruct_simple pred idx timestamp b).timestamp_by_id) ∧
    (¬ timestamp < NOW → ∀ idx (b : Bucket (Attic Skeleton)),
      (reconstruct_simple pred idx timestamp b).timestamp_by_id
        = b.timestamp_by_id ++ ((bucket_of idx b.attic).filter
            (fun a => decide (timestamp < a.timestamp))).map attic_pair) ∧
    collect_items_by_timestamp_way expand stmt quiet
        [(100, ⟨1, d1⟩), (100, ⟨2, d2⟩), (100, ⟨3, d3⟩)] [] always_true none timestamp [] []
      = some (false,
          { current := [], attic := [],
            result := [(100, [⟨1, d1⟩, ⟨2, d2⟩, ⟨3, d3⟩])], attic_result := [(100, [])],
            count := 1, rman := quiet, cur_idx := none }) ∧
    collect_items_by_timestamp_relation expand stmt quiet
        [(100, ⟨1, d1⟩), (100, ⟨2, d2⟩), (100, ⟨3, d3⟩)] [] always_true none timestamp [] []
      = some (false,
          { current := [], attic := [],
            result := [(100, [⟨1, d1⟩, ⟨2, d2⟩, ⟨3, d3⟩])], attic_result := [(100, [])],
            count := 1, rman := quiet, cur_idx := none }) ∧
    (reconstruct_delta expand always_true 100 timestamp
        { current := [(100, ⟨1, d1⟩), (100, ⟨2, d2⟩), (100, ⟨3, d3⟩)], attic := [],
          result := [], attic_result := [], timestamp_by_id := [], count := 1,
          rman := quiet }).timestamp_by_id = [(1, NOW), (2, NOW), (3, NOW)] ∧
    (timestamp < NOW →
      collect_items_by_timestamp stmt quiet
          [(100, ⟨1, d1⟩), (100, ⟨2, d2⟩), (100, ⟨3, d3⟩)] [] always_true none timestamp
          [] []
        = some (false,
            { current := [], attic := [],
              result := [(100, [⟨1, d1⟩, ⟨2, d2⟩, ⟨3, d3⟩])], attic_result := [(100, [])],
              count := 4, rman := quiet, cur_idx := none }) ∧
      (reconstruct_simple always_true 100 timestamp
          { current := [(100, ⟨1, d1⟩), (100, ⟨2, d2⟩), (100, ⟨3, d3⟩)], attic := [],
            result := [], attic_result := [], timestamp_by_id := [], count := 1,
            rman := quiet }).timestamp_by_id = [(1, NOW), (2, NOW), (3, NOW)]) := by
  refine ⟨?_, ?_, ?_, ?_, ?_, ?_, ?_⟩
  · intro idx b o ho
    rw [(reconstructs_delta expand pred timestamp idx b).2.2.2.2]
    simp only [delta_contribution, List.mem_append, List.mem_map]
    exact Or.inr (Or.inl ⟨o, ho, rfl⟩)
  · intro h idx b o ho
    rw [(reconstructs_simple pred timestamp idx b).2.2.2.2]
    simp only [simple_contribution, h, decide_True, List.filter_true, List.mem_append,
      List.mem_map]
    exact Or.inr (Or.inl ⟨o, ho, rfl⟩)
  · intro h idx b
    rw [(reconstructs_simple pred timestamp idx b).2.2.2.2]
    simp [simple_contribution, h]
  · simp [collect_items_by_timestamp_way, timestamp_walk, next_index, checkpoint,
      walk_bucket, reconstruct_delta, collect_current, collect_attic, sort_skels,
      sort_deltas, expand_deltas, Element.timestamp_of, always_true, map_get, map_set,
      sort_pairs, filter_items_by_timestamp, timestamp_matches, lower_bound, pair_lt,
      Element.id_of, check_for_duplicated_objects, duplicated_objects, quiet, pair_le, NOW]
  · simp [collect_items_by_timestamp_relation, timestamp_walk, next_index, checkpoint,
      walk_bucket, reconstruct_delta, collect_current, collect_attic, sort_skels,
      sort_deltas, expand_deltas, Element.timestamp_of, always_true, map_get, map_set,
      sort_pairs, filter_items_by_timestamp, timestamp_matches, lower_bound, pair_lt,
      Element.id_of, check_for_duplicated_objects, duplicated_objects, quiet, pair_le, NOW]
  · simp [reconstruct_delta, collect_current, collect_attic]
  · intro h
    constructor
    · simp [collect_items_by_timestamp, timestamp_walk, next_index, checkpoint, walk_bucket,
        reconstruct_simple, reconstruct_items, h, Element.timestamp_of, always_true,
        map_get, map_set, sort_pairs, filter_items_by_timestamp, timestamp_matches,
        lower_bound, pair_lt, Element.id_of, check_for_duplicated_objects,
        duplicated_objects, quiet, pair_le]
    · simp [reconstruct_simple, reconstruct_items, h, Element.timestamp_of, Element.id_of]

/-- The amended C20 at the query timestamp 50 and skeletons without payload. -/
theorem C20_pure_live_witness :
    collect_items_by_timestamp false quiet
        [(100, ⟨1, 0⟩), (100, ⟨2, 0⟩), (100, ⟨3, 0⟩)] [] always_true none 50 [] []
      = some (false,
          { current := [], attic := [],
            result := [(100, [⟨1, 0⟩, ⟨2, 0⟩, ⟨3, 0⟩])], attic_result := [(100, [])],
            count := 4, rman := quiet, cur_idx := none }) :=
  ((C20_pure_live (fun _ r => Except.ok r) always_true false 50 0 0 0).2.2.2.2.2.2
    (by decide)).1

/-- C20 as stated fails for the generic overload: at the query timestamp `NOW` no current
object passes the test `timestamp < timestamp_of(object)`, so nothing is recorded and the
live result holds no object. -/
theorem C20_counterexample :
    collect_items_by_timestamp false quiet
        [(100, ⟨1, 0⟩), (100, ⟨2, 0⟩), (100, ⟨3, 0⟩)] [] always_true none NOW [] []
      = some (false,
          { current := [], attic := [],
            result := [(100, [])], attic_result := [(100, [])],
            count := 4, rman := quiet, cur_idx := none }) ∧
    (reconstruct_simple always_true 100 NOW
        { current := [(100, ⟨1, 0⟩), (100, ⟨2, 0⟩), (100, ⟨3, 0⟩)], attic := [],
          result := [], attic_result := [], timestamp_by_id := [], count := 1,
          rman := quiet }).timestamp_by_id = [] :=
  ⟨by rfl, by rfl⟩

/-! ## The function `de_escape` -/

theorem drop_eq_getD_cons (l : List Char) (pos : Nat) (h : pos < l.length) :
    l.drop pos = l.getD pos ' ' :: l.drop (pos + 1) := by
  rw [List.getD_eq_getElem l ' ' h]
  exact List.drop_eq_getElem_cons h

theorem de_escape_reference_cons_plain (c : Char) (rest : List Char) (h : c ≠ backslash) :
    de_escape_reference (c :: rest) = c :: de_escape_reference rest := by
  cases rest with
  | nil =>
    conv_lhs => rw [de_escape_reference]
    rw [if_pos h]
  | cons x tail =>
    conv_lhs => rw [de_escape_reference]
    rw [if_pos h]

theorem de_escape_reference_lone (c : Char) (h : c = backslash) :
    de_escape_reference [c] = [] := by
  rw [de_escape_reference, if_neg (not_not.2 h)]

theorem de_escape_reference_escaped (c x : Char) (tail : List Char) (h : c = backslash) :
    de_escape_reference (c :: x :: tail) =
      (if x = 'n' then newline else if x = 't' then tab else x)
        :: de_escape_reference tail := by
  rw [de_escape_reference, if_neg (not_not.2 h)]
  split
  · rfl
  · split <;> rfl

/-- The loop from position `pos` on appends the reference result for the rest of the
input. -/
theorem de_escape_loop_eq (input : List Char) :
    ∀ (fuel pos : Nat) (result : List Char), input.length ≤ pos + fuel →
      de_escape_loop input fuel pos result
        = result ++ de_escape_reference (input.drop pos) := by
  intro fuel
  induction fuel with
  | zero =>
    intro pos result h
    rw [List.drop_eq_nil_of_le (by omega)]
    simp [de_escape_loop, de_escape_reference]
  | succ fuel ih =>
    intro pos result h
    rw [de_escape_loop]
    by_cases hpos : pos < input.length
    · rw [if_pos hpos]
      have hd := drop_eq_getD_cons input pos hpos
      generalize input.getD pos ' ' = c at hd ⊢
      rw [hd]
      by_cases hc : c ≠ backslash
      · rw [if_pos hc, ih (pos + 1) _ (by omega), de_escape_reference_cons_plain c _ hc,
          List.append_assoc]
        rfl
      · rw [if_neg hc]
        have hc2 : c = backslash := not_not.1 hc
        by_cases hend : input.length ≤ pos + 1
        · rw [if_pos hend, List.drop_eq_nil_of_le hend, de_escape_reference_lone c hc2,
            List.append_nil]
        · rw [if_neg hend]
          have hd2 := drop_eq_getD_cons input (pos + 1) (by omega)
          generalize input.getD (pos + 1) ' ' = x at hd2 ⊢
          rw [hd2, de_escape_reference_escaped c x _ hc2]
          by_cases hn : x = 'n'
          · rw [if_pos hn, ih (pos + 1 + 1) _ (by omega), if_pos hn, List.append_assoc]
            rfl
          · rw [if_neg hn, if_neg hn]
            by_cases ht : x = 't'
            · rw [if_pos ht, ih (pos + 1 + 1) _ (by omega), if_pos ht, List.append_assoc]
              rfl
            · rw [if_neg ht, ih (pos + 1 + 1) _ (by omega), if_neg ht, List.append_assoc]
              rfl
    · rw [if_neg hpos, List.drop_eq_nil_of_le (by omega)]
      simp [de_escape_reference]

theorem de_escape_reference_length_le :
    ∀ (n : Nat) (input : List Char), input.length ≤ n →
      (de_escape_reference input).length ≤ input.length := by
  intro n
  induction n with
  | zero =>
    intro input h
    have : input = [] := List.length_eq_zero.1 (by omega)
    subst this
    simp [de_escape_reference]
  | succ n ih =>
    intro input h
    match input, h with
    | [], _ => simp [de_escape_reference]
    | c :: rest, h =>
      by_cases hc : c ≠ backslash
      · rw [de_escape_reference_cons_plain c rest hc]
        have := ih rest (by simp at h; omega)
        simp only [List.length_cons]
        omega
      · have hc2 : c = backslash := not_not.1 hc
        match rest, h with
        | [], _ =>
          rw [de_escape_reference_lone c hc2]
          simp
        | x :: tail, h =>
          rw [de_escape_reference_escaped c x tail hc2]
          have := ih tail (by simp at h; omega)
          simp only [List.length_cons]
          omega

theorem de_escape_reference_length (input : List Char) :
    (de_escape_reference input).length ≤ input.length :=
  de_escape_reference_length_le input.length input (Nat.le_refl _)

theorem de_escape_reference_plain (input : List Char) (h : backslash ∉ input) :
    de_escape_reference input = input := by
  induction input with
  | nil => rfl
  | cons c rest ih =>
    have hc : c ≠ backslash := fun e => h (by rw [e]; exact List.mem_cons_self _ _)
    rw [de_escape_reference_cons_plain c rest hc,
      ih (fun hm => h (List.mem_cons_of_mem _ hm))]

/-- C36 (`de_escape` and its reference definition). For every string `de_escape` returns
what the reference definition returns: a character other than the backslash is copied, a
backslash followed by `n` yields a newline, followed by `t` a tab, followed by any other
character that character, and a lone backslash at the end is dropped. Hence a string
without backslashes is returned unchanged, and the output is never longer than the
input. -/
theorem C36_de_escape_reference (input : List Char) :
    de_escape input = de_escape_reference input ∧
    (backslash ∉ input → de_escape input = input) ∧
    (de_escape input).length ≤ input.length := by
  have h : de_escape input = de_escape_reference input := by
    unfold de_escape
    rw [de_escape_loop_eq input input.length 0 [] (by omega)]
    simp
  refine ⟨h, ?_, ?_⟩
  · intro hb
    rw [h]
    exact de_escape_reference_plain input hb
  · rw [h]
    exact de_escape_reference_length input

/-! ## The dispatcher stub -/

/-- C30 (area snapshot timestamp) does not hold of the code: for an explicit `db_dir` and
`area_level == 1` the constructor reads the first line of `<db_dir>area_version` into
`area_timestamp` and then overwrites it with `de_escape(timestamp)`, the base timestamp.
With the line `2020` in `osm_base_version` and the line `2021` in `area_version` the area
timestamp is `2020`; the path through the dispatcher, which de-escapes `area_timestamp`,
gives `2021`. -/
theorem C30_area_timestamp_is_the_base_timestamp :
    stub_timestamps_db_dir 1 ['2', '0', '2', '0'] ['2', '0', '2', '1']
      = { timestamp := ['2', '0', '2', '0'], area_timestamp := ['2', '0', '2', '0'] } ∧
    de_escape ['2', '0', '2', '1'] = ['2', '0', '2', '1'] ∧
    stub_timestamps_dispatcher 1 ['2', '0', '2', '0'] ['2', '0', '2', '1']
      = { timestamp := ['2', '0', '2', '0'], area_timestamp := ['2', '0', '2', '1'] } ∧
    ∀ (osm_base_line area_line : List Char),
      (stub_timestamps_db_dir 1 osm_base_line area_line).area_timestamp
        = de_escape (de_escape osm_base_line) := by
  refine ⟨by decide, by decide, by decide, ?_⟩
  intro osm_base_line area_line
  rfl

/-- C26, as amended (resource limits). For every `max_allowed_time > 0` and every
`max_allowed_space` for which `2*max_allowed_time + 60` fits in 32 bits and
`2*max_allowed_space + 2^30` fits in 64 bits, the arguments with which the constructor of
`Dispatcher_Stub` calls `set_limits` are exactly these two values, and this is the CPU
limit and the address-space limit that `set_limits` passes to `setrlimit` whenever the
value is below the soft and the hard limit in force. -/
theorem C26_resource_limits (max_allowed_time max_allowed_space : Nat)
    (cpu address_space : Rlimit) (htime : 0 < max_allowed_time)
    (hfit_time : 2 * max_allowed_time + 60 < 2 ^ 32)
    (hfit_space : 2 * max_allowed_space + 2 ^ 30 < 2 ^ 64)
    (hcpu : 2 * max_allowed_time + 60 < cpu.rlim_cur ∧
      2 * max_allowed_time + 60 < cpu.rlim_max)
    (hspace : 2 * max_allowed_space + 2 ^ 30 < address_space.rlim_cur ∧
      2 * max_allowed_space + 2 ^ 30 < address_space.rlim_max) :
    requested_limits max_allowed_time max_allowed_space
      = (2 * max_allowed_time + 60, 2 * max_allowed_space + 2 ^ 30) ∧
    stub_limits max_allowed_time max_allowed_space (some cpu) (some address_space)
      = (some { rlim_cur := 2 * max_allowed_time + 60,
                rlim_max := 2 * max_allowed_time + 60 },
         some { rlim_cur := 2 * max_allowed_space + 2 ^ 30,
                rlim_max := 2 * max_allowed_space + 2 ^ 30 }) := by
  have hreq : requested_limits max_allowed_time max_allowed_space
      = (2 * max_allowed_time + 60, 2 * max_allowed_space + 2 ^ 30) := by
    unfold requested_limits
    rw [Nat.mod_eq_of_lt hfit_time, Nat.mod_eq_of_lt (by omega)]
    norm_num
  refine ⟨hreq, ?_⟩
  unfold stub_limits set_limits set_limit
  rw [hreq]
  simp only [htime, if_true, hcpu, hspace, and_self]

/-- The amended C26 at 180 seconds and 512 MiB with unlimited limits in force: 420
seconds and 2 GiB. -/
theorem C26_resource_limits_witness :
    requested_limits 180 536870912 = (2 * 180 + 60, 2 * 536870912 + 2 ^ 30) ∧
    stub_limits 180 536870912
        (some { rlim_cur := 2 ^ 64 - 1, rlim_max := 2 ^ 64 - 1 })
        (some { rlim_cur := 2 ^ 64 - 1, rlim_max := 2 ^ 64 - 1 })
      = (some { rlim_cur := 2 * 180 + 60, rlim_max := 2 * 180 + 60 },
         some { rlim_cur := 2 * 536870912 + 2 ^ 30,
                rlim_max := 2 * 536870912 + 2 ^ 30 }) :=
  C26_resource_limits 180 536870912 { rlim_cur := 2 ^ 64 - 1, rlim_max := 2 ^ 64 - 1 }
    { rlim_cur := 2 ^ 64 - 1, rlim_max := 2 ^ 64 - 1 } (by decide) (by decide) (by decide)
    (by decide) (by decide)

/-- C26 as stated fails: the sums are computed in the types of the arguments. For
`max_allowed_time = 2^31` the CPU limit requested is 60 seconds, and for
`max_allowed_space = 2^63` the address-space limit requested is `2^30` bytes. -/
theorem C26_counterexample :
    (requested_limits 2147483648 0).1 = 60 ∧
    (requested_limits 2147483648 0).1 ≠ 2 * 2147483648 + 60 ∧
    (requested_limits 1 9223372036854775808).2 = 2 ^ 30 ∧
    (requested_limits 1 9223372036854775808).2 ≠ 2 * 9223372036854775808 + 2 ^ 30 :=
  ⟨by decide, by decide, by decide, by decide⟩

/-! ## Termination and the flag of the temporal driver -/

/-- With as many iterations allowed as both streams have items, the loop of a driver ends
with both streams exhausted, returns `false`, and leaves `cur_idx` as it was. -/
theorem timestamp_walk_returns_false {γ : Type} (recon : Nat → Bucket γ → Bucket γ)
    (c : Contribution γ) (hr : Reconstructs recon c) (stmt : Bool) (w : Walk γ) :
    ∃ w2, timestamp_walk recon stmt (w.current.length + w.attic.length) w = some (false, w2) ∧
      w2.cur_idx = w.cur_idx ∧ w2.current = [] ∧ w2.attic = [] := by
  obtain ⟨w2, h1, h2, h3, h4⟩ := timestamp_walk_invariant recon c hr stmt
    (fun v => v.cur_idx = w.cur_idx)
    (fun v index count rman _ hv => by
      show (walk_bucket recon index count rman v).cur_idx = w.cur_idx
      rw [(walk_bucket_eq recon c hr index count rman v).2.2.2.2]
      exact hv)
    (w.current.length + w.attic.length) w (Nat.le_refl _) rfl
  exact ⟨w2, h1, h2, h3, h4⟩

/-- C22 (cooperative early return of the temporal driver) does not hold of the code: the
answers of `health_check` are discarded and `too_much_data` stays `false`, so the branch
that records the bucket index and returns `true` is never taken. Whatever the streams, the
answers the resource manager gives and the cursor supplied, every overload of
`collect_items_by_timestamp` returns `false` with both streams exhausted and leaves
`cur_idx` as it was; at the checkpoint (here at the count 131071 with a statement) both
answers `true` are consumed without effect. -/
theorem C22_temporal_driver_never_returns_true
    (expand : Delta → Skeleton → Except String Skeleton) (stmt : Bool)
    (rman : Resource_Manager) (current : List (Nat × Skeleton))
    (attic : List (Nat × Attic Skeleton)) (attic_deltas : List (Nat × Attic Delta))
    (pred : Predicate) (cur_idx : Option Nat) (timestamp : Nat)
    (result : Result_Map Skeleton) (attic_result : Result_Map (Attic Skeleton)) :
    (∃ w, collect_items_by_timestamp stmt rman current attic pred cur_idx timestamp result
        attic_result = some (false, w) ∧ w.cur_idx = cur_idx ∧ w.current = [] ∧
        w.attic = []) ∧
    (∃ w, collect_items_by_timestamp_way expand stmt rman current attic_deltas pred cur_idx
        timestamp result attic_result = some (false, w) ∧ w.cur_idx = cur_idx ∧
        w.current = [] ∧ w.attic = []) ∧
    (∃ w, collect_items_by_timestamp_relation expand stmt rman current attic_deltas pred
        cur_idx timestamp result attic_result = some (false, w) ∧ w.cur_idx = cur_idx ∧
        w.current = [] ∧ w.attic = []) ∧
    checkpoint true 131071 { pending := [true, true], health_checks := 0, errors := [] }
      = (0, { pending := [], health_checks := 2, errors := [] }) := by
  refine ⟨?_, ?_, ?_, by decide⟩
  · exact timestamp_walk_returns_false _ _ (reconstructs_simple pred timestamp) stmt
      { current := current, attic := attic, result := result,
        attic_result := attic_result, count := 0, rman := rman, cur_idx := cur_idx }
  · exact timestamp_walk_returns_false _ _ (reconstructs_delta expand pred timestamp) stmt
      { current := current, attic := attic_deltas, result := result,
        attic_result := attic_result, count := 0, rman := rman, cur_idx := cur_idx }
  · exact timestamp_walk_returns_false _ _ (reconstructs_delta expand pred timestamp) stmt
      { current := current, attic := attic_deltas, result := result,
        attic_result := attic_result, count := 0, rman := rman, cur_idx := cur_idx }

/-- One pass through the loop body leaves fewer items in the two streams together. -/
theorem walk_bucket_progress {γ : Type} (recon : Nat → Bucket γ → Bucket γ)
    (c : Contribution γ) (hr : Reconstructs recon c) (w : Walk γ) (index count : Nat)
    (rman : Resource_Manager) (h : next_index w.current w.attic = some index) :
    (walk_bucket recon index count rman w).current.length
        + (walk_bucket recon index count rman w).attic.length
      < w.current.length + w.attic.length := by
  obtain ⟨e1, e2, _⟩ := walk_bucket_eq recon c hr index count rman w
  rw [e1, e2]
  exact next_index_progress w.current w.attic index h

/-- C31 (termination of the temporal driver). For all finite input streams, ascending or
not, every pass through the loop body of `collect_items_by_timestamp`, with the simple or
the delta overload of `reconstruct_items`, leaves fewer items in the two streams together,
and each of the three overloads, allowed `|current| + |attic|` iterations, ends with both
streams exhausted. -/
theorem C31_temporal_driver_terminates
    (expand : Delta → Skeleton → Except String Skeleton) (stmt : Bool)
    (rman : Resource_Manager) (current : List (Nat × Skeleton))
    (attic : List (Nat × Attic Skeleton)) (attic_deltas : List (Nat × Attic Delta))
    (pred : Predicate) (cur_idx : Option Nat) (timestamp : Nat)
    (result : Result_Map Skeleton) (attic_result : Result_Map (Attic Skeleton)) :
    (∀ (w : Walk (Attic Skeleton)) index count rman2,
      next_index w.current w.attic = some index →
      (walk_bucket (fun i => reconstruct_simple pred i timestamp) index count rman2
          w).current.length
        + (walk_bucket (fun i => reconstruct_simple pred i timestamp) index count rman2
          w).attic.length < w.current.length + w.attic.length) ∧
    (∀ (w : Walk (Attic Delta)) index count rman2,
      next_index w.current w.attic = some index →
      (walk_bucket (fun i => reconstruct_delta expand pred i timestamp) index count rman2
          w).current.length
        + (walk_bucket (fun i => reconstruct_delta expand pred i timestamp) index count
          rman2 w).attic.length < w.current.length + w.attic.length) ∧
    (∃ flag w, collect_items_by_timestamp stmt rman current attic pred cur_idx timestamp
        result attic_result = some (flag, w) ∧ w.current = [] ∧ w.attic = []) ∧
    (∃ flag w, collect_items_by_timestamp_way expand stmt rman current attic_deltas pred
        cur_idx timestamp result attic_result = some (flag, w) ∧ w.current = [] ∧
        w.attic = []) ∧
    (∃ flag w, collect_items_by_timestamp_relation expand stmt rman current attic_deltas
        pred cur_idx timestamp result attic_result = some (flag, w) ∧ w.current = [] ∧
        w.attic = []) := by
  refine ⟨?_, ?_, ?_, ?_, ?_⟩
  · intro w index count rman2 h
    exact walk_bucket_progress _ _ (reconstructs_simple pred timestamp) w index count rman2 h
  · intro w index count rman2 h
    exact walk_bucket_progress _ _ (reconstructs_delta expand pred timestamp) w index count
      rman2 h
  · obtain ⟨w, h1, _, h3, h4⟩ := timestamp_walk_returns_false _ _
      (reconstructs_simple pred timestamp) stmt
      { current := current, attic := attic, result := result,
        attic_result := attic_result, count := 0, rman := rman, cur_idx := cur_idx }
    exact ⟨false, w, h1, h3, h4⟩
  · obtain ⟨w, h1, _, h3, h4⟩ := timestamp_walk_returns_false _ _
      (reconstructs_delta expand pred timestamp) stmt
      { current := current, attic := attic_deltas, result := result,
        attic_result := attic_result, count := 0, rman := rman, cur_idx := cur_idx }
    exact ⟨false, w, h1, h3, h4⟩
  · obtain ⟨w, h1, _, h3, h4⟩ := timestamp_walk_returns_false _ _
      (reconstructs_delta expand pred timestamp) stmt
      { current := current, attic := attic_deltas, result := result,
        attic_result := attic_result, count := 0, rman := rman, cur_idx := cur_idx }
    exact ⟨false, w, h1, h3, h4⟩

/-! ## Completeness of the plain collectors -/

/-- C35 (completeness of the plain collectors). For every store, request, predicate,
statement pointer and resource manager, `collect_items_flat` and `collect_items_discrete`
(with a resource manager or on a transaction) leave under every index `idx` the content
that was there, followed by exactly the objects of the stream with the index `idx` whose
handle satisfies the predicate, in stream order. The resource manager and its health
checks do not occur in the result. -/
theorem C35_plain_collectors_complete (stmt : Bool) (rman : Resource_Manager)
    (db : List (Nat × Skeleton)) (req : List Nat) (pred : Predicate)
    (result : Result_Map Skeleton) (idx : Nat) :
    map_get (collect_items_flat rman db pred result).2 idx
      = map_get result idx
        ++ (at_index idx db).filter (fun o => pred.match_handle { view := o }) ∧
    map_get (collect_items_discrete stmt rman db req pred result).2 idx
      = map_get result idx
        ++ (at_index idx (discrete_range db req)).filter
            (fun o => pred.match_handle { view := o }) ∧
    map_get (collect_items_discrete_transaction db req pred result) idx
      = map_get result idx
        ++ (at_index idx (discrete_range db req)).filter
            (fun o => pred.match_handle { view := o }) :=
  ⟨collect_items_flat_loop_get pred db 0 rman result idx,
    collect_items_discrete_loop_get stmt pred (discrete_range db req) 0 rman result idx,
    collect_items_discrete_transaction_loop_get pred (discrete_range db req) result idx⟩

/-! ## The function `get_indexes_` -/

theorem sort_indexes_sorted (l : List Nat) : (sort_indexes l).Pairwise (fun a b => a ≤ b) :=
  List.sorted_insertionSort (fun a b => a ≤ b) l

theorem mem_sort_indexes (l : List Nat) (x : Nat) : x ∈ sort_indexes l ↔ x ∈ l :=
  (List.perm_insertionSort (fun a b => a ≤ b) l).mem_iff

theorem mem_unique : ∀ (l : List Nat) (x : Nat), x ∈ unique l ↔ x ∈ l
  | [], x => by simp [unique]
  | [a], x => by simp [unique]
  | a :: b :: rest, x => by
    have ih := mem_unique (b :: rest) x
    unfold unique
    by_cases h : a = b
    · rw [if_pos h, ih]
      subst h
      simp
    · rw [if_neg h, List.mem_cons, ih, List.mem_cons (a := x) (b := a)]

theorem unique_strict : ∀ (l : List Nat), l.Pairwise (fun a b => a ≤ b) →
    (unique l).Pairwise (fun a b => a < b)
  | [], _ => by simp [unique]
  | [a], _ => by simp [unique]
  | a :: b :: rest, h => by
    have hrest : (b :: rest).Pairwise (fun a b => a ≤ b) := (List.pairwise_cons.1 h).2
    have ih := unique_strict (b :: rest) hrest
    unfold unique
    by_cases hab : a = b
    · rw [if_pos hab]
      exact ih
    · rw [if_neg hab]
      refine List.pairwise_cons.2 ⟨?_, ih⟩
      intro x hx
      rw [mem_unique] at hx
      have hle : a ≤ b := (List.pairwise_cons.1 h).1 b (List.mem_cons_self _ _)
      have hbx : b ≤ x := by
        rcases List.mem_cons.1 hx with e | e
        · rw [e]
        · exact (List.pairwise_cons.1 hrest).1 x e
      omega

/-- C24 (order of `get_indexes_`). For every list of ids and every content of the
random-access and index-list stores, the vector returned by `get_indexes_` is strictly
ascending, that is sorted and free of duplicates, in the present-day and in the historical
branch. -/
theorem C24_get_indexes_sorted (current attic_random : Nat → Nat)
    (idx_list_db : List (Nat × Nat)) (desired_timestamp : Nat) (ids : List Nat)
    (get_attic_idxs : Bool) :
    (get_indexes_ current attic_random idx_list_db desired_timestamp ids
      get_attic_idxs).Pairwise (fun a b => a < b) := by
  unfold get_indexes_
  simp only
  split
  · exact unique_strict _ (sort_indexes_sorted _)
  · exact unique_strict _ (sort_indexes_sorted _)

theorem mem_id_set_insert (id x : Nat) (s : List Nat) :
    x ∈ id_set_insert id s ↔ x = id ∨ x ∈ s := by
  unfold id_set_insert
  by_cases h : id ∈ s
  · rw [if_pos h]
    constructor
    · exact fun hx => Or.inr hx
    · rintro (e | e)
      · rw [e]; exact h
      · exact e
  · rw [if_neg h, List.mem_orderedInsert]

/-- What the loop over the ids appends to `result` and puts into `idx_list_ids`. -/
theorem attic_pass_spec (attic_random : Nat → Nat) :
    ∀ (ids result idx_list_ids : List Nat) (x : Nat),
      (x ∈ (attic_pass attic_random ids result idx_list_ids).1 ↔
        x ∈ result ∨ ∃ id ∈ ids, attic_random id = x ∧ x ≠ 0 ∧ x ≠ 255) ∧
      (x ∈ (attic_pass attic_random ids result idx_list_ids).2 ↔
        x ∈ idx_list_ids ∨ (x ∈ ids ∧ attic_random x = 255)) := by
  intro ids
  induction ids with
  | nil => intro result s x; simp [attic_pass]
  | cons id rest ih =>
    intro result s x
    simp only [attic_pass]
    by_cases h0 : attic_random id = 0
    · rw [if_pos h0]
      obtain ⟨i1, i2⟩ := ih result s x
      rw [i1, i2]
      constructor
      · constructor
        · rintro (h | ⟨j, hj, e⟩)
          · exact Or.inl h
          · exact Or.inr ⟨j, List.mem_cons_of_mem _ hj, e⟩
        · rintro (h | ⟨j, hj, e1, e2, e3⟩)
          · exact Or.inl h
          · rcases List.mem_cons.1 hj with e | e
            · subst e
              omega
            · exact Or.inr ⟨j, e, e1, e2, e3⟩
      · constructor
        · rintro (h | ⟨h1, h2⟩)
          · exact Or.inl h
          · exact Or.inr ⟨List.mem_cons_of_mem _ h1, h2⟩
        · rintro (h | ⟨h1, h2⟩)
          · exact Or.inl h
          · rcases List.mem_cons.1 h1 with e | e
            · subst e
              omega
            · exact Or.inr ⟨e, h2⟩
    · rw [if_neg h0]
      by_cases hff : attic_random id = 255
      · rw [if_pos hff]
        obtain ⟨i1, i2⟩ := ih result (id_set_insert id s) x
        rw [i1, i2, mem_id_set_insert]
        constructor
        · constructor
          · rintro (h | ⟨j, hj, e⟩)
            · exact Or.inl h
            · exact Or.inr ⟨j, List.mem_cons_of_mem _ hj, e⟩
          · rintro (h | ⟨j, hj, e1, e2, e3⟩)
            · exact Or.inl h
            · rcases List.mem_cons.1 hj with e | e
              · subst e
                omega
              · exact Or.inr ⟨j, e, e1, e2, e3⟩
        · constructor
          · rintro ((h | h) | ⟨h1, h2⟩)
            · subst h
              exact Or.inr ⟨List.mem_cons_self _ _, hff⟩
            · exact Or.inl h
            · exact Or.inr ⟨List.mem_cons_of_mem _ h1, h2⟩
          · rintro (h | ⟨h1, h2⟩)
            · exact Or.inl (Or.inr h)
            · rcases List.mem_cons.1 h1 with e | e
              · exact Or.inl (Or.inl e)
              · exact Or.inr ⟨e, h2⟩
      · rw [if_neg hff]
        obtain ⟨i1, i2⟩ := ih (result ++ [attic_random id]) s x
        rw [i1, i2, List.mem_append, List.mem_singleton]
        constructor
        · constructor
          · rintro ((h | h) | ⟨j, hj, e⟩)
            · exact Or.inl h
            · exact Or.inr ⟨id, List.mem_cons_self _ _, h.symm, by omega, by omega⟩
            · exact Or.inr ⟨j, List.mem_cons_of_mem _ hj, e⟩
          · rintro (h | ⟨j, hj, e1, e2, e3⟩)
            · exact Or.inl (Or.inl h)
            · rcases List.mem_cons.1 hj with e | e
              · subst e
                exact Or.inl (Or.inr e1.symm)
              · exact Or.inr ⟨j, e, e1, e2, e3⟩
        · constructor
          · rintro (h | ⟨h1, h2⟩)
            · exact Or.inl h
            · exact Or.inr ⟨List.mem_cons_of_mem _ h1, h2⟩
          · rintro (h | ⟨h1, h2⟩)
            · exact Or.inl h
            · rcases List.mem_cons.1 h1 with e | e
              · subst e
                omega
              · exact Or.inr ⟨e, h2⟩

/-- C25 (content of `get_indexes_`). An index is in the vector returned by `get_indexes_`
if and only if it is the current random-index value of a given id or, exactly when
`desired_timestamp != NOW` or `get_attic_idxs` is set, the attic random-index value of a
given id that is neither 0 nor `0xff`, or an index stored in the attic index-list store
under a given id whose attic value is `0xff`. -/
theorem C25_get_indexes_content (current attic_random : Nat → Nat)
    (idx_list_db : List (Nat × Nat)) (desired_timestamp : Nat) (ids : List Nat)
    (get_attic_idxs : Bool) (i : Nat) :
    i ∈ get_indexes_ current attic_random idx_list_db desired_timestamp ids get_attic_idxs ↔
      (∃ id ∈ ids, current id = i) ∨
      ((desired_timestamp ≠ NOW ∨ get_attic_idxs = true) ∧
        ((∃ id ∈ ids, attic_random id = i ∧ i ≠ 0 ∧ i ≠ 255) ∨
          (∃ id ∈ ids, attic_random id = 255 ∧ (id, i) ∈ idx_list_db))) := by
  have hcur : i ∈ unique (sort_indexes (ids.map current)) ↔ ∃ id ∈ ids, current id = i := by
    rw [mem_unique, mem_sort_indexes, List.mem_map]
  unfold get_indexes_
  simp only
  by_cases hc : desired_timestamp ≠ NOW ∨ get_attic_idxs = true
  · rw [if_pos hc, mem_unique, mem_sort_indexes, List.mem_append,
      (attic_pass_spec attic_random ids _ [] i).1, hcur, List.mem_map]
    simp only [hc, true_and]
    constructor
    · rintro ((h | h) | ⟨p, hp, e⟩)
      · exact Or.inl h
      · exact Or.inr (Or.inl h)
      · right
        right
        unfold discrete_range at hp
        rw [List.mem_filter, decide_eq_true_eq,
          (attic_pass_spec attic_random ids _ [] p.1).2] at hp
        obtain ⟨hp1, hp2⟩ := hp
        rcases hp2 with h | ⟨h1, h2⟩
        · simp at h
        · refine ⟨p.1, h1, h2, ?_⟩
          rw [← e]
          exact hp1
    · rintro (h | h | ⟨id, hid, e1, e2⟩)
      · exact Or.inl (Or.inl h)
      · exact Or.inl (Or.inr h)
      · right
        refine ⟨(id, i), ?_, rfl⟩
        unfold discrete_range
        rw [List.mem_filter, decide_eq_true_eq,
          (attic_pass_spec attic_random ids _ [] id).2]
        exact ⟨e2, Or.inr ⟨hid, e1⟩⟩
  · rw [if_neg hc, hcur]
    simp only [hc, false_and, or_false]

/-! ## Bucket selection and order -/

theorem ascending_lower_bound {α : Type} (index : Nat) (l : List (Nat × α))
    (h : Ascending l) (hmin : ∀ p ∈ l.head?, index ≤ p.1) :
    ∀ i ∈ l.map Prod.fst, index ≤ i := by
  cases l with
  | nil => intro i hi; simp at hi
  | cons a l =>
    intro i hi
    have ha : index ≤ a.1 := hmin a (by simp)
    rcases List.mem_map.1 hi with ⟨p, hp, e⟩
    rcases List.mem_cons.1 hp with e2 | e2
    · rw [← e, e2]
      exact ha
    · have : a.1 ≤ p.1 := List.rel_of_pairwise_cons h e2
      rw [← e]
      omega

/-- Over ascending streams the bucket indexes of the iterations are strictly increasing,
and they are the indexes that occur in either stream. -/
theorem walk_indexes_ascending {γ : Type} (recon : Nat → Bucket γ → Bucket γ)
    (c : Contribution γ) (hr : Reconstructs recon c) (stmt : Bool) :
    ∀ (fuel : Nat) (w : Walk γ), Ascending w.current → Ascending w.attic →
      w.current.length + w.attic.length ≤ fuel →
      (walk_indexes recon stmt fuel w).Pairwise (fun a b => a < b) ∧
      ∀ i, i ∈ walk_indexes recon stmt fuel w ↔ Visited i w.current w.attic := by
  intro fuel
  induction fuel with
  | zero =>
    intro w _ _ hlen
    have hc : w.current = [] := List.length_eq_zero.1 (by omega)
    have ha : w.attic = [] := List.length_eq_zero.1 (by omega)
    simp [walk_indexes, Visited, hc, ha]
  | succ fuel ih =>
    intro w hac haa hlen
    cases h : next_index w.current w.attic with
    | none =>
      obtain ⟨hc, ha⟩ := (next_index_none _ _).1 h
      have htrace : walk_indexes recon stmt (fuel + 1) w = [] := by
        simp only [walk_indexes, h]
      rw [htrace]
      simp [Visited, hc, ha]
    | some index =>
      obtain ⟨hfirst, hmc, hma⟩ := next_index_some w.current w.attic index h
      obtain ⟨e1, e2, _⟩ := walk_bucket_eq recon c hr index (checkpoint stmt w.count w.rman).1
        (checkpoint stmt w.count w.rman).2 w
      obtain ⟨_, c2, _, c4, c5⟩ := ascending_bucket index w.current hac hmc
      obtain ⟨_, a2, _, a4, a5⟩ := ascending_bucket index w.attic haa hma
      have hp := next_index_progress w.current w.attic index h
      obtain ⟨i1, i2⟩ := ih (walk_bucket recon index (checkpoint stmt w.count w.rman).1
        (checkpoint stmt w.count w.rman).2 w) (by rw [e1]; exact c5) (by rw [e2]; exact a5)
        (by rw [e1, e2]; omega)
      have hvis : ∀ i, i ≠ index →
          (Visited i (rest_of index w.current) (rest_of index w.attic) ↔
            Visited i w.current w.attic) := by
        intro i hi
        unfold Visited
        rw [c4 i hi, a4 i hi]
      have hnot : ¬ Visited index (rest_of index w.current) (rest_of index w.attic) := by
        unfold Visited
        exact fun hv => hv.elim c2 a2
      have hidx : Visited index w.current w.attic := by
        unfold Visited
        rcases hfirst with ⟨o, rest, e⟩ | ⟨o, rest, e⟩
        · left; rw [e]; simp
        · right; rw [e]; simp
      have htrace : walk_indexes recon stmt (fuel + 1) w = index ::
          walk_indexes recon stmt fuel (walk_bucket recon index
            (checkpoint stmt w.count w.rman).1 (checkpoint stmt w.count w.rman).2 w) := by
        simp [walk_indexes, h]
      rw [htrace]
      rw [e1, e2] at i2
      constructor
      · refine List.pairwise_cons.2 ⟨?_, i1⟩
        intro j hj
        have hv := (i2 j).1 hj
        have hne : j ≠ index := fun e => hnot (e ▸ hv)
        have hv2 := (hvis j hne).1 hv
        have hle : index ≤ j := by
          rcases hv2 with m | m
          · exact ascending_lower_bound index w.current hac hmc j m
          · exact ascending_lower_bound index w.attic haa hma j m
        omega
      · intro i
        rw [List.mem_cons, i2]
        by_cases hi : i = index
        · subst hi
          simp [hidx]
        · rw [hvis i hi]
          simp [hi]

/-- The list `walk_indexes` holds the bucket indexes of the iterations of the driver loop:
the loop, allowed as many iterations as both streams have items, returns `false` in the
state that the iterations for these indexes lead to, and each index is the one that
`next_index` gives in the state its iteration starts in. -/
theorem walk_indexes_trace {γ : Type} (recon : Nat → Bucket γ → Bucket γ)
    (c : Contribution γ) (hr : Reconstructs recon c) (stmt : Bool) :
    ∀ (fuel : Nat) (w : Walk γ), w.current.length + w.attic.length ≤ fuel →
      Driver_Trace recon stmt w (timestamp_walk recon stmt fuel w)
        (walk_indexes recon stmt fuel w) := by
  intro fuel
  induction fuel with
  | zero =>
    intro w hlen
    have hc : w.current = [] := List.length_eq_zero.1 (by omega)
    have ha : w.attic = [] := List.length_eq_zero.1 (by omega)
    have hn : next_index w.current w.attic = none := (next_index_none _ _).2 ⟨hc, ha⟩
    refine ⟨?_, ?_⟩
    · rw [timestamp_walk_done recon stmt 0 w hn]
      rfl
    · intro k
      simp only [walk_indexes, List.take_nil, List.foldl_nil, List.getElem?_nil]
      exact hn
  | succ fuel ih =>
    intro w hlen
    cases h : next_index w.current w.attic with
    | none =>
      have htrace : walk_indexes recon stmt (fuel + 1) w = [] := by
        simp only [walk_indexes, h]
      rw [htrace]
      refine ⟨?_, ?_⟩
      · rw [timestamp_walk_done recon stmt _ w h]
        rfl
      · intro k
        simp only [List.take_nil, List.foldl_nil, List.getElem?_nil]
        exact h
    | some index =>
      have htrace : walk_indexes recon stmt (fuel + 1) w = index ::
          walk_indexes recon stmt fuel (walk_step recon stmt w index) := by
        simp only [walk_indexes, h, walk_step]
      obtain ⟨e1, e2, _⟩ := walk_bucket_eq recon c hr index (checkpoint stmt w.count w.rman).1
        (checkpoint stmt w.count w.rman).2 w
      have hp := next_index_progress w.current w.attic index h
      obtain ⟨i1, i2⟩ := ih (walk_step recon stmt w index) (by
        unfold walk_step
        rw [e1, e2]
        omega)
      rw [htrace]
      refine ⟨?_, ?_⟩
      · rw [timestamp_walk_step recon stmt fuel w index h]
        exact i1
      · intro k
        cases k with
        | zero =>
          simp only [List.take_zero, List.foldl_nil, List.getElem?_cons_zero]
          exact h
        | succ k =>
          simp only [List.take_succ_cons, List.foldl_cons, List.getElem?_cons_succ]
          exact i2 k

/-- C27: for each of the three overloads of `collect_items_by_timestamp`, whatever the
streams, the list `walk_indexes` holds the bucket indexes of the iterations of the driver
in their order: the driver returns `false` in the state that the iterations for these
indexes lead to, and the index of every iteration is what `next_index` gives in the state
the iteration starts in, which is the minimum of the head indexes of the two streams, the
head index of the remaining stream when the other is exhausted, and none when both are.
If both streams are ascending by index, the bucket indexes of successive iterations are
strictly increasing and they are the indexes that occur in either stream, so every distinct
index is processed in exactly one iteration. -/
theorem C27_bucket_selection_and_order
    (expand : Delta → Skeleton → Except String Skeleton) (pred : Predicate) (stmt : Bool)
    (timestamp : Nat) (current : List (Nat × Skeleton)) (attic : List (Nat × Attic Delta))
    (attic_simple : List (Nat × Attic Skeleton))
    (result : Result_Map Skeleton) (attic_result : Result_Map (Attic Skeleton))
    (rman : Resource_Manager) (cur_idx : Option Nat) :
    Driver_Trace (fun index => reconstruct_simple pred index timestamp) stmt
      { current := current, attic := attic_simple, result := result,
        attic_result := attic_result, count := 0, rman := rman, cur_idx := cur_idx }
      (collect_items_by_timestamp stmt rman current attic_simple pred cur_idx timestamp
        result attic_result)
      (walk_indexes (fun index => reconstruct_simple pred index timestamp) stmt
        (current.length + attic_simple.length)
        { current := current, attic := attic_simple, result := result,
          attic_result := attic_result, count := 0, rman := rman, cur_idx := cur_idx }) ∧
    Driver_Trace (fun index => reconstruct_delta expand pred index timestamp) stmt
      { current := current, attic := attic, result := result,
        attic_result := attic_result, count := 0, rman := rman, cur_idx := cur_idx }
      (collect_items_by_timestamp_way expand stmt rman current attic pred cur_idx timestamp
        result attic_result)
      (walk_indexes (fun index => reconstruct_delta expand pred index timestamp) stmt
        (current.length + attic.length)
        { current := current, attic := attic, result := result,
          attic_result := attic_result, count := 0, rman := rman, cur_idx := cur_idx }) ∧
    Driver_Trace (fun index => reconstruct_delta expand pred index timestamp) stmt
      { current := current, attic := attic, result := result,
        attic_result := attic_result, count := 0, rman := rman, cur_idx := cur_idx }
      (collect_items_by_timestamp_relation expand stmt rman current attic pred cur_idx
        timestamp result attic_result)
      (walk_indexes (fun index => reconstruct_delta expand pred index timestamp) stmt
        (current.length + attic.length)
        { current := current, attic := attic, result := result,
          attic_result := attic_result, count := 0, rman := rman, cur_idx := cur_idx }) ∧
    (∀ (α β : Type) (ci ai : Nat) (co : α) (ao : β) (cur : List (Nat × α))
        (att : List (Nat × β)),
      next_index ((ci, co) :: cur) ((ai, ao) :: att) = some (min ci ai) ∧
      next_index ((ci, co) :: cur) ([] : List (Nat × β)) = some ci ∧
      next_index ([] : List (Nat × α)) ((ai, ao) :: att) = some ai ∧
      next_index ([] : List (Nat × α)) ([] : List (Nat × β)) = none) ∧
    (Ascending current → Ascending attic →
      (walk_indexes (fun index => reconstruct_delta expand pred index timestamp) stmt
          (current.length + attic.length)
          { current := current, attic := attic, result := result,
            attic_result := attic_result, count := 0, rman := rman,
            cur_idx := cur_idx }).Pairwise (fun a b => a < b) ∧
      ∀ i, i ∈ walk_indexes (fun index => reconstruct_delta expand pred index timestamp) stmt
          (current.length + attic.length)
          { current := current, attic := attic, result := result,
            attic_result := attic_result, count := 0, rman := rman, cur_idx := cur_idx } ↔
        Visited i current attic) ∧
    (Ascending current → Ascending attic_simple →
      (walk_indexes (fun index => reconstruct_simple pred index timestamp) stmt
          (current.length + attic_simple.length)
          { current := current, attic := attic_simple, result := result,
            attic_result := attic_result, count := 0, rman := rman,
            cur_idx := cur_idx }).Pairwise (fun a b => a < b) ∧
      ∀ i, i ∈ walk_indexes (fun index => reconstruct_simple pred index timestamp) stmt
          (current.length + attic_simple.length)
          { current := current, attic := attic_simple, result := result,
            attic_result := attic_result, count := 0, rman := rman, cur_idx := cur_idx } ↔
        Visited i current attic_simple) := by
  refine ⟨?_, ?_, ?_, ?_, ?_, ?_⟩
  · exact walk_indexes_trace (fun index => reconstruct_simple pred index timestamp)
      (simple_contribution pred timestamp) (reconstructs_simple pred timestamp) stmt
      (current.length + attic_simple.length)
      { current := current, attic := attic_simple, result := result,
        attic_result := attic_result, count := 0, rman := rman, cur_idx := cur_idx }
      (le_refl _)
  · exact walk_indexes_trace (fun index => reconstruct_delta expand pred index timestamp)
      (delta_contribution expand pred timestamp) (reconstructs_delta expand pred timestamp)
      stmt (current.length + attic.length)
      { current := current, attic := attic, result := result,
        attic_result := attic_result, count := 0, rman := rman, cur_idx := cur_idx }
      (le_refl _)
  · exact walk_indexes_trace (fun index => reconstruct_delta expand pred index timestamp)
      (delta_contribution expand pred timestamp) (reconstructs_delta expand pred timestamp)
      stmt (current.length + attic.length)
      { current := current, attic := attic, result := result,
        attic_result := attic_result, count := 0, rman := rman, cur_idx := cur_idx }
      (le_refl _)
  · intro α β ci ai co ao cur att
    refine ⟨?_, rfl, rfl, rfl⟩
    simp only [next_index]
    by_cases h : ci < ai
    · rw [if_pos h, min_eq_left (Nat.le_of_lt h)]
    · rw [if_neg h, min_eq_right (Nat.le_of_not_lt h)]
  · intro hc ha
    exact walk_indexes_ascending
      (fun index => reconstruct_delta expand pred index timestamp)
      (delta_contribution expand pred timestamp) (reconstructs_delta expand pred timestamp)
      stmt (current.length + attic.length)
      { current := current, attic := attic, result := result,
        attic_result := attic_result, count := 0, rman := rman, cur_idx := cur_idx }
      hc ha (le_refl _)
  · intro hc hs
    exact walk_indexes_ascending
      (fun index => reconstruct_simple pred index timestamp)
      (simple_contribution pred timestamp) (reconstructs_simple pred timestamp)
      stmt (current.length + attic_simple.length)
      { current := current, attic := attic_simple, result := result,
        attic_result := attic_result, count := 0, rman := rman, cur_idx := cur_idx }
      hc hs (le_refl _)

/-- C27 on a current stream over the indexes 100, 100, 300 and an attic stream over 200,
300: the way driver makes three iterations, for the buckets 100, 200 and 300. -/
theorem C27_bucket_selection_and_order_witness :
    Ascending [(100, (⟨1, 0⟩ : Skeleton)), (100, ⟨2, 0⟩), (300, ⟨3, 0⟩)] ∧
    Ascending [(200, (⟨⟨4, 0⟩, 60⟩ : Attic Delta)), (300, ⟨⟨3, 0⟩, 70⟩)] ∧
    walk_indexes (fun index => reconstruct_delta (fun _ r => Except.ok r) always_true index 50)
        false (3 + 2)
        { current := [(100, (⟨1, 0⟩ : Skeleton)), (100, ⟨2, 0⟩), (300, ⟨3, 0⟩)],
          attic := [(200, (⟨⟨4, 0⟩, 60⟩ : Attic Delta)), (300, ⟨⟨3, 0⟩, 70⟩)],
          result := [], attic_result := [], count := 0, rman := quiet,
          cur_idx := none } = [100, 200, 300] ∧
    Driver_Trace (fun index => reconstruct_delta (fun _ r => Except.ok r) always_true index 50)
      false
      { current := [(100, (⟨1, 0⟩ : Skeleton)), (100, ⟨2, 0⟩), (300, ⟨3, 0⟩)],
        attic := [(200, (⟨⟨4, 0⟩, 60⟩ : Attic Delta)), (300, ⟨⟨3, 0⟩, 70⟩)],
        result := [], attic_result := [], count := 0, rman := quiet, cur_idx := none }
      (collect_items_by_timestamp_way (fun _ r => Except.ok r) false quiet
        [(100, (⟨1, 0⟩ : Skeleton)), (100, ⟨2, 0⟩), (300, ⟨3, 0⟩)]
        [(200, (⟨⟨4, 0⟩, 60⟩ : Attic Delta)), (300, ⟨⟨3, 0⟩, 70⟩)] always_true none 50 [] [])
      (walk_indexes
        (fun index => reconstruct_delta (fun _ r => Except.ok r) always_true index 50)
        false (3 + 2)
        { current := [(100, (⟨1, 0⟩ : Skeleton)), (100, ⟨2, 0⟩), (300, ⟨3, 0⟩)],
          attic := [(200, (⟨⟨4, 0⟩, 60⟩ : Attic Delta)), (300, ⟨⟨3, 0⟩, 70⟩)],
          result := [], attic_result := [], count := 0, rman := quiet,
          cur_idx := none }) ∧
    (walk_indexes (fun index => reconstruct_delta (fun _ r => Except.ok r) always_true index 50)
        false (3 + 2)
        { current := [(100, (⟨1, 0⟩ : Skeleton)), (100, ⟨2, 0⟩), (300, ⟨3, 0⟩)],
          attic := [(200, (⟨⟨4, 0⟩, 60⟩ : Attic Delta)), (300, ⟨⟨3, 0⟩, 70⟩)],
          result := [], attic_result := [], count := 0, rman := quiet,
          cur_idx := none }).Pairwise (fun a b => a < b) :=
  ⟨by decide, by decide, by rfl,
    (C27_bucket_selection_and_order (fun _ r => Except.ok r) always_true false 50
      [(100, (⟨1, 0⟩ : Skeleton)), (100, ⟨2, 0⟩), (300, ⟨3, 0⟩)]
      [(200, (⟨⟨4, 0⟩, 60⟩ : Attic Delta)), (300, ⟨⟨3, 0⟩, 70⟩)] [] [] [] quiet none).2.1,
    ((C27_bucket_selection_and_order (fun _ r => Except.ok r) always_true false 50
      [(100, (⟨1, 0⟩ : Skeleton)), (100, ⟨2, 0⟩), (300, ⟨3, 0⟩)]
      [(200, (⟨⟨4, 0⟩, 60⟩ : Attic Delta)), (300, ⟨⟨3, 0⟩, 70⟩)] [] [] [] quiet
      none).2.2.2.2.1 (by decide) (by decide)).1⟩

/-! ## The footprint of the data file -/

theorem getD_set_false (v : List Bool) (k j : Nat) (hk : k < v.length) :
    (v.set k false).getD j false = (v.getD j false && !decide (j = k)) := by
  simp only [List.getD_eq_getElem?_getD, List.getElem?_set]
  by_cases h : k = j
  · subst h
    simp [hk]
  · have : ¬ j = k := fun e => h e.symm
    simp [h, this]

/-- The clearing loop of one run, when the blocks it still has to clear lie inside the
vector: it clears exactly them. -/
theorem clear_run_spec (second : Nat) :
    ∀ (left i : Nat) (v : List Bool), second + i + left ≤ v.length → v.length < 2 ^ 32 →
      ∃ v2, clear_run second left i v = some v2 ∧ v2.length = v.length ∧
        ∀ j, v2.getD j false =
          (v.getD j false && !decide (second + i ≤ j ∧ j < second + i + left)) := by
  intro left
  induction left with
  | zero =>
    intro i v _ _
    refine ⟨v, rfl, rfl, ?_⟩
    intro j
    have : ¬ (second + i ≤ j ∧ j < second + i + 0) := by omega
    rw [decide_eq_false this]
    simp
  | succ left ih =>
    intro i v hle hlt
    have hmod : (second + i) % 2 ^ 32 = second + i := Nat.mod_eq_of_lt (by omega)
    have hin : second + i < v.length := by omega
    simp only [clear_run, hmod, hin, if_true]
    obtain ⟨v2, e, hlen, hget⟩ := ih (i + 1) (v.set (second + i) false)
      (by rw [List.length_set]; omega) (by rw [List.length_set]; exact hlt)
    refine ⟨v2, e, by rw [hlen, List.length_set], ?_⟩
    intro j
    rw [hget j, getD_set_false v (second + i) j hin]
    generalize v.getD j false = b
    cases b
    · simp only [Bool.false_and]
    · simp only [Bool.true_and]
      rw [Bool.eq_iff_iff]
      simp only [Bool.and_eq_true, Bool.not_eq_true', decide_eq_false_iff_not,
        decide_eq_true_eq]
      omega

/-- The clearing of a sequence of runs that lie inside the vector: an element is set
afterwards exactly if it was set before and lies in no run. -/
theorem clear_runs_spec (l : List (Nat × Nat)) :
    ∀ (v : List Bool), (∀ r ∈ l, r.2 + r.1 ≤ v.length) → v.length < 2 ^ 32 →
      ∃ v2, clear_runs l v = some v2 ∧ v2.length = v.length ∧
        ∀ j, (v2.getD j false = true ↔ (v.getD j false = true ∧ ¬ ∃ r ∈ l, In_Run r j)) := by
  induction l with
  | nil =>
    intro v _ _
    exact ⟨v, rfl, rfl, fun j => by simp⟩
  | cons r l ih =>
    intro v hin hlt
    obtain ⟨v1, e1, hlen1, hget1⟩ := clear_run_spec r.2 r.1 0 v
      (by have := hin r (List.mem_cons_self _ _); omega) hlt
    obtain ⟨v2, e2, hlen2, hget2⟩ := ih v1
      (fun t ht => by rw [hlen1]; exact hin t (List.mem_cons_of_mem _ ht))
      (by rw [hlen1]; exact hlt)
    refine ⟨v2, ?_, by rw [hlen2, hlen1], ?_⟩
    · simp only [clear_runs, e1, e2]
    · intro j
      rw [hget2 j, hget1 j]
      simp only [Bool.and_eq_true, Bool.not_eq_true', decide_eq_false_iff_not,
        List.mem_cons, exists_eq_or_imp, In_Run, Nat.add_zero, not_or]
      tauto

theorem getD_replicate_true (n j : Nat) :
    (List.replicate n true).getD j false = true ↔ j < n := by
  simp only [List.getD_eq_getElem?_getD, List.getElem?_replicate]
  by_cases h : j < n <;> simp [h]

/-- C34: `get_data_index_footprint` on an index that loads and whose entries parse and lie
inside the data file (`pos + size <= block_count`) returns a vector of length `block_count`
whose element `i` is `true` if and only if some entry covers the block `i`. -/
theorem C34_data_index_footprint {I : Type} (T : Index_Type I)
    (prop_block_size prop_compression_factor : Nat) (prop_compression_method : Int)
    (use_default : Int) (data_file : File_Result Nat) (index_file : File_Result (List Nat))
    (empty_index_file : Option (List Nat)) (s s1 : File_Blocks_Index I)
    (hload : File_Blocks_Index.construct T prop_block_size prop_compression_factor
      prop_compression_method false "" use_default use_default data_file index_file
      empty_index_file = Except.ok s)
    (hparse : init_blocks T s = Except.ok s1)
    (hin : ∀ e ∈ s1.entries, e.pos + e.size ≤ s1.block_count) :
    ∃ result, get_data_index_footprint T prop_block_size prop_compression_factor
        prop_compression_method use_default data_file index_file empty_index_file
        = Except.ok result ∧
      result.length = s.block_count ∧
      ∀ i, (result.getD i false = true ↔ ∃ e ∈ s1.entries, Covers e i) := by
  obtain ⟨s3, q1, q2, q3, q4, q5, q6, _, hs⟩ := construct_ok T prop_block_size
    prop_compression_factor prop_compression_method false "" use_default use_default
    data_file index_file empty_index_file s hload
  have hs3 : s = s3 := by
    rcases hs with ⟨h, _⟩ | ⟨_, h⟩
    · exact absurd h (by simp)
    · exact h
  subst hs3
  obtain ⟨f1, _⟩ := init_blocks_frame T s s1 hparse
  have hw : s1.writeable = false := by rw [f1]; exact q6
  have hc : s1.block_count = s.block_count := by rw [f1]
  have hv : s1.void_blocks = [] := by rw [f1]; exact q1
  obtain ⟨runs, hruns, r1, r2, _⟩ := derive_void_blocks_spec s1 hv (by rw [hc]; exact q4) hin
  have hcache : read_empty_index_file empty_index_file s1 = none := by
    simp [read_empty_index_file, hw]
  have hget : get_void_blocks T empty_index_file s = Except.ok { s1 with
      void_blocks := sort_void_blocks runs, void_blocks_initialized := true } := by
    simp only [get_void_blocks, q5, Bool.false_eq_true, if_false, init_void_blocks, hparse,
      hcache, hruns]
  obtain ⟨v2, e2, hlen, hv2⟩ := clear_runs_spec (sort_void_blocks runs)
    (List.replicate s.block_count true)
    (fun r hr => by
      rw [List.length_replicate, ← hc]
      exact (r1 r ((sort_void_blocks_perm runs).mem_iff.1 hr)).2)
    (by rw [List.length_replicate]; exact q4)
  refine ⟨v2, ?_, by rw [hlen, List.length_replicate], ?_⟩
  · simp only [get_data_index_footprint, hload, hget, e2]
  · intro i
    rw [hv2 i, getD_replicate_true]
    constructor
    · rintro ⟨hi, hno⟩
      have hno2 : ¬ ∃ r ∈ runs, In_Run r i := by
        rintro ⟨r, hr, h⟩
        exact hno ⟨r, (sort_void_blocks_perm runs).mem_iff.2 hr, h⟩
      by_contra hcov
      exact hno2 ((r2 i (by rw [hc]; exact hi)).2 hcov)
    · rintro ⟨e, he, hcov⟩
      have hi : i < s.block_count := by
        have := hin e he
        have := hcov.2
        omega
      refine ⟨hi, ?_⟩
      rintro ⟨r, hr, h⟩
      exact (r2 i (by rw [hc]; exact hi)).1
        ⟨r, (sort_void_blocks_perm runs).mem_iff.1 hr, h⟩ ⟨e, he, hcov⟩

/-- C34 at a data file of ten blocks of size 1 and the index file `example_index_file`,
whose entries cover the blocks 0 to 2 and 5 to 6. -/
theorem C34_data_index_footprint_witness :
    File_Blocks_Index.construct Uint32_Index 1 1 0 false "" (-1) (-1) (Except.ok 10)
      (Except.ok example_index_file) none = Except.ok readonly_example_index ∧
    init_blocks Uint32_Index readonly_example_index = Except.ok parsed_example_index ∧
    (∀ e ∈ parsed_example_index.entries, e.pos + e.size ≤ parsed_example_index.block_count) ∧
    get_data_index_footprint Uint32_Index 1 1 0 (-1) (Except.ok 10)
        (Except.ok example_index_file) none =
      Except.ok [true, true, true, false, false, true, true, false, false, false] ∧
    ∃ result, get_data_index_footprint Uint32_Index 1 1 0 (-1) (Except.ok 10)
        (Except.ok example_index_file) none = Except.ok result ∧
      result.length = 10 ∧
      ∀ i, (result.getD i false = true ↔ ∃ e ∈ parsed_example_index.entries, Covers e i) :=
  ⟨by rfl, by rfl, by decide, by rfl,
    C34_data_index_footprint Uint32_Index 1 1 0 (-1) (Except.ok 10)
      (Except.ok example_index_file) none readonly_example_index parsed_example_index
      (by rfl) (by rfl) (by decide)⟩

/-! ## The shortened request -/

theorem mem_set_insert (x y : Nat × Nat) (l : List (Nat × Nat)) :
    x ∈ set_insert y l ↔ x = y ∨ x ∈ l := by
  induction l with
  | nil => simp [set_insert]
  | cons z l ih =>
    unfold set_insert
    by_cases h1 : y = z
    · rw [if_pos h1]
      subst h1
      simp
    · rw [if_neg h1]
      by_cases h2 : pair_lt y z = true
      · rw [if_pos h2]
        simp
      · rw [if_neg h2]
        simp only [List.mem_cons, ih]
        tauto

theorem mem_foldl_set_insert (x : Nat × Nat) (rest : List (Nat × Nat)) :
    ∀ acc : List (Nat × Nat),
      x ∈ rest.foldl (fun acc r => set_insert r acc) acc ↔ x ∈ acc ∨ x ∈ rest := by
  induction rest with
  | nil => intro acc; simp
  | cons r rest ih =>
    intro acc
    rw [List.foldl_cons, ih, mem_set_insert]
    simp only [List.mem_cons]
    tauto

/-- The ranges that the loop of the constructor skips end at or before `cur_idx`, and the
range it stops at ends after `cur_idx`. -/
theorem skipped_ranges (cur_idx : Nat) (req : List (Nat × Nat)) :
    ∃ l1, req = l1 ++ req.dropWhile (fun r => !decide (cur_idx < r.2)) ∧
      (∀ r ∈ l1, r.2 ≤ cur_idx) ∧
      ∀ s rest, req.dropWhile (fun r => !decide (cur_idx < r.2)) = s :: rest →
        cur_idx < s.2 := by
  induction req with
  | nil => exact ⟨[], rfl, by simp, by simp⟩
  | cons a req ih =>
    obtain ⟨l1, e, h1, h2⟩ := ih
    by_cases h : cur_idx < a.2
    · refine ⟨[], ?_, by simp, ?_⟩
      · simp [List.dropWhile, h]
      · intro s rest hs
        simp only [List.dropWhile, h, decide_True, Bool.not_true] at hs
        cases hs
        exact h
    · refine ⟨a :: l1, ?_, ?_, ?_⟩
      · simp only [List.dropWhile, h, decide_False, Bool.not_false, List.cons_append]
        rw [← e]
      · intro r hr
        rcases List.mem_cons.1 hr with e2 | e2
        · rw [e2]; omega
        · exact h1 r e2
      · intro s rest hs
        simp only [List.dropWhile, h, decide_False, Bool.not_false] at hs
        exact h2 s rest hs

/-- The ranges that `Shortened_Idx` exposes hold the indexes of the request from `cur_idx`
on, when `cur_idx` lies in a range of the request or beyond all of them. -/
theorem shortened_idx_tail (req : List (Nat × Nat)) (cur_idx : Nat)
    (hsorted : req.Pairwise (fun r t => r.2 ≤ t.1)) (hwf : ∀ r ∈ req, r.1 ≤ r.2)
    (hcur : (∃ r ∈ req, In_Range r cur_idx) ∨ ∀ r ∈ req, r.2 ≤ cur_idx) (i : Nat) :
    (∃ r ∈ Shortened_Idx req cur_idx, In_Range r i) ↔
      (cur_idx ≤ i ∧ ∃ r ∈ req, In_Range r i) := by
  cases req with
  | nil => simp [Shortened_Idx]
  | cons first tl =>
    by_cases hf : first.1 = cur_idx
    · have e : Shortened_Idx (first :: tl) cur_idx = first :: tl := by
        simp [Shortened_Idx, hf]
      rw [e]
      constructor
      · rintro ⟨r, hr, hin⟩
        refine ⟨?_, r, hr, hin⟩
        rcases List.mem_cons.1 hr with e2 | e2
        · rw [e2] at hin
          have := hin.1
          omega
        · have h1 := List.rel_of_pairwise_cons hsorted e2
          have h2 := hwf first (List.mem_cons_self _ _)
          have := hin.1
          omega
      · rintro ⟨_, h⟩
        exact h
    · obtain ⟨l1, e, h1, h2⟩ := skipped_ranges cur_idx (first :: tl)
      cases hd : (first :: tl).dropWhile (fun r => !decide (cur_idx < r.2)) with
      | nil =>
        have e2 : Shortened_Idx (first :: tl) cur_idx = [] := by
          simp only [Shortened_Idx, hf, if_false, hd]
        rw [e2]
        rw [hd, List.append_nil] at e
        constructor
        · rintro ⟨r, hr, _⟩
          simp at hr
        · rintro ⟨hi, r, hr, hin⟩
          rw [e] at hr
          have := h1 r hr
          have := hin.2
          omega
      | cons s rest =>
        have hs := h2 s rest hd
        rw [hd] at e
        have hmem : ∀ r, r ∈ first :: tl ↔ r ∈ l1 ∨ r = s ∨ r ∈ rest := by
          intro r
          rw [e]
          simp
        have hrest : ∀ t ∈ rest, s.2 ≤ t.1 := by
          rw [e] at hsorted
          have := (List.pairwise_append.1 hsorted).2.1
          exact fun t ht => List.rel_of_pairwise_cons this ht
        have hlow : s.1 ≤ cur_idx := by
          rcases hcur with ⟨r, hr, hin⟩ | hall
          · rcases (hmem r).1 hr with m | m | m
            · have := h1 r m
              have := hin.2
              omega
            · rw [m] at hin
              exact hin.1
            · have := hrest r m
              have := hin.1
              omega
          · have := hall s ((hmem s).2 (Or.inr (Or.inl rfl)))
            omega
        by_cases hsc : s.1 = cur_idx
        · have e2 : Shortened_Idx (first :: tl) cur_idx = s :: rest := by
            simp only [Shortened_Idx, hf, if_false, hd, hsc, if_true]
          rw [e2]
          constructor
          · rintro ⟨r, hr, hin⟩
            rcases List.mem_cons.1 hr with m | m
            · refine ⟨?_, r, (hmem r).2 (Or.inr (Or.inl m)), hin⟩
              rw [m] at hin
              have := hin.1
              omega
            · refine ⟨?_, r, (hmem r).2 (Or.inr (Or.inr m)), hin⟩
              have := hrest r m
              have := hin.1
              omega
          · rintro ⟨hi, r, hr, hin⟩
            rcases (hmem r).1 hr with m | m | m
            · have := h1 r m
              have := hin.2
              omega
            · exact ⟨r, by rw [m]; exact List.mem_cons_self _ _, hin⟩
            · exact ⟨r, List.mem_cons_of_mem _ m, hin⟩
        · have e2 : Shortened_Idx (first :: tl) cur_idx =
              rest.foldl (fun acc r => set_insert r acc) [(cur_idx, s.2)] := by
            simp only [Shortened_Idx, hf, if_false, hd, hsc]
          rw [e2]
          constructor
          · rintro ⟨r, hr, hin⟩
            rcases (mem_foldl_set_insert r rest _).1 hr with m | m
            · rw [List.mem_singleton] at m
              rw [m] at hin
              have a1 : cur_idx ≤ i := hin.1
              have a2 : i < s.2 := hin.2
              exact ⟨a1, s, (hmem s).2 (Or.inr (Or.inl rfl)), ⟨by omega, a2⟩⟩
            · refine ⟨?_, r, (hmem r).2 (Or.inr (Or.inr m)), hin⟩
              have := hrest r m
              have := hin.1
              omega
          · rintro ⟨hi, r, hr, hin⟩
            rcases (hmem r).1 hr with m | m | m
            · have := h1 r m
              have := hin.2
              omega
            · refine ⟨(cur_idx, s.2),
                (mem_foldl_set_insert _ rest _).2 (Or.inl (List.mem_singleton.2 rfl)), ?_⟩
              rw [m] at hin
              exact ⟨hi, hin.2⟩
            · exact ⟨r, (mem_foldl_set_insert _ rest _).2 (Or.inr m), hin⟩

/-- C32, as amended: for a request of ascending, disjoint and well-formed ranges and a
`cur_idx` that lies in a range of the request or at or beyond every upper bound, an index
lies in a range exposed by `Shortened_Idx` if and only if it is at least `cur_idx` and lies
in a range of the request. -/
theorem C32_shortened_idx_is_the_tail (req : List (Nat × Nat)) (cur_idx : Nat)
    (hsorted : req.Pairwise (fun r t => r.2 ≤ t.1)) (hwf : ∀ r ∈ req, r.1 ≤ r.2)
    (hcur : (∃ r ∈ req, In_Range r cur_idx) ∨ ∀ r ∈ req, r.2 ≤ cur_idx) (i : Nat) :
    (∃ r ∈ Shortened_Idx req cur_idx, In_Range r i) ↔
      (cur_idx ≤ i ∧ ∃ r ∈ req, In_Range r i) :=
  shortened_idx_tail req cur_idx hsorted hwf hcur i

/-- The amended C32 at the request `[10, 20), [30, 40)` and the cursor 15, for the index
17. -/
theorem C32_shortened_idx_is_the_tail_witness :
    Shortened_Idx [(10, 20), (30, 40)] 15 = [(15, 20), (30, 40)] ∧
    ((∃ r ∈ Shortened_Idx [(10, 20), (30, 40)] 15, In_Range r 17) ↔
      (15 ≤ 17 ∧ ∃ r ∈ [(10, 20), (30, 40)], In_Range r 17)) :=
  ⟨by decide,
    C32_shortened_idx_is_the_tail [(10, 20), (30, 40)] 15 (by decide) (by decide)
      (Or.inl (by decide)) 17⟩

/-- C32 as stated fails for a `cur_idx` outside the ranges of the request: with the request
`[10, 20), [30, 40)` the cursor 5 gives the ranges `[5, 20), [30, 40)`, which expose the
index 5, and the cursor 25 gives the range `[25, 40)`, which exposes the index 25; neither
index lies in a range of the request. -/
theorem C32_counterexample :
    List.Pairwise (fun r t => r.2 ≤ t.1) [((10 : Nat), (20 : Nat)), (30, 40)] ∧
    Shortened_Idx [(10, 20), (30, 40)] 5 = [(5, 20), (30, 40)] ∧
    (∃ r ∈ Shortened_Idx [(10, 20), (30, 40)] 5, In_Range r 5) ∧
    ¬ (5 ≤ 5 ∧ ∃ r ∈ [(10, 20), (30, 40)], In_Range r 5) ∧
    Shortened_Idx [(10, 20), (30, 40)] 25 = [(25, 40)] ∧
    (∃ r ∈ Shortened_Idx [(10, 20), (30, 40)] 25, In_Range r 25) ∧
    ¬ (25 ≤ 25 ∧ ∃ r ∈ [(10, 20), (30, 40)], In_Range r 25) := by
  refine ⟨by decide, by decide, by decide, by decide, by decide, by decide, by decide⟩

/-! ## The early return of `collect_items_range` -/

theorem ascending_split {α : Type} (pre l : List (Nat × α)) (j : Nat) (x : α)
    (h : Ascending (pre ++ (j, x) :: l)) :
    (∀ p ∈ pre, p.1 ≤ j) ∧ (∀ p ∈ l, j ≤ p.1) := by
  unfold Ascending at h
  obtain ⟨_, h2, h3⟩ := List.pairwise_append.1 h
  exact ⟨fun p hp => h3 p hp (j, x) (List.mem_cons_self _ _),
    fun p hp => List.rel_of_pairwise_cons h2 hp⟩

/-- The state in which the loop of `collect_items_range` returns early: `pre` are the items
processed before the call, `s` the state they left. When `too_much_data` is set, `cur_idx`
is the index of the last item processed. -/
theorem range_loop_returns_true (stmt : Bool) (pred : Predicate)
    (l : List (Nat × Skeleton)) :
    ∀ (pre : List (Nat × Skeleton)) (s s2 : Range_State), Ascending (pre ++ l) →
      (s.too_much_data = true → (∃ p ∈ pre, p.1 = s.cur_idx) ∧ ∀ p ∈ pre, p.1 ≤ s.cur_idx) →
      collect_items_range_loop stmt pred l s = (true, s2) →
      ∃ mid i o rest, l = mid ++ (i, o) :: rest ∧ s2.cur_idx = i ∧
        (∀ p ∈ pre ++ mid, p.1 < i) ∧ (∀ p ∈ rest, i ≤ p.1) ∧
        ∀ idx, map_get s2.result idx =
          map_get s.result idx
            ++ (at_index idx mid).filter (fun o => pred.match_handle { view := o }) := by
  induction l with
  | nil =>
    intro pre s s2 _ _ h
    simp [collect_items_range_loop] at h
  | cons a l ih =>
    obtain ⟨j, x⟩ := a
    intro pre s s2 hasc hinv h
    obtain ⟨a1, a2⟩ := ascending_split pre l j x hasc
    simp only [collect_items_range_loop] at h
    by_cases h1 : (s.too_much_data && !decide (s.cur_idx = j)) = true
    · simp only [h1, if_true, Prod.mk.injEq, true_and] at h
      subst h
      simp only [Bool.and_eq_true, Bool.not_eq_true', decide_eq_false_iff_not] at h1
      obtain ⟨⟨q, hq, e⟩, hmax⟩ := hinv h1.1
      have : s.cur_idx ≤ j := e ▸ a1 q hq
      have hlt : s.cur_idx < j := by have := h1.2; omega
      refine ⟨[], j, x, l, rfl, rfl, ?_, a2, ?_⟩
      · intro p hp
        rw [List.append_nil] at hp
        have := hmax p hp
        omega
      · intro idx
        simp [at_index]
    · simp only [h1, if_false] at h
      have hcur : (range_checkpoint stmt j s).too_much_data = true →
          (range_checkpoint stmt j s).cur_idx = j := by
        unfold range_checkpoint
        split
        · intro _; rfl
        · intro ht
          simp only at ht
          simp only [ht, Bool.true_and, Bool.not_eq_true', decide_eq_false_iff_not,
            not_not] at h1
          exact h1
      obtain ⟨mid, i, o, rest, e1, e2, e3, e4, e5⟩ := ih (pre ++ [(j, x)]) _ s2
        (by rw [List.append_assoc]; exact hasc)
        (fun ht => by
          have hc := hcur ht
          simp only at hc ⊢
          rw [hc]
          refine ⟨⟨(j, x), by simp, rfl⟩, ?_⟩
          intro p hp
          rcases List.mem_append.1 hp with m | m
          · exact a1 p m
          · rw [List.mem_singleton] at m
            rw [m])
        h
      refine ⟨(j, x) :: mid, i, o, rest, by rw [e1]; rfl, e2, ?_, e4, ?_⟩
      · intro p hp
        apply e3 p
        simp only [List.mem_append, List.mem_cons, List.mem_singleton, List.not_mem_nil,
          or_false] at hp ⊢
        tauto
      · intro idx
        rw [e5 idx]
        simp only [range_checkpoint_result]
        rw [map_get_push_if, at_index_cons]
        by_cases h3 : idx = j <;> by_cases h4 : pred.match_handle { view := x } = true <;>
          simp [h3, h4, List.filter_cons]

theorem range_range_ascending {α : Type} (db : List (Nat × α)) (req : List (Nat × Nat))
    (h : Ascending db) : Ascending (range_range db req) :=
  List.Pairwise.sublist (List.filter_sublist _) h

/-- C29: whenever `collect_items_range` returns `true` over an ascending stream, the stream
is `pre ++ (i, o) :: rest` where `pre` are the items processed, `cur_idx` is the index `i`
of the first item not processed, all items of `pre` have an index below `i` and all other
items an index of at least `i`; under every index the result holds what was there before
followed by the objects of `pre` with that index whose handle matches, so nothing of an
index `i` or greater has been appended and every bucket below `i` is complete. -/
theorem C29_early_return_at_bucket_boundary (stmt : Bool) (rman : Resource_Manager)
    (db : List (Nat × Skeleton)) (req : List (Nat × Nat)) (pred : Predicate)
    (cur_idx : Nat) (result : Result_Map Skeleton) (s2 : Range_State)
    (hasc : Ascending db)
    (hret : collect_items_range stmt rman db req pred cur_idx result = (true, s2)) :
    ∃ pre i o rest, range_range db (Shortened_Idx req cur_idx) = pre ++ (i, o) :: rest ∧
      s2.cur_idx = i ∧ (∀ p ∈ pre, p.1 < i) ∧ (∀ p ∈ rest, i ≤ p.1) ∧
      (∀ idx, map_get s2.result idx =
        map_get result idx
          ++ (at_index idx pre).filter (fun o => pred.match_handle { view := o })) ∧
      (∀ idx, idx < i → map_get s2.result idx =
        map_get result idx
          ++ (at_index idx (range_range db (Shortened_Idx req cur_idx))).filter
              (fun o => pred.match_handle { view := o })) ∧
      (∀ idx, i ≤ idx → map_get s2.result idx = map_get result idx) := by
  obtain ⟨mid, i, o, rest, e1, e2, e3, e4, e5⟩ := range_loop_returns_true stmt pred
    (range_range db (Shortened_Idx req cur_idx)) [] _ s2
    (by rw [List.nil_append]; exact range_range_ascending db _ hasc)
    (by intro h; simp at h) hret
  rw [List.nil_append] at e3
  refine ⟨mid, i, o, rest, e1, e2, e3, e4, e5, ?_, ?_⟩
  · intro idx hidx
    rw [e5 idx, e1]
    have : at_index idx (mid ++ (i, o) :: rest) = at_index idx mid := by
      unfold at_index
      rw [List.filter_append, List.map_append]
      have hnil : List.filter (fun p => decide (p.1 = idx)) ((i, o) :: rest) = [] := by
        rw [List.filter_eq_nil_iff]
        intro p hp
        rcases List.mem_cons.1 hp with m | m
        · rw [m]; simp; omega
        · have := e4 p m
          simp; omega
      rw [hnil, List.map_nil, List.append_nil]
    rw [this]
  · intro idx hidx
    rw [e5 idx]
    have : at_index idx mid = [] := by
      unfold at_index
      have hnil : List.filter (fun p => decide (p.1 = idx)) mid = [] := by
        rw [List.filter_eq_nil_iff]
        intro p hp
        have := e3 p hp
        simp; omega
      rw [hnil, List.map_nil]
    rw [this]
    simp

/-- A run of `n` items of one index, met with `too_much_data` unset and the counter more
than `n` steps below `256*1024`, only advances the counter and the result. -/
theorem range_loop_replicate (stmt : Bool) (pred : Predicate) (i : Nat) (o : Skeleton)
    (tail : List (Nat × Skeleton)) :
    ∀ (n count cur_idx : Nat) (rman : Resource_Manager) (result : Result_Map Skeleton),
      count + n < 262144 →
      ∃ result2, collect_items_range_loop stmt pred (List.replicate n (i, o) ++ tail)
          { count := count, too_much_data := false, cur_idx := cur_idx, rman := rman,
            result := result } =
        collect_items_range_loop stmt pred tail
          { count := count + n, too_much_data := false, cur_idx := cur_idx, rman := rman,
            result := result2 } := by
  intro n
  induction n with
  | zero =>
    intro count cur_idx rman result _
    exact ⟨result, rfl⟩
  | succ n ih =>
    intro count cur_idx rman result h
    have hmod : (count + 1) % 2 ^ 32 = count + 1 := Nat.mod_eq_of_lt (by omega)
    have hno : ¬ 256 * 1024 ≤ count + 1 := by omega
    obtain ⟨result2, e⟩ := ih (count + 1) cur_idx rman
      (if pred.match_handle (Handle.mk o) then push_object result i o else result)
      (by omega)
    refine ⟨result2, ?_⟩
    rw [List.replicate_succ, List.cons_append]
    simp only [collect_items_range_loop, Bool.false_and, Bool.false_eq_true, if_false,
      range_checkpoint, hmod, hno, decide_False]
    rw [e]
    have : count + 1 + n = count + (n + 1) := by omega
    rw [this]

theorem replicate_succ_append {α : Type} (n : Nat) (x : α) (l : List α) :
    List.replicate (n + 1) x ++ l = List.replicate n x ++ x :: l := by
  induction n with
  | zero => rfl
  | succ n ih =>
    rw [List.replicate_succ, List.cons_append, ih]
    rfl

/-- The stream of the example: 262144 skeletons under the index 1 and one under the
index 2. -/
theorem example_stream_ascending :
    Ascending (List.replicate 262144 (1, (⟨1, 0⟩ : Skeleton)) ++ [(2, ⟨2, 0⟩)]) := by
  unfold Ascending
  rw [List.pairwise_append]
  refine ⟨?_, List.pairwise_singleton _ _, ?_⟩
  · rw [List.pairwise_replicate]
    right
    exact le_refl _
  · intro a ha b hb
    rw [List.eq_of_mem_replicate ha, List.mem_singleton.1 hb]
    decide

theorem example_stream_range :
    range_range (List.replicate 262144 (1, (⟨1, 0⟩ : Skeleton)) ++ [(2, ⟨2, 0⟩)])
        (Shortened_Idx [(0, 10)] 0)
      = List.replicate 262143 (1, (⟨1, 0⟩ : Skeleton)) ++ [(1, ⟨1, 0⟩), (2, ⟨2, 0⟩)] := by
  have e : Shortened_Idx [(0, 10)] 0 = [(0, 10)] := by decide
  have e2 : List.replicate 262144 (1, (⟨1, 0⟩ : Skeleton)) ++ [(2, ⟨2, 0⟩)]
      = List.replicate 262143 (1, (⟨1, 0⟩ : Skeleton)) ++ [(1, ⟨1, 0⟩), (2, ⟨2, 0⟩)] :=
    replicate_succ_append 262143 _ _
  rw [e, e2]
  unfold range_range
  rw [List.filter_eq_self]
  intro a ha
  rcases List.mem_append.1 ha with m | m
  · rw [List.eq_of_mem_replicate m]
    decide
  · simp only [List.mem_cons, List.mem_singleton, List.not_mem_nil, or_false] at m
    rcases m with m | m <;> rw [m] <;> decide


/-- The item at which the counter reaches `256*1024`, followed by an item of another index:
when the health check asks to stop, the loop returns `true`. -/
theorem range_loop_stops (pred : Predicate) (i j : Nat) (o x : Skeleton)
    (rest : List (Nat × Skeleton)) (hne : i ≠ j) (count cur_idx : Nat)
    (rman : Resource_Manager) (result : Result_Map Skeleton) (hc : count + 1 = 262144)
    (hh : rman.health_check.1 = true) :
    (collect_items_range_loop true pred ((i, o) :: (j, x) :: rest)
      { count := count, too_much_data := false, cur_idx := cur_idx, rman := rman,
        result := result }).1 = true := by
  have hmod : (count + 1) % 2 ^ 32 = count + 1 := Nat.mod_eq_of_lt (by omega)
  have hge : 256 * 1024 ≤ count + 1 := by omega
  simp only [collect_items_range_loop, Bool.false_and, Bool.false_eq_true, if_false,
    range_checkpoint, hmod, hge, decide_True, Bool.and_self, if_true, hh, Bool.true_and,
    Bool.not_eq_true', decide_eq_false_iff_not, hne, not_false_eq_true]

theorem example_stream_returns_true :
    (collect_items_range true { pending := [true], health_checks := 0, errors := [] }
      (List.replicate 262144 (1, (⟨1, 0⟩ : Skeleton)) ++ [(2, ⟨2, 0⟩)]) [(0, 10)]
      always_true 0 []).1 = true := by
  unfold collect_items_range
  rw [example_stream_range]
  obtain ⟨result2, e⟩ := range_loop_replicate true always_true 1 ⟨1, 0⟩
    [(1, ⟨1, 0⟩), (2, ⟨2, 0⟩)] 262143 0 0
    { pending := [true], health_checks := 0, errors := [] } [] (by norm_num)
  rw [e]
  exact range_loop_stops always_true 1 2 _ _ [] (by decide) _ 0 _ result2 (by norm_num) rfl

theorem prod_eq_of_fst {α β : Type} (p : α × β) (a : α) (h : p.1 = a) : p = (a, p.2) := by
  cases p
  simp only at h
  rw [h]

/-- C29 on a stream of 262144 skeletons under the index 1 and one under the index 2, with
a resource manager that answers the first health check with a request to stop. -/
theorem C29_early_return_at_bucket_boundary_witness :
    (collect_items_range true { pending := [true], health_checks := 0, errors := [] }
      (List.replicate 262144 (1, (⟨1, 0⟩ : Skeleton)) ++ [(2, ⟨2, 0⟩)]) [(0, 10)]
      always_true 0 []).1 = true ∧
    ∃ pre i o rest,
      range_range (List.replicate 262144 (1, (⟨1, 0⟩ : Skeleton)) ++ [(2, ⟨2, 0⟩)])
        (Shortened_Idx [(0, 10)] 0) = pre ++ (i, o) :: rest ∧
      (collect_items_range true { pending := [true], health_checks := 0, errors := [] }
        (List.replicate 262144 (1, (⟨1, 0⟩ : Skeleton)) ++ [(2, ⟨2, 0⟩)]) [(0, 10)]
        always_true 0 []).2.cur_idx = i ∧
      (∀ p ∈ pre, p.1 < i) ∧ (∀ p ∈ rest, i ≤ p.1) := by
  have h0 := example_stream_returns_true
  have hret := prod_eq_of_fst _ _ h0
  have hasc := example_stream_ascending
  obtain ⟨pre, i, o, rest, h1, h2, h3, h4, _⟩ :=
    C29_early_return_at_bucket_boundary _ _ _ _ _ _ _ _ hasc hret
  exact ⟨h0, pre, i, o, rest, h1, h2, h3, h4⟩

/-! ## The expansion loop in terms of its calls -/

/-- The attic objects and the log that the expansion loop leaves are what its calls of
`expand` contribute one after the other. -/
theorem expand_deltas_eq_calls (expand : Delta → Skeleton → Except String Skeleton)
    (loc : List (Nat × Nat)) (ds : List (Attic Delta)) :
    ∀ (skels_it : List Skeleton) (reference : Skeleton) (attics : List (Attic Skeleton))
      (rman : Resource_Manager),
      expand_deltas expand loc ds skels_it reference attics rman =
        (attics ++ ((expand_calls expand ds skels_it reference).map
            (emitted_by expand loc)).flatten,
          { rman with errors := rman.errors ++
            ((expand_calls expand ds skels_it reference).map (logged_by expand)).flatten }) := by
  induction ds with
  | nil =>
    intro _ _ _ rman
    simp [expand_deltas, expand_calls]
  | cons d ds ih =>
    intro skels_it reference attics rman
    simp only [expand_deltas, expand_calls, List.map_cons, List.flatten_cons]
    cases h : expand d.obj (choose_reference skels_it reference d.obj.id).2 with
    | error what =>
      simp only [next_reference, h, emitted_by, logged_by]
      rw [ih]
      simp [Resource_Manager.log_and_display_error]
    | ok obj =>
      by_cases h0 : obj.id = 0
      · simp only [next_reference, h, emitted_by, logged_by, h0, ne_eq, not_true_eq_false,
          if_false]
        rw [ih]
        simp [Resource_Manager.log_and_display_error]
      · simp only [next_reference, h, emitted_by, logged_by, h0, ne_eq, not_false_eq_true,
          if_true]
        rw [ih]
        by_cases h1 : is_first_of_id loc d = true <;> simp [h1]

theorem expanded_attics_eq_calls (expand : Delta → Skeleton → Except String Skeleton)
    (q : Nat) (cur : List Skeleton) (att : List (Attic Delta)) :
    expanded_attics expand q cur att =
      ((bucket_calls expand q cur att).map
        (emitted_by expand (bucket_local_pairs q cur att))).flatten := by
  unfold expanded_attics bucket_calls bucket_local_pairs fresh_deltas
  rw [expand_deltas_eq_calls]
  simp

/-- Every delta that the expansion loop is given is called once, in order. -/
theorem expand_calls_deltas (expand : Delta → Skeleton → Except String Skeleton)
    (ds : List (Attic Delta)) :
    ∀ (skels_it : List Skeleton) (reference : Skeleton),
      (expand_calls expand ds skels_it reference).map Prod.fst = ds := by
  induction ds with
  | nil => intro _ _; rfl
  | cons d ds ih =>
    intro skels_it reference
    simp only [expand_calls, List.map_cons, ih]

theorem mem_emitted_by (expand : Delta → Skeleton → Except String Skeleton)
    (loc : List (Nat × Nat)) (c : Attic Delta × Skeleton) (a : Attic Skeleton) :
    a ∈ emitted_by expand loc c ↔
      (expand c.1.obj c.2 = Except.ok a.obj ∧ a.obj.id ≠ 0 ∧ is_first_of_id loc c.1 = true ∧
        a.timestamp = c.1.timestamp) := by
  unfold emitted_by
  cases h : expand c.1.obj c.2 with
  | error what => simp
  | ok obj =>
    by_cases h0 : obj.id = 0
    · simp only [h0, ne_eq, not_true_eq_false, if_false, List.not_mem_nil, Except.ok.injEq,
        false_iff, not_and]
      intro e h1
      rw [← e] at h1
      exact absurd h0 h1
    · by_cases h1 : is_first_of_id loc c.1 = true
      · simp only [h0, ne_eq, not_false_eq_true, if_true, h1, List.mem_singleton,
          Except.ok.injEq, true_and]
        constructor
        · intro e
          rw [e]
          exact ⟨rfl, h0, rfl⟩
        · rintro ⟨e1, _, e2⟩
          cases a
          simp only at e1 e2
          rw [e1, e2]
      · simp [h0, h1]

/-! ## Suppression without replacement -/

theorem mem_fresh_deltas (q : Nat) (att : List (Attic Delta)) (d : Attic Delta) :
    d ∈ fresh_deltas q att ↔ d ∈ att ∧ q < d.timestamp := by
  simp [fresh_deltas]

theorem mem_bucket_calls (expand : Delta → Skeleton → Except String Skeleton) (q : Nat)
    (cur : List Skeleton) (att : List (Attic Delta)) (c : Attic Delta × Skeleton)
    (h : c ∈ bucket_calls expand q cur att) : c.1 ∈ att ∧ q < c.1.timestamp := by
  have h1 : c.1 ∈ (bucket_calls expand q cur att).map Prod.fst := List.mem_map_of_mem _ h
  unfold bucket_calls at h1
  rw [expand_calls_deltas] at h1
  exact (mem_fresh_deltas q att c.1).1 ((sort_deltas_perm _).mem_iff.1 h1)

/-- An attic object that the delta overload builds for a bucket comes from a call of
`expand` that succeeded with a nonzero id for a delta whose pair is the first local pair of
its id. -/
theorem mem_expanded_attics (expand : Delta → Skeleton → Except String Skeleton) (q : Nat)
    (cur : List Skeleton) (att : List (Attic Delta)) (a : Attic Skeleton) :
    a ∈ expanded_attics expand q cur att ↔
      ∃ c ∈ bucket_calls expand q cur att,
        expand c.1.obj c.2 = Except.ok a.obj ∧ a.obj.id ≠ 0 ∧
        is_first_of_id (bucket_local_pairs q cur att) c.1 = true ∧
        a.timestamp = c.1.timestamp := by
  rw [expanded_attics_eq_calls]
  simp only [List.mem_flatten, List.mem_map]
  constructor
  · rintro ⟨l, ⟨c, hc, e⟩, ha⟩
    rw [← e] at ha
    exact ⟨c, hc, (mem_emitted_by expand _ c a).1 ha⟩
  · rintro ⟨c, hc, h⟩
    exact ⟨_, ⟨c, hc, rfl⟩, (mem_emitted_by expand _ c a).2 h⟩

/-- C33, as amended: when the bucket of an iteration of the way or relation driver holds an
attic delta `d` with a timestamp strictly between the query timestamp and `NOW`, no object
with the id of `d` is in the live result of the bucket afterwards. If moreover `expand`
keeps ids, `d` is the earliest delta of its id in the bucket that is later than the query
timestamp, every call of `expand` for `d` fails and the attic result of the bucket held no
object of that id before, then the attic result of the bucket holds no object of that id
afterwards, so the output of the bucket holds no object with that id at all. -/
theorem C33_suppression_without_replacement
    (expand : Delta → Skeleton → Except String Skeleton) (pred : Predicate)
    (index q count : Nat) (rman : Resource_Manager) (w : Walk (Attic Delta))
    (d : Attic Delta) (hd : d ∈ bucket_of index w.attic) (hq : q < d.timestamp)
    (hnow : d.timestamp < NOW) :
    (∀ o ∈ map_get (walk_bucket (fun i => reconstruct_delta expand pred i q) index count
        rman w).result index, o.id ≠ d.obj.id) ∧
    (Keeps_Id expand →
      (∀ d2 ∈ bucket_of index w.attic, d2.obj.id = d.obj.id → q < d2.timestamp →
        d2 = d ∨ d.timestamp < d2.timestamp) →
      (∀ c ∈ bucket_calls expand q (bucket_of index w.current) (bucket_of index w.attic),
        c.1 = d → Failed expand c) →
      (∀ a ∈ map_get w.attic_result index, a.obj.id ≠ d.obj.id) →
      ∀ a ∈ map_get (walk_bucket (fun i => reconstruct_delta expand pred i q) index count
        rman w).attic_result index, a.obj.id ≠ d.obj.id) := by
  obtain ⟨_, _, e3, e4, _⟩ := walk_bucket_eq (fun i => reconstruct_delta expand pred i q)
    (delta_contribution expand pred q) (reconstructs_delta expand pred q) index count rman w
  have hrec : (d.obj.id, d.timestamp) ∈
      (delta_contribution expand pred q).recorded (bucket_of index w.current)
        (bucket_of index w.attic) := by
    simp only [delta_contribution, List.mem_append, List.mem_map, List.mem_filter,
      decide_eq_true_eq]
    exact Or.inr ⟨d, ⟨hd, hq⟩, rfl⟩
  constructor
  · intro o ho hid
    rw [e3, map_get_map_set_same, mem_filter_items_by_timestamp] at ho
    obtain ⟨_, _, hmin⟩ := ho
    have := hmin d.timestamp (by
      show (o.id, d.timestamp) ∈ _
      rw [hid]; exact hrec)
    have h2 : Element.timestamp_of o = NOW := rfl
    omega
  · intro hk hmin hfail hold a ha hid
    rw [e4, map_get_map_set_same, mem_filter_items_by_timestamp] at ha
    obtain ⟨ha1, _, _⟩ := ha
    rcases List.mem_append.1 ha1 with m | m
    · exact hold a m hid
    · simp only [delta_contribution, List.mem_filter] at m
      obtain ⟨c, hc, hx, h0, hf, ht⟩ :=
        (mem_expanded_attics expand q _ _ a).1 m.1
      have hcid : c.1.obj.id = d.obj.id := by
        rcases hk _ _ _ hx with e | e
        · rw [← e, hid]
        · exact absurd e h0
      obtain ⟨hcin, hcq⟩ := mem_bucket_calls expand q _ _ c hc
      have hle : c.1.timestamp ≤ d.timestamp := by
        unfold bucket_local_pairs at hf
        rw [is_first_of_id_sort_pairs] at hf
        apply hf.2 d.timestamp
        rw [hcid]
        simp only [List.mem_append, List.mem_map]
        exact Or.inr ⟨d, (mem_fresh_deltas q _ d).2 ⟨hd, hq⟩, rfl⟩
      have hcd : c.1 = d := by
        rcases hmin c.1 hcin hcid hcq with e | e
        · exact e
        · omega
      have := hfail c hc hcd
      unfold Failed at this
      rw [hx] at this
      exact h0 this

/-- The amended C33 at a bucket with the current skeleton 7 and one delta for the id 7 at
the timestamp 200, whose expansion yields the id 0; the query timestamp is 50. -/
theorem C33_suppression_without_replacement_witness :
    (∀ o ∈ map_get (walk_bucket
        (fun i => reconstruct_delta (fun _ _ => Except.ok default_skeleton) always_true i 50)
        100 1 quiet
        { current := [(100, ⟨7, 0⟩)], attic := [(100, ⟨⟨7, 0⟩, 200⟩)], result := [],
          attic_result := [], count := 0, rman := quiet, cur_idx := none }).result 100,
      o.id ≠ 7) ∧
    (∀ a ∈ map_get (walk_bucket
        (fun i => reconstruct_delta (fun _ _ => Except.ok default_skeleton) always_true i 50)
        100 1 quiet
        { current := [(100, ⟨7, 0⟩)], attic := [(100, ⟨⟨7, 0⟩, 200⟩)], result := [],
          attic_result := [], count := 0, rman := quiet, cur_idx := none }).attic_result 100,
      a.obj.id ≠ 7) :=
  ⟨(C33_suppression_without_replacement (fun _ _ => Except.ok default_skeleton) always_true
      100 50 1 quiet
      { current := [(100, ⟨7, 0⟩)], attic := [(100, ⟨⟨7, 0⟩, 200⟩)], result := [],
        attic_result := [], count := 0, rman := quiet, cur_idx := none }
      ⟨⟨7, 0⟩, 200⟩ (by decide) (by decide) (by decide)).1,
    (C33_suppression_without_replacement (fun _ _ => Except.ok default_skeleton) always_true
      100 50 1 quiet
      { current := [(100, ⟨7, 0⟩)], attic := [(100, ⟨⟨7, 0⟩, 200⟩)], result := [],
        attic_result := [], count := 0, rman := quiet, cur_idx := none }
      ⟨⟨7, 0⟩, 200⟩ (by decide) (by decide) (by decide)).2
      (fun _ _ obj h => Or.inr (by cases h; rfl))
      (by decide) (by decide) (by decide)⟩

/-- C33 as stated fails when the failing delta is not the earliest of its id: the bucket
holds the current skeleton 7 and two deltas for the id 7, at the timestamp 200 with an
expansion that succeeds and at the timestamp 300 with an expansion that yields the id 0.
For the query timestamp 50 the later delta lies strictly between the query timestamp and
`NOW` and its expansion fails, yet the attic result of the bucket holds the object of id 7
that the earlier delta expands to. -/
theorem C33_counterexample :
    (⟨⟨7, 0⟩, 300⟩ : Attic Delta) ∈
      bucket_of 100 [(100, (⟨⟨7, 1⟩, 200⟩ : Attic Delta)), (100, ⟨⟨7, 0⟩, 300⟩)] ∧
    50 < 300 ∧ 300 < NOW ∧
    (∀ r : Skeleton, Failed
      (fun d _ => if d.data = 0 then Except.ok default_skeleton else Except.ok ⟨d.id, d.data⟩)
      (⟨⟨7, 0⟩, 300⟩, r)) ∧
    collect_items_by_timestamp_way
        (fun d _ => if d.data = 0 then Except.ok default_skeleton else Except.ok ⟨d.id, d.data⟩)
        false quiet [(100, ⟨7, 5⟩)] [(100, ⟨⟨7, 1⟩, 200⟩), (100, ⟨⟨7, 0⟩, 300⟩)]
        always_true none 50 [] []
      = some (false,
          { current := [], attic := [], result := [(100, [])],
            attic_result := [(100, [⟨⟨7, 1⟩, 200⟩])], count := 1,
            rman := { pending := [], health_checks := 0,
                      errors := [Log_Entry.cannot_be_expanded 7 300] },
            cur_idx := none }) := by
  refine ⟨by decide, by decide, by decide, ?_, by rfl⟩
  intro r
  simp [Failed, default_skeleton]

/-! ## The calls of the expansion loop for one id -/

theorem dropWhile_absorb (l : List Skeleton) (y x : Nat) (h : y ≤ x) :
    (l.dropWhile (fun s => decide (s.id < y))).dropWhile (fun s => decide (s.id < x)) =
      l.dropWhile (fun s => decide (s.id < x)) := by
  induction l with
  | nil => rfl
  | cons a l ih =>
    by_cases h1 : a.id < y
    · have h2 : a.id < x := by omega
      simp only [List.dropWhile_cons, h1, h2, decide_True, if_true]
      exact ih
    · simp only [List.dropWhile_cons, h1, decide_False, Bool.false_eq_true, if_false]

theorem choose_reference_eq (skels_it : List Skeleton) (reference : Skeleton) (id : Nat)
    (h : reference.id = id) : choose_reference skels_it reference id = (skels_it, reference) := by
  simp [choose_reference, h]

theorem choose_reference_ne (skels_it : List Skeleton) (reference : Skeleton) (id : Nat)
    (h : reference.id ≠ id) (hid : id ≠ 0) :
    choose_reference skels_it reference id = choose_reference skels_it default_skeleton id := by
  have h0 : ¬ default_skeleton.id = id := fun e => hid (by rw [← e]; rfl)
  simp only [choose_reference, h, h0, if_false]

theorem choose_reference_default_fst (skels_it : List Skeleton) (id : Nat) (hid : id ≠ 0) :
    (choose_reference skels_it default_skeleton id).1 =
      skels_it.dropWhile (fun s => decide (s.id < id)) := by
  have h0 : ¬ default_skeleton.id = id := fun e => hid (by rw [← e]; rfl)
  simp only [choose_reference, h0, if_false]
  split
  · rename_i h; rw [h]
  · split <;> rfl

theorem choose_reference_absorb (skels_it : List Skeleton) (y x : Nat) (h : y ≤ x)
    (hx : x ≠ 0) :
    choose_reference (skels_it.dropWhile (fun s => decide (s.id < y))) default_skeleton x =
      choose_reference skels_it default_skeleton x := by
  have h0 : ¬ default_skeleton.id = x := fun e => hx (by rw [← e]; rfl)
  simp only [choose_reference, h0, if_false, dropWhile_absorb skels_it y x h]

theorem choose_reference_idem (skels_it : List Skeleton) (x : Nat) (hx : x ≠ 0) :
    choose_reference (choose_reference skels_it default_skeleton x).1 default_skeleton x =
      choose_reference skels_it default_skeleton x := by
  rw [choose_reference_default_fst skels_it x hx]
  exact choose_reference_absorb skels_it x x (le_refl _) hx

theorem choose_reference_fst_cases (skels_it : List Skeleton) (reference : Skeleton)
    (y : Nat) :
    (choose_reference skels_it reference y).1 = skels_it ∨
      (choose_reference skels_it reference y).1 =
        skels_it.dropWhile (fun s => decide (s.id < y)) := by
  unfold choose_reference
  by_cases h : reference.id = y
  · simp [h]
  · right
    simp only [h, if_false]
    split
    · rename_i e; rw [e]
    · split <;> rfl

theorem choose_reference_snd_cases (skels_it : List Skeleton) (reference : Skeleton)
    (y : Nat) :
    (choose_reference skels_it reference y).2.id = y ∨
      ((choose_reference skels_it reference y).2 = default_skeleton ∧ reference.id ≠ y) := by
  unfold choose_reference
  by_cases h : reference.id = y
  · simp [h]
  · simp only [h, if_false]
    split
    · exact Or.inr ⟨rfl, fun e => h e⟩
    · rename_i s rest e
      by_cases h2 : s.id = y
      · simp [h2]
      · right
        simp only [h2, if_false]
        exact ⟨trivial, fun e => h e⟩

theorem next_reference_cases (expand : Delta → Skeleton → Except String Skeleton)
    (hk : Keeps_Id expand) (d : Attic Delta) (chosen : Skeleton) :
    next_reference expand d chosen = chosen ∨
      ((next_reference expand d chosen).id = d.obj.id ∧ d.obj.id ≠ 0) := by
  unfold next_reference
  cases h : expand d.obj chosen with
  | error what => exact Or.inl rfl
  | ok obj =>
    by_cases h0 : obj.id = 0
    · simp [h0]
    · right
      simp only [h0, ne_eq, not_false_eq_true, if_true]
      rcases hk _ _ _ h with e | e
      · exact ⟨e, by rw [← e]; exact h0⟩
      · exact absurd e h0

theorem filter_calls_eq_nil (expand : Delta → Skeleton → Except String Skeleton)
    (ds : List (Attic Delta)) (skels_it : List Skeleton) (reference : Skeleton) (x : Nat)
    (h : ∀ d ∈ ds, d.obj.id ≠ x) :
    (expand_calls expand ds skels_it reference).filter (fun c => decide (c.1.obj.id = x))
      = [] := by
  rw [List.filter_eq_nil_iff]
  intro c hc
  have h1 : c.1 ∈ (expand_calls expand ds skels_it reference).map Prod.fst :=
    List.mem_map_of_mem _ hc
  rw [expand_calls_deltas] at h1
  simpa using h c.1 h1

/-- The calls of the expansion loop for the deltas of one nonzero id form a chain that
starts at the reference chosen for that id: the loop runs over deltas in the order of
their ids, `expand` keeps ids, and the reference at hand has the id 0 or an id that is not
greater than those to come. -/
theorem expand_calls_of_id (expand : Delta → Skeleton → Except String Skeleton)
    (hk : Keeps_Id expand) (x : Nat) (hx : x ≠ 0) (ds : List (Attic Delta)) :
    ∀ (skels_it : List Skeleton) (reference : Skeleton),
      ds.Pairwise (fun a b => a.obj.id ≤ b.obj.id) →
      (∀ d ∈ ds, reference.id = 0 ∨ reference.id ≤ d.obj.id) →
      (expand_calls expand ds skels_it reference).filter (fun c => decide (c.1.obj.id = x)) =
        reference_chain expand (choose_reference skels_it reference x).2
          (ds.filter (fun d => decide (d.obj.id = x))) := by
  induction ds with
  | nil => intro _ _ _ _; rfl
  | cons d ds ih =>
    intro skels_it reference hs hq
    have hs2 : ds.Pairwise (fun a b => a.obj.id ≤ b.obj.id) := hs.of_cons
    have hle : ∀ e ∈ ds, d.obj.id ≤ e.obj.id := fun e he => List.rel_of_pairwise_cons hs he
    have hq0 := hq d (List.mem_cons_self _ _)
    have hnr : (next_reference expand d
        (choose_reference skels_it reference d.obj.id).2).id = d.obj.id ∨
        next_reference expand d (choose_reference skels_it reference d.obj.id).2
          = default_skeleton := by
      rcases next_reference_cases expand hk d
        (choose_reference skels_it reference d.obj.id).2 with e | e
      · rw [e]
        rcases choose_reference_snd_cases skels_it reference d.obj.id with e2 | e2
        · exact Or.inl e2
        · exact Or.inr e2.1
      · exact Or.inl e.1
    have hq2 : ∀ e ∈ ds, (next_reference expand d
        (choose_reference skels_it reference d.obj.id).2).id = 0 ∨
        (next_reference expand d (choose_reference skels_it reference d.obj.id).2).id
          ≤ e.obj.id := by
      intro e he
      rcases hnr with h | h
      · right; rw [h]; exact hle e he
      · left; rw [h]; rfl
    have hih := ih (choose_reference skels_it reference d.obj.id).1
      (next_reference expand d (choose_reference skels_it reference d.obj.id).2) hs2 hq2
    simp only [expand_calls]
    by_cases hyx : d.obj.id = x
    · rw [List.filter_cons_of_pos (by simpa using hyx),
        List.filter_cons_of_pos (by simpa using hyx), reference_chain, hih]
      rw [← hyx]
      congr 1
      congr 1
      rcases hnr with h | h
      · rw [choose_reference_eq _ _ _ h]
      · -- the reference left is the default object
        by_cases hid : (next_reference expand d
            (choose_reference skels_it reference d.obj.id).2).id = d.obj.id
        · rw [choose_reference_eq _ _ _ hid]
        · have hdx : d.obj.id ≠ 0 := by rw [hyx]; exact hx
          have hc : (choose_reference skels_it reference d.obj.id).2 = default_skeleton ∧
              reference.id ≠ d.obj.id := by
            rcases next_reference_cases expand hk d
              (choose_reference skels_it reference d.obj.id).2 with e | e
            · rcases choose_reference_snd_cases skels_it reference d.obj.id with e2 | e2
              · rw [e] at hid
                exact absurd e2 hid
              · exact e2
            · exact absurd e.1 hid
          rw [h, choose_reference_ne skels_it reference d.obj.id hc.2 hdx,
            choose_reference_idem skels_it d.obj.id hdx,
            ← choose_reference_ne skels_it reference d.obj.id hc.2 hdx]
          exact hc.1
    · rw [List.filter_cons_of_neg (by simpa using hyx),
        List.filter_cons_of_neg (by simpa using hyx), hih]
      by_cases hlt : d.obj.id < x
      · have hr : reference.id ≠ x := by omega
        have hn : (next_reference expand d
            (choose_reference skels_it reference d.obj.id).2).id ≠ x := by
          rcases hnr with h | h
          · rw [h]; exact hyx
          · rw [h]; exact fun e => hx (by rw [← e]; rfl)
        rw [choose_reference_ne _ _ x hn hx, choose_reference_ne _ _ x hr hx]
        rcases choose_reference_fst_cases skels_it reference d.obj.id with e | e
        · rw [e]
        · rw [e, choose_reference_absorb skels_it d.obj.id x (by omega) hx]
      · have hnil : ds.filter (fun e => decide (e.obj.id = x)) = [] := by
          rw [List.filter_eq_nil_iff]
          intro e he
          have := hle e he
          simp only [decide_eq_true_eq]
          omega
        rw [hnil]
        rfl

/-! ## The delta chain of one id -/

theorem sort_deltas_sorted (l : List (Attic Delta)) : (sort_deltas l).Sorted delta_le :=
  List.sorted_insertionSort delta_le l

theorem sort_deltas_by_id (l : List (Attic Delta)) :
    (sort_deltas l).Pairwise (fun a b => a.obj.id ≤ b.obj.id) := by
  refine (sort_deltas_sorted l).imp ?_
  intro a b h
  unfold delta_le pair_le at h
  simp only at h
  omega

theorem sort_skels_by_id (l : List Skeleton) :
    (sort_skels l).Pairwise (fun a b => a.id ≤ b.id) := by
  haveI : IsTotal Skeleton (fun a b => a.id ≤ b.id) := ⟨fun a b => Nat.le_total _ _⟩
  haveI : IsTrans Skeleton (fun a b => a.id ≤ b.id) := ⟨fun a b c => Nat.le_trans⟩
  exact List.sorted_insertionSort (fun (a b : Skeleton) => a.id ≤ b.id) l

/-- On skeletons in the order of their ids, of which at most one has the id `x`, the
reference chosen for `x` from the default object is that skeleton. -/
theorem choose_reference_sorted_some (sk : List Skeleton) (x : Nat) (hx : x ≠ 0)
    (s0 : Skeleton) (hid : s0.id = x) :
    sk.Pairwise (fun a b => a.id ≤ b.id) → s0 ∈ sk → (∀ s ∈ sk, s.id = x → s = s0) →
      (choose_reference sk default_skeleton x).2 = s0 := by
  have h0 : ¬ default_skeleton.id = x := fun e => hx (by rw [← e]; rfl)
  induction sk with
  | nil => intro _ h _; simp at h
  | cons a t ih =>
    intro hs hmem huniq
    by_cases h1 : a.id < x
    · have hne : s0 ≠ a := fun e => by rw [e] at hid; omega
      have hmem2 : s0 ∈ t := by
        rcases List.mem_cons.1 hmem with e | e
        · exact absurd e hne
        · exact e
      have := ih hs.of_cons hmem2 (fun s hs2 => huniq s (List.mem_cons_of_mem _ hs2))
      simp only [choose_reference, h0, if_false] at this ⊢
      simp only [List.dropWhile_cons, h1, decide_True, if_true]
      exact this
    · have ha : a.id = x := by
        rcases List.mem_cons.1 hmem with e | e
        · rw [← e]; exact hid
        · have := List.rel_of_pairwise_cons hs e
          omega
      have hau := huniq a (List.mem_cons_self _ _) ha
      have hdw : (a :: t).dropWhile (fun s => decide (s.id < x)) = a :: t := by
        simp only [List.dropWhile_cons, h1, decide_False, Bool.false_eq_true, if_false]
      simp only [choose_reference, h0, if_false, hdw, ha, if_true]
      exact hau

theorem choose_reference_none (sk : List Skeleton) (x : Nat) (hx : x ≠ 0)
    (h : ∀ s ∈ sk, s.id ≠ x) : (choose_reference sk default_skeleton x).2 = default_skeleton := by
  have h0 : ¬ default_skeleton.id = x := fun e => hx (by rw [← e]; rfl)
  simp only [choose_reference, h0, if_false]
  split
  · rfl
  · rename_i s rest e
    have hs : s ∈ sk := by
      have : s ∈ sk.dropWhile (fun s => decide (s.id < x)) := by rw [e]; simp
      exact (List.dropWhile_sublist _).subset this
    simp [h s hs]

/-- The reference that the expansion loop chooses for the first delta of a nonzero id is the
current skeleton of that id, the default object when there is none; the current skeletons
of a bucket have distinct ids. -/
theorem choose_reference_base (cur : List Skeleton) (x : Nat) (hx : x ≠ 0)
    (huniq : ∀ s ∈ cur, ∀ t ∈ cur, s.id = t.id → s = t) :
    (choose_reference (sort_skels cur) default_skeleton x).2 = base_skeleton cur x := by
  unfold base_skeleton
  cases hf : cur.find? (fun s => decide (s.id = x)) with
  | none =>
    rw [List.find?_eq_none] at hf
    simp only [Option.getD_none]
    apply choose_reference_none _ x hx
    intro s hs
    have := hf s ((sort_skels_perm cur).mem_iff.1 hs)
    simpa using this
  | some s0 =>
    have hm : s0 ∈ cur := List.mem_of_find?_eq_some hf
    have hid : s0.id = x := by simpa using List.find?_some hf
    simp only [Option.getD_some]
    apply choose_reference_sorted_some _ x hx s0 hid (sort_skels_by_id cur)
      ((sort_skels_perm cur).mem_iff.2 hm)
    intro s hs e
    exact huniq s ((sort_skels_perm cur).mem_iff.1 hs) s0 hm (by rw [e, hid])

theorem reference_chain_deltas (expand : Delta → Skeleton → Except String Skeleton)
    (ds : List (Attic Delta)) :
    ∀ r : Skeleton, (reference_chain expand r ds).map Prod.fst = ds := by
  induction ds with
  | nil => intro _; rfl
  | cons d ds ih => intro r; simp only [reference_chain, List.map_cons, ih]

theorem flatten_map_filter {α β : Type} (f : α → List β) (p : β → Bool) (q : α → Bool)
    (l : List α) (h1 : ∀ c ∈ l, q c = true → (f c).filter p = f c)
    (h2 : ∀ c ∈ l, q c = false → (f c).filter p = []) :
    ((l.map f).flatten).filter p = ((l.filter q).map f).flatten := by
  induction l with
  | nil => rfl
  | cons a l ih =>
    have ih2 := ih (fun c hc => h1 c (List.mem_cons_of_mem _ hc))
      (fun c hc => h2 c (List.mem_cons_of_mem _ hc))
    simp only [List.map_cons, List.flatten_cons, List.filter_append, ih2]
    cases hq : q a with
    | true =>
      rw [h1 a (List.mem_cons_self _ _) hq, List.filter_cons_of_pos hq]
      rfl
    | false =>
      rw [h2 a (List.mem_cons_self _ _) hq, List.filter_cons_of_neg (by simp [hq])]
      rfl

/-- With an expansion that keeps ids, the attic objects of one id that the delta overload
builds for a bucket are those that the calls for the deltas of that id contribute. -/
theorem expanded_attics_of_id (expand : Delta → Skeleton → Except String Skeleton)
    (hk : Keeps_Id expand) (q : Nat) (cur : List Skeleton) (att : List (Attic Delta))
    (x : Nat) :
    (expanded_attics expand q cur att).filter (fun a => decide (a.obj.id = x)) =
      (((bucket_calls expand q cur att).filter (fun c => decide (c.1.obj.id = x))).map
        (emitted_by expand (bucket_local_pairs q cur att))).flatten := by
  rw [expanded_attics_eq_calls]
  have hid : ∀ c : Attic Delta × Skeleton,
      ∀ a ∈ emitted_by expand (bucket_local_pairs q cur att) c, a.obj.id = c.1.obj.id := by
    intro c a ha
    obtain ⟨hx, h0, _, _⟩ := (mem_emitted_by expand _ c a).1 ha
    rcases hk _ _ _ hx with e | e
    · exact e
    · exact absurd e h0
  apply flatten_map_filter
  · intro c _ hq
    rw [List.filter_eq_self]
    intro a ha
    rw [decide_eq_true_eq] at hq ⊢
    rw [hid c a ha, hq]
  · intro c _ hq
    rw [List.filter_eq_nil_iff]
    intro a ha
    rw [decide_eq_false_iff_not] at hq
    rw [decide_eq_true_eq, hid c a ha]
    exact hq

theorem emitted_by_not_first (expand : Delta → Skeleton → Except String Skeleton)
    (loc : List (Nat × Nat)) (c : Attic Delta × Skeleton)
    (h : is_first_of_id loc c.1 = false) : emitted_by expand loc c = [] := by
  unfold emitted_by
  cases expand c.1.obj c.2 with
  | error what => rfl
  | ok obj =>
    by_cases h0 : obj.id = 0
    · simp [h0]
    · simp [h0, h]

theorem mem_deltas_of (q : Nat) (att : List (Attic Delta)) (x : Nat) (d : Attic Delta) :
    d ∈ deltas_of q att x ↔ d ∈ att ∧ q < d.timestamp ∧ d.obj.id = x := by
  unfold deltas_of
  rw [List.mem_filter, (sort_deltas_perm _).mem_iff, mem_fresh_deltas]
  simp only [decide_eq_true_eq]
  tauto

/-- The deltas of one id in the order of the expansion loop have ascending timestamps,
strictly so when the pairs of the deltas of the bucket are distinct. -/
theorem deltas_of_ascending (q : Nat) (att : List (Attic Delta)) (x : Nat)
    (hd : (att.map delta_pair).Nodup) :
    (deltas_of q att x).Pairwise (fun a b => a.timestamp < b.timestamp) := by
  have hsub : (deltas_of q att x).Sublist (sort_deltas (fresh_deltas q att)) :=
    List.filter_sublist _
  have h1 : (deltas_of q att x).Pairwise delta_le := (sort_deltas_sorted _).sublist hsub
  have hnd : ((deltas_of q att x).map delta_pair).Nodup := by
    have hp : (deltas_of q att x).Subperm att :=
      hsub.subperm.trans ((sort_deltas_perm _).subperm.trans
        (List.filter_sublist _).subperm)
    exact nodup_of_subperm (subperm_map delta_pair hp) hd
  have h2 : (deltas_of q att x).Pairwise (fun a b => delta_pair a ≠ delta_pair b) :=
    List.pairwise_map.1 hnd
  have h3 := h1.and h2
  refine h3.imp_of_mem ?_
  intro a b ha hb h
  have ea := ((mem_deltas_of q att x a).1 ha).2.2
  have eb := ((mem_deltas_of q att x b).1 hb).2.2
  obtain ⟨hle, hne⟩ := h
  unfold delta_le pair_le at hle
  simp only at hle
  have hts : a.timestamp ≠ b.timestamp := by
    intro e
    apply hne
    simp only [delta_pair, ea, eb, e]
  omega

/-- C28: for a bucket of the way or relation path whose records have distinct
`(id, timestamp)` pairs and 64-bit timestamps, with an `expand` that keeps ids and
succeeds in every call, and for every id: the deltas of the id that are later than the query
timestamp are met in strictly ascending timestamp order; the calls of `expand` for them are
a chain that applies the first to the current skeleton of the id (the default object when
there is none) and each later one to the expansion result of the one before; and the attic
objects of that id built before the predicate are none when there is no such delta, and
else the single object `Attic(d.expand(base), d.timestamp)` for the earliest delta `d`. -/
theorem C28_delta_chain (expand : Delta → Skeleton → Except String Skeleton)
    (pred : Predicate) (index q : Nat) (b : Bucket (Attic Delta))
    (cur : List Skeleton) (att : List (Attic Delta)) (id : Nat)
    (hcur : cur = bucket_of index b.current) (hatt : att = bucket_of index b.attic)
    (hk : Keeps_Id expand)
    (hdistinct : (cur.map live_pair ++ att.map delta_pair).Nodup)
    (hts : ∀ d ∈ att, d.timestamp ≤ NOW)
    (hsucc : ∀ c ∈ bucket_calls expand q cur att, ¬ Failed expand c) :
    (reconstruct_delta expand pred index q b).attic_result =
      b.attic_result ++ (expanded_attics expand q cur att).filter pred.match_attic ∧
    (deltas_of q att id).Perm
      (att.filter (fun d => decide (d.obj.id = id) && decide (q < d.timestamp))) ∧
    (deltas_of q att id).Pairwise (fun a b => a.timestamp < b.timestamp) ∧
    (bucket_calls expand q cur att).filter (fun c => decide (c.1.obj.id = id)) =
      reference_chain expand (base_skeleton cur id) (deltas_of q att id) ∧
    (∀ c ∈ reference_chain expand (base_skeleton cur id) (deltas_of q att id),
      expand c.1.obj c.2 = Except.ok (next_reference expand c.1 c.2)) ∧
    (deltas_of q att id = [] →
      (expanded_attics expand q cur att).filter (fun a => decide (a.obj.id = id)) = []) ∧
    (∀ d rest, deltas_of q att id = d :: rest →
      ∃ obj, expand d.obj (base_skeleton cur id) = Except.ok obj ∧
        (expanded_attics expand q cur att).filter (fun a => decide (a.obj.id = id)) =
          [{ obj := obj, timestamp := d.timestamp }]) := by
  have hnd_att : (att.map delta_pair).Nodup := (List.nodup_append.1 hdistinct).2.1
  have hnd_cur : (cur.map live_pair).Nodup := (List.nodup_append.1 hdistinct).1
  have huniq : ∀ s ∈ cur, ∀ t ∈ cur, s.id = t.id → s = t := by
    intro s hs t ht e
    exact List.inj_on_of_nodup_map hnd_cur hs ht (by simp [live_pair, e])
  have hok : ∀ c ∈ bucket_calls expand q cur att,
      expand c.1.obj c.2 = Except.ok (next_reference expand c.1 c.2) ∧
        (next_reference expand c.1 c.2).id ≠ 0 ∧
        (next_reference expand c.1 c.2).id = c.1.obj.id := by
    intro c hc
    have hf := hsucc c hc
    unfold Failed at hf
    unfold next_reference
    cases hx : expand c.1.obj c.2 with
    | error what => rw [hx] at hf; exact absurd trivial hf
    | ok obj =>
      rw [hx] at hf
      simp only at hf
      simp only [ne_eq, hf, not_false_eq_true, if_true, true_and]
      rcases hk _ _ _ hx with e | e
      · exact e
      · exact absurd e hf
  have hne0 : ∀ d ∈ fresh_deltas q att, d.obj.id ≠ 0 := by
    intro d hd
    have h1 : d ∈ (bucket_calls expand q cur att).map Prod.fst := by
      unfold bucket_calls
      rw [expand_calls_deltas]
      exact (sort_deltas_perm _).mem_iff.2 hd
    obtain ⟨c, hc, e⟩ := List.mem_map.1 h1
    obtain ⟨_, h2, h3⟩ := hok c hc
    rw [← e, ← h3]
    exact h2
  have hchain : (bucket_calls expand q cur att).filter (fun c => decide (c.1.obj.id = id)) =
      reference_chain expand (base_skeleton cur id) (deltas_of q att id) := by
    by_cases hid : id = 0
    · have h1 : deltas_of q att id = [] := by
        unfold deltas_of
        rw [List.filter_eq_nil_iff]
        intro d hd
        have := hne0 d ((sort_deltas_perm _).mem_iff.1 hd)
        simp only [decide_eq_true_eq]
        rw [hid]
        exact this
      rw [h1]
      unfold bucket_calls
      apply filter_calls_eq_nil
      intro d hd
      rw [hid]
      exact hne0 d ((sort_deltas_perm _).mem_iff.1 hd)
    · unfold bucket_calls deltas_of
      rw [expand_calls_of_id expand hk id hid _ _ _ (sort_deltas_by_id _)
        (fun _ _ => Or.inl rfl), choose_reference_base cur id hid huniq]
  have hchain_ok : ∀ c ∈ reference_chain expand (base_skeleton cur id) (deltas_of q att id),
      c ∈ bucket_calls expand q cur att := by
    intro c hc
    rw [← hchain] at hc
    exact (List.mem_filter.1 hc).1
  have hasc := deltas_of_ascending q att id hnd_att
  refine ⟨?_, ?_, hasc, hchain, fun c hc => (hok c (hchain_ok c hc)).1, ?_, ?_⟩
  · rw [hcur, hatt]
    exact (reconstructs_delta expand pred q index b).2.2.2.1
  · unfold deltas_of fresh_deltas
    refine ((sort_deltas_perm _).filter _).trans ?_
    rw [List.filter_filter]
  · intro h
    rw [expanded_attics_of_id expand hk, hchain, h]
    rfl
  · intro d rest h
    have hc0 : (d, base_skeleton cur id) ∈
        reference_chain expand (base_skeleton cur id) (deltas_of q att id) := by
      rw [h]
      exact List.mem_cons_self _ _
    obtain ⟨h1, h2, _⟩ := hok _ (hchain_ok _ hc0)
    simp only at h1 h2
    refine ⟨_, h1, ?_⟩
    rw [expanded_attics_of_id expand hk, hchain, h]
    have hdm : d ∈ deltas_of q att id := by rw [h]; exact List.mem_cons_self _ _
    obtain ⟨hd1, hd2, hd3⟩ := (mem_deltas_of q att id d).1 hdm
    rw [h] at hasc
    have hlater : ∀ e ∈ rest, d.timestamp < e.timestamp :=
      fun e he => List.rel_of_pairwise_cons hasc he
    have hin : (d.obj.id, d.timestamp) ∈
        cur.map live_pair ++ (fresh_deltas q att).map delta_pair := by
      simp only [List.mem_append, List.mem_map]
      exact Or.inr ⟨d, (mem_fresh_deltas q att d).2 ⟨hd1, hd2⟩, rfl⟩
    have hfirst : is_first_of_id (bucket_local_pairs q cur att) d = true := by
      unfold bucket_local_pairs
      rw [is_first_of_id_sort_pairs]
      refine ⟨hin, ?_⟩
      intro t ht
      rcases List.mem_append.1 ht with m | m
      · obtain ⟨s, _, e⟩ := List.mem_map.1 m
        simp only [live_pair, Prod.mk.injEq] at e
        rw [← e.2]
        exact hts d hd1
      · obtain ⟨e, he, ee⟩ := List.mem_map.1 m
        simp only [delta_pair, Prod.mk.injEq] at ee
        have hem : e ∈ deltas_of q att id := by
          rw [mem_deltas_of]
          obtain ⟨x1, x2⟩ := (mem_fresh_deltas q att e).1 he
          exact ⟨x1, x2, by rw [ee.1, hd3]⟩
        rw [h] at hem
        rcases List.mem_cons.1 hem with e2 | e2
        · rw [← ee.2, e2]
        · have := hlater e e2
          omega
    have hrest : ((reference_chain expand
        (next_reference expand d (base_skeleton cur id)) rest).map
        (emitted_by expand (bucket_local_pairs q cur att))).flatten = [] := by
      rw [List.flatten_eq_nil_iff]
      intro l hl
      obtain ⟨c, hc, e⟩ := List.mem_map.1 hl
      rw [← e]
      apply emitted_by_not_first
      have hc1 : c.1 ∈ rest := by
        have : c.1 ∈ (reference_chain expand
            (next_reference expand d (base_skeleton cur id)) rest).map Prod.fst :=
          List.mem_map_of_mem _ hc
        rw [reference_chain_deltas] at this
        exact this
      have hlt := hlater c.1 hc1
      have hcid : c.1.obj.id = d.obj.id := by
        have : c.1 ∈ deltas_of q att id := by rw [h]; exact List.mem_cons_of_mem _ hc1
        rw [((mem_deltas_of q att id c.1).1 this).2.2, hd3]
      rw [Bool.eq_false_iff]
      intro hf
      unfold bucket_local_pairs at hf
      rw [is_first_of_id_sort_pairs] at hf
      have := hf.2 d.timestamp (by rw [hcid]; exact hin)
      omega
    simp only [reference_chain, List.map_cons, List.flatten_cons, hrest, List.append_nil]
    unfold emitted_by
    simp only [h1, ne_eq, h2, not_false_eq_true, if_true, hfirst]

/-- C28 at a bucket with the current skeleton 7 and the deltas for the id 7 at the
timestamps 300, 200 and 40 and for the id 8 at 250; the query timestamp is 50 and the
expansion appends the payload of the delta to that of the reference. -/
theorem C28_delta_chain_witness :
    ([(⟨7, 5⟩ : Skeleton)].map live_pair ++
      [(⟨⟨7, 2⟩, 300⟩ : Attic Delta), ⟨⟨7, 1⟩, 200⟩, ⟨⟨8, 1⟩, 250⟩, ⟨⟨7, 9⟩, 40⟩].map
        delta_pair).Nodup ∧
    (∀ c ∈ bucket_calls (fun d r => Except.ok ⟨d.id, r.data * 10 + d.data⟩) 50 [⟨7, 5⟩]
        [⟨⟨7, 2⟩, 300⟩, ⟨⟨7, 1⟩, 200⟩, ⟨⟨8, 1⟩, 250⟩, ⟨⟨7, 9⟩, 40⟩],
      ¬ Failed (fun d r => Except.ok ⟨d.id, r.data * 10 + d.data⟩) c) ∧
    deltas_of 50 [⟨⟨7, 2⟩, 300⟩, ⟨⟨7, 1⟩, 200⟩, ⟨⟨8, 1⟩, 250⟩, ⟨⟨7, 9⟩, 40⟩] 7
      = [⟨⟨7, 1⟩, 200⟩, ⟨⟨7, 2⟩, 300⟩] ∧
    (bucket_calls (fun d r => Except.ok ⟨d.id, r.data * 10 + d.data⟩) 50 [⟨7, 5⟩]
        [⟨⟨7, 2⟩, 300⟩, ⟨⟨7, 1⟩, 200⟩, ⟨⟨8, 1⟩, 250⟩, ⟨⟨7, 9⟩, 40⟩]).filter
        (fun c => decide (c.1.obj.id = 7))
      = [(⟨⟨7, 1⟩, 200⟩, ⟨7, 5⟩), (⟨⟨7, 2⟩, 300⟩, ⟨7, 51⟩)] ∧
    (bucket_calls (fun d r => Except.ok ⟨d.id, r.data * 10 + d.data⟩) 50 [⟨7, 5⟩]
        [⟨⟨7, 2⟩, 300⟩, ⟨⟨7, 1⟩, 200⟩, ⟨⟨8, 1⟩, 250⟩, ⟨⟨7, 9⟩, 40⟩]).filter
        (fun c => decide (c.1.obj.id = 7))
      = reference_chain (fun d r => Except.ok ⟨d.id, r.data * 10 + d.data⟩)
          (base_skeleton [⟨7, 5⟩] 7)
          (deltas_of 50 [⟨⟨7, 2⟩, 300⟩, ⟨⟨7, 1⟩, 200⟩, ⟨⟨8, 1⟩, 250⟩, ⟨⟨7, 9⟩, 40⟩] 7) ∧
    ∃ obj, (fun (d : Delta) (r : Skeleton) =>
        (Except.ok ⟨d.id, r.data * 10 + d.data⟩ : Except String Skeleton)) ⟨7, 1⟩
          (base_skeleton [⟨7, 5⟩] 7) = Except.ok obj ∧
      (expanded_attics (fun d r => Except.ok ⟨d.id, r.data * 10 + d.data⟩) 50 [⟨7, 5⟩]
          [⟨⟨7, 2⟩, 300⟩, ⟨⟨7, 1⟩, 200⟩, ⟨⟨8, 1⟩, 250⟩, ⟨⟨7, 9⟩, 40⟩]).filter
          (fun a => decide (a.obj.id = 7))
        = [{ obj := obj, timestamp := 200 }] := by
  have h := C28_delta_chain (fun d r => Except.ok ⟨d.id, r.data * 10 + d.data⟩) always_true
    100 50
    { current := [(100, ⟨7, 5⟩)],
      attic := [(100, ⟨⟨7, 2⟩, 300⟩), (100, ⟨⟨7, 1⟩, 200⟩), (100, ⟨⟨8, 1⟩, 250⟩),
        (100, ⟨⟨7, 9⟩, 40⟩)],
      result := [], attic_result := [], timestamp_by_id := [], count := 0, rman := quiet }
    [⟨7, 5⟩] [⟨⟨7, 2⟩, 300⟩, ⟨⟨7, 1⟩, 200⟩, ⟨⟨8, 1⟩, 250⟩, ⟨⟨7, 9⟩, 40⟩] 7
    (by decide) (by decide) (fun d r obj e => Or.inl (by cases e; rfl))
    (by decide) (by decide) (by decide)
  exact ⟨by decide, by decide, by decide, by decide, h.2.2.2.1,
    h.2.2.2.2.2.2 ⟨⟨7, 1⟩, 200⟩ [⟨⟨7, 2⟩, 300⟩] (by decide)⟩

/-! ## A delta whose expansion fails -/

/-- The log that the delta overload leaves: that of the resource manager it was given,
followed by what the calls of `expand` for the bucket log. -/
theorem reconstruct_delta_rman (expand : Delta → Skeleton → Except String Skeleton)
    (pred : Predicate) (index q : Nat) (b : Bucket (Attic Delta)) :
    (reconstruct_delta expand pred index q b).rman =
      { b.rman with errors := b.rman.errors ++
        ((bucket_calls expand q (bucket_of index b.current)
          (bucket_of index b.attic)).map (logged_by expand)).flatten } := by
  obtain ⟨c1, c2, c3, c4, c5⟩ := collect_current_eq index b.current
    { skels := [], deltas := [], timestamp_by_id := b.timestamp_by_id,
      local_timestamp_by_id := [] }
  obtain ⟨a1, a2, a3, a4, a5⟩ := collect_attic_eq index q b.attic
    (collect_current index b.current
      { skels := [], deltas := [], timestamp_by_id := b.timestamp_by_id,
        local_timestamp_by_id := [] }).2
  simp only [List.nil_append] at c2 c3 c5
  rw [c2] at a2
  rw [c3] at a3
  simp only [List.nil_append] at a3
  show (expand_deltas expand
      (sort_pairs (collect_attic index q b.attic _).2.local_timestamp_by_id)
      (sort_deltas (collect_attic index q b.attic _).2.deltas)
      (sort_skels (collect_attic index q b.attic _).2.skels) default_skeleton []
      b.rman).2 = _
  rw [a2, a3, expand_deltas_eq_calls]
  rfl

theorem orderedInsert_insert {α : Type} (r : α → α → Prop) [DecidableRel r] [IsTrans α r]
    (b d : α) :
    ∀ (l1 l2 : List α), (l1 ++ d :: l2).Sorted r →
      ∃ m1 m2, List.orderedInsert r b (l1 ++ d :: l2) = m1 ++ d :: m2 ∧
        List.orderedInsert r b (l1 ++ l2) = m1 ++ m2 := by
  intro l1
  induction l1 with
  | nil =>
    intro l2 hs
    simp only [List.nil_append] at hs ⊢
    by_cases h : r b d
    · refine ⟨[b], l2, by simp [List.orderedInsert, h], ?_⟩
      cases l2 with
      | nil => rfl
      | cons c l2 =>
        have hdc : r d c := List.rel_of_sorted_cons hs c (List.mem_cons_self _ _)
        have hbc : r b c := IsTrans.trans b d c h hdc
        simp [List.orderedInsert, hbc]
    · exact ⟨[], List.orderedInsert r b l2, by simp [List.orderedInsert, h], rfl⟩
  | cons c l1 ih =>
    intro l2 hs
    by_cases h : r b c
    · exact ⟨b :: c :: l1, l2, by simp [List.orderedInsert, h],
        by simp [List.orderedInsert, h]⟩
    · obtain ⟨m1, m2, e1, e2⟩ := ih l2 (List.Sorted.of_cons hs)
      refine ⟨c :: m1, m2, ?_, ?_⟩
      · show List.orderedInsert r b (c :: (l1 ++ d :: l2)) = c :: (m1 ++ d :: m2)
        rw [← e1]
        exact if_neg h
      · show List.orderedInsert r b (c :: (l1 ++ l2)) = c :: (m1 ++ m2)
        rw [← e2]
        exact if_neg h

/-- Sorting by insertion with and without one element: the other elements come out in the
same order. -/
theorem insertionSort_insert {α : Type} (r : α → α → Prop) [DecidableRel r] [IsTotal α r]
    [IsTrans α r] (d : α) :
    ∀ (a1 a2 : List α), ∃ l1 l2, List.insertionSort r (a1 ++ d :: a2) = l1 ++ d :: l2 ∧
      List.insertionSort r (a1 ++ a2) = l1 ++ l2 := by
  intro a1
  induction a1 with
  | nil =>
    intro a2
    refine ⟨(List.insertionSort r a2).takeWhile (fun b => decide (¬ r d b)),
      (List.insertionSort r a2).dropWhile (fun b => decide (¬ r d b)), ?_, ?_⟩
    · simp only [List.nil_append, List.insertionSort]
      exact List.orderedInsert_eq_take_drop r d _
    · simp only [List.nil_append]
      exact (List.takeWhile_append_dropWhile _ _).symm
  | cons b a1 ih =>
    intro a2
    obtain ⟨l1, l2, e1, e2⟩ := ih a2
    have hs : (l1 ++ d :: l2).Sorted r := by
      rw [← e1]
      exact List.sorted_insertionSort r _
    obtain ⟨m1, m2, f1, f2⟩ := orderedInsert_insert r b d l1 l2 hs
    refine ⟨m1, m2, ?_, ?_⟩
    · show List.orderedInsert r b (List.insertionSort r (a1 ++ d :: a2)) = m1 ++ d :: m2
      rw [e1, f1]
    · show List.orderedInsert r b (List.insertionSort r (a1 ++ a2)) = m1 ++ m2
      rw [e2, f2]

theorem sort_deltas_insert (q : Nat) (att1 att2 : List (Attic Delta)) (d : Attic Delta)
    (hq : q < d.timestamp) :
    ∃ l1 l2, sort_deltas (fresh_deltas q (att1 ++ d :: att2)) = l1 ++ d :: l2 ∧
      sort_deltas (fresh_deltas q (att1 ++ att2)) = l1 ++ l2 := by
  have e1 : fresh_deltas q (att1 ++ d :: att2) =
      fresh_deltas q att1 ++ d :: fresh_deltas q att2 := by
    simp [fresh_deltas, List.filter_append, List.filter_cons, hq]
  have e2 : fresh_deltas q (att1 ++ att2) = fresh_deltas q att1 ++ fresh_deltas q att2 := by
    simp [fresh_deltas, List.filter_append]
  rw [e1, e2]
  exact insertionSort_insert delta_le d _ _

theorem next_reference_failed (expand : Delta → Skeleton → Except String Skeleton)
    (d : Attic Delta) (r : Skeleton) (h : Failed expand (d, r)) :
    next_reference expand d r = r := by
  unfold Failed at h
  unfold next_reference
  cases hx : expand d.obj r with
  | error what => rfl
  | ok obj =>
    rw [hx] at h
    simp only at h
    simp [h]

theorem emitted_by_failed (expand : Delta → Skeleton → Except String Skeleton)
    (loc : List (Nat × Nat)) (c : Attic Delta × Skeleton) (h : Failed expand c) :
    emitted_by expand loc c = [] := by
  unfold Failed at h
  unfold emitted_by
  cases hx : expand c.1.obj c.2 with
  | error what => rfl
  | ok obj =>
    rw [hx] at h
    simp only at h
    simp [h]

theorem logged_by_failed (expand : Delta → Skeleton → Except String Skeleton)
    (c : Attic Delta × Skeleton) (h : Failed expand c) :
    logged_by expand c = [Log_Entry.cannot_be_expanded c.1.obj.id c.1.timestamp] ∨
      ∃ what, logged_by expand c = [Log_Entry.expansion_failed c.1.obj.id c.1.timestamp what] := by
  unfold Failed at h
  unfold logged_by
  cases hx : expand c.1.obj c.2 with
  | error what => exact Or.inr ⟨what, rfl⟩
  | ok obj =>
    rw [hx] at h
    simp only at h
    left
    simp [h]

/-- The reference that one pass of the expansion loop leaves has the id of the delta or is
the default object. -/
theorem step_reference_cases (expand : Delta → Skeleton → Except String Skeleton)
    (hk : Keeps_Id expand) (d : Attic Delta) (skels_it : List Skeleton)
    (reference : Skeleton) :
    (next_reference expand d (choose_reference skels_it reference d.obj.id).2).id = d.obj.id ∨
      next_reference expand d (choose_reference skels_it reference d.obj.id).2
        = default_skeleton := by
  rcases next_reference_cases expand hk d
    (choose_reference skels_it reference d.obj.id).2 with e | e
  · rw [e]
    rcases choose_reference_snd_cases skels_it reference d.obj.id with e2 | e2
    · exact Or.inl e2
    · exact Or.inr e2.1
  · exact Or.inl e.1

/-- Choosing the reference for an id beforehand does not change the choice for that id or
a greater one. -/
theorem choose_reference_twice (skels_it : List Skeleton) (reference : Skeleton)
    (x y : Nat) (hxy : x ≤ y) (hq : reference.id = 0 ∨ reference.id ≤ x) :
    choose_reference (choose_reference skels_it reference x).1
        (choose_reference skels_it reference x).2 y =
      choose_reference skels_it reference y := by
  by_cases hr : reference.id = x
  · rw [choose_reference_eq skels_it reference x hr]
  · by_cases hyx : y = x
    · subst hyx
      by_cases h2 : (choose_reference skels_it reference y).2.id = y
      · rw [choose_reference_eq _ _ _ h2]
      · have hd : (choose_reference skels_it reference y).2 = default_skeleton := by
          rcases choose_reference_snd_cases skels_it reference y with e | e
          · exact absurd e h2
          · exact e.1
        have hy : y ≠ 0 := by
          intro e
          apply h2
          rw [hd, e]
          rfl
        rw [hd, choose_reference_ne skels_it reference y hr hy,
          choose_reference_idem skels_it y hy]
    · have hlt : x < y := by omega
      have hy : y ≠ 0 := by omega
      have h1 : (choose_reference skels_it reference x).2.id ≠ y := by
        rcases choose_reference_snd_cases skels_it reference x with e | e
        · rw [e]; omega
        · rw [e.1]; exact fun e2 => hy (by rw [← e2]; rfl)
      have h2 : reference.id ≠ y := by omega
      rw [choose_reference_ne _ _ y h1 hy, choose_reference_ne _ _ y h2 hy]
      rcases choose_reference_fst_cases skels_it reference x with e | e
      · rw [e]
      · rw [e, choose_reference_absorb skels_it x y hxy hy]

theorem expand_calls_after_choice (expand : Delta → Skeleton → Except String Skeleton)
    (l2 : List (Attic Delta)) (skels_it : List Skeleton) (reference : Skeleton) (x : Nat)
    (hge : ∀ e ∈ l2, x ≤ e.obj.id) (hq : reference.id = 0 ∨ reference.id ≤ x) :
    expand_calls expand l2 (choose_reference skels_it reference x).1
        (choose_reference skels_it reference x).2 =
      expand_calls expand l2 skels_it reference := by
  cases l2 with
  | nil => rfl
  | cons e l2 =>
    simp only [expand_calls]
    rw [choose_reference_twice skels_it reference x e.obj.id
      (hge e (List.mem_cons_self _ _)) hq]

/-- The calls of the expansion loop with and without one delta whose expansion fails: the
other deltas are applied to the same references. -/
theorem expand_calls_insert (expand : Delta → Skeleton → Except String Skeleton)
    (hk : Keeps_Id expand) (d : Attic Delta) (l2 : List (Attic Delta)) :
    ∀ (l1 : List (Attic Delta)) (skels_it : List Skeleton) (reference : Skeleton),
      (l1 ++ d :: l2).Pairwise (fun a b => a.obj.id ≤ b.obj.id) →
      (∀ e ∈ l1 ++ d :: l2, reference.id = 0 ∨ reference.id ≤ e.obj.id) →
      ∃ pre r tail,
        expand_calls expand (l1 ++ d :: l2) skels_it reference = pre ++ (d, r) :: tail ∧
        (Failed expand (d, r) →
          expand_calls expand (l1 ++ l2) skels_it reference = pre ++ tail) := by
  intro l1
  induction l1 with
  | nil =>
    intro skels_it reference hs hq
    simp only [List.nil_append] at hs hq ⊢
    refine ⟨[], (choose_reference skels_it reference d.obj.id).2,
      expand_calls expand l2 (choose_reference skels_it reference d.obj.id).1
        (next_reference expand d (choose_reference skels_it reference d.obj.id).2), ?_, ?_⟩
    · simp only [expand_calls, List.nil_append]
    · intro hf
      rw [next_reference_failed expand d _ hf, List.nil_append]
      exact (expand_calls_after_choice expand l2 skels_it reference d.obj.id
        (fun e he => List.rel_of_pairwise_cons hs he) (hq d (List.mem_cons_self _ _))).symm
  | cons e l1 ih =>
    intro skels_it reference hs hq
    simp only [List.cons_append] at hs hq ⊢
    have hle : ∀ f ∈ l1 ++ d :: l2, e.obj.id ≤ f.obj.id :=
      fun f hf => List.rel_of_pairwise_cons hs hf
    have hq2 : ∀ f ∈ l1 ++ d :: l2,
        (next_reference expand e (choose_reference skels_it reference e.obj.id).2).id = 0 ∨
        (next_reference expand e (choose_reference skels_it reference e.obj.id).2).id
          ≤ f.obj.id := by
      intro f hf
      rcases step_reference_cases expand hk e skels_it reference with h | h
      · right; rw [h]; exact hle f hf
      · left; rw [h]; rfl
    obtain ⟨pre, r, tail, e1, e2⟩ := ih (choose_reference skels_it reference e.obj.id).1
      (next_reference expand e (choose_reference skels_it reference e.obj.id).2)
      hs.of_cons hq2
    refine ⟨(e, (choose_reference skels_it reference e.obj.id).2) :: pre, r, tail, ?_, ?_⟩
    · simp only [expand_calls, e1, List.cons_append]
    · intro hf
      simp only [expand_calls, e2 hf, List.cons_append]

theorem is_first_of_id_congr (l1 l2 : List (Nat × Nat)) (d : Attic Delta)
    (h : ∀ t, (d.obj.id, t) ∈ l1 ↔ (d.obj.id, t) ∈ l2) :
    is_first_of_id (sort_pairs l1) d = is_first_of_id (sort_pairs l2) d := by
  rw [Bool.eq_iff_iff, is_first_of_id_sort_pairs, is_first_of_id_sort_pairs, h]
  constructor
  · rintro ⟨a, b⟩
    exact ⟨a, fun t ht => b t ((h t).2 ht)⟩
  · rintro ⟨a, b⟩
    exact ⟨a, fun t ht => b t ((h t).1 ht)⟩

theorem emitted_by_congr (expand : Delta → Skeleton → Except String Skeleton)
    (loc1 loc2 : List (Nat × Nat)) (c : Attic Delta × Skeleton)
    (h : is_first_of_id loc1 c.1 = is_first_of_id loc2 c.1) :
    emitted_by expand loc1 c = emitted_by expand loc2 c := by
  unfold emitted_by
  rw [h]

theorem filter_filter_comm {α : Type} (p q : α → Bool) (l : List α) :
    (l.filter p).filter q = (l.filter q).filter p := by
  rw [List.filter_filter, List.filter_filter]
  congr 1
  funext a
  exact Bool.and_comm _ _

/-- C21: in the delta overload of `reconstruct_items`, which returns for every input, a
delta later than the query timestamp whose expansions fail (an object with id 0 or an
exception) is called once, adds no attic object and adds exactly one entry to the log. Next to
a bucket without that delta, the other deltas are applied to the same references in the
same order, the log is the same but for that entry, the live result is the same and so is
the attic result for every other id. The expansion is assumed to keep ids. -/
theorem C21_failed_expansion_is_recoverable
    (expand : Delta → Skeleton → Except String Skeleton) (pred : Predicate)
    (index q : Nat) (b b2 : Bucket (Attic Delta)) (att1 att2 : List (Attic Delta))
    (d : Attic Delta)
    (hb : bucket_of index b.attic = att1 ++ d :: att2)
    (hb2 : bucket_of index b2.attic = att1 ++ att2)
    (hcur : b2.current = b.current) (hres : b2.result = b.result)
    (hatt : b2.attic_result = b.attic_result) (hrman : b2.rman = b.rman)
    (hk : Keeps_Id expand) (hq : q < d.timestamp)
    (hfail : ∀ c ∈ bucket_calls expand q (bucket_of index b.current) (att1 ++ d :: att2),
      c.1 = d → Failed expand c) :
    ∃ pre r tail,
      bucket_calls expand q (bucket_of index b.current) (att1 ++ d :: att2)
        = pre ++ (d, r) :: tail ∧
      bucket_calls expand q (bucket_of index b.current) (att1 ++ att2) = pre ++ tail ∧
      Failed expand (d, r) ∧
      (∀ loc, emitted_by expand loc (d, r) = []) ∧
      (logged_by expand (d, r) = [Log_Entry.cannot_be_expanded d.obj.id d.timestamp] ∨
        ∃ what, logged_by expand (d, r)
          = [Log_Entry.expansion_failed d.obj.id d.timestamp what]) ∧
      (reconstruct_delta expand pred index q b).rman.errors =
        b.rman.errors ++ (pre.map (logged_by expand)).flatten ++ logged_by expand (d, r)
          ++ (tail.map (logged_by expand)).flatten ∧
      (reconstruct_delta expand pred index q b2).rman.errors =
        b.rman.errors ++ (pre.map (logged_by expand)).flatten
          ++ (tail.map (logged_by expand)).flatten ∧
      (reconstruct_delta expand pred index q b).result =
        (reconstruct_delta expand pred index q b2).result ∧
      (reconstruct_delta expand pred index q b).attic_result.filter
          (fun a => decide (a.obj.id ≠ d.obj.id)) =
        (reconstruct_delta expand pred index q b2).attic_result.filter
          (fun a => decide (a.obj.id ≠ d.obj.id)) := by
  obtain ⟨l1, l2, s1, s2⟩ := sort_deltas_insert q att1 att2 d hq
  have hsorted : (l1 ++ d :: l2).Pairwise (fun a b => a.obj.id ≤ b.obj.id) := by
    rw [← s1]
    exact sort_deltas_by_id _
  obtain ⟨pre, r, tail, c1, c2⟩ := expand_calls_insert expand hk d l2 l1
    (sort_skels (bucket_of index b.current)) default_skeleton hsorted
    (fun _ _ => Or.inl rfl)
  have hwith : bucket_calls expand q (bucket_of index b.current) (att1 ++ d :: att2)
      = pre ++ (d, r) :: tail := by
    unfold bucket_calls
    rw [s1, c1]
  have hf : Failed expand (d, r) :=
    hfail (d, r) (by rw [hwith]; simp) rfl
  have hwithout : bucket_calls expand q (bucket_of index b.current) (att1 ++ att2)
      = pre ++ tail := by
    unfold bucket_calls
    rw [s2, c2 hf]
  refine ⟨pre, r, tail, hwith, hwithout, hf, fun loc => emitted_by_failed expand loc _ hf,
    logged_by_failed expand (d, r) hf, ?_, ?_, ?_, ?_⟩
  · rw [reconstruct_delta_rman, hb, hwith]
    simp [List.append_assoc]
  · rw [reconstruct_delta_rman, hb2, hcur, hrman, hwithout]
    simp [List.append_assoc]
  · rw [(reconstructs_delta expand pred q index b).2.2.1,
      (reconstructs_delta expand pred q index b2).2.2.1, hcur, hres]
    rfl
  · rw [(reconstructs_delta expand pred q index b).2.2.2.1,
      (reconstructs_delta expand pred q index b2).2.2.2.1, hcur, hatt, hb, hb2]
    simp only [delta_contribution, List.filter_append]
    congr 1
    rw [filter_filter_comm _ _
        (expanded_attics expand q (bucket_of index b.current) (att1 ++ d :: att2)),
      filter_filter_comm _ _
        (expanded_attics expand q (bucket_of index b.current) (att1 ++ att2))]
    congr 1
    have hid : ∀ (loc : List (Nat × Nat)) (c : Attic Delta × Skeleton),
        ∀ a ∈ emitted_by expand loc c, a.obj.id = c.1.obj.id := by
      intro loc c a ha
      obtain ⟨hx, h0, _, _⟩ := (mem_emitted_by expand _ c a).1 ha
      rcases hk _ _ _ hx with e | e
      · exact e
      · exact absurd e h0
    have hflat : ∀ (loc : List (Nat × Nat)) (calls : List (Attic Delta × Skeleton)),
        ((calls.map (emitted_by expand loc)).flatten).filter
            (fun a => decide (a.obj.id ≠ d.obj.id)) =
          ((calls.filter (fun c => decide (c.1.obj.id ≠ d.obj.id))).map
            (emitted_by expand loc)).flatten := by
      intro loc calls
      apply flatten_map_filter
      · intro c _ hq
        rw [List.filter_eq_self]
        intro a ha
        rw [decide_eq_true_eq] at hq ⊢
        rw [hid loc c a ha]
        exact hq
      · intro c _ hq
        rw [List.filter_eq_nil_iff]
        intro a ha
        rw [decide_eq_false_iff_not] at hq
        rw [decide_eq_true_eq, hid loc c a ha]
        exact hq
    rw [expanded_attics_eq_calls, expanded_attics_eq_calls, hflat, hflat, hwith, hwithout]
    have hfilter : (pre ++ (d, r) :: tail).filter (fun c => decide (c.1.obj.id ≠ d.obj.id))
        = (pre ++ tail).filter (fun c => decide (c.1.obj.id ≠ d.obj.id)) := by
      simp [List.filter_append, List.filter_cons]
    rw [hfilter]
    congr 1
    apply List.map_congr_left
    intro c hc
    have hne : c.1.obj.id ≠ d.obj.id := by simpa using (List.mem_filter.1 hc).2
    apply emitted_by_congr
    unfold bucket_local_pairs
    apply is_first_of_id_congr
    intro t
    simp only [List.mem_append, List.mem_map, mem_fresh_deltas, List.mem_cons, delta_pair,
      Prod.mk.injEq]
    constructor
    · rintro (h | ⟨e, ⟨he, heq⟩, h1, h2⟩)
      · exact Or.inl h
      · right
        refine ⟨e, ⟨?_, heq⟩, h1, h2⟩
        rcases he with m | m | m
        · exact Or.inl m
        · rw [m] at h1
          exact absurd h1.symm hne
        · exact Or.inr m
    · rintro (h | ⟨e, ⟨he, heq⟩, h1, h2⟩)
      · exact Or.inl h
      · right
        refine ⟨e, ⟨?_, heq⟩, h1, h2⟩
        rcases he with m | m
        · exact Or.inl m
        · exact Or.inr (Or.inr m)

/-- C21 at the bucket of the index 100 that holds no current object and one delta for the
id 7 at the timestamp 200, whose expansion yields the id 0; the query timestamp is 50. The
way driver leaves neither a live nor an attic object for the id 7 and one entry in the
log. -/
theorem C21_failed_expansion_is_recoverable_witness :
    collect_items_by_timestamp_way (fun _ _ => Except.ok default_skeleton) false quiet
        [] [(100, ⟨⟨7, 0⟩, 200⟩)] always_true none 50 [] []
      = some (false,
          { current := [], attic := [], result := [(100, [])], attic_result := [(100, [])],
            count := 1,
            rman := { pending := [], health_checks := 0,
                      errors := [Log_Entry.cannot_be_expanded 7 200] },
            cur_idx := none }) ∧
    ∃ pre r tail,
      bucket_calls (fun _ _ => Except.ok default_skeleton) 50 [] [⟨⟨7, 0⟩, 200⟩]
        = pre ++ (⟨⟨7, 0⟩, 200⟩, r) :: tail ∧
      bucket_calls (fun _ _ => Except.ok default_skeleton) 50 [] [] = pre ++ tail ∧
      (reconstruct_delta (fun _ _ => Except.ok default_skeleton) always_true 100 50
        { current := [], attic := [(100, ⟨⟨7, 0⟩, 200⟩)], result := [], attic_result := [],
          timestamp_by_id := [], count := 0, rman := quiet }).rman.errors =
        quiet.errors ++ (pre.map (logged_by (fun _ _ => Except.ok default_skeleton))).flatten
          ++ logged_by (fun _ _ => Except.ok default_skeleton) (⟨⟨7, 0⟩, 200⟩, r)
          ++ (tail.map (logged_by (fun _ _ => Except.ok default_skeleton))).flatten := by
  obtain ⟨pre, r, tail, h1, h2, _, _, _, h6, _⟩ :=
    C21_failed_expansion_is_recoverable (fun _ _ => Except.ok default_skeleton) always_true
      100 50
      { current := [], attic := [(100, ⟨⟨7, 0⟩, 200⟩)], result := [], attic_result := [],
        timestamp_by_id := [], count := 0, rman := quiet }
      { current := [], attic := [], result := [], attic_result := [],
        timestamp_by_id := [], count := 0, rman := quiet }
      [] [] ⟨⟨7, 0⟩, 200⟩ (by decide) (by decide) rfl rfl rfl rfl
      (fun _ _ obj h => Or.inr (by cases h; rfl)) (by decide) (by decide)
  exact ⟨by rfl, pre, r, tail, h1, h2, h6⟩

/-! ## Resuming `collect_items_range` -/

theorem append_matching_append (pred : Predicate) (l1 l2 : List (Nat × Skeleton)) :
    ∀ result : Result_Map Skeleton,
      append_matching pred (l1 ++ l2) result =
        append_matching pred l2 (append_matching pred l1 result) := by
  induction l1 with
  | nil => intro _; rfl
  | cons a l1 ih =>
    obtain ⟨i, o⟩ := a
    intro result
    show append_matching pred (l1 ++ l2) _ = append_matching pred l2 (append_matching pred l1 _)
    rw [ih]

/-- A call of the loop that runs to the end of the stream has appended the matching objects
of the whole stream. -/
theorem range_loop_returns_false (stmt : Bool) (pred : Predicate)
    (l : List (Nat × Skeleton)) :
    ∀ (s s2 : Range_State), collect_items_range_loop stmt pred l s = (false, s2) →
      s2.result = append_matching pred l s.result := by
  induction l with
  | nil =>
    intro s s2 h
    simp only [collect_items_range_loop, Prod.mk.injEq, true_and] at h
    rw [← h]
    rfl
  | cons a l ih =>
    obtain ⟨j, x⟩ := a
    intro s s2 h
    simp only [collect_items_range_loop] at h
    by_cases h1 : (s.too_much_data && !decide (s.cur_idx = j)) = true
    · simp [h1] at h
    · simp only [h1, if_false] at h
      rw [ih _ s2 h]
      simp only [range_checkpoint_result, append_matching]

/-- A call of the loop that returns early has appended the matching objects of the items
before the one it stopped at, and these are the items of a smaller index. -/
theorem range_loop_early (stmt : Bool) (pred : Predicate) (l : List (Nat × Skeleton)) :
    ∀ (pre : List (Nat × Skeleton)) (s s2 : Range_State), Ascending (pre ++ l) →
      (s.too_much_data = true → (∃ p ∈ pre, p.1 = s.cur_idx) ∧ ∀ p ∈ pre, p.1 ≤ s.cur_idx) →
      collect_items_range_loop stmt pred l s = (true, s2) →
      ∃ mid i o rest, l = mid ++ (i, o) :: rest ∧ s2.cur_idx = i ∧
        (mid = [] → s.too_much_data = true) ∧
        (∀ p ∈ pre ++ mid, p.1 < i) ∧ (∀ p ∈ rest, i ≤ p.1) ∧
        s2.result = append_matching pred mid s.result := by
  induction l with
  | nil =>
    intro pre s s2 _ _ h
    simp [collect_items_range_loop] at h
  | cons a l ih =>
    obtain ⟨j, x⟩ := a
    intro pre s s2 hasc hinv h
    obtain ⟨a1, a2⟩ := ascending_split pre l j x hasc
    simp only [collect_items_range_loop] at h
    by_cases h1 : (s.too_much_data && !decide (s.cur_idx = j)) = true
    · simp only [h1, if_true, Prod.mk.injEq, true_and] at h
      subst h
      simp only [Bool.and_eq_true, Bool.not_eq_true', decide_eq_false_iff_not] at h1
      obtain ⟨⟨q, hq, e⟩, hmax⟩ := hinv h1.1
      have : s.cur_idx ≤ j := e ▸ a1 q hq
      have hlt : s.cur_idx < j := by have := h1.2; omega
      refine ⟨[], j, x, l, rfl, rfl, fun _ => h1.1, ?_, a2, rfl⟩
      intro p hp
      rw [List.append_nil] at hp
      have := hmax p hp
      omega
    · simp only [h1, if_false] at h
      have hcur : (range_checkpoint stmt j s).too_much_data = true →
          (range_checkpoint stmt j s).cur_idx = j := by
        unfold range_checkpoint
        split
        · intro _; rfl
        · intro ht
          simp only at ht
          simp only [ht, Bool.true_and, Bool.not_eq_true', decide_eq_false_iff_not,
            not_not] at h1
          exact h1
      obtain ⟨mid, i, o, rest, e1, e2, _, e3, e4, e5⟩ := ih (pre ++ [(j, x)]) _ s2
        (by rw [List.append_assoc]; exact hasc)
        (fun ht => by
          have hc := hcur ht
          simp only at hc ⊢
          rw [hc]
          refine ⟨⟨(j, x), by simp, rfl⟩, ?_⟩
          intro p hp
          rcases List.mem_append.1 hp with m | m
          · exact a1 p m
          · rw [List.mem_singleton] at m
            rw [m])
        h
      refine ⟨(j, x) :: mid, i, o, rest, by rw [e1]; rfl, e2, fun e => by simp at e, ?_, e4,
        ?_⟩
      · intro p hp
        apply e3 p
        simp only [List.mem_append, List.mem_cons, List.mem_singleton, List.not_mem_nil,
          or_false] at hp ⊢
        tauto
      · rw [e5]
        simp only [range_checkpoint_result, append_matching]

/-- A resource manager whose pending answers are all "go on" never makes the loop return
early. -/
theorem range_loop_never_stops (stmt : Bool) (pred : Predicate) (l : List (Nat × Skeleton)) :
    ∀ (s : Range_State), s.too_much_data = false → (∀ b ∈ s.rman.pending, b = false) →
      (collect_items_range_loop stmt pred l s).1 = false := by
  induction l with
  | nil => intro s _ _; rfl
  | cons a l ih =>
    obtain ⟨j, x⟩ := a
    intro s h1 h2
    simp only [collect_items_range_loop, h1, Bool.false_and, Bool.false_eq_true, if_false]
    have hc : (range_checkpoint stmt j s).too_much_data = false ∧
        ∀ b ∈ (range_checkpoint stmt j s).rman.pending, b = false := by
      unfold range_checkpoint Resource_Manager.health_check
      cases hp : s.rman.pending with
      | nil =>
        split
        · exact ⟨rfl, by simp [hp]⟩
        · exact ⟨h1, by simp [hp]⟩
      | cons b rest =>
        rw [hp] at h2
        split
        · refine ⟨h2 b (List.mem_cons_self _ _), ?_⟩
          intro c hc
          exact h2 c (List.mem_cons_of_mem _ hc)
        · refine ⟨h1, ?_⟩
          intro c hc
          simp only [hp] at hc
          exact h2 c hc
    exact ih _ hc.1 hc.2

theorem mem_range_range {α : Type} (db : List (Nat × α)) (req : List (Nat × Nat))
    (p : Nat × α) :
    p ∈ range_range db req ↔ p ∈ db ∧ ∃ r ∈ req, In_Range r p.1 := by
  unfold range_range
  rw [List.mem_filter]
  simp only [List.any_eq_true, Bool.and_eq_true, decide_eq_true_eq, In_Range]

theorem range_range_eq_filter {α : Type} (db : List (Nat × α)) (req1 req2 : List (Nat × Nat))
    (f : Nat → Bool)
    (h : ∀ i, (∃ r ∈ req2, In_Range r i) ↔ (f i = true ∧ ∃ r ∈ req1, In_Range r i)) :
    range_range db req2 = (range_range db req1).filter (fun p => f p.1) := by
  unfold range_range
  rw [List.filter_filter]
  apply List.filter_congr
  intro p _
  rw [Bool.eq_iff_iff]
  have := h p.1
  simp only [In_Range] at this
  simp only [List.any_eq_true, Bool.and_eq_true, decide_eq_true_eq]
  exact this

/-- The stream that a call of `collect_items_range` runs over when its cursor is the lower
bound of the first range or lies in a range of the request: the items of the request from
the cursor on. -/
theorem range_stream_eq (db : List (Nat × Skeleton)) (req : List (Nat × Nat)) (cur_idx : Nat)
    (hsorted : req.Pairwise (fun r t => r.2 ≤ t.1)) (hwf : ∀ r ∈ req, r.1 ≤ r.2)
    (hcur : (∃ r ∈ req, In_Range r cur_idx) ∨ ∀ first ∈ req.head?, first.1 = cur_idx) :
    range_range db (Shortened_Idx req cur_idx) =
      (range_range db req).filter (fun p => decide (cur_idx ≤ p.1)) := by
  rcases hcur with h | h
  · apply range_range_eq_filter db req (Shortened_Idx req cur_idx)
      (fun i => decide (cur_idx ≤ i))
    intro i
    rw [shortened_idx_tail req cur_idx hsorted hwf (Or.inl h) i, decide_eq_true_eq]
  · cases req with
    | nil =>
      simp [Shortened_Idx, range_range]
    | cons first tl =>
      have hf : first.1 = cur_idx := h first (by simp)
      have e : Shortened_Idx (first :: tl) cur_idx = first :: tl := by
        simp [Shortened_Idx, hf]
      rw [e]
      symm
      rw [List.filter_eq_self]
      intro p hp
      obtain ⟨_, r, hr, hin⟩ := (mem_range_range db _ p).1 hp
      rw [decide_eq_true_eq]
      rcases List.mem_cons.1 hr with m | m
      · rw [m] at hin
        have := hin.1
        omega
      · have h1 := List.rel_of_pairwise_cons hsorted m
        have h2 := hwf first (List.mem_cons_self _ _)
        have := hin.1
        omega

theorem filter_split_at {α : Type} (mid rest : List (Nat × α)) (i : Nat) (o : α)
    (h1 : ∀ p ∈ mid, p.1 < i) (h2 : ∀ p ∈ rest, i ≤ p.1) :
    (mid ++ (i, o) :: rest).filter (fun p => decide (i ≤ p.1)) = (i, o) :: rest := by
  rw [List.filter_append]
  have e1 : mid.filter (fun p => decide (i ≤ p.1)) = [] := by
    rw [List.filter_eq_nil_iff]
    intro p hp
    have := h1 p hp
    simp only [decide_eq_true_eq]
    omega
  have e2 : ((i, o) :: rest).filter (fun p => decide (i ≤ p.1)) = (i, o) :: rest := by
    rw [List.filter_eq_self]
    intro p hp
    rcases List.mem_cons.1 hp with m | m
    · rw [m]; simp
    · simpa using h2 p m
  rw [e1, e2, List.nil_append]

/-- The outcome of the resumption: the matching objects of the items of the request from
the cursor on, appended to the result container in stream order. -/
theorem resume_range_spec (stmt : Bool) (db : List (Nat × Skeleton))
    (req : List (Nat × Nat)) (pred : Predicate) (hasc : Ascending db)
    (hsorted : req.Pairwise (fun r t => r.2 ≤ t.1)) (hwf : ∀ r ∈ req, r.1 ≤ r.2) :
    ∀ (n : Nat) (rman : Resource_Manager) (cur_idx : Nat) (result : Result_Map Skeleton),
      ((∃ r ∈ req, In_Range r cur_idx) ∨ ∀ first ∈ req.head?, first.1 = cur_idx) →
      ((range_range db req).filter (fun p => decide (cur_idx ≤ p.1))).length < n →
      resume_range stmt db req pred n rman cur_idx result =
        some (append_matching pred
          ((range_range db req).filter (fun p => decide (cur_idx ≤ p.1))) result) := by
  intro n
  induction n with
  | zero => intro _ _ _ _ h; omega
  | succ n ih =>
    intro rman cur_idx result hcur hlen
    have hstream := range_stream_eq db req cur_idx hsorted hwf hcur
    have hascS : Ascending ((range_range db req).filter (fun p => decide (cur_idx ≤ p.1))) :=
      List.Pairwise.sublist (List.filter_sublist _) (range_range_ascending db req hasc)
    have hcall : collect_items_range stmt rman db req pred cur_idx result =
        collect_items_range_loop stmt pred
          ((range_range db req).filter (fun p => decide (cur_idx ≤ p.1)))
          { count := 0, too_much_data := false, cur_idx := cur_idx, rman := rman,
            result := result } := by
      unfold collect_items_range
      rw [hstream]
    unfold resume_range
    cases hr : (collect_items_range stmt rman db req pred cur_idx result).1 with
    | false =>
      simp only [Bool.false_eq_true, if_false]
      have hret := prod_eq_of_fst _ false hr
      rw [hcall] at hret
      have := range_loop_returns_false stmt pred _ _ _ hret
      rw [← hcall] at this
      rw [this]
    | true =>
      simp only [if_true]
      have hret := prod_eq_of_fst _ true hr
      rw [hcall] at hret
      obtain ⟨mid, i, o, rest, e1, e2, e3, e4, e5, e6⟩ := range_loop_early stmt pred _ []
        _ _ (by rw [List.nil_append]; exact hascS) (by intro h; simp at h) hret
      rw [← hcall] at e2 e6
      simp only at e6
      rw [List.nil_append] at e4
      have hmid : mid ≠ [] := fun e => by simpa using e3 e
      have hmem : (i, o) ∈ (range_range db req).filter (fun p => decide (cur_idx ≤ p.1)) := by
        rw [e1]; simp
      obtain ⟨hmemB, hci⟩ := List.mem_filter.1 hmem
      simp only [decide_eq_true_eq] at hci
      have hvalid : ∃ r ∈ req, In_Range r i := ((mem_range_range db req (i, o)).1 hmemB).2
      have hnext : (range_range db req).filter (fun p => decide (i ≤ p.1)) = (i, o) :: rest := by
        have : (range_range db req).filter (fun p => decide (i ≤ p.1)) =
            ((range_range db req).filter (fun p => decide (cur_idx ≤ p.1))).filter
              (fun p => decide (i ≤ p.1)) := by
          rw [List.filter_filter]
          apply List.filter_congr
          intro p _
          rw [Bool.eq_iff_iff]
          simp only [Bool.and_eq_true, decide_eq_true_eq]
          omega
        rw [this, e1]
        exact filter_split_at mid rest i o e4 e5
      have hlen2 : ((range_range db req).filter (fun p => decide (i ≤ p.1))).length < n := by
        rw [hnext]
        rw [e1] at hlen
        have : 0 < mid.length := List.length_pos.2 hmid
        simp only [List.length_append, List.length_cons] at hlen ⊢
        omega
      rw [e2, e6, ih _ i _ (Or.inl hvalid) hlen2, hnext]
      congr 1
      conv_rhs => rw [e1]
      rw [append_matching_append]

/-- C23: for an ascending stream, a request of ascending disjoint ranges and a cursor at the
lower bound of the first range, whatever the resource manager answers: a single call of
`collect_items_range` with a resource manager that never asks to stop returns `false`; the
calls repeated with the saved cursor and result container while they return `true` come to
an end and leave the result container of that single call, also when counted from the
state that a first call returning `true` leaves; and every single call that returns `false`
leaves that result container. -/
theorem C23_resumability (stmt : Bool) (rman never : Resource_Manager)
    (db : List (Nat × Skeleton)) (req : List (Nat × Nat)) (pred : Predicate)
    (cur_idx : Nat) (result : Result_Map Skeleton)
    (hasc : Ascending db) (hsorted : req.Pairwise (fun r t => r.2 ≤ t.1))
    (hwf : ∀ r ∈ req, r.1 ≤ r.2) (hstart : ∀ first ∈ req.head?, first.1 = cur_idx)
    (hnever : ∀ b ∈ never.pending, b = false) :
    (collect_items_range stmt never db req pred cur_idx result).1 = false ∧
    resume_range stmt db req pred (db.length + 1) rman cur_idx result =
      some (collect_items_range stmt never db req pred cur_idx result).2.result ∧
    (∀ s1, collect_items_range stmt rman db req pred cur_idx result = (true, s1) →
      resume_range stmt db req pred db.length s1.rman s1.cur_idx s1.result =
        some (collect_items_range stmt never db req pred cur_idx result).2.result) ∧
    (∀ rman2 s, collect_items_range stmt rman2 db req pred cur_idx result = (false, s) →
      s.result = (collect_items_range stmt never db req pred cur_idx result).2.result) := by
  have hstream := range_stream_eq db req cur_idx hsorted hwf (Or.inr hstart)
  have hfalse : ∀ rman2 s,
      collect_items_range stmt rman2 db req pred cur_idx result = (false, s) →
      s.result = append_matching pred
        ((range_range db req).filter (fun p => decide (cur_idx ≤ p.1))) result := by
    intro rman2 s h
    unfold collect_items_range at h
    rw [hstream] at h
    exact range_loop_returns_false stmt pred _ _ _ h
  have hn : (collect_items_range stmt never db req pred cur_idx result).1 = false := by
    unfold collect_items_range
    exact range_loop_never_stops stmt pred _ _ rfl hnever
  have hsingle := hfalse _ _ (prod_eq_of_fst _ false hn)
  have hlen : ((range_range db req).filter (fun p => decide (cur_idx ≤ p.1))).length
      < db.length + 1 := by
    have h1 := List.length_filter_le (fun p => decide (cur_idx ≤ p.1)) (range_range db req)
    have h2 : (range_range db req).length ≤ db.length := List.length_filter_le _ _
    omega
  have hres := resume_range_spec stmt db req pred hasc hsorted hwf (db.length + 1) rman
    cur_idx result (Or.inr hstart) hlen
  refine ⟨hn, ?_, ?_, ?_⟩
  · rw [hres, hsingle]
  · intro s1 h1
    have h2 := hres
    unfold resume_range at h2
    rw [h1] at h2
    simp only [if_true] at h2
    rw [h2, hsingle]
  · intro rman2 s h
    rw [hfalse rman2 s h, hsingle]

/-- C23 on a stream of 262144 skeletons under the index 1 and one under the index 2, with
a resource manager that answers the first health check with a request to stop: the first
call returns `true`, and the resumption leaves what a single call without a stop leaves. -/
theorem C23_resumability_witness :
    (collect_items_range true { pending := [true], health_checks := 0, errors := [] }
      (List.replicate 262144 (1, (⟨1, 0⟩ : Skeleton)) ++ [(2, ⟨2, 0⟩)]) [(0, 10)]
      always_true 0 []).1 = true ∧
    resume_range true (List.replicate 262144 (1, (⟨1, 0⟩ : Skeleton)) ++ [(2, ⟨2, 0⟩)])
        [(0, 10)] always_true
        ((List.replicate 262144 (1, (⟨1, 0⟩ : Skeleton)) ++ [(2, (⟨2, 0⟩ : Skeleton))]).length
          + 1)
        { pending := [true], health_checks := 0, errors := [] } 0 [] =
      some (collect_items_range true quiet
        (List.replicate 262144 (1, (⟨1, 0⟩ : Skeleton)) ++ [(2, ⟨2, 0⟩)]) [(0, 10)]
        always_true 0 []).2.result := by
  have hasc := example_stream_ascending
  have hsorted : List.Pairwise (fun (r t : Nat × Nat) => r.2 ≤ t.1) [(0, 10)] :=
    List.pairwise_singleton _ _
  have hwf : ∀ r ∈ [((0 : Nat), (10 : Nat))], r.1 ≤ r.2 := by decide
  have hstart : ∀ first ∈ [((0 : Nat), (10 : Nat))].head?, first.1 = 0 := by decide
  have hnever : ∀ b ∈ quiet.pending, b = false := by decide
  have h := C23_resumability true { pending := [true], health_checks := 0, errors := [] }
    quiet (List.replicate 262144 (1, (⟨1, 0⟩ : Skeleton)) ++ [(2, ⟨2, 0⟩)])
    [(0, 10)] always_true 0 [] hasc hsorted hwf hstart hnever
  exact ⟨example_stream_returns_true, h.2.1⟩

end Overpass
